import Mathlib

/-!
# Travel agency graph engine: a shallow embedding

The C++ sources embedded here are `codigo/include/max_heap.h`,
`codigo/include/entities/graph.h` and `codigo/src/entities/graph.cpp`.

Conventions of the embedding.

* A `std::vector<T>` is a total function `Nat → T` (the arena) together with
  the stored size where the code reads it (`Graph.n`, `Graph.m`).  Indexing
  outside the vector (`at` throwing, `operator[]` undefined) is excluded by
  the well-formedness hypotheses of the theorems: node arguments lie in
  `[1, n]` and adjacency entries are edge indices below `m`.
* `edges.push_back` either has spare capacity (`add_edge`) or reallocates
  (`add_edge_realloc`); a reallocation copy-constructs the stored edges with
  `Edge(const Edge&)`, which sets their flow to 0.  The two agree on a graph
  without flow, as during construction.
* `unsigned long` is `Nat` with explicit `% 2^64` where the code adds or
  subtracts; `long` is `Int`, reached through `toLong`.
* Node ids and edge indices are assumed below `2^31`, so the conversions
  through `int` (heap keys) and `unsigned int` (`Node::parent`) are the
  identity and are not written.
* `while` loops whose trip count is not bounded by a loop variable take a
  `fuel` argument and return `none` when it runs out.
* The searches build their heap with `not_found = -1`; the loop reads the keys
  into an `unsigned int`, so the model gives the heap the key `2^32 - 1`.
-/

namespace TravelAgency

/-! ## Machine arithmetic -/

/-- Number of values of an `unsigned long`. -/
def U64 : Nat := 2 ^ 64

/-- The literal `999999` used as the "infinite" sentinel. -/
def INF : Nat := 999999

/-- Unsigned 64-bit addition `a + b`. -/
def uadd (a b : Nat) : Nat := (a + b) % U64

/-- Unsigned 64-bit subtraction `a - b`. -/
def usub (a b : Nat) : Nat := (a + U64 - b % U64) % U64

/-- Unsigned 64-bit negation `-a`. -/
def uneg (a : Nat) : Nat := (U64 - a % U64) % U64

/-- Conversion `unsigned long → long` (two's complement). -/
def toLong (a : Nat) : Int :=
  if a % U64 < 2 ^ 63 then ((a % U64 : Nat) : Int) else ((a % U64 : Nat) : Int) - (U64 : Int)

/-- Lexicographic `operator<` of `std::pair<long, long>`. -/
def pairLt (x y : Int × Int) : Bool :=
  decide (x.1 < y.1) || (!decide (y.1 < x.1) && decide (x.2 < y.2))

/-- `operator<` of `unsigned long`. -/
def natLt (x y : Nat) : Bool := decide (x < y)

/-! ## `max_heap.h` -/

/-- `MaxHeap::Node`: an element of the heap, a pair (key, value). -/
structure HNode (K V : Type) where
  key : K
  value : V

/-- `MaxHeap<K,V>`: `a` is the heap array (1-indexed, `n+1` value-initialised
slots), `pos` the `unordered_map` from a key to its position in `a`. -/
structure MaxHeap (K V : Type) where
  size : Nat
  max_size : Nat
  a : Nat → HNode K V
  pos : K → Option Nat
  KEY_NOT_FOUND : K

namespace MaxHeap

variable {K V : Type} [DecidableEq K]

/-- `MaxHeap(n, notFound)`: empty heap whose slots hold the value-initialised
element `(k0, v0)`. -/
def create (n : Nat) (notFound : K) (k0 : K) (v0 : V) : MaxHeap K V :=
  { size := 0, max_size := n, a := fun _ => ⟨k0, v0⟩, pos := fun _ => none,
    KEY_NOT_FOUND := notFound }

/-- `pos[k] = i`. -/
def setPos (pos : K → Option Nat) (k : K) (i : Nat) : K → Option Nat :=
  fun k' => if k' = k then some i else pos k'

/-- `a[i] = x`. -/
def setA (a : Nat → HNode K V) (i : Nat) (x : HNode K V) : Nat → HNode K V :=
  fun j => if j = i then x else a j

/-- `MaxHeap::swap(i1, i2)`: exchange two slots, then record both positions,
`pos[a[i1].key] = i1` first and `pos[a[i2].key] = i2` second. -/
def swap (h : MaxHeap K V) (i1 i2 : Nat) : MaxHeap K V :=
  let a1 := setA (setA h.a i1 (h.a i2)) i2 (h.a i1)
  let p1 := setPos h.pos (a1 i1).key i1
  let p2 := setPos p1 (a1 i2).key i2
  { h with a := a1, pos := p2 }

/-- Loop of `MaxHeap::up_heap`; `i` at least halves on every iteration, so
`fuel = i` iterations are never exceeded. -/
def up_heap_loop (lt : V → V → Bool) : Nat → MaxHeap K V → Nat → MaxHeap K V
  | 0, h, _ => h
  | fuel + 1, h, i =>
    if 1 < i ∧ lt (h.a (i / 2)).value (h.a i).value = true then
      up_heap_loop lt fuel (h.swap i (i / 2)) (i / 2)
    else h

/-- `MaxHeap::up_heap(i)`. -/
def up_heap (lt : V → V → Bool) (h : MaxHeap K V) (i : Nat) : MaxHeap K V :=
  up_heap_loop lt i h i

/-- The child `j` chosen by an iteration of `MaxHeap::down_heap`: `LEFT(i)`,
or `RIGHT(i)` when it lies in the heap and holds the greater value. -/
def down_heap_child (lt : V → V → Bool) (h : MaxHeap K V) (i : Nat) : Nat :=
  if 2 * i + 1 ≤ h.size ∧ lt (h.a (2 * i)).value (h.a (2 * i + 1)).value = true
  then 2 * i + 1 else 2 * i

/-- Loop of `MaxHeap::down_heap`; `i` at least doubles on every iteration and
stays at most `size`, so `fuel = size` iterations are never exceeded. -/
def down_heap_loop (lt : V → V → Bool) : Nat → MaxHeap K V → Nat → MaxHeap K V
  | 0, h, _ => h
  | fuel + 1, h, i =>
    if 2 * i ≤ h.size then
      if lt (h.a (down_heap_child lt h i)).value (h.a i).value = true then h
      else down_heap_loop lt fuel (h.swap i (down_heap_child lt h i)) (down_heap_child lt h i)
    else h

/-- `MaxHeap::down_heap(i)`. -/
def down_heap (lt : V → V → Bool) (h : MaxHeap K V) (i : Nat) : MaxHeap K V :=
  down_heap_loop lt h.size h i

/-- `MaxHeap::get_size()`. -/
def get_size (h : MaxHeap K V) : Nat := h.size

/-- `MaxHeap::has_key(key)`. -/
def has_key (h : MaxHeap K V) (key : K) : Bool := (h.pos key).isSome

/-- `MaxHeap::insert(key, value)`. -/
def insert (lt : V → V → Bool) (h : MaxHeap K V) (key : K) (value : V) : MaxHeap K V :=
  if h.size = h.max_size then h
  else if h.has_key key then h
  else
    let size1 := h.size + 1
    let h1 : MaxHeap K V :=
      { h with size := size1, a := setA h.a size1 ⟨key, value⟩, pos := setPos h.pos key size1 }
    up_heap lt h1 size1

/-- `MaxHeap::increase_key(key, value)`. -/
def increase_key (lt : V → V → Bool) (h : MaxHeap K V) (key : K) (value : V) : MaxHeap K V :=
  match h.pos key with
  | none => h
  | some i =>
    if lt value (h.a i).value = true then h
    else
      let h1 : MaxHeap K V := { h with a := setA h.a i ⟨(h.a i).key, value⟩ }
      up_heap lt h1 i

/-- `MaxHeap::remove_max()`: the returned key and the heap afterwards. -/
def remove_max (lt : V → V → Bool) (h : MaxHeap K V) : K × MaxHeap K V :=
  if h.size = 0 then (h.KEY_NOT_FOUND, h)
  else
    let max := (h.a 1).key
    let h1 : MaxHeap K V :=
      { h with pos := fun k => if k = max then none else h.pos k,
               a := setA h.a 1 (h.a h.size),
               size := h.size - 1 }
    (max, down_heap lt h1 1)

/-- Every slot of the heap array holds a key satisfying `P`. -/
def KeysP (P : K → Prop) (h : MaxHeap K V) : Prop := ∀ i, P (h.a i).key

/-- `h'` has the size and capacity of `h`, its slots hold keys of `h`, and
every key located by `pos` in `h` is still located in `h'`. -/
structure Shuffle (h h' : MaxHeap K V) : Prop where
  size_eq : h'.size = h.size
  max_eq : h'.max_size = h.max_size
  keys : ∀ i, ∃ j, (h'.a i).key = (h.a j).key
  pos_mono : ∀ k, (h.pos k).isSome = true → (h'.pos k).isSome = true

/-- The comparison `lt` is a strict order in which incomparability is
transitive (as `operator<` on numbers and on pairs of numbers). -/
structure StrictOrd (lt : V → V → Bool) : Prop where
  irrefl : ∀ x, lt x x = false
  trans : ∀ x y z, lt x y = true → lt y z = true → lt x z = true
  neg_trans : ∀ x y z, lt x y = false → lt y z = false → lt x z = false

/-- Heap order: no element of the heap is smaller than its child. -/
def HeapOrd (lt : V → V → Bool) (h : MaxHeap K V) : Prop :=
  ∀ j, 2 ≤ j → j ≤ h.size → lt (h.a (j / 2)).value (h.a j).value = false

/-- The keys of the heap and the map `pos`: the keys in the slots `1..size`
are distinct, `pos` is defined exactly on them, and it holds the slot of every
key except possibly that of the key in slot 1, whose entry may instead be an
index `i ≥ 2` that is either in the heap or is `size + 1` with slot `i`
holding a copy of that key. -/
structure KeyInv (h : MaxHeap K V) : Prop where
  nodup : ∀ j j', 1 ≤ j → j ≤ h.size → 1 ≤ j' → j' ≤ h.size →
    (h.a j).key = (h.a j').key → j = j'
  exact : ∀ j, 2 ≤ j → j ≤ h.size → h.pos (h.a j).key = some j
  root : 1 ≤ h.size → ∃ i, h.pos (h.a 1).key = some i ∧
    (i = 1 ∨ (2 ≤ i ∧ i ≤ h.size) ∨ (2 ≤ i ∧ i = h.size + 1 ∧ (h.a i).key = (h.a 1).key))
  absent : ∀ k, (∀ j, 1 ≤ j → j ≤ h.size → (h.a j).key ≠ k) → h.pos k = none

/-- The entry of `pos` for the key in slot 1 is an index of the heap or at
most 3. -/
def StaleNear (h : MaxHeap K V) : Prop :=
  1 ≤ h.size → ∀ i, h.pos (h.a 1).key = some i → i ≤ h.size ∨ i ≤ 3

/-- The entry of `pos` for the key in slot 1 is 1. -/
def RootExact (h : MaxHeap K V) : Prop := 1 ≤ h.size → h.pos (h.a 1).key = some 1

/-- `h'` holds in its slots `1..size` a rearrangement of those of `h`, and
the same elements as `h` in the slots beyond. -/
structure RegionPerm (h h' : MaxHeap K V) : Prop where
  size_eq : h'.size = h.size
  max_eq : h'.max_size = h.max_size
  fwd : ∀ j, 1 ≤ j → j ≤ h.size → ∃ j', 1 ≤ j' ∧ j' ≤ h.size ∧ h'.a j = h.a j'
  bwd : ∀ j, 1 ≤ j → j ≤ h.size → ∃ j', 1 ≤ j' ∧ j' ≤ h.size ∧ h'.a j' = h.a j
  outside : ∀ j, h.size < j → h'.a j = h.a j

/-- The state in which `up_heap(i)` is entered: heap order holds except
between slot `i` and its parent, and the children of `i` are not above the
parent of `i`. -/
def UpInv (lt : V → V → Bool) (h : MaxHeap K V) (i : Nat) : Prop :=
  (∀ j, 2 ≤ j → j ≤ h.size → j ≠ i → lt (h.a (j / 2)).value (h.a j).value = false) ∧
  (∀ c, 2 ≤ c → c ≤ h.size → c / 2 = i → 2 ≤ i → lt (h.a (i / 2)).value (h.a c).value = false)

/-- The state in which `down_heap(i)` is entered: heap order holds except
between slot `i` and its children, and the children of `i` are not above the
parent of `i`. -/
def DownInv (lt : V → V → Bool) (h : MaxHeap K V) (i : Nat) : Prop :=
  (∀ j, 2 ≤ j → j ≤ h.size → j / 2 ≠ i → lt (h.a (j / 2)).value (h.a j).value = false) ∧
  (∀ c, 2 ≤ c → c ≤ h.size → c / 2 = i → 2 ≤ i → lt (h.a (i / 2)).value (h.a c).value = false)

/-- The invariant of the heap as the searches use it. -/
structure HeapInv (lt : V → V → Bool) (h : MaxHeap K V) : Prop where
  keys : KeyInv h
  near : StaleNear h
  ord : HeapOrd lt h

/-- A call of the public interface of `MaxHeap`. -/
inductive Call (K V : Type) where
  | insert (key : K) (value : V)
  | increase_key (key : K) (value : V)
  | remove_max

/-- The priority structure in the words of the specification: a capacity, the
number of keys present, and the current value of every key present. -/
structure SpecQueue (K V : Type) where
  capacity : Nat
  count : Nat
  current : K → Option V

/-- The empty structure of capacity `n`. -/
def SpecQueue.empty (n : Nat) : SpecQueue K V :=
  { capacity := n, count := 0, current := fun _ => none }

/-- The specified `insert(key, value)`: nothing happens if the structure is at
capacity or the key is already present; otherwise the key becomes present with
that value. -/
def SpecQueue.insert (q : SpecQueue K V) (key : K) (value : V) : SpecQueue K V :=
  if q.count = q.capacity ∨ (q.current key).isSome = true then q
  else { q with count := q.count + 1,
                current := fun k => if k = key then some value else q.current k }

/-- The specified `increase(key, value)`: nothing happens if the key is absent
or `value` is not greater than its current value; otherwise `value` becomes
its current value. -/
def SpecQueue.increase (lt : V → V → Bool) (q : SpecQueue K V) (key : K) (value : V) :
    SpecQueue K V :=
  match q.current key with
  | none => q
  | some v =>
    if lt v value = true then
      { q with current := fun k => if k = key then some value else q.current k }
    else q

/-- Removal of the present key `key`, as `extract_max()` is specified to do
for the key it returns. -/
def SpecQueue.remove (q : SpecQueue K V) (key : K) : SpecQueue K V :=
  if (q.current key).isSome = true then
    { q with count := q.count - 1, current := fun k => if k = key then none else q.current k }
  else q

/-- The key `key` is present and no key present has a greater current value. -/
def SpecQueue.IsGreatest (lt : V → V → Bool) (q : SpecQueue K V) (key : K) : Prop :=
  ∃ v, q.current key = some v ∧ ∀ k v', q.current k = some v' → lt v v' = false

/-- The heap and the specified structure taken through the same calls;
`remove_max` removes from the specified structure the key the heap returns. -/
def run (lt : V → V → Bool) :
    MaxHeap K V × SpecQueue K V → List (Call K V) → MaxHeap K V × SpecQueue K V
  | st, [] => st
  | st, Call.insert key value :: cs =>
    run lt (st.1.insert lt key value, st.2.insert key value) cs
  | st, Call.increase_key key value :: cs =>
    run lt (st.1.increase_key lt key value, st.2.increase lt key value) cs
  | st, Call.remove_max :: cs =>
    run lt ((st.1.remove_max lt).2, st.2.remove (st.1.remove_max lt).1) cs

/-- The value the heap array associates with `key`: that of the first of the
slots `1..size` holding the key. -/
def value_of (h : MaxHeap K V) (key : K) : Option V :=
  (List.range h.size).findSome? fun i =>
    if (h.a (i + 1)).key = key then some (h.a (i + 1)).value else none

/-- The key `key` is present in the heap: one of the slots `1..size` holds
it. -/
def Present (h : MaxHeap K V) (key : K) : Prop :=
  ∃ j, 1 ≤ j ∧ j ≤ h.size ∧ (h.a j).key = key

/-- The heap reached from `MaxHeap(n, notFound)` by the calls `cs` of the
public interface. -/
def reached (lt : V → V → Bool) (n : Nat) (notFound k0 : K) (v0 : V) (cs : List (Call K V)) :
    MaxHeap K V :=
  (run lt (create n notFound k0 v0, SpecQueue.empty n) cs).1

end MaxHeap

/-! ## `graph.h`: the data model -/

/-- `struct Node`. -/
structure Node where
  outgoing : List Nat
  incoming : List Nat
  visited : Bool
  parent : Nat
  distance : Nat
  capacity : Nat
  flow_increase : Nat
  earliest_start : Nat
  in_degree : Nat
  deriving DecidableEq

/-- `class Edge` (the `active` member is never read and is left out). -/
structure Edge where
  origin : Nat
  destination : Nat
  capacity : Nat
  flow : Nat
  duration : Nat
  deriving DecidableEq

/-- `class Graph`: `nodes` has the `n + 1` slots `0..n`, `edges` the `m` slots
`0..m-1` (`m` is `edges.size()`). -/
structure Graph where
  n : Nat
  nodes : Nat → Node
  m : Nat
  edges : Nat → Edge

/-- A value-initialised `Node`. -/
def Node.zero : Node :=
  { outgoing := [], incoming := [], visited := false, parent := 0, distance := 0,
    capacity := 0, flow_increase := 0, earliest_start := 0, in_degree := 0 }

/-- A value-initialised slot of the edge arena (never read below `m`). -/
def Edge.zero : Edge :=
  { origin := 0, destination := 0, capacity := 0, flow := 0, duration := 0 }

namespace Graph

/-- `nodes[i] = x`. -/
def setNode (g : Graph) (i : Nat) (x : Node) : Graph :=
  { g with nodes := fun j => if j = i then x else g.nodes j }

/-- `edges[i].set_flow(f)`. -/
def setFlow (g : Graph) (i : Nat) (f : Nat) : Graph :=
  { g with edges := fun j => if j = i then { g.edges j with flow := f } else g.edges j }

/-- `Graph::Graph(int n)`. -/
def create (n : Nat) : Graph :=
  { n := n, nodes := fun _ => Node.zero, m := 0, edges := fun _ => Edge.zero }

/-- `Edge::Edge(origin, destination, capacity, duration)`: the flow starts at 0. -/
def mkEdge (origin destination capacity duration : Nat) : Edge :=
  { origin := origin, destination := destination, capacity := capacity, flow := 0,
    duration := duration }

/-- `Graph::add_edge(edge)`.  It throws when an endpoint is 0, before anything
is written.  `nodes.at` throws when an endpoint exceeds `n`; the edge has been
pushed by then (and `outgoing` extended when only the destination is out of
range), so the error carries the graph as the failed call leaves it.  The
stored edge is a copy made by `Edge(const Edge&)`, whose flow is 0. -/
def add_edge (g : Graph) (edge : Edge) : Except (String × Graph) Graph :=
  if edge.origin = 0 ∨ edge.destination = 0 then
    Except.error ("Edge has origin or destination at 0", g)
  else
    let index := g.m
    let stored := mkEdge edge.origin edge.destination edge.capacity edge.duration
    let g1 : Graph :=
      { g with m := g.m + 1, edges := fun j => if j = index then stored else g.edges j }
    if g.n < edge.origin then Except.error ("out_of_range", g1)
    else
      let o := g1.nodes edge.origin
      let g2 := g1.setNode edge.origin { o with outgoing := o.outgoing ++ [index] }
      if g.n < edge.destination then Except.error ("out_of_range", g2)
      else
        let d := g2.nodes edge.destination
        Except.ok (g2.setNode edge.destination { d with incoming := d.incoming ++ [index] })

/-- The graph built as `UI::UI` does: `Graph graph{n}` followed by `add_edge`
for every entry `(origin, destination, capacity, duration)`; an entry that
throws aborts the construction. -/
def build (n : Nat) (entries : List (Nat × Nat × Nat × Nat)) : Except (String × Graph) Graph :=
  entries.foldlM (fun g e => g.add_edge (mkEdge e.1 e.2.1 e.2.2.1 e.2.2.2)) (create n)

/-- `Graph::size()`. -/
def size (g : Graph) : Nat := g.n

/-! ## Path search -/

/-- Body of the `for` over `nodes[node].outgoing` in `max_capacity_dijkstra`. -/
def max_capacity_relax (node : Nat) (st : Graph × MaxHeap Nat Nat) (e : Nat) :
    Graph × MaxHeap Nat Nat :=
  let g := st.1
  let edge := g.edges e
  let dest := edge.destination
  if (g.nodes dest).visited then st
  else
    let minCap := min (g.nodes node).capacity edge.capacity
    if (g.nodes dest).capacity < minCap then
      let g1 := g.setNode dest { g.nodes dest with capacity := minCap, parent := node }
      let h1 := st.2.insert natLt dest (g1.nodes dest).capacity
      let h2 := h1.increase_key natLt dest (g1.nodes dest).capacity
      (g1, h2)
    else st

/-- The `while (maxh.get_size() > 0)` loop of `max_capacity_dijkstra`. -/
def max_capacity_loop : Nat → Graph → MaxHeap Nat Nat → Option Graph
  | 0, g, h => if h.get_size > 0 then none else some g
  | fuel + 1, g, h =>
    if h.get_size > 0 then
      let r := h.remove_max natLt
      let node := r.1
      let g1 := g.setNode node { g.nodes node with visited := true }
      let st := (g1.nodes node).outgoing.foldl (max_capacity_relax node) (g1, r.2)
      max_capacity_loop fuel st.1 st.2
    else some g

/-- The scratch reset at the head of `max_capacity_dijkstra`, followed by
`nodes.at(start).capacity = 999999`. -/
def max_capacity_init (g : Graph) (start : Nat) : Graph :=
  let g1 : Graph :=
    { g with nodes := fun i =>
        if 1 ≤ i ∧ i ≤ g.n then { g.nodes i with visited := false, parent := 0, capacity := 0 }
        else g.nodes i }
  g1.setNode start { g1.nodes start with capacity := INF }

/-- `Graph::max_capacity_dijkstra(start)`. -/
def max_capacity_dijkstra (fuel : Nat) (g : Graph) (start : Nat) : Option Graph :=
  let g2 := max_capacity_init g start
  let maxh : MaxHeap Nat Nat := MaxHeap.create g.n (2 ^ 32 - 1) 0 0
  let maxh1 := maxh.insert natLt start (g2.nodes start).capacity
  max_capacity_loop fuel g2 maxh1

/-- The `while (nodes[currNode].parent != 0)` loop of `get_path`. -/
def get_path_loop : Nat → Graph → Nat → List Nat → Option (List Nat)
  | 0, g, currNode, path => if (g.nodes currNode).parent ≠ 0 then none else some (currNode :: path)
  | fuel + 1, g, currNode, path =>
    if (g.nodes currNode).parent ≠ 0 then
      get_path_loop fuel g (g.nodes currNode).parent (currNode :: path)
    else some (currNode :: path)

/-- `Graph::get_path(start, end)`. -/
def get_path (fuel : Nat) (g : Graph) (_start end_ : Nat) : Option (List Nat × Nat × Nat) :=
  if !(g.nodes end_).visited then some ([], 0, 0)
  else
    match get_path_loop fuel g end_ [] with
    | none => none
    | some path => some (path, (g.nodes end_).capacity, (g.nodes end_).distance)

/-- `Graph::get_max_capacity_path(start, end)`: the graph afterwards and the
returned tuple. -/
def get_max_capacity_path (fuel : Nat) (g : Graph) (start end_ : Nat) :
    Option (Graph × (List Nat × Nat × Nat)) :=
  match max_capacity_dijkstra fuel g start with
  | none => none
  | some g1 =>
    match get_path fuel g1 start end_ with
    | none => none
    | some r => some (g1, r)

/-- The heap value of `pareto_optimal_dijkstra`: the `pair<unsigned long,
unsigned long>` chosen by `max_capacity`, converted to `pair<long, long>`;
`negDistance` is the already negated (unsigned) distance. -/
def pareto_weight (max_capacity : Bool) (capacity negDistance : Nat) : Int × Int :=
  if max_capacity then (toLong capacity, toLong negDistance)
  else (toLong negDistance, toLong capacity)

/-- Body of the `for` over `nodes[node].outgoing` in `pareto_optimal_dijkstra`. -/
def pareto_relax (max_capacity : Bool) (node : Nat) (st : Graph × MaxHeap Nat (Int × Int))
    (e : Nat) : Graph × MaxHeap Nat (Int × Int) :=
  let g := st.1
  let edge := g.edges e
  let dest := edge.destination
  if (g.nodes dest).visited then st
  else
    let minCap := min (g.nodes node).capacity edge.capacity
    let possibleWeight := pareto_weight max_capacity minCap (usub (uneg (g.nodes node).distance) 1)
    let currWeight := pareto_weight max_capacity (g.nodes dest).capacity (uneg (g.nodes dest).distance)
    if pairLt currWeight possibleWeight = true then
      let g1 := g.setNode dest
        { g.nodes dest with capacity := minCap, distance := uadd (g.nodes node).distance 1,
                            parent := node }
      let h1 := st.2.insert pairLt dest possibleWeight
      let h2 := h1.increase_key pairLt dest possibleWeight
      (g1, h2)
    else st

/-- The `while (maxh.get_size() > 0)` loop of `pareto_optimal_dijkstra`. -/
def pareto_loop (max_capacity : Bool) : Nat → Graph → MaxHeap Nat (Int × Int) → Option Graph
  | 0, g, h => if h.get_size > 0 then none else some g
  | fuel + 1, g, h =>
    if h.get_size > 0 then
      let r := h.remove_max pairLt
      let node := r.1
      let g1 := g.setNode node { g.nodes node with visited := true }
      let st := (g1.nodes node).outgoing.foldl (pareto_relax max_capacity node) (g1, r.2)
      pareto_loop max_capacity fuel st.1 st.2
    else some g

/-- The scratch reset at the head of `pareto_optimal_dijkstra`, followed by
`nodes.at(start).capacity = 999999` and `nodes.at(start).distance = 0`. -/
def pareto_init (g : Graph) (start : Nat) : Graph :=
  let g1 : Graph :=
    { g with nodes := fun i =>
        if 1 ≤ i ∧ i ≤ g.n then
          { g.nodes i with visited := false, parent := 0, capacity := 0, distance := INF }
        else g.nodes i }
  let g2 := g1.setNode start { g1.nodes start with capacity := INF }
  g2.setNode start { g2.nodes start with distance := 0 }

/-- `Graph::pareto_optimal_dijkstra(start, max_capacity)`. -/
def pareto_optimal_dijkstra (fuel : Nat) (g : Graph) (start : Nat) (max_capacity : Bool) :
    Option Graph :=
  let g3 := pareto_init g start
  let maxh : MaxHeap Nat (Int × Int) := MaxHeap.create g.n (2 ^ 32 - 1) 0 (0, 0)
  let maxh1 := maxh.insert pairLt start
    (pareto_weight max_capacity (g3.nodes start).capacity (uneg (g3.nodes start).distance))
  pareto_loop max_capacity fuel g3 maxh1

/-- `Graph::get_pareto_optimal_path(start, end, max_capacity)`: the graph
afterwards and the returned tuple. -/
def get_pareto_optimal_path (fuel : Nat) (g : Graph) (start end_ : Nat) (max_capacity : Bool) :
    Option (Graph × (List Nat × Nat × Nat)) :=
  match pareto_optimal_dijkstra fuel g start max_capacity with
  | none => none
  | some g1 =>
    match get_path fuel g1 start end_ with
    | none => none
    | some r => some (g1, r)

/-! ## Flow augmentation -/

/-- Body of the `for` over `curr_node.outgoing` in `max_flow_increase_bfs`:
the state is the graph and the FIFO queue `next`. -/
def bfs_out (curr : Nat) (st : Graph × List Nat) (e : Nat) : Graph × List Nat :=
  let g := st.1
  let edge := g.edges e
  if (g.nodes edge.destination).visited then st
  else
    let flow_increase := min (g.nodes curr).flow_increase (usub edge.capacity edge.flow)
    if flow_increase > 0 then
      (g.setNode edge.destination
        { g.nodes edge.destination with flow_increase := flow_increase, parent := e },
       st.2 ++ [edge.destination])
    else st

/-- Body of the `for` over `curr_node.incoming` in `max_flow_increase_bfs`. -/
def bfs_in (curr : Nat) (st : Graph × List Nat) (e : Nat) : Graph × List Nat :=
  let g := st.1
  let edge := g.edges e
  if (g.nodes edge.origin).visited then st
  else
    let flow_increase := min (g.nodes curr).flow_increase edge.flow
    if flow_increase > 0 then
      (g.setNode edge.origin
        { g.nodes edge.origin with flow_increase := flow_increase, parent := e },
       st.2 ++ [edge.origin])
    else st

/-- One iteration of the `while (!next.empty())` loop of
`max_flow_increase_bfs`, for the dequeued node `curr` and the rest of the
queue. -/
def bfs_step (g : Graph) (curr : Nat) (rest : List Nat) : Graph × List Nat :=
  let g1 := g.setNode curr { g.nodes curr with visited := true }
  let st1 := (g1.nodes curr).outgoing.foldl (bfs_out curr) (g1, rest)
  (st1.1.nodes curr).incoming.foldl (bfs_in curr) st1

/-- The `while (!next.empty())` loop of `max_flow_increase_bfs`. -/
def bfs_loop : Nat → Graph → List Nat → Option Graph
  | _, g, [] => some g
  | 0, _, _ :: _ => none
  | fuel + 1, g, curr :: rest =>
    let st := bfs_step g curr rest
    bfs_loop fuel st.1 st.2

/-- The scratch reset at the head of `max_flow_increase_bfs`, followed by
`nodes.at(start).flow_increase = 999999`. -/
def bfs_init (g : Graph) (start : Nat) : Graph :=
  let g1 : Graph :=
    { g with nodes := fun i =>
        if 1 ≤ i ∧ i ≤ g.n then
          { g.nodes i with visited := false, parent := 0, flow_increase := 0 }
        else g.nodes i }
  g1.setNode start { g1.nodes start with flow_increase := INF }

/-- `Graph::max_flow_increase_bfs(start)`. -/
def max_flow_increase_bfs (fuel : Nat) (g : Graph) (start : Nat) : Option Graph :=
  bfs_loop fuel (bfs_init g start) [start]

/-- The `while (curr != start)` loop of `edmonds_karp`. -/
def augment_loop : Nat → Graph → Nat → Nat → Nat → Option Graph
  | 0, g, start, curr, _ => if curr ≠ start then none else some g
  | fuel + 1, g, start, curr, increment =>
    if curr ≠ start then
      let p := (g.nodes curr).parent
      let edge := g.edges p
      if curr = edge.destination then
        augment_loop fuel (g.setFlow p (uadd edge.flow increment)) start edge.origin increment
      else
        augment_loop fuel (g.setFlow p (usub edge.flow increment)) start edge.destination increment
    else some g

/-- `Graph::edmonds_karp(start, end, flow_increase)`; the same `fuel` bounds
the outer loop and each inner loop. -/
def edmonds_karp : Nat → Graph → Nat → Nat → Nat → Option Graph
  | 0, g, _, _, flow_increase => if flow_increase > 0 then none else some g
  | fuel + 1, g, start, end_, flow_increase =>
    if flow_increase > 0 then
      match max_flow_increase_bfs fuel g start with
      | none => none
      | some g1 =>
        if !(g1.nodes end_).visited then some g1
        else
          let increment := (g1.nodes end_).flow_increase
          match augment_loop fuel g1 start end_ increment with
          | none => none
          | some g2 => edmonds_karp fuel g2 start end_ (flow_increase - min flow_increase increment)
    else some g

/-- `Graph::get_flow_path()`. -/
def get_flow_path (g : Graph) : List (Nat × Nat × Nat) :=
  (List.range g.m).filterMap fun i =>
    if (g.edges i).flow > 0 then some ((g.edges i).origin, (g.edges i).destination, (g.edges i).flow)
    else none

/-- The loop `for (Edge &edge : edges) edge.set_flow(0)`. -/
def reset_flows (g : Graph) : Graph :=
  { g with edges := fun j => if j < g.m then { g.edges j with flow := 0 } else g.edges j }

/-- `Graph::get_path_with_increment(start, end, increment)`: the graph
afterwards and the returned list. -/
def get_path_with_increment (fuel : Nat) (g : Graph) (start end_ increment : Nat) :
    Option (Graph × List (Nat × Nat × Nat)) :=
  if start ≠ end_ then
    match edmonds_karp fuel g start end_ increment with
    | none => none
    | some g1 => some (g1, g1.get_flow_path)
  else some (g, g.get_flow_path)

/-- `Graph::get_path_for_group_of_size(start, end, size)`. -/
def get_path_for_group_of_size (fuel : Nat) (g : Graph) (start end_ size : Nat) :
    Option (Graph × List (Nat × Nat × Nat)) :=
  get_path_with_increment fuel (reset_flows g) start end_ size

/-- `Graph::get_path_for_group_of_max_size(start, end)`; the request is
`numeric_limits<unsigned long>::max()`. -/
def get_path_for_group_of_max_size (fuel : Nat) (g : Graph) (start end_ : Nat) :
    Option (Graph × List (Nat × Nat × Nat)) :=
  get_path_with_increment fuel (reset_flows g) start end_ (U64 - 1)

/-! ## Schedule pass -/

/-- Body of the loop `for (Edge &edge : edges)` of `biggest_duration` that
counts the positive-flow incoming edges. -/
def count_in_degree (g : Graph) (i : Nat) : Graph :=
  let edge := g.edges i
  if edge.flow > 0 then
    g.setNode edge.destination
      { g.nodes edge.destination with
        in_degree := uadd (g.nodes edge.destination).in_degree 1 }
  else g

/-- Body of the `for` over `node.outgoing` in `biggest_duration`. -/
def duration_relax (index : Nat) (st : Graph × List Nat) (e : Nat) : Graph × List Nat :=
  let g := st.1
  let edge := g.edges e
  if edge.flow = 0 then st
  else if (g.nodes edge.destination).visited then st
  else
    let end_ := uadd (g.nodes index).earliest_start edge.duration
    let g1 :=
      if (g.nodes edge.destination).earliest_start < end_ then
        g.setNode edge.destination
          { g.nodes edge.destination with earliest_start := end_, parent := index }
      else g
    let g2 := g1.setNode edge.destination
      { g1.nodes edge.destination with in_degree := usub (g1.nodes edge.destination).in_degree 1 }
    if (g2.nodes edge.destination).in_degree = 0 then (g2, st.2 ++ [edge.destination])
    else (g2, st.2)

/-- The `while (!next.empty())` loop of `biggest_duration`. -/
def duration_loop : Nat → Graph → List Nat → Option Graph
  | _, g, [] => some g
  | 0, _, _ :: _ => none
  | fuel + 1, g, index :: rest =>
    let g1 := g.setNode index { g.nodes index with visited := true }
    let st := (g1.nodes index).outgoing.foldl (duration_relax index) (g1, rest)
    duration_loop fuel st.1 st.2

/-- The scratch reset at the head of `biggest_duration`. -/
def duration_reset (g : Graph) : Graph :=
  { g with nodes := fun i =>
      if 1 ≤ i ∧ i ≤ g.n then
        { g.nodes i with parent := 0, visited := false, earliest_start := 0, in_degree := 0 }
      else g.nodes i }

/-- The two preparation loops of `biggest_duration`: the scratch reset and the
in-degree count over `edges`. -/
def duration_init (g : Graph) : Graph :=
  (List.range (duration_reset g).m).foldl count_in_degree (duration_reset g)

/-- `Graph::biggest_duration(start)`. -/
def biggest_duration (fuel : Nat) (g : Graph) (start : Nat) : Option Graph :=
  duration_loop fuel (duration_init g) [start]

/-- `Graph::get_earliest_meetup(start, end)`: the graph afterwards and the
returned time. -/
def get_earliest_meetup (fuel : Nat) (g : Graph) (start end_ : Nat) : Option (Graph × Nat) :=
  match biggest_duration fuel g start with
  | none => none
  | some g1 =>
    if !(g1.nodes end_).visited ∨ (g1.nodes end_).in_degree > 0 then some (g1, 0)
    else some (g1, (g1.nodes end_).earliest_start)

/-- The graph a construction leaves behind, also when an entry throws. -/
def buildD (n : Nat) (entries : List (Nat × Nat × Nat × Nat)) : Graph :=
  match build n entries with
  | Except.ok g => g
  | Except.error e => e.2

/-! ## Specification vocabulary -/

/-- `IsPath g s t es`: the edge indices `es` are consecutive edges of the graph
leading from node `s` to node `t`. -/
def IsPath (g : Graph) : Nat → Nat → List Nat → Prop
  | s, t, [] => s = t
  | s, t, e :: es => e < g.m ∧ (g.edges e).origin = s ∧ IsPath g (g.edges e).destination t es

instance instDecidableIsPath (g : Graph) : (s t : Nat) → (es : List Nat) → Decidable (g.IsPath s t es)
  | s, t, [] => by unfold IsPath; exact inferInstance
  | s, t, e :: es => by
    unfold IsPath
    have := instDecidableIsPath g (g.edges e).destination t es
    exact inferInstance

/-- Node `t` can be reached from node `s` along edges of the graph. -/
def Reachable (g : Graph) (s t : Nat) : Prop := ∃ es, g.IsPath s t es

/-- Minimum edge capacity along a non-empty list of edges (`INF` for none). -/
def pathCap (g : Graph) (es : List Nat) : Nat :=
  es.foldr (fun e acc => min (g.edges e).capacity acc) INF

/-- The nodes visited by the edges `es` starting from `s`, `s` included. -/
def pathNodes (g : Graph) (s : Nat) (es : List Nat) : List Nat :=
  s :: es.map fun e => (g.edges e).destination

/-- A simple path: no node is visited twice. -/
def IsSimplePath (g : Graph) (s t : Nat) (es : List Nat) : Prop :=
  g.IsPath s t es ∧ (g.pathNodes s es).Nodup

/-- `IsPosPath g s t es`: a path all of whose edges carry positive flow. -/
def IsPosPath (g : Graph) (s t : Nat) (es : List Nat) : Prop :=
  g.IsPath s t es ∧ ∀ e ∈ es, 0 < (g.edges e).flow

/-- Sum of the durations of the edges `es`. -/
def pathDuration (g : Graph) (es : List Nat) : Nat :=
  (es.map fun e => (g.edges e).duration).sum

/-- The positive-flow edges contain no directed cycle. -/
def ActiveAcyclic (g : Graph) : Prop :=
  ∀ v es, g.IsPosPath v v es → es = []

/-- Total flow on the edges leaving `v`. -/
def outflow (g : Graph) (v : Nat) : Nat :=
  ∑ i ∈ Finset.range g.m, if (g.edges i).origin = v then (g.edges i).flow else 0

/-- Total flow on the edges entering `v`. -/
def inflow (g : Graph) (v : Nat) : Nat :=
  ∑ i ∈ Finset.range g.m, if (g.edges i).destination = v then (g.edges i).flow else 0

/-- Every edge satisfies `0 ≤ flow ≤ capacity`. -/
def ValidFlow (g : Graph) : Prop :=
  ∀ i, i < g.m → (g.edges i).flow ≤ (g.edges i).capacity

/-- Flow conservation at every node other than `s` and `t`. -/
def Conserved (g : Graph) (s t : Nat) : Prop :=
  ∀ v, v ≠ s → v ≠ t → g.inflow v = g.outflow v

/-- The structural invariant of a constructed graph: edge endpoints lie in
`[1, n]`, every stored number is an `unsigned long`, and the adjacency lists
of a node hold, once each, exactly the indices of the edges leaving and
entering it. -/
structure WF (g : Graph) : Prop where
  origin_pos : ∀ i, i < g.m → 1 ≤ (g.edges i).origin
  origin_le : ∀ i, i < g.m → (g.edges i).origin ≤ g.n
  dest_pos : ∀ i, i < g.m → 1 ≤ (g.edges i).destination
  dest_le : ∀ i, i < g.m → (g.edges i).destination ≤ g.n
  cap_lt : ∀ i, i < g.m → (g.edges i).capacity < U64
  dur_lt : ∀ i, i < g.m → (g.edges i).duration < U64
  m_lt : g.m < U64
  mem_out : ∀ v e, e ∈ (g.nodes v).outgoing ↔ e < g.m ∧ (g.edges e).origin = v
  mem_in : ∀ v e, e ∈ (g.nodes v).incoming ↔ e < g.m ∧ (g.edges e).destination = v
  nodup_out : ∀ v, (g.nodes v).outgoing.Nodup
  nodup_in : ∀ v, (g.nodes v).incoming.Nodup

/-- `augment_exact fuel g start curr increment`: along the `while (curr !=
start)` loop of `edmonds_karp`, no `flow + increment` exceeds the range of an
`unsigned long` and no `flow - increment` goes below 0.  The recursion follows
`augment_loop` step by step. -/
def augment_exact : Nat → Graph → Nat → Nat → Nat → Prop
  | 0, _, _, _, _ => True
  | fuel + 1, g, start, curr, increment =>
    if curr ≠ start then
      if curr = (g.edges (g.nodes curr).parent).destination then
        (g.edges (g.nodes curr).parent).flow + increment < U64 ∧
        augment_exact fuel
          (g.setFlow (g.nodes curr).parent (uadd (g.edges (g.nodes curr).parent).flow increment))
          start (g.edges (g.nodes curr).parent).origin increment
      else
        increment ≤ (g.edges (g.nodes curr).parent).flow ∧
        augment_exact fuel
          (g.setFlow (g.nodes curr).parent (usub (g.edges (g.nodes curr).parent).flow increment))
          start (g.edges (g.nodes curr).parent).destination increment
    else True

/-- `edmonds_karp_exact fuel g start end flow_increase`: in the run of
`edmonds_karp`, every search starts from flows with `flow ≤ capacity` (so no
`capacity - flow` wraps) and every augmentation is `augment_exact`.  The
recursion follows `edmonds_karp` step by step. -/
def edmonds_karp_exact : Nat → Graph → Nat → Nat → Nat → Prop
  | 0, _, _, _, _ => True
  | fuel + 1, g, start, end_, flow_increase =>
    if flow_increase > 0 then
      g.ValidFlow ∧
      match max_flow_increase_bfs fuel g start with
      | none => True
      | some g1 =>
        if !(g1.nodes end_).visited then True
        else
          augment_exact fuel g1 start end_ (g1.nodes end_).flow_increase ∧
          match augment_loop fuel g1 start end_ (g1.nodes end_).flow_increase with
          | none => True
          | some g2 =>
            edmonds_karp_exact fuel g2 start end_
              (flow_increase - min flow_increase (g1.nodes end_).flow_increase)
    else True

/-- Entries whose capacity and duration are `unsigned long` values. -/
def EntriesBounded (entries : List (Nat × Nat × Nat × Nat)) : Prop :=
  entries.length < U64 ∧ ∀ e ∈ entries, e.2.2.1 < U64 ∧ e.2.2.2 < U64

/-- The graph states reachable from construction by `add_edge` followed by any
sequence of `get_path_for_group_of_size`, `get_path_for_group_of_max_size`
and `get_path_with_increment` calls with node arguments in `[1, n]`. -/
inductive FlowReachable : Graph → Prop
  | built {n : Nat} {entries : List (Nat × Nat × Nat × Nat)} {g : Graph} :
      EntriesBounded entries → build n entries = Except.ok g → FlowReachable g
  | group_of_size {g : Graph} {fuel s t k : Nat} {r : Graph × List (Nat × Nat × Nat)} :
      FlowReachable g → 1 ≤ s → s ≤ g.n → 1 ≤ t → t ≤ g.n → k < U64 →
      get_path_for_group_of_size fuel g s t k = some r → FlowReachable r.1
  | group_of_max_size {g : Graph} {fuel s t : Nat} {r : Graph × List (Nat × Nat × Nat)} :
      FlowReachable g → 1 ≤ s → s ≤ g.n → 1 ≤ t → t ≤ g.n →
      get_path_for_group_of_max_size fuel g s t = some r → FlowReachable r.1
  | with_increment {g : Graph} {fuel s t k : Nat} {r : Graph × List (Nat × Nat × Nat)} :
      FlowReachable g → 1 ≤ s → s ≤ g.n → 1 ≤ t → t ≤ g.n → k < U64 →
      get_path_with_increment fuel g s t k = some r → FlowReachable r.1

/-! ## Vocabulary of the residual search -/

/-- Two graph states with the same network: same sizes, same edges (flows
included) and same adjacency lists; node scratch fields may differ. -/
structure SameNet (g g' : Graph) : Prop where
  n_eq : g'.n = g.n
  m_eq : g'.m = g.m
  edges_eq : g'.edges = g.edges
  out_eq : ∀ v, (g'.nodes v).outgoing = (g.nodes v).outgoing
  in_eq : ∀ v, (g'.nodes v).incoming = (g.nodes v).incoming


/-- `Link g x y`: the parent edge of `x` joins `y` to `x` in the residual
graph (forward along the edge, or backward against an edge carrying flow) and
the bottleneck recorded at `x` fits both the bottleneck of `y` and the
residual capacity of that edge. -/
def Link (g : Graph) (x y : Nat) : Prop :=
  (g.nodes x).parent < g.m ∧ 0 < (g.nodes x).flow_increase ∧
  (g.nodes x).flow_increase ≤ (g.nodes y).flow_increase ∧
  (((g.edges (g.nodes x).parent).destination = x ∧ (g.edges (g.nodes x).parent).origin = y ∧
      (g.nodes x).flow_increase + (g.edges (g.nodes x).parent).flow
        ≤ (g.edges (g.nodes x).parent).capacity) ∨
   ((g.edges (g.nodes x).parent).origin = x ∧ (g.edges (g.nodes x).parent).destination = y ∧
      (g.nodes x).flow_increase ≤ (g.edges (g.nodes x).parent).flow))

/-- `Chain g s x p`: following parent edges from `x` leads to `s` through the
distinct nodes `p` (`x` first, `s` last). -/
inductive Chain (g : Graph) (s : Nat) : Nat → List Nat → Prop
  | base : Chain g s s [s]
  | step {x y : Nat} {p : List Nat} : x ≠ s → x ∉ p → Link g x y → Chain g s y p →
      Chain g s x (x :: p)

/-- Invariant of the `while` loop of `max_flow_increase_bfs` after its first
iteration: `g0` is the graph at entry, `s` the start node, `g` and `q` the
current graph and queue. -/
structure BfsInv (g0 : Graph) (s : Nat) (g : Graph) (q : List Nat) : Prop where
  same : SameNet g0 g
  s_vis : (g.nodes s).visited = true
  s_fi : (g.nodes s).flow_increase = INF
  q_rng : ∀ x ∈ q, 1 ≤ x ∧ x ≤ g0.n
  chain : ∀ x, 1 ≤ x → x ≤ g0.n → (g.nodes x).visited = true →
    ∃ p, Chain g s x p ∧ ∀ y ∈ p, (g.nodes y).visited = true ∧ 1 ≤ y ∧ y ≤ g0.n
  disc : ∀ x ∈ q, (g.nodes x).visited = false →
    ∃ y, 1 ≤ y ∧ y ≤ g0.n ∧ (g.nodes y).visited = true ∧ Link g x y

/-- Node `y` is closed in the state `(g, q)`: each residual neighbour of `y`
is visited or waits in the queue. -/
def ClosedAt (g : Graph) (q : List Nat) (y : Nat) : Prop :=
  ∀ e, e < g.m →
    ((g.edges e).origin = y → (g.edges e).flow < (g.edges e).capacity →
      (g.nodes (g.edges e).destination).visited = true ∨ (g.edges e).destination ∈ q) ∧
    ((g.edges e).destination = y → 0 < (g.edges e).flow →
      (g.nodes (g.edges e).origin).visited = true ∨ (g.edges e).origin ∈ q)

/-- All visited nodes in `[1, n]` are closed. -/
def Closed (g : Graph) (q : List Nat) : Prop :=
  ∀ y, 1 ≤ y → y ≤ g.n → (g.nodes y).visited = true → ClosedAt g q y

/-- The record written when node `d` is discovered through edge `e` with
bottleneck `fi`. -/
def discover (g : Graph) (d e fi : Nat) : Graph :=
  g.setNode d { g.nodes d with flow_increase := fi, parent := e }

/-- `Disc1 curr st st'`: `st'` is `st` after one discovery made from the
visited node `curr`. -/
def Disc1 (curr : Nat) (st st' : Graph × List Nat) : Prop :=
  ∃ d e fi, e < st.1.m ∧ (st.1.nodes d).visited = false ∧ 1 ≤ d ∧ d ≤ st.1.n ∧ 0 < fi ∧
    fi ≤ (st.1.nodes curr).flow_increase ∧
    (((st.1.edges e).destination = d ∧ (st.1.edges e).origin = curr ∧
        fi + (st.1.edges e).flow ≤ (st.1.edges e).capacity) ∨
     ((st.1.edges e).origin = d ∧ (st.1.edges e).destination = curr ∧
        fi ≤ (st.1.edges e).flow)) ∧
    st' = (discover st.1 d e fi, st.2 ++ [d])

/-! ## Vocabulary of the flow theorems -/

/-- Growth of the search state: visited flags and the network are unchanged
and the queue only gains elements. -/
structure Mono (st st' : Graph × List Nat) : Prop where
  m_eq : st'.1.m = st.1.m
  n_eq : st'.1.n = st.1.n
  edges_eq : st'.1.edges = st.1.edges
  vis_eq : ∀ x, (st'.1.nodes x).visited = (st.1.nodes x).visited
  q_sub : ∀ x ∈ st.2, x ∈ st'.2

/-- State of the search while the edges of the dequeued node `curr` are
scanned. -/
structure ScanInv (g0 : Graph) (s curr : Nat) (st : Graph × List Nat) : Prop where
  inv : BfsInv g0 s st.1 st.2
  cur : (st.1.nodes curr).visited = true
  others : ∀ y, 1 ≤ y → y ≤ g0.n → (st.1.nodes y).visited = true → y ≠ curr →
    ClosedAt st.1 st.2 y

/-- What a scan adds to the state it starts from: nothing but queue entries
for nodes that are not visited. -/
structure Grow (g0 : Graph) (st st' : Graph × List Nat) : Prop where
  same : SameNet g0 st'.1
  vis_eq : ∀ x, (st'.1.nodes x).visited = (st.1.nodes x).visited
  added : ∃ l, st'.2 = st.2 ++ l ∧ ∀ x ∈ l, (st.1.nodes x).visited = false ∧ 1 ≤ x ∧ x ≤ g0.n

/-- Number of nodes in `0..n` not yet visited. -/
def unvisitedCount (g : Graph) : Nat :=
  ((Finset.range (g.n + 1)).filter fun x => (g.nodes x).visited = false).card

/-- Two graph states with the same network up to the flows and the node
scratch fields. -/
structure SameShape (g g' : Graph) : Prop where
  n_eq : g'.n = g.n
  m_eq : g'.m = g.m
  origin_eq : ∀ i, (g'.edges i).origin = (g.edges i).origin
  dest_eq : ∀ i, (g'.edges i).destination = (g.edges i).destination
  cap_eq : ∀ i, (g'.edges i).capacity = (g.edges i).capacity
  dur_eq : ∀ i, (g'.edges i).duration = (g.edges i).duration
  out_eq : ∀ v, (g'.nodes v).outgoing = (g.nodes v).outgoing
  in_eq : ∀ v, (g'.nodes v).incoming = (g.nodes v).incoming

/-- Net flow into `v`: inflow minus outflow, as an integer. -/
def netIn (g : Graph) (v : Nat) : Int := (g.inflow v : Int) - (g.outflow v : Int)

/-- Indicator used for the change of the net flow along an augmenting walk. -/
def ind (a b : Nat) : Int := if a = b then 1 else 0

/-- No augmenting path is left: a set of nodes holds `s` but not `t`, every
edge leaving it is full and every edge entering it is empty. -/
def Saturated (g : Graph) (s t : Nat) : Prop :=
  ∃ S : Nat → Prop, S s ∧ ¬ S t ∧ ∀ e, e < g.m →
    (S (g.edges e).origin → ¬ S (g.edges e).destination →
      (g.edges e).flow = (g.edges e).capacity) ∧
    (S (g.edges e).destination → ¬ S (g.edges e).origin → (g.edges e).flow = 0)

/-- What a run of `edmonds_karp(s, t, k)` from `g` guarantees about the graph
`g'` it leaves. -/
structure EKPost (g : Graph) (s t k : Nat) (g' : Graph) : Prop where
  shape : SameShape g g'
  valid : g'.ValidFlow
  conserve : ∀ v, v ≠ s → v ≠ t → g'.netIn v = g.netIn v
  inflow_le : g'.inflow s ≤ g.inflow s
  grows : g'.netIn s ≤ g.netIn s
  enough : (k : Int) ≤ g.netIn s - g'.netIn s ∨ Saturated g' s t
  bounded : 1 ≤ k → g.netIn s - g'.netIn s ≤ (k : Int) + INF - 1
  same_when_zero : k = 0 → g' = g

/-- Value of the flow of `g` from `s`: outflow minus inflow at `s`. -/
def flowValue (g : Graph) (s : Nat) : Int := (g.outflow s : Int) - (g.inflow s : Int)

/-- Capacity of the cut `S`: total capacity of the edges leaving `S`. -/
def cutCap (g : Graph) (S : Finset Nat) : Nat :=
  ∑ i ∈ Finset.range g.m,
    if (g.edges i).origin ∈ S ∧ (g.edges i).destination ∉ S then (g.edges i).capacity else 0

/-- The flow of `g` is a maximum `s`-`t` flow of its network: it is valid and
conserved, and no valid conserved flow on the same network has a larger
value. -/
def IsMaxFlow (g : Graph) (s t : Nat) : Prop :=
  g.ValidFlow ∧ g.Conserved s t ∧
    ∀ g2 : Graph, SameShape g g2 → g2.ValidFlow → g2.Conserved s t →
      g2.flowValue s ≤ g.flowValue s

/-- All flows are zero. -/
def ZeroFlow (g : Graph) : Prop := ∀ i, (g.edges i).flow = 0

/-- The `while (maxh.get_size() > 0)` loop shared by the two searches, for an
arbitrary relaxation body. -/
def search_loop {V : Type} (lt : V → V → Bool)
    (relax : Nat → Graph × MaxHeap Nat V → Nat → Graph × MaxHeap Nat V) :
    Nat → Graph → MaxHeap Nat V → Option Graph
  | 0, g, h => if h.get_size > 0 then none else some g
  | fuel + 1, g, h =>
    if h.get_size > 0 then
      let r := h.remove_max lt
      let node := r.1
      let g1 := g.setNode node { g.nodes node with visited := true }
      let st := (g1.nodes node).outgoing.foldl (relax node) (g1, r.2)
      search_loop lt relax fuel st.1 st.2
    else some g

/-- A relaxation body that, for an edge of `g0`, either changes nothing or
rewrites scratch fields other than `visited` of the unvisited head of the
edge and then calls `insert` and `increase_key` for it. -/
def RelaxOK {V : Type} (g0 : Graph) (lt : V → V → Bool)
    (relax : Nat → Graph × MaxHeap Nat V → Nat → Graph × MaxHeap Nat V) : Prop :=
  ∀ (node : Nat) (st : Graph × MaxHeap Nat V) (e : Nat), SameNet g0 st.1 →
    relax node st e = st ∨
    ∃ (nd : Node) (v v' : V),
      (st.1.nodes (g0.edges e).destination).visited = false ∧ nd.visited = false ∧
      nd.outgoing = (st.1.nodes (g0.edges e).destination).outgoing ∧
      nd.incoming = (st.1.nodes (g0.edges e).destination).incoming ∧
      relax node st e = (st.1.setNode (g0.edges e).destination nd,
        (st.2.insert lt (g0.edges e).destination v).increase_key lt (g0.edges e).destination v')

/-- Invariant of the search loop: heap slots hold key 0 or nodes reachable
from `s`, and visited nodes of `[1, n]` are reachable from `s`. -/
structure SearchInv {V : Type} (g0 : Graph) (s : Nat) (g : Graph) (h : MaxHeap Nat V) : Prop where
  same : SameNet g0 g
  keys : ∀ i, (h.a i).key = 0 ∨ g0.Reachable s (h.a i).key
  vis : ∀ x, 1 ≤ x → x ≤ g0.n → (g.nodes x).visited = true → g0.Reachable s x

/-- Termination measure of the search loop: the heap size plus the number of
nodes in `0..n` that are neither visited nor located by `pos`. -/
def searchMeasure {V : Type} (g : Graph) (h : MaxHeap Nat V) : Nat :=
  h.size + ((Finset.range (g.n + 1)).filter
    fun k => (g.nodes k).visited = false ∧ (h.pos k).isSome = false).card

/-- State of the search while the outgoing edges of the extracted node are
relaxed: the loop invariant, and a measure not above `M`. -/
structure RelaxInv {V : Type} (g0 : Graph) (s : Nat) (M : Nat)
    (st : Graph × MaxHeap Nat V) : Prop where
  inv : SearchInv g0 s st.1 st.2
  meas : searchMeasure st.1 st.2 ≤ M

/-- A positive-flow edge of the graph. -/
def PosEdge (g : Graph) (e : Nat) : Prop := e < g.m ∧ 0 < (g.edges e).flow

/-- `Handled g0 g pend e`: the positive-flow edge `e` leaves a node that the
schedule pass has dequeued, and it is not among the edges `pend` that the
current iteration has yet to scan. -/
def Handled (g0 g : Graph) (pend : List Nat) (e : Nat) : Prop :=
  g0.PosEdge e ∧ (g.nodes (g0.edges e).origin).visited = true ∧ e ∉ pend

/-- Number of positive-flow edges into `v` that are not yet handled. -/
def pendingIn (g0 g : Graph) (pend : List Nat) (v : Nat) : Nat :=
  ((Finset.range g0.m).filter fun e =>
    0 < (g0.edges e).flow ∧ (g0.edges e).destination = v ∧
      ((g.nodes (g0.edges e).origin).visited = false ∨ e ∈ pend)).card

/-- `L` is the greatest duration of a positive-flow path from `s` to `v`. -/
def IsLongest (g : Graph) (s v L : Nat) : Prop :=
  (∃ es, g.IsPosPath s v es ∧ g.pathDuration es = L) ∧
  ∀ es, g.IsPosPath s v es → g.pathDuration es ≤ L

/-- Invariant of the loops of `biggest_duration` on the network `g0` from
`s`: `g` is the current state, `q` the queue `next`, `pend` the edges of the
current node still to be scanned.  The statements about `earliest_start`
are made for the nodes satisfying `R`, those whose sums cannot wrap. -/
structure DurInv (g0 : Graph) (s : Nat) (R : Nat → Prop) (g : Graph) (pend q : List Nat) :
    Prop where
  net : SameNet g0 g
  indeg : ∀ v, 1 ≤ v → v ≤ g0.n → (g.nodes v).in_degree = pendingIn g0 g pend v
  vis_in : ∀ v, 1 ≤ v → v ≤ g0.n → (g.nodes v).visited = true → pendingIn g0 g pend v = 0
  longest : ∀ v, 1 ≤ v → v ≤ g0.n → (g.nodes v).visited = true → R v →
    IsLongest g0 s v (g.nodes v).earliest_start
  upper : ∀ e, Handled g0 g pend e → R (g0.edges e).destination →
    (g.nodes (g0.edges e).origin).earliest_start + (g0.edges e).duration
      ≤ (g.nodes (g0.edges e).destination).earliest_start
  attain : ∀ v, 1 ≤ v → v ≤ g0.n → R v → ((g.nodes v).earliest_start = 0 ∨
    ∃ e, Handled g0 g pend e ∧ (g0.edges e).destination = v ∧
      (g.nodes v).earliest_start
        = (g.nodes (g0.edges e).origin).earliest_start + (g0.edges e).duration)
  q_nodup : q.Nodup
  q_mem : ∀ v ∈ q, 1 ≤ v ∧ v ≤ g0.n ∧ (g.nodes v).visited = false ∧
    pendingIn g0 g pend v = 0 ∧ (v = s ∨ ∃ e, g0.PosEdge e ∧ (g0.edges e).destination = v)
  ready : ∀ v, 1 ≤ v → v ≤ g0.n → (g.nodes v).visited = false → pendingIn g0 g pend v = 0 →
    (∃ e, g0.PosEdge e ∧ (g0.edges e).destination = v) → v ∈ q
  start : s ∈ q ∨ (g.nodes s).visited = true

/-- The source condition of the schedule: a node with a positive-flow edge
out and none in is `s`. -/
def OnlySource (g : Graph) (s : Nat) : Prop :=
  ∀ v, (∃ e, g.PosEdge e ∧ (g.edges e).origin = v) →
    (¬ ∃ e, g.PosEdge e ∧ (g.edges e).destination = v) → v = s

/-- The edge `e` from a visited node has been taken into account by the
labels of its destination in the hop-count-first search: the destination is
nearer, or as near with a capacity not below the one offered through `e`. -/
def Better (g0 g : Graph) (e : Nat) : Prop :=
  (g.nodes (g0.edges e).destination).distance < (g.nodes (g0.edges e).origin).distance + 1 ∨
  ((g.nodes (g0.edges e).destination).distance = (g.nodes (g0.edges e).origin).distance + 1 ∧
    min (g.nodes (g0.edges e).origin).capacity (g0.edges e).capacity
      ≤ (g.nodes (g0.edges e).destination).capacity)

/-- The labels `(d, c)` are optimal for `v`: no path from `s` has fewer than
`d` edges, and none with `d` edges has a greater minimum capacity than `c`. -/
def HopOpt (g : Graph) (s v d c : Nat) : Prop :=
  ∀ es, g.IsPath s v es → d ≤ es.length ∧ (es.length = d → g.pathCap es ≤ c)

/-- Invariant of the loops of `pareto_optimal_dijkstra(s, false)` on the
network `g0`: `g` is the current state, `h` the heap, `D` the distance of the
node dequeued last and `pend` the edges of that node still to be scanned. -/
structure HopInv (g0 : Graph) (s D : Nat) (pend : List Nat) (g : Graph)
    (h : MaxHeap Nat (Int × Int)) : Prop where
  net : SameNet g0 g
  heap : MaxHeap.HeapInv pairLt h
  hmax : h.max_size = g0.n
  bound : D < g0.n
  ent : ∀ j, 1 ≤ j → j ≤ h.size → 1 ≤ (h.a j).key ∧ (h.a j).key ≤ g0.n ∧
    (g.nodes (h.a j).key).visited = false ∧
    (h.a j).value.1 = -((g.nodes (h.a j).key).distance : Int) ∧
    D ≤ (g.nodes (h.a j).key).distance ∧ (g.nodes (h.a j).key).distance ≤ D + 1
  inheap : ∀ v, 1 ≤ v → v ≤ g0.n → (g.nodes v).visited = false → (g.nodes v).distance ≠ INF →
    ∃ j, 1 ≤ j ∧ j ≤ h.size ∧ (h.a j).key = v
  undisc : ∀ v, 1 ≤ v → v ≤ g0.n → (g.nodes v).distance = INF →
    (g.nodes v).capacity = 0 ∧ (g.nodes v).visited = false
  real : ∀ v, 1 ≤ v → v ≤ g0.n → (g.nodes v).distance ≠ INF →
    ∃ es, g0.IsPath s v es ∧ es.length = (g.nodes v).distance ∧
      g0.pathCap es = (g.nodes v).capacity
  opt : ∀ v, 1 ≤ v → v ≤ g0.n → (g.nodes v).visited = true →
    (g.nodes v).distance ≤ D ∧ HopOpt g0 s v (g.nodes v).distance (g.nodes v).capacity
  relaxed : ∀ e, e < g0.m → (g.nodes (g0.edges e).origin).visited = true → e ∉ pend →
    (g.nodes (g0.edges e).destination).visited = false → Better g0 g e
  par : ∀ v, 1 ≤ v → v ≤ g0.n → (g.nodes v).parent ≠ 0 →
    1 ≤ (g.nodes v).parent ∧ (g.nodes v).parent ≤ g0.n ∧
    (g.nodes (g.nodes v).parent).visited = true ∧
    (g.nodes (g.nodes v).parent).distance + 1 = (g.nodes v).distance
  start : (g.nodes s).distance = 0

/-- The value that `pareto_optimal_dijkstra(·, false)` offers to the heap for
a node reached at distance `d` with capacity `c`. -/
def hopWeight (d c : Nat) : Int × Int := (-(d : Int), (c : Int))

/-- What the hop-count-first search keeps true of an element of the heap: its
key is an unvisited node whose distance label is `D` or `D + 1` and is the
negated first component of the value. -/
def HopEntry (n D : Nat) (vis : Nat → Bool) (dist : Nat → Nat) (x : HNode Nat (Int × Int)) :
    Prop :=
  1 ≤ x.key ∧ x.key ≤ n ∧ vis x.key = false ∧ x.value.1 = -((dist x.key : Nat) : Int) ∧
    D ≤ dist x.key ∧ dist x.key ≤ D + 1

/-- Body of the `for` over `node.incoming` in `get_waiting_periods`; the state
is `earliest_arrival`. -/
def waiting_arrival (g : Graph) (earliest_arrival : Nat) (e : Nat) : Nat :=
  let edge := g.edges e
  if edge.flow = 0 then earliest_arrival
  else
    let arrival := uadd (g.nodes edge.origin).earliest_start edge.duration
    if arrival < earliest_arrival then arrival else earliest_arrival

/-- Body of the `for` over the nodes `i` in `get_waiting_periods`.  The list
holds `pair<unsigned long, unsigned int>`, so the `unsigned long wait` is
stored modulo `2^32`. -/
def waiting_step (g : Graph) (waiting_periods : List (Nat × Nat)) (i : Nat) : List (Nat × Nat) :=
  let node := g.nodes i
  let earliest_arrival := node.incoming.foldl (waiting_arrival g) node.earliest_start
  if earliest_arrival < node.earliest_start then
    let wait := usub node.earliest_start earliest_arrival
    waiting_periods ++ [(i, wait % 2 ^ 32)]
  else waiting_periods

/-- `Graph::get_waiting_periods(start, end)`: the graph afterwards and the
returned list. -/
def get_waiting_periods (fuel : Nat) (g : Graph) (start _end : Nat) :
    Option (Graph × List (Nat × Nat)) :=
  match biggest_duration fuel g start with
  | none => none
  | some g1 => some (g1, ((List.range g1.n).map fun i => i + 1).foldl (waiting_step g1) [])

/-- Invariant of the loops of `biggest_duration` on any flow of the network
`g0`, once the start node `s` has been dequeued: `g` is the current state, `q`
the queue `next`, `pend` the edges of the current node still to be scanned. -/
structure PassInv (g0 : Graph) (s : Nat) (g : Graph) (pend q : List Nat) : Prop where
  net : SameNet g0 g
  s_vis : (g.nodes s).visited = true
  indeg : ∀ v, 1 ≤ v → v ≤ g0.n → (g.nodes v).visited = false →
    (g.nodes v).in_degree = pendingIn g0 g pend v
  reach : ∀ v, 1 ≤ v → v ≤ g0.n → (g.nodes v).visited = true → ∃ es, g0.IsPosPath s v es
  q_nodup : q.Nodup
  q_mem : ∀ v ∈ q, 1 ≤ v ∧ v ≤ g0.n ∧ (g.nodes v).visited = false ∧
    pendingIn g0 g pend v = 0 ∧ ∃ es, g0.IsPosPath s v es

/-- A relaxation body as in `RelaxOK` that moreover records, in the node it
rewrites, the scanned node as `parent` and the minimum of the capacity of the
scanned node and of the edge as `capacity`. -/
def RelaxPar {V : Type} (g0 : Graph) (lt : V → V → Bool)
    (relax : Nat → Graph × MaxHeap Nat V → Nat → Graph × MaxHeap Nat V) : Prop :=
  ∀ (node : Nat) (st : Graph × MaxHeap Nat V) (e : Nat), SameNet g0 st.1 →
    relax node st e = st ∨
    ∃ (nd : Node) (v v' : V),
      (st.1.nodes (g0.edges e).destination).visited = false ∧ nd.visited = false ∧
      nd.outgoing = (st.1.nodes (g0.edges e).destination).outgoing ∧
      nd.incoming = (st.1.nodes (g0.edges e).destination).incoming ∧
      nd.parent = node ∧
      nd.capacity = min (st.1.nodes node).capacity (g0.edges e).capacity ∧
      relax node st e = (st.1.setNode (g0.edges e).destination nd,
        (st.2.insert lt (g0.edges e).destination v).increase_key lt (g0.edges e).destination v')

/-- `ParChain g s x p`: following `parent` from `x` leads to `s`, whose parent
is 0, through the distinct nodes `p` (`x` first, `s` last). -/
inductive ParChain (g : Graph) (s : Nat) : Nat → List Nat → Prop
  | base : (g.nodes s).parent = 0 → ParChain g s s [s]
  | step {x : Nat} {p : List Nat} : (g.nodes x).parent ≠ 0 → x ∉ p →
      ParChain g s (g.nodes x).parent p → ParChain g s x (x :: p)

/-- An edge of the graph leads from `u` to `v` and has capacity at least `c`. -/
def Joined (g : Graph) (c u v : Nat) : Prop :=
  ∃ e, e < g.m ∧ (g.edges e).origin = u ∧ (g.edges e).destination = v ∧ c ≤ (g.edges e).capacity

/-- Invariant of the search loop on the network `g0` from `s`, once `s` has
been extracted: the parent of a node is a visited node joined to it by an
edge, with capacities not increasing away from `s`, and parents lead from
every visited node to `s`. -/
structure PathInv {V : Type} (g0 : Graph) (s : Nat) (g : Graph) (h : MaxHeap Nat V) : Prop where
  same : SameNet g0 g
  s_vis : (g.nodes s).visited = true
  s_par : (g.nodes s).parent = 0
  keys : ∀ i, (h.a i).key = 0 ∨ (1 ≤ (h.a i).key ∧ (h.a i).key ≤ g0.n ∧
    ((g.nodes (h.a i).key).visited = true ∨ (g.nodes (h.a i).key).parent ≠ 0))
  par : ∀ x, 1 ≤ x → x ≤ g0.n → (g.nodes x).parent ≠ 0 →
    1 ≤ (g.nodes x).parent ∧ (g.nodes x).parent ≤ g0.n ∧
    (g.nodes (g.nodes x).parent).visited = true ∧
    (g.nodes x).capacity ≤ (g.nodes (g.nodes x).parent).capacity ∧
    g0.Joined (g.nodes x).capacity (g.nodes x).parent x
  chain : ∀ x, 1 ≤ x → x ≤ g0.n → (g.nodes x).visited = true →
    ∃ p, ParChain g s x p ∧ ∀ y ∈ p, (g.nodes y).visited = true ∧ 1 ≤ y ∧ y ≤ g0.n

/-- The node list `path` is a real path from `s` to `t` whose edges have
capacity at least `c`: it begins with `s`, ends with `t`, repeats no node, and
each node is joined to the next by an edge of capacity at least `c`. -/
def IsRealPath (g : Graph) (s t c : Nat) (path : List Nat) : Prop :=
  path.head? = some s ∧ path.getLast? = some t ∧ path.Nodup ∧ List.Chain' (g.Joined c) path

/-- Two graph states with the same network that agree, at every node of
`[1, n]`, on the scratch fields `visited`, `parent` and `capacity`, and also
on `distance` when `d` is set. -/
structure SearchAgree (d : Bool) (g g' : Graph) : Prop where
  net : SameNet g g'
  vis : ∀ x, 1 ≤ x → x ≤ g.n → (g'.nodes x).visited = (g.nodes x).visited
  par : ∀ x, 1 ≤ x → x ≤ g.n → (g'.nodes x).parent = (g.nodes x).parent
  cap : ∀ x, 1 ≤ x → x ≤ g.n → (g'.nodes x).capacity = (g.nodes x).capacity
  dist : d = true → ∀ x, 1 ≤ x → x ≤ g.n → (g'.nodes x).distance = (g.nodes x).distance

/-- The relation kept by the two runs of a search: same heap, agreeing graph
states. -/
def SearchRel {V : Type} (d : Bool) (st st' : Graph × MaxHeap Nat V) : Prop :=
  st'.2 = st.2 ∧ SearchAgree d st.1 st'.1

/-- A relaxation body that, from agreeing states, leaves agreeing states when
the scanned node and the head of the edge lie in `[1, n]`. -/
def RelaxSim {V : Type} (d : Bool)
    (relax : Nat → Graph × MaxHeap Nat V → Nat → Graph × MaxHeap Nat V) : Prop :=
  ∀ (node : Nat) (st st' : Graph × MaxHeap Nat V) (e : Nat), SearchRel d st st' →
    1 ≤ node → node ≤ st.1.n →
    1 ≤ (st.1.edges e).destination → (st.1.edges e).destination ≤ st.1.n →
    SearchRel d (relax node st e) (relax node st' e)

/-- Two graph states that agree on the network: sizes, the edges below
`edges.size()` (flows included) and the adjacency lists. -/
structure NetAgree (g g' : Graph) : Prop where
  n_eq : g'.n = g.n
  m_eq : g'.m = g.m
  edges_eq : ∀ i, i < g.m → g'.edges i = g.edges i
  out_eq : ∀ v, (g'.nodes v).outgoing = (g.nodes v).outgoing
  in_eq : ∀ v, (g'.nodes v).incoming = (g.nodes v).incoming

/-- Two graph states that agree on the network and, at every node of `[1, n]`,
on the scratch fields `visited`, `parent` and `flow_increase`. -/
structure BfsAgree (g g' : Graph) : Prop where
  net : NetAgree g g'
  vis : ∀ x, 1 ≤ x → x ≤ g.n → (g'.nodes x).visited = (g.nodes x).visited
  par : ∀ x, 1 ≤ x → x ≤ g.n → (g'.nodes x).parent = (g.nodes x).parent
  fi : ∀ x, 1 ≤ x → x ≤ g.n → (g'.nodes x).flow_increase = (g.nodes x).flow_increase

/-- The relation kept by two runs of `max_flow_increase_bfs` on the network
`g0`: same queue, agreeing graph states, queue entries in `[1, n]`. -/
def BfsRel (g0 : Graph) (st st' : Graph × List Nat) : Prop :=
  st'.2 = st.2 ∧ BfsAgree st.1 st'.1 ∧ SameNet g0 st.1 ∧ ∀ x ∈ st.2, 1 ≤ x ∧ x ≤ g0.n

/-- Two results of a flow request are the same: the same returned list and
the same flow on every edge below `m`. -/
def SameOutcome (m : Nat) (r r' : Graph × List (Nat × Nat × Nat)) : Prop :=
  r'.2 = r.2 ∧ ∀ i, i < m → (r'.1.edges i).flow = (r.1.edges i).flow

/-- `Edge::Edge(const Edge&)`: the copy is built from the origin, destination,
capacity and duration of the original; its flow is 0. -/
def copy_edge (edge : Edge) : Edge :=
  mkEdge edge.origin edge.destination edge.capacity edge.duration

/-- Element-wise copy of the vector `edges`, as made by the copy constructor
of the vector and by a `push_back` that reallocates: every stored edge is
rebuilt by `Edge(const Edge&)`. -/
def copy_edges (g : Graph) : Graph :=
  { g with edges := fun j => if j < g.m then copy_edge (g.edges j) else g.edges j }

/-- `Graph::Graph(const Graph &g)`: `nodes(g.nodes), edges(g.edges), n(g.n)`. -/
def copy (g : Graph) : Graph :=
  { n := g.n, nodes := g.nodes, m := g.m, edges := (copy_edges g).edges }

/-- `Graph::add_edge(edge)` when `edges.push_back(edge)` finds the storage of
the vector full (`size() == capacity()`) and reallocates: the edges already
stored are copy-constructed into the new storage.  The check for an endpoint 0
comes first and leaves the graph untouched. -/
def add_edge_realloc (g : Graph) (edge : Edge) : Except (String × Graph) Graph :=
  if edge.origin = 0 ∨ edge.destination = 0 then
    Except.error ("Edge has origin or destination at 0", g)
  else add_edge (copy_edges g) edge

/-- `ResStep g x y`: an edge of the residual graph of the flows of `g` leads
from `x` to `y`: a forward edge with `capacity - flow > 0`, or a backward edge
with `flow > 0`. -/
def ResStep (g : Graph) (x y : Nat) : Prop :=
  ∃ e, e < g.m ∧
    (((g.edges e).origin = x ∧ (g.edges e).destination = y ∧
        (g.edges e).flow < (g.edges e).capacity) ∨
     ((g.edges e).destination = x ∧ (g.edges e).origin = y ∧ 0 < (g.edges e).flow))

/-- `ResWalk g s t k`: a path of `k` edges of the residual graph leads from
`s` to `t`. -/
inductive ResWalk (g : Graph) (s : Nat) : Nat → Nat → Prop
  | nil : ResWalk g s s 0
  | snoc {x y k : Nat} : ResWalk g s x k → ResStep g x y → ResWalk g s y (k + 1)

/-- `t` can be reached from `s` in the residual graph. -/
def ResReachable (g : Graph) (s t : Nat) : Prop := ∃ k, g.ResWalk s t k

/-- A relaxation body as in `RelaxPar` that, when `d` is set, also records in
the node it rewrites the distance of the scanned node plus 1. -/
def RelaxLab {V : Type} (d : Bool) (g0 : Graph) (lt : V → V → Bool)
    (relax : Nat → Graph × MaxHeap Nat V → Nat → Graph × MaxHeap Nat V) : Prop :=
  ∀ (node : Nat) (st : Graph × MaxHeap Nat V) (e : Nat), SameNet g0 st.1 →
    relax node st e = st ∨
    ∃ (nd : Node) (v v' : V),
      (st.1.nodes (g0.edges e).destination).visited = false ∧ nd.visited = false ∧
      nd.outgoing = (st.1.nodes (g0.edges e).destination).outgoing ∧
      nd.incoming = (st.1.nodes (g0.edges e).destination).incoming ∧
      nd.parent = node ∧
      nd.capacity = min (st.1.nodes node).capacity (g0.edges e).capacity ∧
      (d = true → nd.distance = uadd (st.1.nodes node).distance 1) ∧
      relax node st e = (st.1.setNode (g0.edges e).destination nd,
        (st.2.insert lt (g0.edges e).destination v).increase_key lt (g0.edges e).destination v')

/-- The labels of the search from `s`: the capacity of `s` is the sentinel
999999 and, when `d` is set, the distance of `s` is 0 and the distance of a
node with a parent is the distance of the parent plus 1. -/
structure LabInv (d : Bool) (g0 : Graph) (s : Nat) (g : Graph) : Prop where
  s_cap : (g.nodes s).capacity = INF
  s_dist : d = true → (g.nodes s).distance = 0
  dist : d = true → ∀ x, 1 ≤ x → x ≤ g0.n → (g.nodes x).parent ≠ 0 →
    (g.nodes x).distance = uadd (g.nodes (g.nodes x).parent).distance 1

end Graph

/-! ## Concrete graphs -/

/-- Five edges on four nodes: `1→2` (10), `1→3` (5), `2→4` (3), `2→3` (8),
`3→4` (7). -/
def widestGraph : Graph :=
  Graph.buildD 4 [(1, 2, 10, 1), (1, 3, 5, 1), (2, 4, 3, 1), (2, 3, 8, 1), (3, 4, 7, 1)]

/-- A single edge `1→2` of capacity 10. -/
def oneEdgeGraph : Graph := Graph.buildD 2 [(1, 2, 10, 1)]

/-- Four edges on four nodes: `1→2` (10), `2→3` (10), `1→3` (5), `3→4` (5). -/
def detourGraph : Graph :=
  Graph.buildD 4 [(1, 2, 10, 1), (2, 3, 10, 1), (1, 3, 5, 1), (3, 4, 5, 1)]

/-- Eight edges on five nodes: `3→2` (2), `4→3` (1), `2→4` (2), `4→5` (2),
`2→5` (1), `1→3` (1), `1→2` (1), `1→4` (2). -/
def cycleGraph : Graph :=
  Graph.buildD 5 [(3, 2, 2, 1), (4, 3, 1, 1), (2, 4, 2, 1), (4, 5, 2, 1), (2, 5, 1, 1),
    (1, 3, 1, 1), (1, 2, 1, 1), (1, 4, 2, 1)]

/-- Two parallel edges `1→2`, each of capacity `2^64 - 1`. -/
def twoBigEdges : Graph := Graph.buildD 2 [(1, 2, U64 - 1, 1), (1, 2, U64 - 1, 1)]

/-- The network `twoBigEdges` with both edges filled. -/
def twoBigFull : Graph := (twoBigEdges.setFlow 0 (U64 - 1)).setFlow 1 (U64 - 1)

/-- The state that `get_path_for_group_of_size(1, 2, 3)` leaves on
`oneEdgeGraph`. -/
def oneEdgeAfter : Graph :=
  match oneEdgeGraph.get_path_for_group_of_size 10 1 2 3 with
  | some r => r.1
  | none => oneEdgeGraph

/-- The four-edge scenario graph of the specification with a fifth node that
no edge touches. -/
def disconnectedGraph : Graph :=
  Graph.buildD 5 [(1, 2, 5, 1), (1, 3, 2, 1), (2, 4, 3, 1), (3, 4, 2, 1)]

/-- The state that `get_path_for_group_of_max_size(1, 5)` leaves on
`cycleGraph`. -/
def cycleAfter : Graph :=
  match cycleGraph.get_path_for_group_of_max_size 20 1 5 with
  | some r => r.1
  | none => cycleGraph

/-- Two edges in a row, `1→2` and `2→3`, each of capacity 5 and duration
`2^63`. -/
def wrapGraph : Graph :=
  Graph.buildD 3 [(1, 2, 5, 2 ^ 63), (2, 3, 5, 2 ^ 63)]

/-- The state that `get_path_for_group_of_size(1, 3, 5)` leaves on
`wrapGraph`. -/
def wrapAfter : Graph :=
  match wrapGraph.get_path_for_group_of_size 10 1 3 5 with
  | some r => r.1
  | none => wrapGraph

/-- An empty heap of capacity 3 with its specified counterpart. -/
def emptyPair : MaxHeap Nat Nat × MaxHeap.SpecQueue Nat Nat :=
  (MaxHeap.create 3 (2 ^ 32 - 1) 0 0, MaxHeap.SpecQueue.empty 3)

/-- The state after `insert(1, 10)`, `insert(2, 5)`, `remove_max()` and
`insert(3, 4)`. -/
def stalePair : MaxHeap Nat Nat × MaxHeap.SpecQueue Nat Nat :=
  MaxHeap.run natLt emptyPair [.insert 1 10, .insert 2 5, .remove_max, .insert 3 4]

/-- The state `stalePair` after `increase_key(2, 100)`. -/
def raisedPair : MaxHeap Nat Nat × MaxHeap.SpecQueue Nat Nat :=
  MaxHeap.run natLt stalePair [.increase_key 2 100]

/-- Four edges on four nodes, each of capacity 5: `1→4` of duration 1, and
`1→2`, `2→3`, `3→4` of duration `2^31 - 1`. -/
def lateGraph : Graph :=
  Graph.buildD 4 [(1, 4, 5, 1), (1, 2, 5, 2 ^ 31 - 1), (2, 3, 5, 2 ^ 31 - 1),
    (3, 4, 5, 2 ^ 31 - 1)]

/-- The state that `get_path_for_group_of_max_size(1, 4)` leaves on
`lateGraph`. -/
def lateAfter : Graph :=
  match lateGraph.get_path_for_group_of_max_size 10 1 4 with
  | some r => r.1
  | none => lateGraph

/-- The state that `get_pareto_optimal_path(1, 2, true)` leaves on
`oneEdgeGraph`. -/
def hopAfter : Graph :=
  match oneEdgeGraph.get_pareto_optimal_path 10 1 2 true with
  | some r => r.1
  | none => oneEdgeGraph

/-- The state after the failed call `add_edge(Edge(1, 3, 5, 1))` on
`Graph(2)`. -/
def brokenGraph : Graph := Graph.buildD 2 [(1, 3, 5, 1)]

/-- The scenario graph of the specification: four nodes, edges added in the
order `1→2` (5), `1→3` (2), `2→4` (3), `3→4` (2), every duration 1. -/
def scenarioGraph : Graph :=
  Graph.buildD 4 [(1, 2, 5, 1), (1, 3, 2, 1), (2, 4, 3, 1), (3, 4, 2, 1)]

/-- Three nodes, edges added in the order `1→2` (3), `1→3` (5), `2→3` (9). -/
def shortcutGraph : Graph := Graph.buildD 3 [(1, 2, 3, 1), (1, 3, 5, 1), (2, 3, 9, 1)]

/-- The state that `get_path_for_group_of_max_size(1, 4)` leaves on
`scenarioGraph`. -/
def scenarioAfter : Graph :=
  match scenarioGraph.get_path_for_group_of_max_size 6 1 4 with
  | some r => r.1
  | none => scenarioGraph

/-- The state that `max_flow_increase_bfs(1)` leaves on `shortcutGraph`. -/
def shortcutAfter : Graph :=
  match shortcutGraph.max_flow_increase_bfs 4 1 with
  | some g => g
  | none => shortcutGraph

/-- The heap of capacity 3 after `insert(1, 10)`, `insert(2, 5)` and
`remove_max()`. -/
def movedHeap : MaxHeap Nat Nat :=
  MaxHeap.reached natLt 3 (2 ^ 32 - 1) 0 0 [.insert 1 10, .insert 2 5, .remove_max]

/-- The state that `edmonds_karp(1, 4, 2)` leaves on `scenarioGraph`: 2 units
on the edges `1→3` and `3→4`. -/
def scenarioPartial : Graph :=
  match scenarioGraph.edmonds_karp 6 1 4 2 with
  | some g => g
  | none => scenarioGraph

/-! # Theorems -/

/-! ## Machine arithmetic lemmas -/

theorem usub_eq_sub {a b : Nat} (hb : b ≤ a) (ha : a < U64) : usub a b = a - b := by
  unfold usub
  have hb' : b % U64 = b := Nat.mod_eq_of_lt (lt_of_le_of_lt hb ha)
  rw [hb']
  have : a + U64 - b = (a - b) + U64 := by omega
  rw [this, Nat.add_mod_right]
  exact Nat.mod_eq_of_lt (by omega)

theorem uadd_eq_add {a b : Nat} (h : a + b < U64) : uadd a b = a + b := by
  unfold uadd
  exact Nat.mod_eq_of_lt h

theorem pairLt_strictOrd : MaxHeap.StrictOrd pairLt := by
  constructor
  · intro x; simp [pairLt]
  · intro x y z h1 h2
    simp only [pairLt, Bool.or_eq_true, Bool.and_eq_true, decide_eq_true_eq,
      Bool.not_eq_true', decide_eq_false_iff_not] at *
    omega
  · intro x y z h1 h2
    simp only [pairLt, Bool.or_eq_false_iff, Bool.and_eq_false_imp, decide_eq_false_iff_not,
      Bool.not_eq_true', decide_eq_true_eq] at *
    constructor
    · omega
    · intro h3
      have := h1.2
      have := h2.2
      omega

theorem toLong_small {a : Nat} (h : a < 2 ^ 63) : toLong a = (a : Int) := by
  unfold toLong U64
  have h1 : a % 2 ^ 64 = a := Nat.mod_eq_of_lt (by omega)
  rw [h1, if_pos h]

theorem toLong_uneg {d : Nat} (h : d < 2 ^ 63) : toLong (uneg d) = -(d : Int) := by
  unfold toLong uneg U64
  have h1 : d % 2 ^ 64 = d := Nat.mod_eq_of_lt (by omega)
  rw [h1]
  by_cases hd : d = 0
  · subst hd; simp
  · have h2 : (2 ^ 64 - d) % 2 ^ 64 = 2 ^ 64 - d := Nat.mod_eq_of_lt (by omega)
    rw [h2, Nat.mod_eq_of_lt (by omega : 2 ^ 64 - d < 2 ^ 64)]
    rw [if_neg (by omega)]
    have h5 : ((2 ^ 64 - d : Nat) : Int) = (2 : Int) ^ 64 - (d : Int) := by
      rw [Nat.cast_sub (by omega : d ≤ 2 ^ 64)]; norm_num
    rw [h5]; push_cast; ring

theorem usub_uneg_one {d : Nat} (h : d < 2 ^ 63) : usub (uneg d) 1 = uneg (d + 1) := by
  unfold usub uneg U64
  have h1 : d % 2 ^ 64 = d := Nat.mod_eq_of_lt (by omega)
  have h2 : (d + 1) % 2 ^ 64 = d + 1 := Nat.mod_eq_of_lt (by omega)
  rw [h1, h2]
  by_cases hd : d = 0
  · subst hd; simp
  · have h3 : (2 ^ 64 - d) % 2 ^ 64 = 2 ^ 64 - d := Nat.mod_eq_of_lt (by omega)
    rw [h3]
    have h4 : 2 ^ 64 - d + 2 ^ 64 - 1 % 2 ^ 64 = (2 ^ 64 - (d + 1)) + 2 ^ 64 := by
      have : 1 % 2 ^ 64 = 1 := by norm_num
      omega
    rw [h4, Nat.add_mod_right]

/-! ## Heap lemmas -/

namespace MaxHeap

variable {K V : Type} [DecidableEq K]

/-! ## The heap: keys, sizes and the domain of `pos` -/

theorem Shuffle.shuffle_refl (h : MaxHeap K V) : Shuffle h h :=
  ⟨rfl, rfl, fun i => ⟨i, rfl⟩, fun _ hk => hk⟩

theorem Shuffle.shuffle_trans {h1 h2 h3 : MaxHeap K V} (a : Shuffle h1 h2) (b : Shuffle h2 h3) :
    Shuffle h1 h3 := by
  refine ⟨b.size_eq.trans a.size_eq, b.max_eq.trans a.max_eq, fun i => ?_,
    fun k hk => b.pos_mono k (a.pos_mono k hk)⟩
  obtain ⟨j, hj⟩ := b.keys i
  obtain ⟨l, hl⟩ := a.keys j
  exact ⟨l, hj.trans hl⟩

theorem Shuffle.keysP {h h' : MaxHeap K V} (s : Shuffle h h') {P : K → Prop} (hp : KeysP P h) :
    KeysP P h' := by
  intro i
  obtain ⟨j, hj⟩ := s.keys i
  rw [hj]; exact hp j

theorem swap_shuffle (h : MaxHeap K V) (i1 i2 : Nat) : Shuffle h (h.swap i1 i2) := by
  refine ⟨rfl, rfl, fun i => ?_, fun k hk => ?_⟩
  · simp only [swap, setA]
    by_cases h2 : i = i2
    · exact ⟨i1, by simp [h2]⟩
    · by_cases h1 : i = i1
      · subst h1; exact ⟨i2, by simp [h2]⟩
      · exact ⟨i, by simp [h1, h2]⟩
  · simp only [swap, setPos]
    split
    · rfl
    · split
      · rfl
      · exact hk

theorem up_heap_loop_shuffle (lt : V → V → Bool) :
    ∀ (fuel : Nat) (h : MaxHeap K V) (i : Nat), Shuffle h (up_heap_loop lt fuel h i) := by
  intro fuel
  induction fuel with
  | zero => intro h i; exact Shuffle.shuffle_refl h
  | succ fuel ih =>
    intro h i
    simp only [up_heap_loop]
    split
    · exact (swap_shuffle h i (i / 2)).shuffle_trans (ih _ _)
    · exact Shuffle.shuffle_refl h

theorem down_heap_loop_shuffle (lt : V → V → Bool) :
    ∀ (fuel : Nat) (h : MaxHeap K V) (i : Nat), Shuffle h (down_heap_loop lt fuel h i) := by
  intro fuel
  induction fuel with
  | zero => intro h i; exact Shuffle.shuffle_refl h
  | succ fuel ih =>
    intro h i
    simp only [down_heap_loop]
    split
    · split
      · exact Shuffle.shuffle_refl h
      · exact (swap_shuffle h i _).shuffle_trans (ih _ _)
    · exact Shuffle.shuffle_refl h

/-- Effect of `insert(key, value)` on sizes, keys and the domain of `pos`. -/
theorem insert_effect (lt : V → V → Bool) (h : MaxHeap K V) (key : K) (value : V) :
    (h.insert lt key value = h ∨
      ((h.pos key).isSome = false ∧ (h.insert lt key value).size = h.size + 1 ∧
        ((h.insert lt key value).pos key).isSome = true)) ∧
    (h.insert lt key value).max_size = h.max_size ∧
    (∀ i, (h.insert lt key value |>.a i).key = key ∨ ∃ j, (h.insert lt key value |>.a i).key = (h.a j).key) ∧
    (∀ k, (h.pos k).isSome = true → ((h.insert lt key value).pos k).isSome = true) := by
  unfold insert
  split
  · exact ⟨Or.inl rfl, rfl, fun i => Or.inr ⟨i, rfl⟩, fun _ hk => hk⟩
  · split
    · exact ⟨Or.inl rfl, rfl, fun i => Or.inr ⟨i, rfl⟩, fun _ hk => hk⟩
    · rename_i hfull hkey
      simp only
      have hs := up_heap_loop_shuffle lt (h.size + 1)
        ({ h with size := h.size + 1, a := setA h.a (h.size + 1) ⟨key, value⟩,
                  pos := setPos h.pos key (h.size + 1) } : MaxHeap K V) (h.size + 1)
      refine ⟨Or.inr ⟨by simpa [has_key] using hkey, ?_, ?_⟩, ?_, ?_, ?_⟩
      · exact hs.size_eq
      · exact hs.pos_mono key (by simp [setPos])
      · exact hs.max_eq
      · intro i
        obtain ⟨j, hj⟩ := hs.keys i
        unfold up_heap
        rw [hj]
        simp only [setA]
        split
        · exact Or.inl rfl
        · exact Or.inr ⟨j, rfl⟩
      · intro k hk
        apply hs.pos_mono k
        simp only [setPos]
        split
        · rfl
        · exact hk

theorem increase_key_shuffle (lt : V → V → Bool) (h : MaxHeap K V) (key : K) (value : V) :
    Shuffle h (h.increase_key lt key value) := by
  unfold increase_key
  split
  · exact Shuffle.shuffle_refl h
  · rename_i i _
    split
    · exact Shuffle.shuffle_refl h
    · simp only
      have h1 : Shuffle h ({ h with a := setA h.a i ⟨(h.a i).key, value⟩ } : MaxHeap K V) := by
        refine ⟨rfl, rfl, fun j => ⟨j, ?_⟩, fun _ hk => hk⟩
        simp only [setA]
        split
        · rename_i hji; rw [hji]
        · rfl
      exact h1.shuffle_trans (up_heap_loop_shuffle lt _ _ _)

/-- Effect of `remove_max()` on a non-empty heap. -/
theorem remove_max_effect (lt : V → V → Bool) (h : MaxHeap K V) (hs : 0 < h.size) :
    (h.remove_max lt).1 = (h.a 1).key ∧ (h.remove_max lt).2.size = h.size - 1 ∧
    (h.remove_max lt).2.max_size = h.max_size ∧
    (∀ i, ∃ j, ((h.remove_max lt).2.a i).key = (h.a j).key) ∧
    (∀ k, k ≠ (h.a 1).key → (h.pos k).isSome = true →
      ((h.remove_max lt).2.pos k).isSome = true) := by
  unfold remove_max
  rw [if_neg (by omega)]
  simp only
  have hsh := down_heap_loop_shuffle lt (h.size - 1)
    ({ h with pos := fun k => if k = (h.a 1).key then none else h.pos k,
              a := setA h.a 1 (h.a h.size), size := h.size - 1 } : MaxHeap K V) 1
  refine ⟨trivial, hsh.size_eq, hsh.max_eq, fun i => ?_, fun k hk hp => ?_⟩
  · obtain ⟨j, hj⟩ := hsh.keys i
    unfold down_heap
    rw [hj]
    simp only [setA]
    split
    · exact ⟨h.size, rfl⟩
    · exact ⟨j, rfl⟩
  · apply hsh.pos_mono k
    simp [hk, hp]

theorem StrictOrd.asymm {lt : V → V → Bool} (o : StrictOrd lt) {x y : V} (h : lt x y = true) :
    lt y x = false := by
  cases hyx : lt y x with
  | false => rfl
  | true => have := o.trans x y x h hyx; rw [o.irrefl] at this; cases this

theorem swap_a (h : MaxHeap K V) (i j t : Nat) :
    (h.swap i j).a t = if t = j then h.a i else if t = i then h.a j else h.a t := by
  simp only [swap, setA]

theorem swap_size (h : MaxHeap K V) (i j : Nat) : (h.swap i j).size = h.size := rfl

theorem swap_max_size (h : MaxHeap K V) (i j : Nat) : (h.swap i j).max_size = h.max_size := rfl

theorem swap_pos (h : MaxHeap K V) {i j : Nat} (hij : i ≠ j) (k : K) :
    (h.swap i j).pos k =
      if k = (h.a i).key then some j else if k = (h.a j).key then some i else h.pos k := by
  simp only [swap, setA, setPos, if_pos rfl, if_neg hij]
  simp

theorem RegionPerm.perm_refl (h : MaxHeap K V) : RegionPerm h h :=
  ⟨rfl, rfl, fun j h1 h2 => ⟨j, h1, h2, rfl⟩, fun j h1 h2 => ⟨j, h1, h2, rfl⟩, fun _ _ => rfl⟩

theorem RegionPerm.perm_trans {h1 h2 h3 : MaxHeap K V} (p : RegionPerm h1 h2)
    (q : RegionPerm h2 h3) : RegionPerm h1 h3 := by
  refine ⟨q.size_eq.trans p.size_eq, q.max_eq.trans p.max_eq, ?_, ?_, ?_⟩
  · intro j hj1 hj2
    obtain ⟨j', h1', h2', e⟩ := q.fwd j hj1 (p.size_eq ▸ hj2)
    obtain ⟨j'', h1'', h2'', e'⟩ := p.fwd j' h1' (p.size_eq ▸ h2')
    exact ⟨j'', h1'', h2'', e.trans e'⟩
  · intro j hj1 hj2
    obtain ⟨j', h1', h2', e⟩ := p.bwd j hj1 hj2
    obtain ⟨j'', h1'', h2'', e'⟩ := q.bwd j' h1' (p.size_eq ▸ h2')
    exact ⟨j'', h1'', p.size_eq ▸ h2'', e'.trans e⟩
  · intro j hj
    rw [q.outside j (p.size_eq ▸ hj), p.outside j hj]

theorem swap_regionPerm (h : MaxHeap K V) {i j : Nat} (hi : 1 ≤ i ∧ i ≤ h.size)
    (hj : 1 ≤ j ∧ j ≤ h.size) : RegionPerm h (h.swap i j) := by
  refine ⟨rfl, rfl, ?_, ?_, ?_⟩
  · intro t ht1 ht2
    rw [swap_a]
    split_ifs
    · exact ⟨i, hi.1, hi.2, rfl⟩
    · exact ⟨j, hj.1, hj.2, rfl⟩
    · exact ⟨t, ht1, ht2, rfl⟩
  · intro t ht1 ht2
    by_cases hti : t = i
    · subst hti
      refine ⟨j, hj.1, hj.2, ?_⟩
      rw [swap_a]; simp
    · by_cases htj : t = j
      · subst htj
        refine ⟨i, hi.1, hi.2, ?_⟩
        rw [swap_a]; simp [hti]
        intro h'; exact absurd h'.symm hti
      · exact ⟨t, ht1, ht2, by rw [swap_a]; simp [hti, htj]⟩
  · intro t ht
    rw [swap_a]
    have h1 : t ≠ j := by omega
    have h2 : t ≠ i := by omega
    simp [h1, h2]

theorem swap_root_pos (h : MaxHeap K V) (ki : KeyInv h) {i j : Nat} (hi : 1 ≤ i ∧ i ≤ h.size)
    (hj : 1 ≤ j ∧ j ≤ h.size) (hij : i ≠ j) :
    (h.swap i j).pos ((h.swap i j).a 1).key =
      if i = 1 ∨ j = 1 then some 1 else h.pos (h.a 1).key := by
  have hk : (h.a i).key ≠ (h.a j).key := fun e => hij (ki.nodup i j hi.1 hi.2 hj.1 hj.2 e)
  rw [swap_pos h hij, swap_a]
  by_cases h1j : 1 = j
  · subst h1j; simp
  · by_cases h1i : 1 = i
    · subst h1i
      simp [h1j, Ne.symm hk]
    · have e1 : (h.a 1).key ≠ (h.a i).key :=
        fun e => h1i (ki.nodup 1 i (le_refl 1) (by omega) hi.1 hi.2 e)
      have e2 : (h.a 1).key ≠ (h.a j).key :=
        fun e => h1j (ki.nodup 1 j (le_refl 1) (by omega) hj.1 hj.2 e)
      simp [h1j, h1i, e1, e2, Ne.symm h1i, Ne.symm h1j]

theorem swap_keyInv (h : MaxHeap K V) (ki : KeyInv h) {i j : Nat} (hi : 1 ≤ i ∧ i ≤ h.size)
    (hj : 1 ≤ j ∧ j ≤ h.size) (hij : i ≠ j) : KeyInv (h.swap i j) := by
  have hk : (h.a i).key ≠ (h.a j).key := fun e => hij (ki.nodup i j hi.1 hi.2 hj.1 hj.2 e)
  have hσ : ∀ t, (h.swap i j).a t = h.a (if t = j then i else if t = i then j else t) := by
    intro t; rw [swap_a]; split_ifs <;> rfl
  have hσr : ∀ t, 1 ≤ t → t ≤ h.size →
      1 ≤ (if t = j then i else if t = i then j else t) ∧
      (if t = j then i else if t = i then j else t) ≤ h.size := by
    intro t h1 h2; split_ifs
    · exact hi
    · exact hj
    · exact ⟨h1, h2⟩
  constructor
  · intro t t' h1 h2 h1' h2' e
    rw [swap_size] at h2 h2'
    rw [hσ, hσ] at e
    have := ki.nodup _ _ (hσr t h1 h2).1 (hσr t h1 h2).2 (hσr t' h1' h2').1 (hσr t' h1' h2').2 e
    split_ifs at this <;> omega
  · intro t h1 h2
    rw [swap_size] at h2
    rw [swap_pos h hij, swap_a]
    by_cases htj : t = j
    · subst htj; simp
    · by_cases hti : t = i
      · subst hti; simp [htj, Ne.symm hk]
      · have e1 : (h.a t).key ≠ (h.a i).key :=
          fun e => hti (ki.nodup t i (by omega) h2 hi.1 hi.2 e)
        have e2 : (h.a t).key ≠ (h.a j).key :=
          fun e => htj (ki.nodup t j (by omega) h2 hj.1 hj.2 e)
        simp [htj, hti, e1, e2, ki.exact t h1 h2]
  · intro hs
    rw [swap_size] at hs
    rw [swap_root_pos h ki hi hj hij]
    by_cases h1 : i = 1 ∨ j = 1
    · rw [if_pos h1]; exact ⟨1, rfl, Or.inl rfl⟩
    · rw [if_neg h1]
      obtain ⟨i0, hp, hc⟩ := ki.root hs
      refine ⟨i0, hp, ?_⟩
      rcases hc with hc | hc | ⟨hc1, hc2, hc3⟩
      · exact Or.inl hc
      · exact Or.inr (Or.inl hc)
      · refine Or.inr (Or.inr ⟨hc1, hc2, ?_⟩)
        rw [swap_a, swap_a]
        have a1 : i0 ≠ j := by omega
        have a2 : i0 ≠ i := by omega
        have a3 : (1 : Nat) ≠ j := fun e => h1 (Or.inr e.symm)
        have a4 : (1 : Nat) ≠ i := fun e => h1 (Or.inl e.symm)
        simp [a1, a2, a3, a4, hc3]
  · intro k hk'
    have hnot : ∀ t, 1 ≤ t → t ≤ h.size → (h.a t).key ≠ k := by
      intro t h1 h2
      have := hk' (if t = j then i else if t = i then j else t) (hσr t h1 h2).1 (hσr t h1 h2).2
      rw [hσ] at this
      convert this using 3
      split_ifs <;> first | rfl | omega
    rw [swap_pos h hij]
    have e1 : k ≠ (h.a i).key := fun e => hnot i hi.1 hi.2 e.symm
    have e2 : k ≠ (h.a j).key := fun e => hnot j hj.1 hj.2 e.symm
    simp [e1, e2, ki.absent k hnot]

theorem swap_rootExact (h : MaxHeap K V) (ki : KeyInv h) {i j : Nat} (hi : 1 ≤ i ∧ i ≤ h.size)
    (hj : 1 ≤ j ∧ j ≤ h.size) (hij : i ≠ j) (hr : i = 1 ∨ j = 1 ∨ RootExact h) :
    RootExact (h.swap i j) := by
  intro hs
  rw [swap_root_pos h ki hi hj hij]
  by_cases h1 : i = 1 ∨ j = 1
  · rw [if_pos h1]
  · rw [if_neg h1]
    rcases hr with hr | hr | hr
    · exact absurd (Or.inl hr) h1
    · exact absurd (Or.inr hr) h1
    · exact hr hs

theorem swap_staleNear (h : MaxHeap K V) (ki : KeyInv h) {i j : Nat} (hi : 1 ≤ i ∧ i ≤ h.size)
    (hj : 1 ≤ j ∧ j ≤ h.size) (hij : i ≠ j) (hn : StaleNear h) : StaleNear (h.swap i j) := by
  intro hs i0 hp
  rw [swap_size] at hs
  rw [swap_root_pos h ki hi hj hij] at hp
  rw [swap_size]
  by_cases h1 : i = 1 ∨ j = 1
  · rw [if_pos h1] at hp
    have : i0 = 1 := by injection hp with hp; exact hp.symm
    omega
  · rw [if_neg h1] at hp
    exact hn hs i0 hp

theorem upInv_swap {lt : V → V → Bool} (o : StrictOrd lt) {h : MaxHeap K V} {i : Nat}
    (hi : 2 ≤ i) (hlt : lt (h.a (i / 2)).value (h.a i).value = true) (u : UpInv lt h i) :
    UpInv lt (h.swap i (i / 2)) (i / 2) := by
  obtain ⟨u1, u2⟩ := u
  have hne : i ≠ i / 2 := by omega
  constructor
  · intro j hj1 hj2 hji
    rw [swap_size] at hj2
    rw [swap_a, swap_a]
    by_cases hj : j = i
    · subst hj
      simp only [if_neg hne, if_pos rfl]
      exact o.asymm hlt
    · have hjp : j / 2 ≠ i / 2 ∨ j / 2 = i / 2 := by omega
      by_cases hp : j / 2 = i
      · rw [if_neg (by omega : ¬ j / 2 = i / 2), if_pos hp, if_neg hji, if_neg hj]
        exact u2 j hj1 hj2 hp hi
      · by_cases hp' : j / 2 = i / 2
        · rw [if_pos hp', if_neg hji, if_neg hj]
          have h1 := u1 j hj1 hj2 hj
          rw [hp'] at h1
          exact o.neg_trans _ _ _ (o.asymm hlt) h1
        · rw [if_neg hp', if_neg hp, if_neg hji, if_neg hj]
          exact u1 j hj1 hj2 hj
  · intro c hc1 hc2 hcp hi2
    rw [swap_size] at hc2
    rw [swap_a, swap_a]
    have hgp : i / 2 / 2 ≠ i / 2 := by omega
    have hgp' : i / 2 / 2 ≠ i := by omega
    rw [if_neg hgp, if_neg hgp']
    have hpar := u1 (i / 2) hi2 (by omega) (by omega)
    by_cases hc : c = i
    · subst hc
      rw [if_neg hne, if_pos rfl]
      exact hpar
    · rw [if_neg (by omega : ¬ c = i / 2), if_neg hc]
      have h1 := u1 c hc1 hc2 hc
      rw [hcp] at h1
      exact o.neg_trans _ _ _ hpar h1

theorem up_heap_loop_inv (lt : V → V → Bool) (o : StrictOrd lt) :
    ∀ (fuel : Nat) (h : MaxHeap K V) (i : Nat), KeyInv h → i ≤ h.size →
      KeyInv (up_heap_loop lt fuel h i) ∧ RegionPerm h (up_heap_loop lt fuel h i) ∧
      (StaleNear h → StaleNear (up_heap_loop lt fuel h i)) ∧
      (RootExact h → RootExact (up_heap_loop lt fuel h i)) ∧
      (UpInv lt h i → i ≤ fuel → HeapOrd lt (up_heap_loop lt fuel h i)) := by
  intro fuel
  induction fuel with
  | zero =>
    intro h i ki _
    refine ⟨ki, RegionPerm.perm_refl h, id, id, ?_⟩
    intro u hf j hj1 hj2
    exact u.1 j hj1 hj2 (by omega)
  | succ fuel ih =>
    intro h i ki hi
    simp only [up_heap_loop]
    split
    · rename_i hc
      have hi1 : 1 ≤ i ∧ i ≤ h.size := ⟨by omega, hi⟩
      have hp1 : 1 ≤ i / 2 ∧ i / 2 ≤ h.size := ⟨by omega, by omega⟩
      have hne : i ≠ i / 2 := by omega
      have ki' := swap_keyInv h ki hi1 hp1 hne
      obtain ⟨k1, k2, k3, k4, k5⟩ := ih (h.swap i (i / 2)) (i / 2) ki' hp1.2
      refine ⟨k1, (swap_regionPerm h hi1 hp1).perm_trans k2, ?_, ?_, ?_⟩
      · intro hn; exact k3 (swap_staleNear h ki hi1 hp1 hne hn)
      · intro hr; exact k4 (swap_rootExact h ki hi1 hp1 hne (Or.inr (Or.inr hr)))
      · intro u hf
        exact k5 (upInv_swap o (by omega) hc.2 u) (by omega)
    · rename_i hc
      refine ⟨ki, RegionPerm.perm_refl h, id, id, ?_⟩
      intro u _ j hj1 hj2
      by_cases hji : j = i
      · subst hji
        cases hlt : lt (h.a (j / 2)).value (h.a j).value with
        | false => rfl
        | true => exact absurd ⟨by omega, hlt⟩ hc
      · exact u.1 j hj1 hj2 hji

theorem down_heap_child_cases (lt : V → V → Bool) (h : MaxHeap K V) (i : Nat)
    (hs : 2 * i ≤ h.size) :
    (down_heap_child lt h i = 2 * i ∨ down_heap_child lt h i = 2 * i + 1) ∧
    down_heap_child lt h i ≤ h.size := by
  unfold down_heap_child
  split_ifs with hc
  · exact ⟨Or.inr rfl, hc.1⟩
  · exact ⟨Or.inl rfl, hs⟩

/-- The child chosen by `down_heap` is not below the other child. -/
theorem down_heap_child_max {lt : V → V → Bool} (o : StrictOrd lt) (h : MaxHeap K V) (i : Nat)
    (c : Nat) (hc2 : c ≤ h.size) (hcp : c / 2 = i) (_hi : 1 ≤ i) :
    lt (h.a (down_heap_child lt h i)).value (h.a c).value = false := by
  have hcc : c = 2 * i ∨ c = 2 * i + 1 := by omega
  unfold down_heap_child
  split_ifs with hcond
  · rcases hcc with hcc | hcc
    · rw [hcc]; exact o.asymm hcond.2
    · rw [hcc]; exact o.irrefl _
  · rcases hcc with hcc | hcc
    · rw [hcc]; exact o.irrefl _
    · rw [hcc]
      cases hlt : lt (h.a (2 * i)).value (h.a (2 * i + 1)).value with
      | false => rfl
      | true => exact absurd ⟨by omega, hlt⟩ hcond

theorem downInv_swap {lt : V → V → Bool} (o : StrictOrd lt) {h : MaxHeap K V} {i : Nat}
    (hi : 1 ≤ i) (hs : 2 * i ≤ h.size)
    (hge : lt (h.a (down_heap_child lt h i)).value (h.a i).value = false) (d : DownInv lt h i) :
    DownInv lt (h.swap i (down_heap_child lt h i)) (down_heap_child lt h i) := by
  obtain ⟨d1, d2⟩ := d
  obtain ⟨hcc, hcs⟩ := down_heap_child_cases lt h i hs
  have hmax := fun c hc2 hcp => down_heap_child_max o h i c hc2 hcp hi
  generalize down_heap_child lt h i = ch at hcc hcs hmax hge ⊢
  have hcp : ch / 2 = i := by omega
  have hne : i ≠ ch := by omega
  constructor
  · intro j hj1 hj2 hjp
    rw [swap_size] at hj2
    rw [swap_a, swap_a]
    by_cases hji : j = i
    · subst hji
      have hi2 : 2 ≤ j := hj1
      rw [if_neg (by omega : ¬ j / 2 = ch), if_neg (by omega : ¬ j / 2 = j), if_neg hne,
        if_pos rfl]
      exact d2 ch (by omega) hcs hcp hi2
    · by_cases hjc : j = ch
      · subst hjc
        rw [hcp, if_neg hne, if_pos rfl, if_pos rfl]
        exact hge
      · by_cases hpi : j / 2 = i
        · rw [if_neg hjp, if_pos hpi, if_neg hjc, if_neg hji]
          exact hmax j hj2 hpi
        · rw [if_neg hjp, if_neg hpi, if_neg hjc, if_neg hji]
          exact d1 j hj1 hj2 hpi
  · intro c hc1 hc2 hcpar _
    rw [swap_size] at hc2
    rw [swap_a, swap_a, hcp]
    rw [if_neg hne, if_pos rfl, if_neg (by omega : ¬ c = ch), if_neg (by omega : ¬ c = i)]
    have h1 := d1 c hc1 hc2 (by omega)
    rw [hcpar] at h1
    exact h1

theorem downInv_stop {lt : V → V → Bool} (o : StrictOrd lt) {h : MaxHeap K V} {i : Nat}
    (hi : 1 ≤ i) (d : DownInv lt h i)
    (hstop : h.size < 2 * i ∨ lt (h.a (down_heap_child lt h i)).value (h.a i).value = true) :
    HeapOrd lt h := by
  intro j hj1 hj2
  by_cases hjp : j / 2 = i
  · rcases hstop with hstop | hstop
    · omega
    · rw [hjp]
      have h1 := down_heap_child_max o h i j hj2 hjp hi
      exact o.neg_trans _ _ _ (o.asymm hstop) h1
  · exact d.1 j hj1 hj2 hjp

theorem down_heap_loop_inv (lt : V → V → Bool) (o : StrictOrd lt) :
    ∀ (fuel : Nat) (h : MaxHeap K V) (i : Nat), KeyInv h → 1 ≤ i →
      KeyInv (down_heap_loop lt fuel h i) ∧ RegionPerm h (down_heap_loop lt fuel h i) ∧
      (StaleNear h → StaleNear (down_heap_loop lt fuel h i)) ∧
      (RootExact h → RootExact (down_heap_loop lt fuel h i)) ∧
      (DownInv lt h i → h.size < fuel + i → HeapOrd lt (down_heap_loop lt fuel h i)) := by
  intro fuel
  induction fuel with
  | zero =>
    intro h i ki hi
    simp only [down_heap_loop]
    refine ⟨ki, RegionPerm.perm_refl h, id, id, ?_⟩
    intro d hf
    exact downInv_stop o hi d (Or.inl (by omega))
  | succ fuel ih =>
    intro h i ki hi
    simp only [down_heap_loop]
    split
    · rename_i hs
      split
      · rename_i hlt
        refine ⟨ki, RegionPerm.perm_refl h, id, id, ?_⟩
        intro d _
        exact downInv_stop o hi d (Or.inr hlt)
      · rename_i hlt
        have hge : lt (h.a (down_heap_child lt h i)).value (h.a i).value = false := by
          cases hv : lt (h.a (down_heap_child lt h i)).value (h.a i).value with
          | false => rfl
          | true => exact absurd hv hlt
        obtain ⟨hcc, hcs⟩ := down_heap_child_cases lt h i hs
        have hi1 : 1 ≤ i ∧ i ≤ h.size := ⟨hi, by omega⟩
        have hc1 : 1 ≤ down_heap_child lt h i ∧ down_heap_child lt h i ≤ h.size :=
          ⟨by omega, hcs⟩
        have hne : i ≠ down_heap_child lt h i := by omega
        have ki' := swap_keyInv h ki hi1 hc1 hne
        obtain ⟨k1, k2, k3, k4, k5⟩ := ih (h.swap i (down_heap_child lt h i))
          (down_heap_child lt h i) ki' hc1.1
        refine ⟨k1, (swap_regionPerm h hi1 hc1).perm_trans k2, ?_, ?_, ?_⟩
        · intro hn; exact k3 (swap_staleNear h ki hi1 hc1 hne hn)
        · intro hr; exact k4 (swap_rootExact h ki hi1 hc1 hne (Or.inr (Or.inr hr)))
        · intro d hf
          exact k5 (downInv_swap o hi hs hge d) (by rw [swap_size]; omega)
    · rename_i hs
      refine ⟨ki, RegionPerm.perm_refl h, id, id, ?_⟩
      intro d _
      exact downInv_stop o hi d (Or.inl (by omega))

/-- `down_heap(1)` either leaves the heap as it is, in which case the heap has
at most one element or the root is above its greater child, or it ends with
`pos` holding 1 for the key in slot 1. -/
theorem down_heap_root (lt : V → V → Bool) (o : StrictOrd lt) (h : MaxHeap K V) (ki : KeyInv h) :
    (down_heap lt h 1 = h ∧
      (h.size < 2 ∨ lt (h.a (down_heap_child lt h 1)).value (h.a 1).value = true)) ∨
    RootExact (down_heap lt h 1) := by
  unfold down_heap
  cases hsz : h.size with
  | zero => left; exact ⟨rfl, Or.inl (by omega)⟩
  | succ n =>
    simp only [down_heap_loop]
    by_cases hs : 2 * 1 ≤ h.size
    · rw [if_pos (hsz ▸ hs)]
      by_cases hlt : lt (h.a (down_heap_child lt h 1)).value (h.a 1).value = true
      · rw [if_pos hlt]; left; exact ⟨rfl, Or.inr hlt⟩
      · rw [if_neg hlt]
        right
        obtain ⟨hcc, hcs⟩ := down_heap_child_cases lt h 1 hs
        have hi1 : 1 ≤ 1 ∧ 1 ≤ h.size := ⟨le_refl 1, by omega⟩
        have hc1 : 1 ≤ down_heap_child lt h 1 ∧ down_heap_child lt h 1 ≤ h.size :=
          ⟨by omega, hcs⟩
        have hne : 1 ≠ down_heap_child lt h 1 := by omega
        have ki' := swap_keyInv h ki hi1 hc1 hne
        have hr := swap_rootExact h ki hi1 hc1 hne (Or.inl rfl)
        exact (down_heap_loop_inv lt o n (h.swap 1 (down_heap_child lt h 1))
          (down_heap_child lt h 1) ki' hc1.1).2.2.2.1 hr
    · rw [if_neg (hsz ▸ hs)]; left; exact ⟨rfl, Or.inl (by omega)⟩

theorem KeyInv.pos_isSome {h : MaxHeap K V} (ki : KeyInv h) {j : Nat} (h1 : 1 ≤ j)
    (h2 : j ≤ h.size) : ∃ i, h.pos (h.a j).key = some i := by
  by_cases hj : j = 1
  · subst hj
    obtain ⟨i, hi, _⟩ := ki.root h2
    exact ⟨i, hi⟩
  · exact ⟨j, ki.exact j (by omega) h2⟩

theorem KeyInv.mem_of_pos {h : MaxHeap K V} (ki : KeyInv h) {k : K} {i : Nat}
    (hp : h.pos k = some i) : ∃ j, 1 ≤ j ∧ j ≤ h.size ∧ (h.a j).key = k ∧ (j = i ∨ j = 1) := by
  by_contra hc
  have : ∀ j, 1 ≤ j → j ≤ h.size → (h.a j).key ≠ k := by
    intro j h1 h2 hk
    apply hc
    refine ⟨j, h1, h2, hk, ?_⟩
    by_cases hj : j = 1
    · exact Or.inr hj
    · left
      have := ki.exact j (by omega) h2
      rw [hk, hp] at this
      injection this with this
      exact this.symm
  rw [ki.absent k this] at hp
  cases hp

theorem KeyInv.not_mem_of_none {h : MaxHeap K V} (ki : KeyInv h) {k : K} (hp : h.pos k = none)
    (j : Nat) (h1 : 1 ≤ j) (h2 : j ≤ h.size) : (h.a j).key ≠ k := by
  intro hk
  obtain ⟨i, hi⟩ := ki.pos_isSome h1 h2
  rw [hk, hp] at hi
  cases hi

theorem insert_noop (lt : V → V → Bool) (h : MaxHeap K V) (key : K) (value : V) {i : Nat}
    (hp : h.pos key = some i) : h.insert lt key value = h := by
  unfold insert has_key
  simp [hp]

theorem insert_inv_aux (lt : V → V → Bool) (o : StrictOrd lt) (h h1 : MaxHeap K V)
    (hi : HeapInv lt h) (key : K) (value : V) (hnew : h.pos key = none)
    (hsz : h1.size = h.size + 1) (hmx : h1.max_size = h.max_size)
    (ha : ∀ t, h1.a t = if t = h.size + 1 then ⟨key, value⟩ else h.a t)
    (hpos : ∀ k, h1.pos k = if k = key then some (h.size + 1) else h.pos k) :
    HeapInv lt (up_heap lt h1 (h.size + 1)) ∧ (up_heap lt h1 (h.size + 1)).size = h.size + 1 ∧
    (up_heap lt h1 (h.size + 1)).max_size = h.max_size ∧
    (∀ j, 1 ≤ j → j ≤ h.size + 1 → (up_heap lt h1 (h.size + 1)).a j = ⟨key, value⟩ ∨
      ∃ j', 1 ≤ j' ∧ j' ≤ h.size ∧ (up_heap lt h1 (h.size + 1)).a j = h.a j') ∧
    (∃ j, 1 ≤ j ∧ j ≤ h.size + 1 ∧ (up_heap lt h1 (h.size + 1)).a j = ⟨key, value⟩) ∧
    (∀ j', 1 ≤ j' → j' ≤ h.size →
      ∃ j, 1 ≤ j ∧ j ≤ h.size + 1 ∧ (up_heap lt h1 (h.size + 1)).a j = h.a j') := by
  obtain ⟨ki, near, ord⟩ := hi
  have hkn := ki.not_mem_of_none hnew
  have ki1 : KeyInv h1 := by
    constructor
    · intro t t' ht1 ht2 ht1' ht2' e
      rw [hsz] at ht2 ht2'
      rw [ha, ha] at e
      by_cases c1 : t = h.size + 1 <;> by_cases c2 : t' = h.size + 1
      · omega
      · rw [if_pos c1, if_neg c2] at e
        exact absurd e.symm (hkn t' ht1' (by omega))
      · rw [if_neg c1, if_pos c2] at e
        exact absurd e (hkn t ht1 (by omega))
      · rw [if_neg c1, if_neg c2] at e
        exact ki.nodup t t' ht1 (by omega) ht1' (by omega) e
    · intro t ht1 ht2
      rw [hsz] at ht2
      rw [ha, hpos]
      by_cases c1 : t = h.size + 1
      · rw [if_pos c1]; simp [c1]
      · rw [if_neg c1, if_neg (hkn t (by omega) (by omega))]
        exact ki.exact t ht1 (by omega)
    · intro _
      rw [ha, hpos]
      by_cases c1 : 1 = h.size + 1
      · rw [if_pos c1]
        exact ⟨h.size + 1, by simp, Or.inl c1.symm⟩
      · rw [if_neg c1, if_neg (hkn 1 (le_refl 1) (by omega))]
        obtain ⟨i0, hp, hc⟩ := ki.root (by omega)
        refine ⟨i0, hp, ?_⟩
        rw [hsz]
        rcases hc with hc | hc | hc
        · exact Or.inl hc
        · exact Or.inr (Or.inl ⟨hc.1, by omega⟩)
        · exact Or.inr (Or.inl ⟨hc.1, by omega⟩)
    · intro k hk
      rw [hsz] at hk
      rw [hpos]
      have hk1 := hk (h.size + 1) (by omega) (le_refl _)
      rw [ha, if_pos rfl] at hk1
      rw [if_neg (fun e => hk1 e.symm)]
      apply ki.absent
      intro j hj1 hj2
      have := hk j hj1 (by omega)
      rw [ha, if_neg (by omega)] at this
      exact this
  have near1 : StaleNear h1 := by
    intro _ i0 hp
    rw [ha, hpos, hsz] at *
    by_cases c1 : 1 = h.size + 1
    · rw [if_pos c1] at hp
      simp at hp
      omega
    · rw [if_neg c1, if_neg (hkn 1 (le_refl 1) (by omega))] at hp
      have := near (by omega) i0 hp
      omega
  have up1 : UpInv lt h1 (h.size + 1) := by
    constructor
    · intro j hj1 hj2 hjn
      rw [hsz] at hj2
      rw [ha, ha, if_neg (by omega), if_neg hjn]
      exact ord j hj1 (by omega)
    · intro c _ hc2 hcp _
      rw [hsz] at hc2
      omega
  obtain ⟨k1, k2, k3, _, k5⟩ := up_heap_loop_inv lt o (h.size + 1) h1 (h.size + 1) ki1
    (by omega)
  unfold up_heap
  refine ⟨⟨k1, k3 near1, k5 up1 (le_refl _)⟩, by rw [k2.size_eq, hsz], by rw [k2.max_eq, hmx],
    ?_, ?_, ?_⟩
  · intro j hj1 hj2
    obtain ⟨j', h1', h2', e⟩ := k2.fwd j hj1 (by omega)
    rw [e, ha]
    by_cases c1 : j' = h.size + 1
    · left; rw [if_pos c1]
    · right; rw [if_neg c1]; exact ⟨j', h1', by omega, rfl⟩
  · obtain ⟨j, h1', h2', e⟩ := k2.bwd (h.size + 1) (by omega) (by omega)
    refine ⟨j, h1', by omega, ?_⟩
    rw [e, ha, if_pos rfl]
  · intro j' hj1 hj2
    obtain ⟨j, h1', h2', e⟩ := k2.bwd j' hj1 (by omega)
    refine ⟨j, h1', by omega, ?_⟩
    rw [e, ha, if_neg (by omega)]

theorem insert_inv (lt : V → V → Bool) (o : StrictOrd lt) (h : MaxHeap K V)
    (hi : HeapInv lt h) (key : K) (value : V) (hfull : h.size < h.max_size)
    (hnew : h.pos key = none) :
    HeapInv lt (h.insert lt key value) ∧ (h.insert lt key value).size = h.size + 1 ∧
    (h.insert lt key value).max_size = h.max_size ∧
    (∀ j, 1 ≤ j → j ≤ h.size + 1 → (h.insert lt key value).a j = ⟨key, value⟩ ∨
      ∃ j', 1 ≤ j' ∧ j' ≤ h.size ∧ (h.insert lt key value).a j = h.a j') ∧
    (∃ j, 1 ≤ j ∧ j ≤ h.size + 1 ∧ (h.insert lt key value).a j = ⟨key, value⟩) ∧
    (∀ j', 1 ≤ j' → j' ≤ h.size →
      ∃ j, 1 ≤ j ∧ j ≤ h.size + 1 ∧ (h.insert lt key value).a j = h.a j') := by
  unfold insert has_key
  rw [if_neg (by omega), hnew]
  simp only [Option.isSome_none, Bool.false_eq_true, if_false]
  exact insert_inv_aux lt o h _ hi key value hnew rfl rfl (fun _ => rfl) (fun _ => rfl)

theorem keyInv_congr {h h1 : MaxHeap K V} (ki : KeyInv h) (hsz : h1.size = h.size)
    (hpos : h1.pos = h.pos) (hkey : ∀ t, (h1.a t).key = (h.a t).key) : KeyInv h1 := by
  constructor
  · intro j j' h1' h2' h3' h4' e
    rw [hsz] at h2' h4'
    rw [hkey, hkey] at e
    exact ki.nodup j j' h1' h2' h3' h4' e
  · intro j h1' h2'
    rw [hsz] at h2'
    rw [hpos, hkey]; exact ki.exact j h1' h2'
  · intro hs
    rw [hsz] at hs
    obtain ⟨i, hp, hc⟩ := ki.root hs
    refine ⟨i, by rw [hpos, hkey]; exact hp, ?_⟩
    rw [hsz, hkey, hkey]
    exact hc
  · intro k hk
    rw [hpos]
    apply ki.absent
    intro j h1' h2'
    rw [← hkey]
    exact hk j h1' (hsz ▸ h2')

theorem staleNear_congr {h h1 : MaxHeap K V} (hn : StaleNear h) (hsz : h1.size = h.size)
    (hpos : h1.pos = h.pos) (hkey : ∀ t, (h1.a t).key = (h.a t).key) : StaleNear h1 := by
  intro hs i hp
  rw [hsz] at hs ⊢
  rw [hpos, hkey] at hp
  exact hn hs i hp

theorem up_heap_loop_one (lt : V → V → Bool) (n : Nat) (h : MaxHeap K V) :
    up_heap_loop lt n h 1 = h := by
  cases n with
  | zero => rfl
  | succ n => simp [up_heap_loop]

/-- Writing a value that is not smaller into a slot of the heap and running
`up_heap` from that slot keeps the invariant. -/
theorem raise_inv (lt : V → V → Bool) (o : StrictOrd lt) (h h1 : MaxHeap K V)
    (hi : HeapInv lt h) (i : Nat) (value : V) (hi1 : 1 ≤ i) (hi2 : i ≤ h.size)
    (hge : lt value (h.a i).value = false)
    (hsz : h1.size = h.size) (hmx : h1.max_size = h.max_size) (hpos : h1.pos = h.pos)
    (ha : ∀ t, h1.a t = if t = i then ⟨(h.a i).key, value⟩ else h.a t) :
    HeapInv lt (up_heap lt h1 i) ∧ RegionPerm h1 (up_heap lt h1 i) := by
  obtain ⟨ki, near, ord⟩ := hi
  have hkey : ∀ t, (h1.a t).key = (h.a t).key := by
    intro t; rw [ha]; split_ifs with c
    · rw [c]
    · rfl
  have ki1 := keyInv_congr ki hsz hpos hkey
  have near1 := staleNear_congr near hsz hpos hkey
  have up1 : UpInv lt h1 i := by
    constructor
    · intro j hj1 hj2 hji
      rw [hsz] at hj2
      rw [ha, ha, if_neg hji]
      by_cases hp : j / 2 = i
      · rw [if_pos hp]
        have := ord j hj1 hj2
        rw [hp] at this
        exact o.neg_trans _ _ _ hge this
      · rw [if_neg hp]; exact ord j hj1 hj2
    · intro c hc1 hc2 hcp hi2'
      rw [hsz] at hc2
      rw [ha, ha, if_neg (by omega), if_neg (by omega)]
      have h1' := ord c hc1 hc2
      have h2' := ord i hi2' hi2
      rw [hcp] at h1'
      exact o.neg_trans _ _ _ h2' h1'
  obtain ⟨k1, k2, k3, _, k5⟩ := up_heap_loop_inv lt o i h1 i ki1 (by omega)
  exact ⟨⟨k1, k3 near1, k5 up1 (le_refl _)⟩, k2⟩

/-- `increase_key` for the key of slot 1 when `pos` holds for it the index
`size + 1` of a slot with a copy of that key: the write goes to the copy, and
`up_heap` exchanges it with slot 1 when the new value is greater. -/
theorem stale_raise_inv (lt : V → V → Bool) (o : StrictOrd lt) (h h1 : MaxHeap K V)
    (hi : HeapInv lt h) (i : Nat) (value : V) (hs : 1 ≤ h.size) (hi1 : i = h.size + 1)
    (hi3 : i ≤ 3) (hk : (h.a i).key = (h.a 1).key) (hp : h.pos (h.a 1).key = some i)
    (hsz : h1.size = h.size) (hmx : h1.max_size = h.max_size) (hpos : h1.pos = h.pos)
    (ha : ∀ t, h1.a t = if t = i then ⟨(h.a i).key, value⟩ else h.a t) :
    HeapInv lt (up_heap lt h1 i) ∧ (up_heap lt h1 i).size = h.size ∧
    (up_heap lt h1 i).max_size = h.max_size ∧
    (∀ t, 2 ≤ t → t ≤ h.size → (up_heap lt h1 i).a t = h.a t) ∧
    ((up_heap lt h1 i).a 1).key = (h.a 1).key ∧
    (((up_heap lt h1 i).a 1).value = (h.a 1).value ∨
      (((up_heap lt h1 i).a 1).value = value ∧ lt value (h.a 1).value = false)) := by
  obtain ⟨ki, near, ord⟩ := hi
  have hkey : ∀ t, (h1.a t).key = (h.a t).key := by
    intro t; rw [ha]; split_ifs with c
    · rw [c]
    · rfl
  have ki1 := keyInv_congr ki hsz hpos hkey
  have near1 := staleNear_congr near hsz hpos hkey
  have hi2 : i / 2 = 1 := by omega
  have hne : i ≠ 1 := by omega
  obtain ⟨n, hn⟩ : ∃ n, i = n + 1 := ⟨i - 1, by omega⟩
  unfold up_heap
  rw [show up_heap_loop lt i h1 i = up_heap_loop lt (n + 1) h1 i by rw [← hn]]
  simp only [up_heap_loop]
  rw [hi2, ha 1, if_neg (Ne.symm hne), ha i, if_pos rfl]
  by_cases hlt : lt (h.a 1).value value = true
  · rw [if_pos ⟨by omega, hlt⟩, up_heap_loop_one]
    have hge := o.asymm hlt
    have ha' : ∀ t, (h1.swap i 1).a t
        = if t = 1 then ⟨(h.a 1).key, value⟩ else if t = i then h.a 1 else h.a t := by
      intro t
      rw [swap_a, ha i, if_pos rfl, ha 1, if_neg (Ne.symm hne), hk, ha t]
      split_ifs <;> rfl
    have hpos' : ∀ k, (h1.swap i 1).pos k
        = if k = (h.a 1).key then some 1 else h.pos k := by
      intro k
      rw [swap_pos h1 hne, hkey, hkey, hk, hpos]
      split_ifs <;> rfl
    refine ⟨⟨?_, ?_, ?_⟩, hsz, hmx, ?_, ?_, ?_⟩
    · constructor
      · intro j j' h1' h2' h3' h4' e
        rw [swap_size, hsz] at h2' h4'
        have hkj : ∀ t, t ≤ h.size → ((h1.swap i 1).a t).key = (h.a t).key := by
          intro t ht
          rw [ha']; split_ifs with c1 c2
          · rw [c1]
          · omega
          · rfl
        rw [hkj j h2', hkj j' h4'] at e
        exact ki.nodup j j' h1' h2' h3' h4' e
      · intro j h1' h2'
        rw [swap_size, hsz] at h2'
        rw [ha', if_neg (by omega), if_neg (by omega), hpos']
        rw [if_neg (fun e => by
          have := ki.nodup j 1 (by omega) h2' (le_refl 1) hs e; omega)]
        exact ki.exact j h1' h2'
      · intro _
        refine ⟨1, ?_, Or.inl rfl⟩
        rw [ha', if_pos rfl, hpos', if_pos rfl]
      · intro k hk'
        rw [swap_size, hsz] at hk'
        have hk1 := hk' 1 (le_refl 1) hs
        rw [ha', if_pos rfl] at hk1
        rw [hpos', if_neg (fun e => hk1 e.symm)]
        apply ki.absent
        intro j h1' h2'
        by_cases hj : j = 1
        · subst hj; exact hk1
        · have := hk' j h1' h2'
          rw [ha', if_neg hj, if_neg (by omega)] at this
          exact this
    · intro _ i0 hp0
      rw [ha', if_pos rfl, hpos', if_pos rfl] at hp0
      injection hp0 with hp0
      rw [swap_size, hsz]; omega
    · intro j hj1 hj2
      rw [swap_size, hsz] at hj2
      have e2 : (h1.swap i 1).a j = h.a j := by
        rw [ha', if_neg (by omega), if_neg (by omega)]
      rw [e2]
      by_cases hp1 : j / 2 = 1
      · have e1 : (h1.swap i 1).a (j / 2) = ⟨(h.a 1).key, value⟩ := by rw [ha', if_pos hp1]
        rw [e1]
        have := ord j hj1 hj2
        rw [hp1] at this
        exact o.neg_trans _ _ _ hge this
      · have e1 : (h1.swap i 1).a (j / 2) = h.a (j / 2) := by
          rw [ha', if_neg hp1, if_neg (by omega)]
        rw [e1]
        exact ord j hj1 hj2
    · intro t ht1 ht2
      rw [ha', if_neg (by omega), if_neg (by omega)]
    · rw [ha', if_pos rfl]
    · right; rw [ha', if_pos rfl]; exact ⟨rfl, hge⟩
  · rw [if_neg (fun c => hlt c.2)]
    refine ⟨⟨ki1, near1, ?_⟩, hsz, hmx, ?_, ?_, ?_⟩
    · intro j hj1 hj2
      rw [hsz] at hj2
      rw [ha, ha, if_neg (by omega), if_neg (by omega)]
      exact ord j hj1 hj2
    · intro t _ ht2
      rw [ha, if_neg (by omega)]
    · rw [ha, if_neg (by omega)]
    · left; rw [ha, if_neg (by omega)]

/-- Effect of `increase_key(key, value)`: the invariant is kept, the heap holds
the same keys, and a value in the heap is either unchanged or is `value`,
written over a value that was not greater. -/
theorem increase_key_inv (lt : V → V → Bool) (o : StrictOrd lt) (h : MaxHeap K V)
    (hi : HeapInv lt h) (key : K) (value : V) :
    HeapInv lt (h.increase_key lt key value) ∧ (h.increase_key lt key value).size = h.size ∧
    (h.increase_key lt key value).max_size = h.max_size ∧
    (∀ j, 1 ≤ j → j ≤ h.size → ∃ j', 1 ≤ j' ∧ j' ≤ h.size ∧
      ((h.increase_key lt key value).a j).key = (h.a j').key ∧
      (((h.increase_key lt key value).a j).value = (h.a j').value ∨
        (((h.increase_key lt key value).a j).value = value ∧
          lt value (h.a j').value = false))) ∧
    (∀ j', 1 ≤ j' → j' ≤ h.size → ∃ j, 1 ≤ j ∧ j ≤ h.size ∧
      ((h.increase_key lt key value).a j).key = (h.a j').key) := by
  have hsame : HeapInv lt h ∧ h.size = h.size ∧ h.max_size = h.max_size ∧
      (∀ j, 1 ≤ j → j ≤ h.size → ∃ j', 1 ≤ j' ∧ j' ≤ h.size ∧ (h.a j).key = (h.a j').key ∧
        ((h.a j).value = (h.a j').value ∨
          ((h.a j).value = value ∧ lt value (h.a j').value = false))) ∧
      (∀ j', 1 ≤ j' → j' ≤ h.size → ∃ j, 1 ≤ j ∧ j ≤ h.size ∧ (h.a j).key = (h.a j').key) :=
    ⟨hi, rfl, rfl, fun j h1 h2 => ⟨j, h1, h2, rfl, Or.inl rfl⟩, fun j h1 h2 => ⟨j, h1, h2, rfl⟩⟩
  unfold increase_key
  cases hp : h.pos key with
  | none => exact hsame
  | some i =>
    simp only
    by_cases hlt : lt value (h.a i).value = true
    · rw [if_pos hlt]; exact hsame
    · rw [if_neg hlt]
      have hge : lt value (h.a i).value = false := by
        cases hv : lt value (h.a i).value with
        | false => rfl
        | true => exact absurd hv hlt
      have hcase : (1 ≤ i ∧ i ≤ h.size) ∨
          (1 ≤ h.size ∧ i = h.size + 1 ∧ i ≤ 3 ∧ (h.a i).key = (h.a 1).key ∧
            h.pos (h.a 1).key = some i) := by
        obtain ⟨j0, hj1, hj2, hjk, hji⟩ := hi.keys.mem_of_pos hp
        rcases hji with hji | hji
        · left; rw [← hji]; exact ⟨hj1, hj2⟩
        · subst hji
          obtain ⟨i0, hp0, hc⟩ := hi.keys.root hj2
          rw [hjk, hp] at hp0
          injection hp0 with hp0
          subst hp0
          rcases hc with hc | hc | hc
          · left; omega
          · left; omega
          · right
            have := hi.near hj2 i (by rw [hjk]; exact hp)
            exact ⟨hj2, hc.2.1, by omega, hc.2.2, by rw [hjk]; exact hp⟩
      rcases hcase with ⟨hi1, hi2⟩ | ⟨hs, hi1, hi3, hk, hp1⟩
      · obtain ⟨hinv, hperm⟩ := raise_inv lt o h
          ({ h with a := setA h.a i ⟨(h.a i).key, value⟩ }) hi i value hi1 hi2 hge rfl rfl rfl
          (fun t => rfl)
        refine ⟨hinv, hperm.size_eq, hperm.max_eq, ?_, ?_⟩
        · intro j hj1 hj2
          obtain ⟨j', h1', h2', e⟩ := hperm.fwd j hj1 hj2
          refine ⟨j', h1', h2', ?_⟩
          rw [e]
          simp only [setA]
          split_ifs with c
          · subst c; exact ⟨rfl, Or.inr ⟨rfl, hge⟩⟩
          · exact ⟨rfl, Or.inl rfl⟩
        · intro j' hj1 hj2
          obtain ⟨j, h1', h2', e⟩ := hperm.bwd j' hj1 hj2
          refine ⟨j, h1', h2', ?_⟩
          rw [e]
          simp only [setA]
          split_ifs with c
          · subst c; rfl
          · rfl
      · obtain ⟨hinv, hsz, hmx, hrest, hk1, hv1⟩ := stale_raise_inv lt o h
          ({ h with a := setA h.a i ⟨(h.a i).key, value⟩ }) hi i value hs hi1 hi3
          hk hp1 rfl rfl rfl (fun t => rfl)
        have hslot : ∀ j, 1 ≤ j → j ≤ h.size → j = 1 ∨
            (up_heap lt { h with a := setA h.a i ⟨(h.a i).key, value⟩ } i).a j = h.a j := by
          intro j hj1 hj2
          by_cases c : j = 1
          · exact Or.inl c
          · exact Or.inr (hrest j (by omega) hj2)
        refine ⟨hinv, hsz, hmx, ?_, ?_⟩
        · intro j hj1 hj2
          refine ⟨j, hj1, hj2, ?_⟩
          rcases hslot j hj1 hj2 with c | c
          · subst c; exact ⟨hk1, hv1⟩
          · rw [c]; exact ⟨rfl, Or.inl rfl⟩
        · intro j hj1 hj2
          refine ⟨j, hj1, hj2, ?_⟩
          rcases hslot j hj1 hj2 with c | c
          · subst c; exact hk1
          · rw [c]

/-- In heap order slot 1 holds a greatest value. -/
theorem heapOrd_root_max {lt : V → V → Bool} (o : StrictOrd lt) {h : MaxHeap K V}
    (ord : HeapOrd lt h) : ∀ j, 1 ≤ j → j ≤ h.size → lt (h.a 1).value (h.a j).value = false := by
  intro j
  induction j using Nat.strong_induction_on with
  | _ j ih =>
    intro h1 h2
    by_cases hj : j = 1
    · subst hj; exact o.irrefl _
    · have hp := ord j (by omega) h2
      have := ih (j / 2) (by omega) (by omega) (by omega)
      exact o.neg_trans _ _ _ this hp

/-- In heap order every slot from 2 on is below slot 2 or slot 3. -/
theorem heapOrd_ancestor {lt : V → V → Bool} (o : StrictOrd lt) {h : MaxHeap K V}
    (ord : HeapOrd lt h) : ∀ j, 2 ≤ j → j ≤ h.size →
      ∃ c, (c = 2 ∨ c = 3) ∧ c ≤ j ∧ lt (h.a c).value (h.a j).value = false := by
  intro j
  induction j using Nat.strong_induction_on with
  | _ j ih =>
    intro h1 h2
    by_cases hj : j ≤ 3
    · exact ⟨j, by omega, le_refl _, o.irrefl _⟩
    · have hp := ord j (by omega) h2
      obtain ⟨c, hc, hcj, hlt⟩ := ih (j / 2) (by omega) (by omega) (by omega)
      exact ⟨c, hc, by omega, o.neg_trans _ _ _ hlt hp⟩

theorem remove_max_inv_aux (lt : V → V → Bool) (o : StrictOrd lt) (h h1 : MaxHeap K V)
    (hi : HeapInv lt h) (hs : 1 ≤ h.size)
    (hsz : h1.size = h.size - 1) (_hmx : h1.max_size = h.max_size)
    (ha : ∀ t, h1.a t = if t = 1 then h.a h.size else h.a t)
    (hpos : ∀ k, h1.pos k = if k = (h.a 1).key then none else h.pos k) :
    HeapInv lt (down_heap lt h1 1) ∧ RegionPerm h1 (down_heap lt h1 1) := by
  obtain ⟨ki, near, ord⟩ := hi
  have hτ : ∀ t, 1 ≤ t → t ≤ h.size - 1 →
      1 ≤ (if t = 1 then h.size else t) ∧ (if t = 1 then h.size else t) ≤ h.size := by
    intro t h1' h2'; split_ifs <;> omega
  have ha' : ∀ t, h1.a t = h.a (if t = 1 then h.size else t) := by
    intro t; rw [ha]; split_ifs <;> rfl
  have hroot : ∀ t, 2 ≤ t → t ≤ h.size → (h.a t).key ≠ (h.a 1).key := by
    intro t h1' h2' e
    have := ki.nodup t 1 (by omega) h2' (le_refl 1) hs e
    omega
  have ki1 : KeyInv h1 := by
    constructor
    · intro t t' h1' h2' h3' h4' e
      rw [hsz] at h2' h4'
      rw [ha', ha'] at e
      have := ki.nodup _ _ (hτ t h1' h2').1 (hτ t h1' h2').2 (hτ t' h3' h4').1
        (hτ t' h3' h4').2 e
      split_ifs at this <;> omega
    · intro t h1' h2'
      rw [hsz] at h2'
      rw [ha, if_neg (by omega), hpos, if_neg (hroot t h1' (by omega))]
      exact ki.exact t h1' (by omega)
    · intro hs1
      rw [hsz] at hs1
      refine ⟨h.size, ?_, Or.inr (Or.inr ⟨by omega, by omega, ?_⟩)⟩
      · rw [ha, if_pos rfl, hpos, if_neg (hroot h.size (by omega) (le_refl _))]
        exact ki.exact h.size (by omega) (le_refl _)
      · rw [ha, ha, if_pos rfl, if_neg (by omega)]
    · intro k hk
      rw [hsz] at hk
      rw [hpos]
      by_cases hkr : k = (h.a 1).key
      · rw [if_pos hkr]
      · rw [if_neg hkr]
        apply ki.absent
        intro j hj1 hj2
        by_cases c1 : j = 1
        · subst c1; exact fun e => hkr e.symm
        · by_cases c2 : j = h.size
          · have := hk 1 (le_refl 1) (by omega)
            rw [ha, if_pos rfl] at this
            rw [c2]; exact this
          · have := hk j hj1 (by omega)
            rw [ha, if_neg c1] at this
            exact this
  have down1 : DownInv lt h1 1 := by
    constructor
    · intro j hj1 hj2 hjp
      rw [hsz] at hj2
      rw [ha, ha, if_neg (by omega), if_neg (by omega)]
      exact ord j hj1 (by omega)
    · intro c _ _ _ h2; omega
  obtain ⟨k1, k2, _, _, k5⟩ := down_heap_loop_inv lt o h1.size h1 1 ki1 (le_refl 1)
  have hord := k5 down1 (by omega)
  refine ⟨⟨k1, ?_, hord⟩, k2⟩
  rcases down_heap_root lt o h1 ki1 with ⟨hsame, hstop⟩ | hexact
  · rw [hsame]
    intro hs1 i0 hp0
    rw [hsz] at hs1 ⊢
    rw [ha, if_pos rfl, hpos, if_neg (hroot h.size (by omega) (le_refl _)),
      ki.exact h.size (by omega) (le_refl _)] at hp0
    injection hp0 with hp0
    right
    by_contra hbig
    rcases hstop with hstop | hstop
    · omega
    · obtain ⟨c, hc, hcj, hlt⟩ := heapOrd_ancestor o ord h.size (by omega) (le_refl _)
      have hmax := down_heap_child_max o h1 1 c (by omega) (by omega) (le_refl 1)
      rw [ha c, if_neg (by omega)] at hmax
      have := o.neg_trans _ _ _ hmax hlt
      rw [ha 1, if_pos rfl] at hstop
      rw [this] at hstop
      cases hstop
  · intro hs1 i0 hp0
    rw [hexact hs1] at hp0
    injection hp0 with hp0
    omega

/-- Effect of `remove_max()` on a non-empty heap: it returns the key of slot
1, whose value is a greatest one, keeps the invariant and leaves in the heap
the elements of the slots `2..size`. -/
theorem remove_max_inv (lt : V → V → Bool) (o : StrictOrd lt) (h : MaxHeap K V)
    (hi : HeapInv lt h) (hs : 1 ≤ h.size) :
    (h.remove_max lt).1 = (h.a 1).key ∧ HeapInv lt (h.remove_max lt).2 ∧
    (h.remove_max lt).2.size = h.size - 1 ∧ (h.remove_max lt).2.max_size = h.max_size ∧
    (∀ j, 1 ≤ j → j ≤ h.size → lt (h.a 1).value (h.a j).value = false) ∧
    (∀ j, 1 ≤ j → j ≤ h.size - 1 →
      ∃ j', 2 ≤ j' ∧ j' ≤ h.size ∧ (h.remove_max lt).2.a j = h.a j') ∧
    (∀ j', 2 ≤ j' → j' ≤ h.size →
      ∃ j, 1 ≤ j ∧ j ≤ h.size - 1 ∧ (h.remove_max lt).2.a j = h.a j') := by
  unfold remove_max
  rw [if_neg (by omega)]
  simp only
  obtain ⟨hinv, hperm⟩ := remove_max_inv_aux lt o h
    ({ h with pos := fun k => if k = (h.a 1).key then none else h.pos k,
              a := setA h.a 1 (h.a h.size), size := h.size - 1 }) hi hs rfl rfl
    (fun t => rfl) (fun k => rfl)
  refine ⟨trivial, hinv, hperm.size_eq, hperm.max_eq, heapOrd_root_max o hi.ord, ?_, ?_⟩
  · intro j hj1 hj2
    obtain ⟨j', h1', h2', e⟩ := hperm.fwd j hj1 hj2
    have h2'' : j' ≤ h.size - 1 := h2'
    by_cases c : j' = 1
    · refine ⟨h.size, by omega, le_refl _, ?_⟩
      rw [e, c]; simp [setA]
    · refine ⟨j', by omega, by omega, ?_⟩
      rw [e]; simp [setA, c]
  · intro j' hj1 hj2
    by_cases c : j' = h.size
    · obtain ⟨j, h1', h2', e⟩ := hperm.bwd 1 (le_refl 1) (show 1 ≤ h.size - 1 by omega)
      refine ⟨j, h1', h2', ?_⟩
      rw [e, c]; simp [setA]
    · obtain ⟨j, h1', h2', e⟩ := hperm.bwd j' (by omega) (show j' ≤ h.size - 1 by omega)
      refine ⟨j, h1', h2', ?_⟩
      rw [e]; simp only [setA]; rw [if_neg (by omega)]

/-! ## Reachable heaps -/

/-- `insert` keeps the invariant, the capacity and the bound on the size,
whatever the state of the heap. -/
theorem insert_bounded (lt : V → V → Bool) (o : StrictOrd lt) (h : MaxHeap K V)
    (hi : HeapInv lt h) (hb : h.size ≤ h.max_size) (key : K) (value : V) :
    HeapInv lt (h.insert lt key value) ∧ (h.insert lt key value).size ≤ h.max_size ∧
    (h.insert lt key value).max_size = h.max_size := by
  by_cases hfull : h.size = h.max_size
  · have : h.insert lt key value = h := by unfold insert; rw [if_pos hfull]
    rw [this]
    exact ⟨hi, hb, rfl⟩
  · cases hp : h.pos key with
    | some i =>
      rw [insert_noop lt h key value hp]
      exact ⟨hi, hb, rfl⟩
    | none =>
      obtain ⟨h1, h2, h3, _⟩ := insert_inv lt o h hi key value (by omega) hp
      exact ⟨h1, by omega, h3⟩

theorem remove_max_bounded (lt : V → V → Bool) (o : StrictOrd lt) (h : MaxHeap K V)
    (hi : HeapInv lt h) (hb : h.size ≤ h.max_size) :
    HeapInv lt (h.remove_max lt).2 ∧ (h.remove_max lt).2.size ≤ h.max_size ∧
    (h.remove_max lt).2.max_size = h.max_size := by
  by_cases hs : h.size = 0
  · have : h.remove_max lt = (h.KEY_NOT_FOUND, h) := by unfold remove_max; rw [if_pos hs]
    rw [this]
    exact ⟨hi, hb, rfl⟩
  · obtain ⟨_, h1, h2, h3, _⟩ := remove_max_inv lt o h hi (by omega)
    exact ⟨h1, by omega, h3⟩

theorem run_inv (lt : V → V → Bool) (o : StrictOrd lt) :
    ∀ (cs : List (Call K V)) (st : MaxHeap K V × SpecQueue K V),
      HeapInv lt st.1 → st.1.size ≤ st.1.max_size →
      HeapInv lt (run lt st cs).1 ∧ (run lt st cs).1.size ≤ (run lt st cs).1.max_size ∧
      (run lt st cs).1.max_size = st.1.max_size := by
  intro cs
  induction cs with
  | nil => intro st hi hb; exact ⟨hi, hb, rfl⟩
  | cons c cs ih =>
    intro st hi hb
    cases c with
    | insert key value =>
      obtain ⟨h1, h2, h3⟩ := insert_bounded lt o st.1 hi hb key value
      have := ih (st.1.insert lt key value, st.2.insert key value) h1 (by rw [h3]; exact h2)
      simp only [run]
      exact ⟨this.1, this.2.1, this.2.2.trans h3⟩
    | increase_key key value =>
      obtain ⟨h1, h2, h3, _⟩ := increase_key_inv lt o st.1 hi key value
      have := ih (st.1.increase_key lt key value, st.2.increase lt key value) h1
        (by rw [h2, h3]; exact hb)
      simp only [run]
      exact ⟨this.1, this.2.1, this.2.2.trans h3⟩
    | remove_max =>
      obtain ⟨h1, h2, h3⟩ := remove_max_bounded lt o st.1 hi hb
      have := ih ((st.1.remove_max lt).2, st.2.remove (st.1.remove_max lt).1) h1
        (by rw [h3]; exact h2)
      simp only [run]
      exact ⟨this.1, this.2.1, this.2.2.trans h3⟩

/-- Under the key invariant `has_key` answers exactly whether the key is in
one of the slots `1..size`. -/
theorem KeyInv.has_key_iff {h : MaxHeap K V} (ki : KeyInv h) (key : K) :
    h.has_key key = true ↔ h.Present key := by
  unfold has_key Present
  constructor
  · intro hk
    cases hp : h.pos key with
    | none => rw [hp] at hk; cases hk
    | some i =>
      obtain ⟨j, h1, h2, h3, _⟩ := ki.mem_of_pos hp
      exact ⟨j, h1, h2, h3⟩
  · rintro ⟨j, h1, h2, h3⟩
    obtain ⟨i, hi⟩ := ki.pos_isSome h1 h2
    rw [h3] at hi
    rw [hi]
    rfl

theorem KeyInv.card_keys {h : MaxHeap K V} (ki : KeyInv h) :
    ((Finset.Icc 1 h.size).image fun j => (h.a j).key).card = h.size := by
  rw [Finset.card_image_of_injOn]
  · simp
  · intro j hj j' hj'
    simp only [Finset.coe_Icc, Set.mem_Icc] at hj hj'
    exact ki.nodup j j' hj.1 hj.2 hj'.1 hj'.2

end MaxHeap

namespace Graph

/-! ## Arena updates -/

@[simp] theorem setNode_n (g : Graph) (i : Nat) (x : Node) : (g.setNode i x).n = g.n := rfl

@[simp] theorem setNode_m (g : Graph) (i : Nat) (x : Node) : (g.setNode i x).m = g.m := rfl

@[simp] theorem setNode_edges (g : Graph) (i : Nat) (x : Node) :
    (g.setNode i x).edges = g.edges := rfl

theorem setNode_nodes (g : Graph) (i : Nat) (x : Node) (j : Nat) :
    (g.setNode i x).nodes j = if j = i then x else g.nodes j := rfl

@[simp] theorem setNode_nodes_same (g : Graph) (i : Nat) (x : Node) :
    (g.setNode i x).nodes i = x := by simp [setNode]

theorem setNode_nodes_ne (g : Graph) {i j : Nat} (x : Node) (h : j ≠ i) :
    (g.setNode i x).nodes j = g.nodes j := by simp [setNode, h]

@[simp] theorem setFlow_n (g : Graph) (i f : Nat) : (g.setFlow i f).n = g.n := rfl

@[simp] theorem setFlow_m (g : Graph) (i f : Nat) : (g.setFlow i f).m = g.m := rfl

@[simp] theorem setFlow_nodes (g : Graph) (i f : Nat) : (g.setFlow i f).nodes = g.nodes := rfl

theorem setFlow_edges (g : Graph) (i f j : Nat) :
    (g.setFlow i f).edges j = if j = i then { g.edges j with flow := f } else g.edges j := rfl

@[simp] theorem setFlow_origin (g : Graph) (i f j : Nat) :
    ((g.setFlow i f).edges j).origin = (g.edges j).origin := by
  simp only [setFlow_edges]; split <;> rfl

@[simp] theorem setFlow_destination (g : Graph) (i f j : Nat) :
    ((g.setFlow i f).edges j).destination = (g.edges j).destination := by
  simp only [setFlow_edges]; split <;> rfl

@[simp] theorem setFlow_capacity (g : Graph) (i f j : Nat) :
    ((g.setFlow i f).edges j).capacity = (g.edges j).capacity := by
  simp only [setFlow_edges]; split <;> rfl

@[simp] theorem setFlow_duration (g : Graph) (i f j : Nat) :
    ((g.setFlow i f).edges j).duration = (g.edges j).duration := by
  simp only [setFlow_edges]; split <;> rfl

theorem setFlow_flow (g : Graph) (i f j : Nat) :
    ((g.setFlow i f).edges j).flow = if j = i then f else (g.edges j).flow := by
  simp only [setFlow_edges]; split <;> rfl

theorem SameNet.net_refl (g : Graph) : SameNet g g := ⟨rfl, rfl, rfl, fun _ => rfl, fun _ => rfl⟩

theorem SameNet.net_trans {g1 g2 g3 : Graph} (h12 : SameNet g1 g2) (h23 : SameNet g2 g3) :
    SameNet g1 g3 :=
  ⟨h23.n_eq.trans h12.n_eq, h23.m_eq.trans h12.m_eq, h23.edges_eq.trans h12.edges_eq,
   fun v => (h23.out_eq v).trans (h12.out_eq v), fun v => (h23.in_eq v).trans (h12.in_eq v)⟩

theorem SameNet.setNode (g : Graph) (i : Nat) (x : Node)
    (ho : x.outgoing = (g.nodes i).outgoing) (hi : x.incoming = (g.nodes i).incoming) :
    SameNet g (g.setNode i x) := by
  refine ⟨rfl, rfl, rfl, fun v => ?_, fun v => ?_⟩
  · by_cases h : v = i
    · subst h; simp [ho]
    · simp [setNode_nodes_ne g x h]
  · by_cases h : v = i
    · subst h; simp [hi]
    · simp [setNode_nodes_ne g x h]

theorem SameNet.net_wf {g g' : Graph} (h : SameNet g g') (w : g.WF) : g'.WF := by
  have hm := h.m_eq
  have hn := h.n_eq
  have he := h.edges_eq
  constructor
  · intro i hi; rw [he]; exact w.origin_pos i (hm ▸ hi)
  · intro i hi; rw [he, hn]; exact w.origin_le i (hm ▸ hi)
  · intro i hi; rw [he]; exact w.dest_pos i (hm ▸ hi)
  · intro i hi; rw [he, hn]; exact w.dest_le i (hm ▸ hi)
  · intro i hi; rw [he]; exact w.cap_lt i (hm ▸ hi)
  · intro i hi; rw [he]; exact w.dur_lt i (hm ▸ hi)
  · rw [hm]; exact w.m_lt
  · intro v e; rw [h.out_eq, he, hm]; exact w.mem_out v e
  · intro v e; rw [h.in_eq, he, hm]; exact w.mem_in v e
  · intro v; rw [h.out_eq]; exact w.nodup_out v
  · intro v; rw [h.in_eq]; exact w.nodup_in v

theorem SameNet.net_validFlow {g g' : Graph} (h : SameNet g g') (w : g.ValidFlow) : g'.ValidFlow := by
  intro i hi
  rw [h.edges_eq]
  exact w i (h.m_eq ▸ hi)

/-! ## Generic fold lemma -/

theorem foldl_inv_mem {σ α : Type} (J : σ → Prop) (R : σ → α → Prop) (f : σ → α → σ)
    (l : List α)
    (hJ : ∀ st e, e ∈ l → J st → J (f st e))
    (hR1 : ∀ st e, e ∈ l → J st → R (f st e) e)
    (hR2 : ∀ st e e', e' ∈ l → J st → R st e → R (f st e') e) :
    ∀ st, J st → J (l.foldl f st) ∧ ∀ e ∈ l, R (l.foldl f st) e := by
  suffices H : ∀ (l2 : List α), (∀ e ∈ l2, e ∈ l) → ∀ (done : List α) st, J st → (∀ e ∈ done, R st e) →
      J (l2.foldl f st) ∧ ∀ e, (e ∈ done ∨ e ∈ l2) → R (l2.foldl f st) e by
    intro st hst
    have := H l (fun e he => he) [] st hst (by simp)
    exact ⟨this.1, fun e he => this.2 e (Or.inr he)⟩
  intro l2
  induction l2 with
  | nil =>
    intro _ done st hst hdone
    exact ⟨hst, fun e he => by
      rcases he with he | he
      · exact hdone e he
      · simp at he⟩
  | cons a l2 ih =>
    intro hsub done st hst hdone
    have ha : a ∈ l := hsub a (by simp)
    have hsub' : ∀ e ∈ l2, e ∈ l := fun e he => hsub e (by simp [he])
    have := ih hsub' (a :: done) (f st a) (hJ st a ha hst) (by
      intro e he
      rcases List.mem_cons.mp he with rfl | he
      · exact hR1 st e ha hst
      · exact hR2 st e a ha hst (hdone e he))
    refine ⟨this.1, fun e he => this.2 e ?_⟩
    rcases he with he | he
    · exact Or.inl (by simp [he])
    · rcases List.mem_cons.mp he with rfl | he
      · exact Or.inl (by simp)
      · exact Or.inr he

theorem Chain.head_mem {g : Graph} {s x : Nat} {p : List Nat} (h : Chain g s x p) : x ∈ p := by
  cases h <;> simp

theorem Chain.congr_chain {g g' : Graph} {s x : Nat} {p : List Nat} (h : Chain g s x p)
    (hm : g'.m = g.m) (he : g'.edges = g.edges)
    (hn : ∀ z ∈ p, (g'.nodes z).parent = (g.nodes z).parent ∧
      (g'.nodes z).flow_increase = (g.nodes z).flow_increase) :
    Chain g' s x p := by
  induction h with
  | base => exact Chain.base
  | @step x y p hxs hxp hl hc ih =>
    have hx := hn x (by simp)
    have hy := hn y (by simp [hc.head_mem])
    refine Chain.step hxs hxp ?_ (ih (fun z hz => hn z (by simp [hz])))
    unfold Link at hl ⊢
    rw [hx.1, hx.2, hy.2, hm, he]
    exact hl

theorem Link.congr_link {g g' : Graph} {x y : Nat} (h : Link g x y)
    (hm : g'.m = g.m) (he : g'.edges = g.edges)
    (hx : (g'.nodes x).parent = (g.nodes x).parent ∧
      (g'.nodes x).flow_increase = (g.nodes x).flow_increase)
    (hy : (g'.nodes y).flow_increase = (g.nodes y).flow_increase) : Link g' x y := by
  unfold Link at h ⊢
  rw [hx.1, hx.2, hy, hm, he]
  exact h

theorem Chain.chain_fi_le {g : Graph} {s x : Nat} {p : List Nat} (h : Chain g s x p) :
    (g.nodes x).flow_increase ≤ (g.nodes s).flow_increase := by
  induction h with
  | base => exact le_refl _
  | step _ _ hl _ ih => exact le_trans hl.2.2.1 ih

theorem Chain.chain_fi_pos {g : Graph} {s x : Nat} {p : List Nat} (h : Chain g s x p)
    (hs : 0 < (g.nodes s).flow_increase) : 0 < (g.nodes x).flow_increase := by
  cases h with
  | base => exact hs
  | step _ _ hl _ => exact hl.2.1

@[simp] theorem discover_n (g : Graph) (d e fi : Nat) : (discover g d e fi).n = g.n := rfl

@[simp] theorem discover_m (g : Graph) (d e fi : Nat) : (discover g d e fi).m = g.m := rfl

@[simp] theorem discover_edges (g : Graph) (d e fi : Nat) :
    (discover g d e fi).edges = g.edges := rfl

theorem discover_nodes_ne (g : Graph) {d x : Nat} (e fi : Nat) (h : x ≠ d) :
    (discover g d e fi).nodes x = g.nodes x := setNode_nodes_ne g _ h

@[simp] theorem discover_visited (g : Graph) (d e fi x : Nat) :
    ((discover g d e fi).nodes x).visited = (g.nodes x).visited := by
  by_cases h : x = d
  · subst h; simp [discover]
  · rw [discover_nodes_ne g e fi h]

@[simp] theorem discover_parent (g : Graph) (d e fi : Nat) :
    ((discover g d e fi).nodes d).parent = e := by simp [discover]

@[simp] theorem discover_fi (g : Graph) (d e fi : Nat) :
    ((discover g d e fi).nodes d).flow_increase = fi := by simp [discover]

theorem discover_sameNet (g : Graph) (d e fi : Nat) : SameNet g (discover g d e fi) :=
  SameNet.setNode g d _ rfl rfl

/-- A discovery made from a visited node keeps the loop invariant. -/
theorem BfsInv.bfs_disc1 {g0 : Graph} {s curr : Nat} {st st' : Graph × List Nat}
    (h : BfsInv g0 s st.1 st.2) (hc : (st.1.nodes curr).visited = true)
    (hcr : 1 ≤ curr ∧ curr ≤ g0.n) (hd : Disc1 curr st st') :
    BfsInv g0 s st'.1 st'.2 := by
  obtain ⟨d, e, fi, hem, hdv, hd1, hdn, hfi, hfic, hlink, rfl⟩ := hd
  have hne : ∀ z, (st.1.nodes z).visited = true → z ≠ d := by
    intro z hz hzd; subst hzd; rw [hdv] at hz; exact Bool.noConfusion hz
  have hn0 : st.1.n = g0.n := h.same.n_eq
  refine ⟨h.same.net_trans (discover_sameNet _ _ _ _), ?_, ?_, ?_, ?_, ?_⟩
  · simpa using h.s_vis
  · show ((discover st.1 d e fi).nodes s).flow_increase = INF
    rw [discover_nodes_ne _ _ _ (hne s h.s_vis)]; exact h.s_fi
  · intro x hx
    rcases List.mem_append.mp hx with hx | hx
    · exact h.q_rng x hx
    · simp at hx; subst hx; exact ⟨hd1, hn0 ▸ hdn⟩
  · intro x hx1 hxn hxv
    simp only [discover_visited] at hxv
    obtain ⟨p, hp, hpv⟩ := h.chain x hx1 hxn hxv
    refine ⟨p, hp.congr_chain rfl rfl ?_, ?_⟩
    · intro z hz
      rw [discover_nodes_ne _ _ _ (hne z (hpv z hz).1)]; exact ⟨rfl, rfl⟩
    · intro y hy; simpa using hpv y hy
  · intro x hx hxv
    simp only [discover_visited] at hxv
    by_cases hxd : x = d
    · subst hxd
      refine ⟨curr, hcr.1, hcr.2, by simpa using hc, ?_⟩
      have hcd : curr ≠ x := hne curr hc
      unfold Link
      simp only [discover_parent, discover_fi, discover_m, discover_edges]
      rw [discover_nodes_ne _ _ _ hcd]
      exact ⟨hem, hfi, hfic, hlink⟩
    · have hxq : x ∈ st.2 := by
        rcases List.mem_append.mp hx with hx | hx
        · exact hx
        · simp at hx; exact absurd hx hxd
      obtain ⟨y, hy1, hyn, hyv, hl⟩ := h.disc x hxq hxv
      refine ⟨y, hy1, hyn, by simpa using hyv, hl.congr_link rfl rfl ?_ ?_⟩
      · rw [discover_nodes_ne _ _ _ hxd]; exact ⟨rfl, rfl⟩
      · rw [discover_nodes_ne _ _ _ (hne y hyv)]

theorem Mono.mono_refl (st : Graph × List Nat) : Mono st st :=
  ⟨rfl, rfl, rfl, fun _ => rfl, fun _ h => h⟩

theorem Disc1.disc1_mono {curr : Nat} {st st' : Graph × List Nat} (h : Disc1 curr st st') :
    Mono st st' := by
  obtain ⟨d, e, fi, -, -, -, -, -, -, -, rfl⟩ := h
  exact ⟨rfl, rfl, rfl, fun x => by simp, fun x hx => by simp [hx]⟩

theorem ClosedAt.closedAt_mono {st st' : Graph × List Nat} {y : Nat} (h : ClosedAt st.1 st.2 y)
    (hm : Mono st st') : ClosedAt st'.1 st'.2 y := by
  intro e he
  rw [hm.m_eq] at he
  have := h e he
  rw [hm.edges_eq, hm.vis_eq, hm.vis_eq]
  refine ⟨fun h1 h2 => ?_, fun h1 h2 => ?_⟩
  · rcases this.1 h1 h2 with h3 | h3
    · exact Or.inl h3
    · exact Or.inr (hm.q_sub _ h3)
  · rcases this.2 h1 h2 with h3 | h3
    · exact Or.inl h3
    · exact Or.inr (hm.q_sub _ h3)

/-- On a well-formed graph with a valid flow, the body of the loop over the
outgoing edges either changes nothing or makes one discovery. -/
theorem bfs_out_cases {g0 : Graph} (w : g0.WF) (vf : g0.ValidFlow) {curr : Nat}
    {st : Graph × List Nat} (hs : SameNet g0 st.1) {e : Nat}
    (he : e ∈ (g0.nodes curr).outgoing) :
    bfs_out curr st e = st ∨ Disc1 curr st (bfs_out curr st e) := by
  have hem := ((w.mem_out curr e).mp he)
  have hfl := vf e hem.1
  have hcap := w.cap_lt e hem.1
  unfold bfs_out
  simp only
  rw [hs.edges_eq]
  by_cases hv : (st.1.nodes (g0.edges e).destination).visited = true
  · simp [hv]
  · rw [if_neg hv]
    rw [usub_eq_sub hfl hcap]
    by_cases hpos : min (st.1.nodes curr).flow_increase ((g0.edges e).capacity - (g0.edges e).flow) > 0
    · rw [if_pos hpos]
      right
      refine ⟨(g0.edges e).destination, e, _, hs.m_eq ▸ hem.1, by simpa using hv,
        w.dest_pos e hem.1, hs.n_eq ▸ w.dest_le e hem.1, hpos, Nat.min_le_left _ _, ?_, rfl⟩
      left
      rw [hs.edges_eq]
      refine ⟨rfl, hem.2, ?_⟩
      have := Nat.min_le_right (st.1.nodes curr).flow_increase ((g0.edges e).capacity - (g0.edges e).flow)
      omega
    · rw [if_neg hpos]; exact Or.inl rfl

/-- The same for the loop over the incoming edges. -/
theorem bfs_in_cases {g0 : Graph} (w : g0.WF) {curr : Nat}
    {st : Graph × List Nat} (hs : SameNet g0 st.1) {e : Nat}
    (he : e ∈ (g0.nodes curr).incoming) :
    bfs_in curr st e = st ∨ Disc1 curr st (bfs_in curr st e) := by
  have hem := ((w.mem_in curr e).mp he)
  unfold bfs_in
  simp only
  rw [hs.edges_eq]
  by_cases hv : (st.1.nodes (g0.edges e).origin).visited = true
  · simp [hv]
  · rw [if_neg hv]
    by_cases hpos : min (st.1.nodes curr).flow_increase (g0.edges e).flow > 0
    · rw [if_pos hpos]
      right
      refine ⟨(g0.edges e).origin, e, _, hs.m_eq ▸ hem.1, by simpa using hv,
        w.origin_pos e hem.1, hs.n_eq ▸ w.origin_le e hem.1, hpos, Nat.min_le_left _ _, ?_, rfl⟩
      right
      rw [hs.edges_eq]
      exact ⟨rfl, hem.2, Nat.min_le_right _ _⟩
    · rw [if_neg hpos]; exact Or.inl rfl

/-- After the body has run for the outgoing edge `e`, its head is visited or
queued unless the edge is saturated. -/
theorem bfs_out_closes {g0 : Graph} (w : g0.WF) (vf : g0.ValidFlow) {curr : Nat}
    {st : Graph × List Nat} (hs : SameNet g0 st.1) {e : Nat}
    (he : e ∈ (g0.nodes curr).outgoing) (hfi : 0 < (st.1.nodes curr).flow_increase)
    (hlt : (g0.edges e).flow < (g0.edges e).capacity) :
    ((bfs_out curr st e).1.nodes (g0.edges e).destination).visited = true ∨
      (g0.edges e).destination ∈ (bfs_out curr st e).2 := by
  have hem := ((w.mem_out curr e).mp he)
  have hfl := vf e hem.1
  have hcap := w.cap_lt e hem.1
  unfold bfs_out
  simp only
  rw [hs.edges_eq]
  by_cases hv : (st.1.nodes (g0.edges e).destination).visited = true
  · simp [hv]
  · rw [if_neg hv]
    rw [usub_eq_sub hfl hcap]
    have hpos : min (st.1.nodes curr).flow_increase ((g0.edges e).capacity - (g0.edges e).flow) > 0 := by
      apply lt_min hfi; omega
    rw [if_pos hpos]
    right; simp

/-- After the body has run for the incoming edge `e`, its tail is visited or
queued unless the edge carries no flow. -/
theorem bfs_in_closes {g0 : Graph} {curr : Nat}
    {st : Graph × List Nat} (hs : SameNet g0 st.1) {e : Nat}
    (hfi : 0 < (st.1.nodes curr).flow_increase)
    (hlt : 0 < (g0.edges e).flow) :
    ((bfs_in curr st e).1.nodes (g0.edges e).origin).visited = true ∨
      (g0.edges e).origin ∈ (bfs_in curr st e).2 := by
  unfold bfs_in
  simp only
  rw [hs.edges_eq]
  by_cases hv : (st.1.nodes (g0.edges e).origin).visited = true
  · simp [hv]
  · rw [if_neg hv]
    have hpos : min (st.1.nodes curr).flow_increase (g0.edges e).flow > 0 := lt_min hfi hlt
    rw [if_pos hpos]
    right; simp

theorem BfsInv.bfs_fi_pos {g0 g : Graph} {s x : Nat} {q : List Nat} (h : BfsInv g0 s g q)
    (h1 : 1 ≤ x) (hn : x ≤ g0.n) (hv : (g.nodes x).visited = true) :
    0 < (g.nodes x).flow_increase := by
  obtain ⟨p, hp, -⟩ := h.chain x h1 hn hv
  exact hp.chain_fi_pos (by rw [h.s_fi]; decide)

theorem BfsInv.bfs_fi_le {g0 g : Graph} {s x : Nat} {q : List Nat} (h : BfsInv g0 s g q)
    (h1 : 1 ≤ x) (hn : x ≤ g0.n) (hv : (g.nodes x).visited = true) :
    (g.nodes x).flow_increase ≤ INF := by
  obtain ⟨p, hp, -⟩ := h.chain x h1 hn hv
  exact h.s_fi ▸ hp.chain_fi_le

theorem ScanInv.scan_disc1 {g0 : Graph} {s curr : Nat} {st st' : Graph × List Nat}
    (h : ScanInv g0 s curr st) (hcr : 1 ≤ curr ∧ curr ≤ g0.n) (hd : Disc1 curr st st') :
    ScanInv g0 s curr st' := by
  have hm := hd.disc1_mono
  refine ⟨h.inv.bfs_disc1 h.cur hcr hd, by rw [hm.vis_eq]; exact h.cur, ?_⟩
  intro y h1 hn hv hne
  rw [hm.vis_eq] at hv
  exact (h.others y h1 hn hv hne).closedAt_mono hm

/-- Marking the dequeued node visited. -/
theorem ScanInv.start {g0 g : Graph} {s curr : Nat} {rest : List Nat}
    (h : BfsInv g0 s g (curr :: rest)) (hc : Closed g (curr :: rest)) :
    ScanInv g0 s curr (g.setNode curr { g.nodes curr with visited := true }, rest) := by
  have hn0 : g.n = g0.n := h.same.n_eq
  have hcr := h.q_rng curr (by simp)
  -- fields other than `visited` are untouched
  have hpar : ∀ z, ((g.setNode curr { g.nodes curr with visited := true }).nodes z).parent
      = (g.nodes z).parent ∧
      ((g.setNode curr { g.nodes curr with visited := true }).nodes z).flow_increase
      = (g.nodes z).flow_increase := by
    intro z
    by_cases hz : z = curr
    · subst hz; simp
    · rw [setNode_nodes_ne g _ hz]; exact ⟨rfl, rfl⟩
  have hvis : ∀ z, (g.nodes z).visited = true →
      ((g.setNode curr { g.nodes curr with visited := true }).nodes z).visited = true := by
    intro z hz
    by_cases hzc : z = curr
    · subst hzc; simp
    · rw [setNode_nodes_ne g _ hzc]; exact hz
  have hvis' : ∀ z, ((g.setNode curr { g.nodes curr with visited := true }).nodes z).visited = true →
      z = curr ∨ (g.nodes z).visited = true := by
    intro z hz
    by_cases hzc : z = curr
    · exact Or.inl hzc
    · rw [setNode_nodes_ne g _ hzc] at hz; exact Or.inr hz
  have hchain : ∀ x, 1 ≤ x → x ≤ g0.n → (g.nodes x).visited = true →
      ∃ p, Chain (g.setNode curr { g.nodes curr with visited := true }) s x p ∧
        ∀ y ∈ p, ((g.setNode curr { g.nodes curr with visited := true }).nodes y).visited = true
          ∧ 1 ≤ y ∧ y ≤ g0.n := by
    intro x h1 hn hv
    obtain ⟨p, hp, hpv⟩ := h.chain x h1 hn hv
    exact ⟨p, hp.congr_chain rfl rfl (fun z _ => hpar z),
      fun y hy => ⟨hvis y (hpv y hy).1, (hpv y hy).2⟩⟩
  refine ⟨⟨h.same.net_trans (SameNet.setNode g curr _ rfl rfl), hvis s h.s_vis, ?_, ?_, ?_, ?_⟩,
    by simp, ?_⟩
  · rw [(hpar s).2]; exact h.s_fi
  · intro x hx; exact h.q_rng x (by simp [hx])
  · intro x h1 hn hv
    rcases hvis' x hv with rfl | hv'
    · by_cases hv0 : (g.nodes x).visited = true
      · exact hchain x h1 hn hv0
      · have hv0' : (g.nodes x).visited = false := by simpa using hv0
        obtain ⟨y, hy1, hyn, hyv, hl⟩ := h.disc x (by simp) hv0'
        obtain ⟨p, hp, hpv⟩ := h.chain y hy1 hyn hyv
        have hxs : x ≠ s := by
          intro hxs; subst hxs; rw [h.s_vis] at hv0'; exact Bool.noConfusion hv0'
        have hxp : x ∉ p := by
          intro hxp
          have := (hpv x hxp).1
          rw [hv0'] at this; exact Bool.noConfusion this
        exact ⟨x :: p, Chain.step hxs hxp (hl.congr_link rfl rfl (hpar x) (hpar y).2)
          (hp.congr_chain rfl rfl (fun z _ => hpar z)), by
          intro z hz
          rcases List.mem_cons.mp hz with rfl | hz
          · exact ⟨hv, h1, hn⟩
          · exact ⟨hvis z (hpv z hz).1, (hpv z hz).2⟩⟩
    · exact hchain x h1 hn hv'
  · intro x hx hxv
    have hxc : x ≠ curr := by
      intro hxc; subst hxc; simp at hxv
    rw [setNode_nodes_ne g _ hxc] at hxv
    obtain ⟨y, hy1, hyn, hyv, hl⟩ := h.disc x (by simp [hx]) hxv
    exact ⟨y, hy1, hyn, hvis y hyv, hl.congr_link rfl rfl (hpar x) (hpar y).2⟩
  · intro y h1 hn hv hne
    rw [setNode_nodes_ne g _ hne] at hv
    have hcl := hc y h1 (hn0 ▸ hn) hv
    intro e he
    have := hcl e he
    simp only [setNode_edges]
    refine ⟨fun a b => ?_, fun a b => ?_⟩
    · rcases this.1 a b with h3 | h3
      · exact Or.inl (hvis _ h3)
      · rcases List.mem_cons.mp h3 with h4 | h4
        · left; rw [h4]; simp
        · exact Or.inr h4
    · rcases this.2 a b with h3 | h3
      · exact Or.inl (hvis _ h3)
      · rcases List.mem_cons.mp h3 with h4 | h4
        · left; rw [h4]; simp
        · exact Or.inr h4

theorem Mono.mono_trans {a b c : Graph × List Nat} (h1 : Mono a b) (h2 : Mono b c) : Mono a c :=
  ⟨h2.m_eq.trans h1.m_eq, h2.n_eq.trans h1.n_eq, h2.edges_eq.trans h1.edges_eq,
   fun x => (h2.vis_eq x).trans (h1.vis_eq x), fun x hx => h2.q_sub x (h1.q_sub x hx)⟩

/-- Scanning the outgoing edges of `curr`. -/
theorem scan_out {g0 : Graph} (w : g0.WF) (vf : g0.ValidFlow) {s curr : Nat}
    (hcr : 1 ≤ curr ∧ curr ≤ g0.n) {st : Graph × List Nat} (h : ScanInv g0 s curr st) :
    ScanInv g0 s curr ((g0.nodes curr).outgoing.foldl (bfs_out curr) st) ∧
    Mono st ((g0.nodes curr).outgoing.foldl (bfs_out curr) st) ∧
    ∀ e ∈ (g0.nodes curr).outgoing, (g0.edges e).flow < (g0.edges e).capacity →
      (((g0.nodes curr).outgoing.foldl (bfs_out curr) st).1.nodes
          (g0.edges e).destination).visited = true ∨
        (g0.edges e).destination ∈ ((g0.nodes curr).outgoing.foldl (bfs_out curr) st).2 := by
  have key := foldl_inv_mem (fun st' => ScanInv g0 s curr st' ∧ Mono st st')
    (fun st' e => (g0.edges e).flow < (g0.edges e).capacity →
      (st'.1.nodes (g0.edges e).destination).visited = true ∨ (g0.edges e).destination ∈ st'.2)
    (bfs_out curr) (g0.nodes curr).outgoing ?_ ?_ ?_ st ⟨h, Mono.mono_refl st⟩
  · exact ⟨key.1.1, key.1.2, key.2⟩
  · intro st' e he hJ
    rcases bfs_out_cases w vf hJ.1.inv.same he with h1 | h1
    · rw [h1]; exact hJ
    · exact ⟨hJ.1.scan_disc1 hcr h1, hJ.2.mono_trans h1.disc1_mono⟩
  · intro st' e he hJ hlt
    exact bfs_out_closes w vf hJ.1.inv.same he (hJ.1.inv.bfs_fi_pos hcr.1 hcr.2 hJ.1.cur) hlt
  · intro st' e e' he' hJ hR hlt
    have hm : Mono st' (bfs_out curr st' e') := by
      rcases bfs_out_cases w vf hJ.1.inv.same he' with h1 | h1
      · rw [h1]; exact Mono.mono_refl _
      · exact h1.disc1_mono
    rcases hR hlt with h3 | h3
    · left; rw [hm.vis_eq]; exact h3
    · right; exact hm.q_sub _ h3

/-- Scanning the incoming edges of `curr`. -/
theorem scan_in {g0 : Graph} (w : g0.WF) {s curr : Nat}
    (hcr : 1 ≤ curr ∧ curr ≤ g0.n) {st : Graph × List Nat} (h : ScanInv g0 s curr st) :
    ScanInv g0 s curr ((g0.nodes curr).incoming.foldl (bfs_in curr) st) ∧
    Mono st ((g0.nodes curr).incoming.foldl (bfs_in curr) st) ∧
    ∀ e ∈ (g0.nodes curr).incoming, 0 < (g0.edges e).flow →
      (((g0.nodes curr).incoming.foldl (bfs_in curr) st).1.nodes
          (g0.edges e).origin).visited = true ∨
        (g0.edges e).origin ∈ ((g0.nodes curr).incoming.foldl (bfs_in curr) st).2 := by
  have key := foldl_inv_mem (fun st' => ScanInv g0 s curr st' ∧ Mono st st')
    (fun st' e => 0 < (g0.edges e).flow →
      (st'.1.nodes (g0.edges e).origin).visited = true ∨ (g0.edges e).origin ∈ st'.2)
    (bfs_in curr) (g0.nodes curr).incoming ?_ ?_ ?_ st ⟨h, Mono.mono_refl st⟩
  · exact ⟨key.1.1, key.1.2, key.2⟩
  · intro st' e he hJ
    rcases bfs_in_cases w hJ.1.inv.same he with h1 | h1
    · rw [h1]; exact hJ
    · exact ⟨hJ.1.scan_disc1 hcr h1, hJ.2.mono_trans h1.disc1_mono⟩
  · intro st' e _ hJ hlt
    exact bfs_in_closes hJ.1.inv.same (hJ.1.inv.bfs_fi_pos hcr.1 hcr.2 hJ.1.cur) hlt
  · intro st' e e' he' hJ hR hlt
    have hm : Mono st' (bfs_in curr st' e') := by
      rcases bfs_in_cases w hJ.1.inv.same he' with h1 | h1
      · rw [h1]; exact Mono.mono_refl _
      · exact h1.disc1_mono
    rcases hR hlt with h3 | h3
    · left; rw [hm.vis_eq]; exact h3
    · right; exact hm.q_sub _ h3

/-- One iteration of the search loop, started from a scan state. -/
theorem scan_step {g0 : Graph} (w : g0.WF) (vf : g0.ValidFlow) {s curr : Nat}
    (hcr : 1 ≤ curr ∧ curr ≤ g0.n) {st : Graph × List Nat} (h : ScanInv g0 s curr st) :
    let st2 := (g0.nodes curr).incoming.foldl (bfs_in curr)
      ((g0.nodes curr).outgoing.foldl (bfs_out curr) st)
    BfsInv g0 s st2.1 st2.2 ∧ Closed st2.1 st2.2 ∧ Mono st st2 := by
  intro st2
  obtain ⟨h1, m1, r1⟩ := scan_out w vf hcr h
  obtain ⟨h2, m2, r2⟩ := scan_in w hcr h1
  refine ⟨h2.inv, ?_, m1.mono_trans m2⟩
  intro y hy1 hyn hyv
  have hn2 : st2.1.n = g0.n := h2.inv.same.n_eq
  by_cases hyc : y = curr
  · subst hyc
    intro e he
    have hem : e < g0.m := h2.inv.same.m_eq ▸ he
    rw [h2.inv.same.edges_eq]
    refine ⟨fun ho hlt => ?_, fun hd hlt => ?_⟩
    · have hmem : e ∈ (g0.nodes y).outgoing := (w.mem_out y e).mpr ⟨hem, ho⟩
      rcases r1 e hmem hlt with h3 | h3
      · left; rw [m2.vis_eq]; exact h3
      · right; exact m2.q_sub _ h3
    · have hmem : e ∈ (g0.nodes y).incoming := (w.mem_in y e).mpr ⟨hem, hd⟩
      exact r2 e hmem hlt
  · exact h2.others y hy1 (hn2 ▸ hyn) hyv hyc

theorem bfs_step_eq {g0 g : Graph} (hs : SameNet g0 g) (curr : Nat) (rest : List Nat) :
    bfs_step g curr rest = (g0.nodes curr).incoming.foldl (bfs_in curr)
      ((g0.nodes curr).outgoing.foldl (bfs_out curr)
        (g.setNode curr { g.nodes curr with visited := true }, rest)) := by
  unfold bfs_step
  simp only
  have h1 : ((g.setNode curr { g.nodes curr with visited := true }).nodes curr).outgoing
      = (g0.nodes curr).outgoing := by simp [hs.out_eq]
  rw [h1]
  -- the incoming list is read from the graph after the first scan
  have h2 : ∀ (l : List Nat) (st : Graph × List Nat),
      ((l.foldl (bfs_out curr) st).1.nodes curr).incoming = (st.1.nodes curr).incoming := by
    intro l
    induction l with
    | nil => intro st; rfl
    | cons e l ih =>
      intro st
      rw [List.foldl_cons, ih]
      unfold bfs_out
      simp only
      split
      · rfl
      · split
        · simp only [setNode_nodes]
          split
          · rename_i h; rw [← h]
          · rfl
        · rfl
  rw [h2]
  simp [hs.in_eq]

/-- The loop invariant and closedness are kept by every iteration. -/
theorem bfs_step_inv {g0 : Graph} (w : g0.WF) (vf : g0.ValidFlow) {s curr : Nat} {g : Graph}
    {rest : List Nat} (h : BfsInv g0 s g (curr :: rest)) (hc : Closed g (curr :: rest)) :
    BfsInv g0 s (bfs_step g curr rest).1 (bfs_step g curr rest).2 ∧
    Closed (bfs_step g curr rest).1 (bfs_step g curr rest).2 := by
  rw [bfs_step_eq h.same]
  have := scan_step w vf (h.q_rng curr (by simp)) (ScanInv.start h hc)
  exact ⟨this.1, this.2.1⟩

theorem bfs_loop_inv {g0 : Graph} (w : g0.WF) (vf : g0.ValidFlow) {s : Nat} :
    ∀ (fuel : Nat) (g : Graph) (q : List Nat) (g' : Graph), BfsInv g0 s g q → Closed g q →
      bfs_loop fuel g q = some g' → BfsInv g0 s g' [] ∧ Closed g' [] := by
  intro fuel
  induction fuel with
  | zero =>
    intro g q g' h hc hr
    cases q with
    | nil => simp [bfs_loop] at hr; subst hr; exact ⟨h, hc⟩
    | cons a q => simp [bfs_loop] at hr
  | succ fuel ih =>
    intro g q g' h hc hr
    cases q with
    | nil => simp [bfs_loop] at hr; subst hr; exact ⟨h, hc⟩
    | cons a q =>
      simp only [bfs_loop] at hr
      have := bfs_step_inv w vf h hc
      exact ih _ _ _ this.1 this.2 hr

theorem bfs_init_sameNet (g : Graph) (s : Nat) : SameNet g (bfs_init g s) := by
  unfold bfs_init
  refine ⟨rfl, rfl, rfl, fun v => ?_, fun v => ?_⟩ <;>
  · simp only [setNode_nodes]
    split
    · rename_i h; subst h; split <;> rfl
    · split <;> rfl

theorem bfs_init_visited (g : Graph) (s x : Nat) (h1 : 1 ≤ x) (hn : x ≤ g.n) :
    ((bfs_init g s).nodes x).visited = false := by
  unfold bfs_init
  simp only [setNode_nodes]
  split
  · rename_i h; subst h; simp [h1, hn]
  · simp [h1, hn]

theorem bfs_init_fi (g : Graph) (s : Nat) : ((bfs_init g s).nodes s).flow_increase = INF := by
  unfold bfs_init; simp

/-- The scan state at the first iteration of the search. -/
theorem ScanInv.init (g : Graph) {s : Nat} (hs : 1 ≤ s ∧ s ≤ g.n) :
    ScanInv g s s
      ((bfs_init g s).setNode s { (bfs_init g s).nodes s with visited := true }, []) := by
  have hvis : ∀ x, 1 ≤ x → x ≤ g.n →
      (((bfs_init g s).setNode s { (bfs_init g s).nodes s with visited := true }).nodes x).visited
        = true → x = s := by
    intro x h1 hn hv
    by_contra hx
    rw [setNode_nodes_ne _ _ hx, bfs_init_visited g s x h1 hn] at hv
    exact Bool.noConfusion hv
  refine ⟨⟨(bfs_init_sameNet g s).net_trans (SameNet.setNode _ s _ rfl rfl), by simp, ?_, ?_, ?_, ?_⟩,
    by simp, ?_⟩
  · simp [bfs_init_fi]
  · intro x hx; simp at hx
  · intro x h1 hn hv
    have := hvis x h1 hn hv
    subst this
    exact ⟨[x], Chain.base, fun y hy => by
      simp at hy; subst hy; exact ⟨hv, h1, hn⟩⟩
  · intro x hx; simp at hx
  · intro y h1 hn hv hne
    exact absurd (hvis y h1 hn hv) hne

/-- What `max_flow_increase_bfs` establishes when it returns. -/
theorem max_flow_increase_bfs_inv {g : Graph} (w : g.WF) (vf : g.ValidFlow) {s : Nat}
    (hs : 1 ≤ s ∧ s ≤ g.n) {fuel : Nat} {g' : Graph}
    (hr : max_flow_increase_bfs fuel g s = some g') : BfsInv g s g' [] ∧ Closed g' [] := by
  unfold max_flow_increase_bfs at hr
  cases fuel with
  | zero => simp [bfs_loop] at hr
  | succ fuel =>
    simp only [bfs_loop] at hr
    rw [bfs_step_eq (bfs_init_sameNet g s)] at hr
    have := scan_step w vf hs (ScanInv.init g hs)
    exact bfs_loop_inv w vf fuel _ _ _ this.1 this.2.1 hr

/-! ## Termination of the residual search -/

theorem foldl_inv {σ α : Type} (J : σ → Prop) (f : σ → α → σ) (l : List α)
    (hJ : ∀ st e, e ∈ l → J st → J (f st e)) : ∀ st, J st → J (l.foldl f st) := by
  intro st hst
  exact (foldl_inv_mem J (fun _ _ => True) f l hJ (fun _ _ _ _ => trivial)
    (fun _ _ _ _ _ _ => trivial) st hst).1

theorem Grow.grow_refl {g0 : Graph} {st : Graph × List Nat} (h : SameNet g0 st.1) : Grow g0 st st :=
  ⟨h, fun _ => rfl, [], by simp, by simp⟩

theorem Grow.grow_disc1 {g0 : Graph} {curr : Nat} {st st1 st2 : Graph × List Nat}
    (h : Grow g0 st st1) (hd : Disc1 curr st1 st2) : Grow g0 st st2 := by
  obtain ⟨d, e, fi, -, hdv, hd1, hdn, -, -, -, rfl⟩ := hd
  obtain ⟨l, hl, hlv⟩ := h.added
  refine ⟨h.same.net_trans (discover_sameNet _ _ _ _), fun x => by simp [h.vis_eq], l ++ [d], ?_, ?_⟩
  · simp [hl]
  · intro x hx
    rcases List.mem_append.mp hx with hx | hx
    · exact hlv x hx
    · simp at hx; subst hx
      exact ⟨by rw [← h.vis_eq]; exact hdv, hd1, h.same.n_eq ▸ hdn⟩

theorem bfs_step_grow {g0 : Graph} (w : g0.WF) (vf : g0.ValidFlow) {g : Graph}
    (hs : SameNet g0 g) (curr : Nat) (rest : List Nat) :
    Grow g0 (g.setNode curr { g.nodes curr with visited := true }, rest)
      (bfs_step g curr rest) := by
  rw [bfs_step_eq hs]
  have h0 : Grow g0 (g.setNode curr { g.nodes curr with visited := true }, rest)
      (g.setNode curr { g.nodes curr with visited := true }, rest) :=
    Grow.grow_refl (hs.net_trans (SameNet.setNode g curr _ rfl rfl))
  have h1 := foldl_inv (fun st' => Grow g0
      (g.setNode curr { g.nodes curr with visited := true }, rest) st')
    (bfs_out curr) (g0.nodes curr).outgoing (by
      intro st' e he hJ
      rcases bfs_out_cases w vf hJ.same he with h | h
      · rw [h]; exact hJ
      · exact hJ.grow_disc1 h) _ h0
  exact foldl_inv (fun st' => Grow g0
      (g.setNode curr { g.nodes curr with visited := true }, rest) st')
    (bfs_in curr) (g0.nodes curr).incoming (by
      intro st' e he hJ
      rcases bfs_in_cases w hJ.same he with h | h
      · rw [h]; exact hJ
      · exact hJ.grow_disc1 h) _ h1

theorem bfs_loop_terminates_aux {g0 : Graph} (w : g0.WF) (vf : g0.ValidFlow) {k : Nat}
    (ihk : ∀ m, m < k → ∀ (v : Nat) (g : Graph) (q : List Nat), SameNet g0 g →
      (∀ x ∈ q, 1 ≤ x ∧ x ≤ g0.n) → unvisitedCount g ≤ m →
      q.countP (fun x => (g.nodes x).visited) ≤ v → ∃ fuel g', bfs_loop fuel g q = some g')
    (g : Graph) (curr : Nat) (rest : List Nat) (hs : SameNet g0 g)
    (hq : ∀ x ∈ curr :: rest, 1 ≤ x ∧ x ≤ g0.n) (hk : unvisitedCount g ≤ k)
    (hcv : (g.nodes curr).visited = false) :
    ∃ fuel g', bfs_loop fuel g (curr :: rest) = some g' := by
  have hg := bfs_step_grow w vf hs curr rest
  obtain ⟨l, hl, hlv⟩ := hg.added
  have hcr := hq curr (by simp)
  have hlt : unvisitedCount (bfs_step g curr rest).1 < unvisitedCount g := by
    unfold unvisitedCount
    rw [hg.same.n_eq, ← hs.n_eq]
    apply Finset.card_lt_card
    rw [Finset.ssubset_iff_of_subset]
    · refine ⟨curr, ?_, ?_⟩
      · simp only [Finset.mem_filter, Finset.mem_range]
        exact ⟨by rw [hs.n_eq]; omega, hcv⟩
      · simp only [Finset.mem_filter, Finset.mem_range, not_and]
        intro _
        rw [hg.vis_eq]; simp
    · intro x hx
      simp only [Finset.mem_filter, Finset.mem_range] at hx ⊢
      refine ⟨hx.1, ?_⟩
      have := hx.2
      rw [hg.vis_eq] at this
      by_cases hxc : x = curr
      · subst hxc; exact hcv
      · rw [setNode_nodes_ne g _ hxc] at this; exact this
  have hq' : ∀ x ∈ (bfs_step g curr rest).2, 1 ≤ x ∧ x ≤ g0.n := by
    intro x hx
    rw [hl] at hx
    rcases List.mem_append.mp hx with hx | hx
    · exact hq x (by simp [hx])
    · exact (hlv x hx).2
  obtain ⟨fuel, g', hr⟩ := ihk (unvisitedCount (bfs_step g curr rest).1) (by omega) _ _ _
    hg.same hq' (le_refl _) (le_refl _)
  exact ⟨fuel + 1, g', by simp only [bfs_loop]; exact hr⟩

theorem bfs_loop_terminates {g0 : Graph} (w : g0.WF) (vf : g0.ValidFlow) :
    ∀ (k v : Nat) (g : Graph) (q : List Nat), SameNet g0 g → (∀ x ∈ q, 1 ≤ x ∧ x ≤ g0.n) →
      unvisitedCount g ≤ k → q.countP (fun x => (g.nodes x).visited) ≤ v →
      ∃ fuel g', bfs_loop fuel g q = some g' := by
  intro k
  induction k using Nat.strong_induction_on with
  | _ k ihk =>
    intro v
    induction v with
    | zero =>
      intro g q hs hq hk hv
      cases q with
      | nil => exact ⟨0, g, by simp [bfs_loop]⟩
      | cons curr rest =>
        have hcv : (g.nodes curr).visited = false := by
          by_contra hc
          have hc' : (g.nodes curr).visited = true := by simpa using hc
          simp [List.countP_cons, hc'] at hv
        exact bfs_loop_terminates_aux w vf ihk g curr rest hs hq hk hcv
    | succ v ihv =>
      intro g q hs hq hk hv
      cases q with
      | nil => exact ⟨0, g, by simp [bfs_loop]⟩
      | cons curr rest =>
        by_cases hcv : (g.nodes curr).visited = true
        · -- the dequeued node was visited before: one visited entry less
          have hg := bfs_step_grow w vf hs curr rest
          obtain ⟨l, hl, hlv⟩ := hg.added
          have hvis : ∀ x, ((bfs_step g curr rest).1.nodes x).visited = (g.nodes x).visited := by
            intro x
            rw [hg.vis_eq]
            by_cases hx : x = curr
            · subst hx; simp [hcv]
            · simp [setNode_nodes_ne g _ hx]
          have hk' : unvisitedCount (bfs_step g curr rest).1 ≤ k := by
            unfold unvisitedCount at hk ⊢
            rw [hg.same.n_eq, ← hs.n_eq]
            simp only [hvis]
            exact hk
          have hv' : (bfs_step g curr rest).2.countP
              (fun x => ((bfs_step g curr rest).1.nodes x).visited) ≤ v := by
            simp only [hvis, hl, List.countP_append]
            have h0 : l.countP (fun x => (g.nodes x).visited) = 0 := by
              rw [List.countP_eq_zero]
              intro x hx
              have := (hlv x hx).1
              by_cases hxc : x = curr
              · subst hxc; simp at this
              · rw [setNode_nodes_ne g _ hxc] at this; simp [this]
            rw [h0]
            simp [List.countP_cons, hcv] at hv
            omega
          have hq' : ∀ x ∈ (bfs_step g curr rest).2, 1 ≤ x ∧ x ≤ g0.n := by
            intro x hx
            rw [hl] at hx
            rcases List.mem_append.mp hx with hx | hx
            · exact hq x (by simp [hx])
            · exact (hlv x hx).2
          obtain ⟨fuel, g', hr⟩ := ihv _ _ hg.same hq' hk' hv'
          exact ⟨fuel + 1, g', by simp only [bfs_loop]; exact hr⟩
        · exact bfs_loop_terminates_aux w vf ihk g curr rest hs hq hk (by simpa using hcv)

theorem bfs_loop_mono : ∀ (fuel : Nat) (g : Graph) (q : List Nat) (g' : Graph),
    bfs_loop fuel g q = some g' → ∀ k, bfs_loop (fuel + k) g q = some g' := by
  intro fuel
  induction fuel with
  | zero =>
    intro g q g' h k
    cases q with
    | nil =>
      simp [bfs_loop] at h; subst h
      cases k <;> simp [bfs_loop]
    | cons a q => simp [bfs_loop] at h
  | succ fuel ih =>
    intro g q g' h k
    cases q with
    | nil =>
      simp [bfs_loop] at h; subst h
      simp [bfs_loop]
    | cons a q =>
      simp only [bfs_loop] at h
      have := ih _ _ _ h k
      rw [show fuel + 1 + k = (fuel + k) + 1 by omega]
      simp only [bfs_loop]
      exact this

/-- `max_flow_increase_bfs` returns once the fuel is large enough. -/
theorem max_flow_increase_bfs_terminates {g : Graph} (w : g.WF) (vf : g.ValidFlow) {s : Nat}
    (hs : 1 ≤ s ∧ s ≤ g.n) :
    ∃ fuel0 g', ∀ fuel, fuel0 ≤ fuel → max_flow_increase_bfs fuel g s = some g' := by
  obtain ⟨fuel0, g', h⟩ := bfs_loop_terminates w vf _ _ (bfs_init g s) [s]
    (bfs_init_sameNet g s) (by intro x hx; simp at hx; subst hx; exact hs) (le_refl _) (le_refl _)
  refine ⟨fuel0, g', fun fuel hf => ?_⟩
  unfold max_flow_increase_bfs
  obtain ⟨k, rfl⟩ := Nat.exists_eq_add_of_le hf
  exact bfs_loop_mono _ _ _ _ h k

/-! ## Augmenting along the parent chain -/

theorem SameShape.shape_refl (g : Graph) : SameShape g g :=
  ⟨rfl, rfl, fun _ => rfl, fun _ => rfl, fun _ => rfl, fun _ => rfl, fun _ => rfl, fun _ => rfl⟩

theorem SameShape.shape_trans {g1 g2 g3 : Graph} (h12 : SameShape g1 g2) (h23 : SameShape g2 g3) :
    SameShape g1 g3 :=
  ⟨h23.n_eq.trans h12.n_eq, h23.m_eq.trans h12.m_eq,
   fun i => (h23.origin_eq i).trans (h12.origin_eq i),
   fun i => (h23.dest_eq i).trans (h12.dest_eq i),
   fun i => (h23.cap_eq i).trans (h12.cap_eq i),
   fun i => (h23.dur_eq i).trans (h12.dur_eq i),
   fun v => (h23.out_eq v).trans (h12.out_eq v), fun v => (h23.in_eq v).trans (h12.in_eq v)⟩

theorem SameNet.sameShape {g g' : Graph} (h : SameNet g g') : SameShape g g' :=
  ⟨h.n_eq, h.m_eq, fun i => by rw [h.edges_eq], fun i => by rw [h.edges_eq],
   fun i => by rw [h.edges_eq], fun i => by rw [h.edges_eq], h.out_eq, h.in_eq⟩

theorem SameShape.shape_setFlow (g : Graph) (i f : Nat) : SameShape g (g.setFlow i f) :=
  ⟨rfl, rfl, fun _ => by simp, fun _ => by simp, fun _ => by simp, fun _ => by simp,
   fun _ => rfl, fun _ => rfl⟩

theorem SameShape.shape_wf {g g' : Graph} (h : SameShape g g') (w : g.WF) : g'.WF := by
  have hm := h.m_eq
  have hn := h.n_eq
  constructor
  · intro i hi; rw [h.origin_eq]; exact w.origin_pos i (hm ▸ hi)
  · intro i hi; rw [h.origin_eq, hn]; exact w.origin_le i (hm ▸ hi)
  · intro i hi; rw [h.dest_eq]; exact w.dest_pos i (hm ▸ hi)
  · intro i hi; rw [h.dest_eq, hn]; exact w.dest_le i (hm ▸ hi)
  · intro i hi; rw [h.cap_eq]; exact w.cap_lt i (hm ▸ hi)
  · intro i hi; rw [h.dur_eq]; exact w.dur_lt i (hm ▸ hi)
  · rw [hm]; exact w.m_lt
  · intro v e; rw [h.out_eq, h.origin_eq, hm]; exact w.mem_out v e
  · intro v e; rw [h.in_eq, h.dest_eq, hm]; exact w.mem_in v e
  · intro v; rw [h.out_eq]; exact w.nodup_out v
  · intro v; rw [h.in_eq]; exact w.nodup_in v

theorem sum_range_update (m e : Nat) (he : e < m) (F G : Nat → Nat)
    (h : ∀ i, i ≠ e → F i = G i) :
    ((∑ i ∈ Finset.range m, F i : Nat) : Int) = (∑ i ∈ Finset.range m, G i : Nat) + ((F e : Int) - G e) := by
  have hmem : e ∈ Finset.range m := Finset.mem_range.mpr he
  rw [← Finset.add_sum_erase _ F hmem, ← Finset.add_sum_erase _ G hmem]
  have : ∑ x ∈ (Finset.range m).erase e, F x = ∑ x ∈ (Finset.range m).erase e, G x :=
    Finset.sum_congr rfl (fun x hx => h x (Finset.ne_of_mem_erase hx))
  rw [this]
  push_cast
  ring

theorem inflow_setFlow (g : Graph) {e : Nat} (he : e < g.m) (f v : Nat) :
    ((g.setFlow e f).inflow v : Int) = g.inflow v +
      (if (g.edges e).destination = v then (f : Int) - (g.edges e).flow else 0) := by
  unfold inflow
  rw [setFlow_m]
  rw [sum_range_update g.m e he _ (fun i => if (g.edges i).destination = v then (g.edges i).flow else 0)]
  · simp only [setFlow_destination, setFlow_flow, if_true]
    split <;> simp
  · intro i hi
    simp [setFlow_flow, hi]

theorem outflow_setFlow (g : Graph) {e : Nat} (he : e < g.m) (f v : Nat) :
    ((g.setFlow e f).outflow v : Int) = g.outflow v +
      (if (g.edges e).origin = v then (f : Int) - (g.edges e).flow else 0) := by
  unfold outflow
  rw [setFlow_m]
  rw [sum_range_update g.m e he _ (fun i => if (g.edges i).origin = v then (g.edges i).flow else 0)]
  · simp only [setFlow_origin, setFlow_flow, if_true]
    split <;> simp
  · intro i hi
    simp [setFlow_flow, hi]

theorem netIn_setFlow (g : Graph) {e : Nat} (he : e < g.m) (f v : Nat) :
    (g.setFlow e f).netIn v = g.netIn v +
      ((if (g.edges e).destination = v then (f : Int) - (g.edges e).flow else 0) -
       (if (g.edges e).origin = v then (f : Int) - (g.edges e).flow else 0)) := by
  unfold netIn
  rw [inflow_setFlow g he, outflow_setFlow g he]
  ring

theorem ValidFlow.valid_setFlow {g : Graph} (vf : g.ValidFlow) (e f : Nat)
    (h : f ≤ (g.edges e).capacity) : (g.setFlow e f).ValidFlow := by
  intro i hi
  rw [setFlow_capacity, setFlow_flow]
  split
  · rename_i hie; subst hie; exact h
  · exact vf i hi

theorem Chain.link_of_mem {g : Graph} {s x : Nat} {p : List Nat} (h : Chain g s x p) :
    ∀ z ∈ p, z ≠ s → ∃ y ∈ p, Link g z y := by
  induction h with
  | base => intro z hz hzs; simp at hz; exact absurd hz hzs
  | @step x y p hxs hxp hl hc ih =>
    intro z hz hzs
    rcases List.mem_cons.mp hz with rfl | hz
    · exact ⟨y, by simp [hc.head_mem], hl⟩
    · obtain ⟨y', hy', hl'⟩ := ih z hz hzs
      exact ⟨y', by simp [hy'], hl'⟩

/-- The parent edge of a chain node is not the parent edge of a node further
down the chain. -/
theorem Chain.parent_ne {g : Graph} {s x y : Nat} {p : List Nat} (hxp : x ∉ p)
    (hl : Link g x y) (hc : Chain g s y p) :
    ∀ z ∈ p, z ≠ s → (g.nodes z).parent ≠ (g.nodes x).parent := by
  intro z hz hzs heq
  obtain ⟨y', hy', hl'⟩ := hc.link_of_mem z hz hzs
  unfold Link at hl hl'
  rw [heq] at hl'
  rcases hl.2.2.2 with ⟨h1, h2, -⟩ | ⟨h1, h2, -⟩ <;>
    rcases hl'.2.2.2 with ⟨h3, h4, -⟩ | ⟨h3, h4, -⟩
  · exact hxp (by rw [← h1, h3]; exact hz)
  · exact hxp (by rw [← h1, h4]; exact hy')
  · exact hxp (by rw [← h1, h4]; exact hy')
  · exact hxp (by rw [← h1, h3]; exact hz)

theorem shift_fwd (a : Int) (f inc x y s v : Nat) (hxy : x ≠ y) :
    a + ((if x = v then ((f + inc : Nat) : Int) - f else 0) -
         (if y = v then ((f + inc : Nat) : Int) - f else 0)) + (inc : Int) * (ind v y - ind v s)
      = a + (inc : Int) * (ind v x - ind v s) := by
  unfold ind
  split_ifs <;> first | (exfalso; omega) | (push_cast; ring)

theorem shift_bwd (a : Int) (f inc x y s v : Nat) (hxy : x ≠ y) (hle : inc ≤ f) :
    a + ((if y = v then ((f - inc : Nat) : Int) - f else 0) -
         (if x = v then ((f - inc : Nat) : Int) - f else 0)) + (inc : Int) * (ind v y - ind v s)
      = a + (inc : Int) * (ind v x - ind v s) := by
  unfold ind
  split_ifs <;> first | (exfalso; omega) | (push_cast [Nat.cast_sub hle]; ring)

/-- The `while (curr != start)` loop of `edmonds_karp` along a parent chain:
it returns, keeps the flow valid without wrapping, moves `inc` units of net
flow from `s` to `x` and never adds flow on an edge entering `s`. -/
theorem augment_chain {g : Graph} (w : g.WF) {s x : Nat} {p : List Nat} (hc : Chain g s x p) :
    ∀ (g' : Graph) (inc : Nat), g'.nodes = g.nodes → SameShape g g' →
      (∀ z ∈ p, z ≠ s → (g'.edges (g.nodes z).parent).flow = (g.edges (g.nodes z).parent).flow) →
      g'.ValidFlow → inc ≤ (g.nodes x).flow_increase →
      ∀ fuel, p.length ≤ fuel →
      ∃ g'', augment_loop fuel g' s x inc = some g'' ∧ g''.nodes = g.nodes ∧ SameShape g g'' ∧
        g''.ValidFlow ∧ (∀ v, g''.netIn v = g'.netIn v + (inc : Int) * (ind v x - ind v s)) ∧
        g''.inflow s ≤ g'.inflow s := by
  induction hc with
  | base =>
    intro g' inc hn hsh _ vf _ fuel _
    refine ⟨g', ?_, hn, hsh, vf, fun v => by simp, le_refl _⟩
    cases fuel <;> simp [augment_loop]
  | @step x y p hxs hxp hl hc ih =>
    intro g' inc hn hsh hfl vf hinc fuel hfuel
    obtain ⟨fuel, rfl⟩ : ∃ f, fuel = f + 1 := ⟨fuel - 1, by simp at hfuel; omega⟩
    have hpne := Chain.parent_ne hxp hl hc
    have hyp : y ∈ p := hc.head_mem
    have hxy : x ≠ y := fun h => hxp (h ▸ hyp)
    have hlink := hl
    unfold Link at hl
    obtain ⟨hem, hfi0, hfiy, hcase⟩ := hl
    have hem' : (g.nodes x).parent < g'.m := hsh.m_eq ▸ hem
    have hfx := hfl x (by simp) hxs
    have hcap := w.cap_lt _ hem
    simp only [augment_loop, hn]
    rw [if_pos hxs, hsh.dest_eq, hsh.origin_eq]
    -- the state handed to the rest of the walk
    have hrest : ∀ f, f ≤ (g.edges (g.nodes x).parent).capacity →
        ∃ g'', augment_loop fuel (g'.setFlow (g.nodes x).parent f) s y inc = some g'' ∧
          g''.nodes = g.nodes ∧ SameShape g g'' ∧ g''.ValidFlow ∧
          (∀ v, g''.netIn v = (g'.setFlow (g.nodes x).parent f).netIn v
              + (inc : Int) * (ind v y - ind v s)) ∧
          g''.inflow s ≤ (g'.setFlow (g.nodes x).parent f).inflow s := by
      intro f hf
      apply ih (g'.setFlow (g.nodes x).parent f) inc (by simp [hn])
        (hsh.shape_trans (SameShape.shape_setFlow _ _ _)) ?_ (vf.valid_setFlow _ _ (by rw [hsh.cap_eq]; exact hf))
        (le_trans hinc hfiy) fuel (by simp at hfuel; omega)
      intro z hz hzs
      rw [setFlow_flow, if_neg (hpne z hz hzs)]
      exact hfl z (by simp [hz]) hzs
    rcases hcase with ⟨hd, ho, hb⟩ | ⟨ho, hd, hb⟩
    · -- forward edge
      rw [if_pos hd.symm]
      have hsum : (g'.edges (g.nodes x).parent).flow + inc < U64 := by rw [hfx]; omega
      rw [uadd_eq_add hsum, ho]
      obtain ⟨g'', hr, hn'', hsh'', vf'', hnet, hin⟩ :=
        hrest ((g'.edges (g.nodes x).parent).flow + inc) (by rw [hfx]; omega)
      refine ⟨g'', hr, hn'', hsh'', vf'', fun v => ?_, ?_⟩
      · rw [hnet v, netIn_setFlow g' hem', hsh.dest_eq, hsh.origin_eq, hd, ho]
        exact shift_fwd _ _ _ _ _ _ _ hxy
      · refine le_trans hin ?_
        have := inflow_setFlow g' hem' ((g'.edges (g.nodes x).parent).flow + inc) s
        rw [hsh.dest_eq, hd, if_neg hxs] at this
        simpa using this.le
    · -- backward edge
      have hne : x ≠ (g.edges (g.nodes x).parent).destination := by rw [hd]; exact hxy
      rw [if_neg hne]
      have hle : inc ≤ (g'.edges (g.nodes x).parent).flow := by rw [hfx]; omega
      have hflc : (g'.edges (g.nodes x).parent).flow ≤ (g.edges (g.nodes x).parent).capacity := by
        rw [← hsh.cap_eq]; exact vf _ hem'
      have hlt : (g'.edges (g.nodes x).parent).flow < U64 := lt_of_le_of_lt hflc hcap
      rw [usub_eq_sub hle hlt, hd]
      obtain ⟨g'', hr, hn'', hsh'', vf'', hnet, hin⟩ :=
        hrest ((g'.edges (g.nodes x).parent).flow - inc) (by omega)
      refine ⟨g'', hr, hn'', hsh'', vf'', fun v => ?_, ?_⟩
      · rw [hnet v, netIn_setFlow g' hem', hsh.dest_eq, hsh.origin_eq, hd, ho]
        exact shift_bwd _ _ _ _ _ _ _ hxy hle
      · refine le_trans hin ?_
        have := inflow_setFlow g' hem' ((g'.edges (g.nodes x).parent).flow - inc) s
        have h2 : ((g'.setFlow (g.nodes x).parent ((g'.edges (g.nodes x).parent).flow - inc)).inflow s : Int)
            ≤ g'.inflow s := by
          rw [this]
          split
          · push_cast [Nat.cast_sub hle]; omega
          · simp
        exact_mod_cast h2

/-! ## The Edmonds-Karp loop -/

theorem SameNet.inflow_eq {g g' : Graph} (h : SameNet g g') (v : Nat) :
    g'.inflow v = g.inflow v := by
  unfold inflow; rw [h.m_eq, h.edges_eq]

theorem SameNet.outflow_eq {g g' : Graph} (h : SameNet g g') (v : Nat) :
    g'.outflow v = g.outflow v := by
  unfold outflow; rw [h.m_eq, h.edges_eq]

theorem SameNet.netIn_eq {g g' : Graph} (h : SameNet g g') (v : Nat) :
    g'.netIn v = g.netIn v := by
  unfold netIn; rw [h.inflow_eq, h.outflow_eq]

/-- When the search ends without visiting `t`, the visited nodes form a
saturated cut. -/
theorem saturated_of_bfs {g g1 : Graph} (w : g.WF) (vf : g.ValidFlow) {s t : Nat}
    (hs : 1 ≤ s ∧ s ≤ g.n) (hinv : BfsInv g s g1 []) (hcl : Closed g1 [])
    (ht : (g1.nodes t).visited = false) : Saturated g1 s t := by
  refine ⟨fun v => 1 ≤ v ∧ v ≤ g.n ∧ (g1.nodes v).visited = true, ⟨hs.1, hs.2, hinv.s_vis⟩, ?_, ?_⟩
  · intro h; rw [ht] at h; exact Bool.noConfusion h.2.2
  · intro e he
    have hem : e < g.m := hinv.same.m_eq ▸ he
    have hn1 : g1.n = g.n := hinv.same.n_eq
    rw [hinv.same.edges_eq]
    refine ⟨fun ho hd => ?_, fun hd ho => ?_⟩
    · have hc := (hcl _ ho.1 (hn1 ▸ ho.2.1) ho.2.2 e he).1 (by rw [hinv.same.edges_eq])
      rw [hinv.same.edges_eq] at hc
      by_contra hne
      have hlt : (g.edges e).flow < (g.edges e).capacity := lt_of_le_of_ne (vf e hem) hne
      rcases hc hlt with h3 | h3
      · exact hd ⟨w.dest_pos e hem, w.dest_le e hem, h3⟩
      · simp at h3
    · have hc := (hcl _ hd.1 (hn1 ▸ hd.2.1) hd.2.2 e he).2 (by rw [hinv.same.edges_eq])
      rw [hinv.same.edges_eq] at hc
      by_contra hne
      have hlt : 0 < (g.edges e).flow := Nat.pos_of_ne_zero hne
      rcases hc hlt with h3 | h3
      · exact ho ⟨w.origin_pos e hem, w.origin_le e hem, h3⟩
      · simp at h3

theorem augment_loop_mono : ∀ (fuel : Nat) (g : Graph) (s x inc : Nat) (g' : Graph),
    augment_loop fuel g s x inc = some g' → ∀ k, augment_loop (fuel + k) g s x inc = some g' := by
  intro fuel
  induction fuel with
  | zero =>
    intro g s x inc g' h k
    simp only [augment_loop] at h
    split at h
    · exact absurd h (by simp)
    · rename_i hx
      cases k with
      | zero => simp [augment_loop, hx, h]
      | succ k => simp only [Nat.zero_add, augment_loop, if_neg hx]; exact h
  | succ fuel ih =>
    intro g s x inc g' h k
    rw [show fuel + 1 + k = (fuel + k) + 1 by omega]
    simp only [augment_loop] at h ⊢
    split
    · rename_i hx
      rw [if_pos hx] at h
      split
      · rename_i hd
        rw [if_pos hd] at h
        exact ih _ _ _ _ _ h k
      · rename_i hd
        rw [if_neg hd] at h
        exact ih _ _ _ _ _ h k
    · rename_i hx
      rw [if_neg hx] at h
      exact h

/-- `edmonds_karp` returns once the fuel is large enough, and the graph it
returns satisfies `EKPost`. -/
theorem edmonds_karp_spec {s t : Nat} (hst : s ≠ t) :
    ∀ (k : Nat) (g : Graph), g.WF → g.ValidFlow → 1 ≤ s ∧ s ≤ g.n → 1 ≤ t ∧ t ≤ g.n →
      ∃ fuel0 g', (∀ fuel, fuel0 ≤ fuel → edmonds_karp fuel g s t k = some g') ∧
        EKPost g s t k g' := by
  intro k
  induction k using Nat.strong_induction_on with
  | _ k ih =>
    intro g w vf hs ht
    by_cases hk : k = 0
    · subst hk
      refine ⟨0, g, fun fuel _ => by cases fuel <;> simp [edmonds_karp], ?_⟩
      exact ⟨SameShape.shape_refl g, vf, fun _ _ _ => rfl, le_refl _, le_refl _, Or.inl (by simp),
        fun h => absurd h (by decide), fun _ => rfl⟩
    · have hkpos : 0 < k := Nat.pos_of_ne_zero hk
      obtain ⟨fb, g1, hbfs⟩ := max_flow_increase_bfs_terminates w vf hs
      obtain ⟨hinv, hcl⟩ := max_flow_increase_bfs_inv w vf hs (hbfs fb (le_refl _))
      have hsame := hinv.same
      by_cases htv : (g1.nodes t).visited = true
      · -- an augmenting path was found
        obtain ⟨p, hp, -⟩ := hinv.chain t ht.1 ht.2 htv
        have hipos := hinv.bfs_fi_pos ht.1 ht.2 htv
        have hile := hinv.bfs_fi_le ht.1 ht.2 htv
        have w1 : g1.WF := hsame.net_wf w
        have vf1 : g1.ValidFlow := hsame.net_validFlow vf
        obtain ⟨g2, haug, hn2, hsh2, vf2, hnet2, hin2⟩ :=
          augment_chain w1 hp g1 (g1.nodes t).flow_increase rfl (SameShape.shape_refl g1)
            (fun _ _ _ => rfl) vf1 (le_refl _) p.length (le_refl _)
        have haug' : ∀ fuel, p.length ≤ fuel →
            augment_loop fuel g1 s t (g1.nodes t).flow_increase = some g2 := by
          intro fuel hf
          obtain ⟨j, rfl⟩ := Nat.exists_eq_add_of_le hf
          exact augment_loop_mono _ _ _ _ _ _ haug j
        have w2 : g2.WF := hsh2.shape_wf w1
        have hn : g2.n = g.n := hsh2.n_eq.trans hsame.n_eq
        obtain ⟨fr, g3, hrec, hpost⟩ := ih (k - min k (g1.nodes t).flow_increase)
          (by have := Nat.min_le_left k (g1.nodes t).flow_increase
              have : 0 < min k (g1.nodes t).flow_increase := lt_min hkpos hipos
              omega) g2 w2 vf2 (hn ▸ hs) (hn ▸ ht)
        refine ⟨max (max fb p.length) fr + 1, g3, ?_, ?_⟩
        · intro fuel hf
          obtain ⟨fuel, rfl⟩ : ∃ f, fuel = f + 1 := ⟨fuel - 1, by omega⟩
          simp only [edmonds_karp, if_pos hkpos]
          rw [hbfs fuel (by omega)]
          simp only [htv, Bool.not_true, Bool.false_eq_true, if_false]
          rw [haug' fuel (by omega)]
          exact hrec fuel (by omega)
        · have hs2 : g2.netIn s = g.netIn s - ((g1.nodes t).flow_increase : Int) := by
            rw [hnet2 s, hsame.netIn_eq]
            unfold ind
            simp [hst]
            ring
          refine ⟨hsame.sameShape.shape_trans (hsh2.shape_trans hpost.shape), hpost.valid, ?_, ?_, ?_, ?_, ?_, ?_⟩
          · intro v hvs hvt
            rw [hpost.conserve v hvs hvt, hnet2 v, hsame.netIn_eq]
            unfold ind
            simp [hvs, hvt]
          · exact le_trans hpost.inflow_le (le_trans hin2 (hsame.inflow_eq s).le)
          · have := hpost.grows
            rw [hs2] at this
            omega
          · rcases hpost.enough with h | h
            · left
              rw [hs2] at h
              have hmin := Nat.min_le_right k (g1.nodes t).flow_increase
              push_cast [Nat.cast_sub (Nat.min_le_left k (g1.nodes t).flow_increase)] at h
              have : ((min k (g1.nodes t).flow_increase : Nat) : Int) ≤ (g1.nodes t).flow_increase := by
                exact_mod_cast hmin
              push_cast at this
              omega
            · exact Or.inr h
          · intro _
            by_cases hk' : k - min k (g1.nodes t).flow_increase = 0
            · have := hpost.same_when_zero hk'
              rw [this, hs2]
              have : ((g1.nodes t).flow_increase : Int) ≤ INF := by exact_mod_cast hile
              have : (1 : Int) ≤ k := by exact_mod_cast hkpos
              omega
            · have hb := hpost.bounded (Nat.pos_of_ne_zero hk')
              rw [hs2] at hb
              have hlt : (g1.nodes t).flow_increase < k := by
                by_contra hge
                have : min k (g1.nodes t).flow_increase = k := Nat.min_eq_left (by omega)
                omega
              have hmin : min k (g1.nodes t).flow_increase = (g1.nodes t).flow_increase :=
                Nat.min_eq_right (le_of_lt hlt)
              rw [hmin] at hb
              push_cast [Nat.cast_sub (le_of_lt hlt)] at hb
              omega
          · intro h; exact absurd h hk
      · -- the network is saturated
        have htv' : (g1.nodes t).visited = false := by simpa using htv
        refine ⟨fb + 1, g1, ?_, ?_⟩
        · intro fuel hf
          obtain ⟨fuel, rfl⟩ : ∃ f, fuel = f + 1 := ⟨fuel - 1, by omega⟩
          simp only [edmonds_karp, if_pos hkpos]
          rw [hbfs fuel (by omega)]
          simp [htv']
        · exact ⟨hsame.sameShape, hsame.net_validFlow vf, fun v _ _ => hsame.netIn_eq v,
            (hsame.inflow_eq s).le, (hsame.netIn_eq s).le,
            Or.inr (saturated_of_bfs w vf hs hinv hcl htv'),
            fun _ => by rw [hsame.netIn_eq]; simp [INF]; omega, fun h => absurd h hk⟩

/-! ## Cuts and maximum flows -/

theorem sum_outflow (g : Graph) (S : Finset Nat) :
    ∑ v ∈ S, g.outflow v =
      ∑ i ∈ Finset.range g.m, if (g.edges i).origin ∈ S then (g.edges i).flow else 0 := by
  unfold outflow
  rw [Finset.sum_comm]
  refine Finset.sum_congr rfl (fun i _ => ?_)
  rw [Finset.sum_ite_eq]

theorem sum_inflow (g : Graph) (S : Finset Nat) :
    ∑ v ∈ S, g.inflow v =
      ∑ i ∈ Finset.range g.m, if (g.edges i).destination ∈ S then (g.edges i).flow else 0 := by
  unfold inflow
  rw [Finset.sum_comm]
  refine Finset.sum_congr rfl (fun i _ => ?_)
  rw [Finset.sum_ite_eq]

/-- The value of a conserved flow is its net flow across any cut. -/
theorem flowValue_eq_cut {g : Graph} {s t : Nat} (hc : g.Conserved s t) (S : Finset Nat)
    (hs : s ∈ S) (ht : t ∉ S) :
    g.flowValue s = ∑ i ∈ Finset.range g.m,
      (((if (g.edges i).origin ∈ S then (g.edges i).flow else 0 : Nat) : Int) -
       ((if (g.edges i).destination ∈ S then (g.edges i).flow else 0 : Nat) : Int)) := by
  have h1 : ∑ v ∈ S, ((g.outflow v : Int) - (g.inflow v : Int)) = g.flowValue s := by
    rw [Finset.sum_eq_single s]
    · rfl
    · intro v hv hvs
      have hvt : v ≠ t := fun h => ht (h ▸ hv)
      rw [hc v hvs hvt]; simp
    · intro h; exact absurd hs h
  rw [← h1, Finset.sum_sub_distrib, Finset.sum_sub_distrib]
  rw [← Nat.cast_sum, ← Nat.cast_sum, ← Nat.cast_sum, ← Nat.cast_sum, sum_outflow, sum_inflow]

/-- Weak duality: the value of a valid conserved flow is at most the capacity
of any cut separating `s` from `t`. -/
theorem flowValue_le_cutCap {g : Graph} {s t : Nat} (vf : g.ValidFlow) (hc : g.Conserved s t)
    (S : Finset Nat) (hs : s ∈ S) (ht : t ∉ S) : g.flowValue s ≤ (g.cutCap S : Int) := by
  rw [flowValue_eq_cut hc S hs ht]
  unfold cutCap
  rw [Nat.cast_sum]
  refine Finset.sum_le_sum (fun i hi => ?_)
  have := vf i (Finset.mem_range.mp hi)
  split_ifs <;> simp_all

/-- At a saturated cut the value of the flow equals the capacity of the cut. -/
theorem flowValue_eq_cutCap {g : Graph} {s t : Nat} (hc : g.Conserved s t)
    (S : Finset Nat) (hs : s ∈ S) (ht : t ∉ S)
    (hsat : ∀ e, e < g.m →
      ((g.edges e).origin ∈ S → (g.edges e).destination ∉ S →
        (g.edges e).flow = (g.edges e).capacity) ∧
      ((g.edges e).destination ∈ S → (g.edges e).origin ∉ S → (g.edges e).flow = 0)) :
    g.flowValue s = (g.cutCap S : Int) := by
  rw [flowValue_eq_cut hc S hs ht]
  unfold cutCap
  rw [Nat.cast_sum]
  refine Finset.sum_congr rfl (fun i hi => ?_)
  have := hsat i (Finset.mem_range.mp hi)
  split_ifs <;> simp_all

theorem SameShape.cutCap_eq {g g' : Graph} (h : SameShape g g') (S : Finset Nat) :
    g'.cutCap S = g.cutCap S := by
  unfold cutCap
  rw [h.m_eq]
  refine Finset.sum_congr rfl (fun i _ => ?_)
  rw [h.origin_eq, h.dest_eq, h.cap_eq]

theorem SameShape.symm {g g' : Graph} (h : SameShape g g') : SameShape g' g :=
  ⟨h.n_eq.symm, h.m_eq.symm, fun i => (h.origin_eq i).symm, fun i => (h.dest_eq i).symm,
   fun i => (h.cap_eq i).symm, fun i => (h.dur_eq i).symm, fun v => (h.out_eq v).symm,
   fun v => (h.in_eq v).symm⟩

/-- A valid, conserved and saturated flow is a maximum flow, and its value is
the capacity of a cut. -/
theorem isMaxFlow_of_saturated {g : Graph} (w : g.WF) {s t : Nat} (hs : s ≤ g.n)
    (vf : g.ValidFlow) (hc : g.Conserved s t) (hsat : Saturated g s t) :
    IsMaxFlow g s t ∧ ∃ S : Finset Nat, s ∈ S ∧ t ∉ S ∧ g.flowValue s = (g.cutCap S : Int) := by
  classical
  obtain ⟨P, hPs, hPt, hP⟩ := hsat
  let S : Finset Nat := (Finset.range (g.n + 1)).filter P
  have hmem : ∀ e, e < g.m → (((g.edges e).origin ∈ S ↔ P (g.edges e).origin) ∧
      ((g.edges e).destination ∈ S ↔ P (g.edges e).destination)) := by
    intro e he
    have h1 := w.origin_le e he
    have h2 := w.dest_le e he
    simp only [S, Finset.mem_filter, Finset.mem_range]
    exact ⟨⟨fun h => h.2, fun h => ⟨by omega, h⟩⟩, ⟨fun h => h.2, fun h => ⟨by omega, h⟩⟩⟩
  have hsS : s ∈ S := by simp only [S, Finset.mem_filter, Finset.mem_range]; exact ⟨by omega, hPs⟩
  have htS : t ∉ S := by simp only [S, Finset.mem_filter, Finset.mem_range]; exact fun h => hPt h.2
  have heq : g.flowValue s = (g.cutCap S : Int) := by
    apply flowValue_eq_cutCap hc S hsS htS
    intro e he
    rw [(hmem e he).1, (hmem e he).2]
    exact hP e he
  refine ⟨⟨vf, hc, fun g2 hsh vf2 hc2 => ?_⟩, S, hsS, htS, heq⟩
  rw [heq, ← hsh.cutCap_eq S]
  exact flowValue_le_cutCap vf2 hc2 S hsS htS

/-! ## Construction -/

theorem create_wf (n : Nat) : (create n).WF := by
  constructor <;> intros <;> simp_all [create, Node.zero, U64]

theorem create_zeroFlow (n : Nat) : (create n).ZeroFlow := fun _ => rfl

/-- A successful `add_edge` keeps the structural invariant. -/
theorem add_edge_ok {g g' : Graph} {e : Edge} (w : g.WF) (hz : g.ZeroFlow)
    (hcap : e.capacity < U64) (hdur : e.duration < U64) (hm : g.m + 1 < U64)
    (h : g.add_edge e = Except.ok g') :
    g'.WF ∧ g'.ZeroFlow ∧ g'.n = g.n ∧ g'.m = g.m + 1 := by
  unfold add_edge at h
  split at h
  · exact absurd h (by simp)
  · rename_i h0
    simp only at h
    split at h
    · exact absurd h (by simp)
    · rename_i h1
      split at h
      · exact absurd h (by simp)
      · rename_i h2
        simp only [Except.ok.injEq] at h
        have ho1 : 1 ≤ e.origin := by omega
        have hd1 : 1 ≤ e.destination := by omega
        have hon : e.origin ≤ g.n := by omega
        have hdn : e.destination ≤ g.n := by omega
        have hedges : ∀ i, g'.edges i =
            if i = g.m then mkEdge e.origin e.destination e.capacity e.duration else g.edges i := by
          intro i; rw [← h]; rfl
        have hm' : g'.m = g.m + 1 := by rw [← h]; rfl
        have hn' : g'.n = g.n := by rw [← h]; rfl
        have hout : ∀ v, (g'.nodes v).outgoing =
            if v = e.origin then (g.nodes v).outgoing ++ [g.m] else (g.nodes v).outgoing := by
          intro v
          rw [← h]
          simp only [setNode_nodes]
          by_cases hvd : v = e.destination <;> by_cases hvo : v = e.origin <;>
            simp [hvd, hvo, setNode_nodes] <;> simp_all
        have hin : ∀ v, (g'.nodes v).incoming =
            if v = e.destination then (g.nodes v).incoming ++ [g.m] else (g.nodes v).incoming := by
          intro v
          rw [← h]
          simp only [setNode_nodes]
          by_cases hvd : v = e.destination <;> by_cases hvo : v = e.origin <;>
            simp [hvd, hvo, setNode_nodes] <;> simp_all
        clear h
        refine ⟨?_, ?_, hn', hm'⟩
        · constructor
          · intro i hi; rw [hedges]; split
            · exact ho1
            · exact w.origin_pos i (by omega)
          · intro i hi; rw [hedges, hn']; split
            · exact hon
            · exact w.origin_le i (by omega)
          · intro i hi; rw [hedges]; split
            · exact hd1
            · exact w.dest_pos i (by omega)
          · intro i hi; rw [hedges, hn']; split
            · exact hdn
            · exact w.dest_le i (by omega)
          · intro i hi; rw [hedges]; split
            · exact hcap
            · exact w.cap_lt i (by omega)
          · intro i hi; rw [hedges]; split
            · exact hdur
            · exact w.dur_lt i (by omega)
          · rw [hm']; exact hm
          · intro v i
            rw [hout, hedges, hm']
            by_cases hi : i = g.m
            · subst hi
              have hnot : g.m ∉ (g.nodes v).outgoing := fun hc =>
                absurd ((w.mem_out v g.m).mp hc).1 (lt_irrefl _)
              by_cases hv : v = e.origin
              · simp [hv, mkEdge]
              · simp [hv, hnot, mkEdge, eq_comm]
            · have := w.mem_out v i
              by_cases hv : v = e.origin
              · simp only [hv, if_true, List.mem_append, List.mem_singleton, hi, or_false, if_false]
                rw [← hv, this]
                constructor
                · intro h3; exact ⟨by omega, h3.2⟩
                · intro h3; exact ⟨by omega, h3.2⟩
              · simp only [hv, if_false, hi]
                rw [this]
                constructor
                · intro h3; exact ⟨by omega, h3.2⟩
                · intro h3; exact ⟨by omega, h3.2⟩
          · intro v i
            rw [hin, hedges, hm']
            by_cases hi : i = g.m
            · subst hi
              have hnot : g.m ∉ (g.nodes v).incoming := fun hc =>
                absurd ((w.mem_in v g.m).mp hc).1 (lt_irrefl _)
              by_cases hv : v = e.destination
              · simp [hv, mkEdge]
              · simp [hv, hnot, mkEdge, eq_comm]
            · have := w.mem_in v i
              by_cases hv : v = e.destination
              · simp only [hv, if_true, List.mem_append, List.mem_singleton, hi, or_false, if_false]
                rw [← hv, this]
                constructor
                · intro h3; exact ⟨by omega, h3.2⟩
                · intro h3; exact ⟨by omega, h3.2⟩
              · simp only [hv, if_false, hi]
                rw [this]
                constructor
                · intro h3; exact ⟨by omega, h3.2⟩
                · intro h3; exact ⟨by omega, h3.2⟩
          · intro v
            rw [hout]
            have hnot : g.m ∉ (g.nodes v).outgoing := fun hc =>
              absurd ((w.mem_out v g.m).mp hc).1 (lt_irrefl _)
            split
            · rw [List.nodup_append]
              refine ⟨w.nodup_out v, by simp, ?_⟩
              intro a ha hb
              simp at hb; subst hb
              exact hnot ha
            · exact w.nodup_out v
          · intro v
            rw [hin]
            have hnot : g.m ∉ (g.nodes v).incoming := fun hc =>
              absurd ((w.mem_in v g.m).mp hc).1 (lt_irrefl _)
            split
            · rw [List.nodup_append]
              refine ⟨w.nodup_in v, by simp, ?_⟩
              intro a ha hb
              simp at hb; subst hb
              exact hnot ha
            · exact w.nodup_in v
        · intro i; rw [hedges]; split
          · rfl
          · exact hz i

theorem build_aux (entries : List (Nat × Nat × Nat × Nat)) :
    ∀ (g g' : Graph), g.WF → g.ZeroFlow → g.m + entries.length < U64 →
      (∀ e ∈ entries, e.2.2.1 < U64 ∧ e.2.2.2 < U64) →
      entries.foldlM (fun g e => g.add_edge (mkEdge e.1 e.2.1 e.2.2.1 e.2.2.2)) g = Except.ok g' →
      g'.WF ∧ g'.ZeroFlow ∧ g'.n = g.n := by
  induction entries with
  | nil =>
    intro g g' w hz _ _ h
    simp only [List.foldlM_nil] at h
    cases h
    exact ⟨w, hz, rfl⟩
  | cons a l ih =>
    intro g g' w hz hm hb h
    simp only [List.foldlM_cons] at h
    cases hadd : g.add_edge (mkEdge a.1 a.2.1 a.2.2.1 a.2.2.2) with
    | error err => rw [hadd] at h; exact absurd h (by simp [bind, Except.bind])
    | ok g1 =>
      rw [hadd] at h
      simp only [bind, Except.bind] at h
      have hba := hb a (by simp)
      simp only [List.length_cons] at hm
      obtain ⟨w1, hz1, hn1, hm1⟩ := add_edge_ok w hz (e := mkEdge a.1 a.2.1 a.2.2.1 a.2.2.2)
        hba.1 hba.2 (by omega) hadd
      obtain ⟨w2, hz2, hn2⟩ := ih g1 g' w1 hz1 (by omega) (fun e he => hb e (by simp [he])) h
      exact ⟨w2, hz2, hn2.trans hn1⟩

/-- A graph built from bounded entries is well formed and carries no flow. -/
theorem build_wf {n : Nat} {entries : List (Nat × Nat × Nat × Nat)} {g : Graph}
    (hb : EntriesBounded entries) (h : build n entries = Except.ok g) :
    g.WF ∧ g.ZeroFlow ∧ g.n = n := by
  unfold build at h
  exact build_aux entries (create n) g (create_wf n) (create_zeroFlow n)
    (by simpa [create] using hb.1) hb.2 h

theorem ZeroFlow.zero_validFlow {g : Graph} (h : g.ZeroFlow) : g.ValidFlow :=
  fun i _ => by rw [h i]; exact Nat.zero_le _

theorem ZeroFlow.inflow {g : Graph} (h : g.ZeroFlow) (v : Nat) : g.inflow v = 0 := by
  unfold Graph.inflow
  apply Finset.sum_eq_zero
  intro i _
  rw [h i]; simp

theorem ZeroFlow.outflow {g : Graph} (h : g.ZeroFlow) (v : Nat) : g.outflow v = 0 := by
  unfold Graph.outflow
  apply Finset.sum_eq_zero
  intro i _
  rw [h i]; simp

theorem ZeroFlow.conserved {g : Graph} (h : g.ZeroFlow) (s t : Nat) : g.Conserved s t :=
  fun v _ _ => by rw [h.inflow, h.outflow]

theorem reset_flows_sameShape (g : Graph) : SameShape g g.reset_flows := by
  refine ⟨rfl, rfl, ?_, ?_, ?_, ?_, fun _ => rfl, fun _ => rfl⟩ <;>
  · intro i; unfold reset_flows; simp only; split <;> rfl

theorem reset_flows_flow (g : Graph) {i : Nat} (hi : i < g.m) :
    (g.reset_flows.edges i).flow = 0 := by
  unfold reset_flows; simp [hi]

theorem reset_flows_validFlow (g : Graph) : g.reset_flows.ValidFlow :=
  fun i hi => by rw [reset_flows_flow g hi]; exact Nat.zero_le _

theorem reset_flows_inflow (g : Graph) (v : Nat) : g.reset_flows.inflow v = 0 := by
  unfold Graph.inflow
  apply Finset.sum_eq_zero
  intro i hi
  rw [reset_flows_flow g (Finset.mem_range.mp hi)]; simp

theorem reset_flows_outflow (g : Graph) (v : Nat) : g.reset_flows.outflow v = 0 := by
  unfold Graph.outflow
  apply Finset.sum_eq_zero
  intro i hi
  rw [reset_flows_flow g (Finset.mem_range.mp hi)]; simp

/-! ## Exact arithmetic of the augmentation -/

theorem augment_exact_chain {g : Graph} (w : g.WF) {s x : Nat} {p : List Nat}
    (hc : Chain g s x p) :
    ∀ (g' : Graph) (inc : Nat), g'.nodes = g.nodes → SameShape g g' →
      (∀ z ∈ p, z ≠ s → (g'.edges (g.nodes z).parent).flow = (g.edges (g.nodes z).parent).flow) →
      g'.ValidFlow → inc ≤ (g.nodes x).flow_increase →
      ∀ fuel, augment_exact fuel g' s x inc := by
  induction hc with
  | base =>
    intro g' inc _ _ _ _ _ fuel
    cases fuel <;> simp [augment_exact]
  | @step x y p hxs hxp hl hc ih =>
    intro g' inc hn hsh hfl vf hinc fuel
    cases fuel with
    | zero => simp [augment_exact]
    | succ fuel =>
      have hpne := Chain.parent_ne hxp hl hc
      have hyp : y ∈ p := hc.head_mem
      have hxy : x ≠ y := fun h => hxp (h ▸ hyp)
      unfold Link at hl
      obtain ⟨hem, hfi0, hfiy, hcase⟩ := hl
      have hem' : (g.nodes x).parent < g'.m := hsh.m_eq ▸ hem
      have hfx := hfl x (by simp) hxs
      have hcap := w.cap_lt _ hem
      simp only [augment_exact, hn]
      rw [if_pos hxs, hsh.dest_eq, hsh.origin_eq]
      have hrest : ∀ f, f ≤ (g.edges (g.nodes x).parent).capacity →
          augment_exact fuel (g'.setFlow (g.nodes x).parent f) s y inc := by
        intro f hf
        apply ih (g'.setFlow (g.nodes x).parent f) inc (by simp [hn])
          (hsh.shape_trans (SameShape.shape_setFlow _ _ _)) ?_
          (vf.valid_setFlow _ _ (by rw [hsh.cap_eq]; exact hf)) (le_trans hinc hfiy) fuel
        intro z hz hzs
        rw [setFlow_flow, if_neg (hpne z hz hzs)]
        exact hfl z (by simp [hz]) hzs
      rcases hcase with ⟨hd, ho, hb⟩ | ⟨ho, hd, hb⟩
      · rw [if_pos hd.symm]
        have hsum : (g'.edges (g.nodes x).parent).flow + inc < U64 := by rw [hfx]; omega
        rw [uadd_eq_add hsum, ho]
        exact ⟨hsum, hrest _ (by rw [hfx]; omega)⟩
      · have hne : x ≠ (g.edges (g.nodes x).parent).destination := by rw [hd]; exact hxy
        rw [if_neg hne]
        have hle : inc ≤ (g'.edges (g.nodes x).parent).flow := by rw [hfx]; omega
        have hflc : (g'.edges (g.nodes x).parent).flow ≤ (g.edges (g.nodes x).parent).capacity := by
          rw [← hsh.cap_eq]; exact vf _ hem'
        have hlt : (g'.edges (g.nodes x).parent).flow < U64 := lt_of_le_of_lt hflc hcap
        rw [usub_eq_sub hle hlt, hd]
        exact ⟨hle, hrest _ (by omega)⟩

/-- Every unsigned operation of `edmonds_karp` on a well-formed graph with a
valid flow is exact, whatever the fuel. -/
theorem edmonds_karp_exact_all {s t : Nat} :
    ∀ (fuel : Nat) (g : Graph) (k : Nat), g.WF → g.ValidFlow → 1 ≤ s ∧ s ≤ g.n →
      1 ≤ t ∧ t ≤ g.n → edmonds_karp_exact fuel g s t k := by
  intro fuel
  induction fuel with
  | zero => intro g k _ _ _ _; simp [edmonds_karp_exact]
  | succ fuel ih =>
    intro g k w vf hs ht
    simp only [edmonds_karp_exact]
    split
    · refine ⟨vf, ?_⟩
      cases hb : max_flow_increase_bfs fuel g s with
      | none => trivial
      | some g1 =>
        simp only
        obtain ⟨hinv, -⟩ := max_flow_increase_bfs_inv w vf hs hb
        have hsame := hinv.same
        split
        · trivial
        · rename_i hv
          have htv : (g1.nodes t).visited = true := by simpa using hv
          obtain ⟨p, hp, -⟩ := hinv.chain t ht.1 ht.2 htv
          have w1 : g1.WF := hsame.net_wf w
          have vf1 : g1.ValidFlow := hsame.net_validFlow vf
          refine ⟨augment_exact_chain w1 hp g1 _ rfl (SameShape.shape_refl g1) (fun _ _ _ => rfl) vf1
            (le_refl _) fuel, ?_⟩
          cases ha : augment_loop fuel g1 s t (g1.nodes t).flow_increase with
          | none => trivial
          | some g2 =>
            simp only
            obtain ⟨g2', haug, -, hsh2, vf2, -, -⟩ :=
              augment_chain w1 hp g1 (g1.nodes t).flow_increase rfl (SameShape.shape_refl g1)
                (fun _ _ _ => rfl) vf1 (le_refl _) (fuel + p.length) (by omega)
            have h2 := augment_loop_mono _ _ _ _ _ _ ha p.length
            rw [haug] at h2
            cases h2
            have hn : g2.n = g.n := hsh2.n_eq.trans hsame.n_eq
            exact ih g2 _ (hsh2.shape_wf w1) vf2 (hn ▸ hs) (hn ▸ ht)
    · trivial

/-! ## Fuel monotonicity of `edmonds_karp` -/

theorem max_flow_increase_bfs_mono {fuel : Nat} {g : Graph} {s : Nat} {g' : Graph}
    (h : max_flow_increase_bfs fuel g s = some g') (k : Nat) :
    max_flow_increase_bfs (fuel + k) g s = some g' :=
  bfs_loop_mono _ _ _ _ h k

theorem edmonds_karp_mono : ∀ (fuel : Nat) (g : Graph) (s t k : Nat) (g' : Graph),
    edmonds_karp fuel g s t k = some g' → ∀ j, edmonds_karp (fuel + j) g s t k = some g' := by
  intro fuel
  induction fuel with
  | zero =>
    intro g s t k g' h j
    simp only [edmonds_karp] at h
    split at h
    · exact absurd h (by simp)
    · rename_i hk
      cases j with
      | zero => simp [edmonds_karp, hk, h]
      | succ j => simp only [Nat.zero_add, edmonds_karp, if_neg hk]; exact h
  | succ fuel ih =>
    intro g s t k g' h j
    rw [show fuel + 1 + j = (fuel + j) + 1 by omega]
    simp only [edmonds_karp] at h ⊢
    split
    · rename_i hk
      rw [if_pos hk] at h
      cases hb : max_flow_increase_bfs fuel g s with
      | none => rw [hb] at h; exact absurd h (by simp)
      | some g1 =>
        rw [hb] at h
        rw [max_flow_increase_bfs_mono hb j]
        simp only at h ⊢
        split
        · rename_i hv; rw [if_pos hv] at h; exact h
        · rename_i hv
          rw [if_neg hv] at h
          cases ha : augment_loop fuel g1 s t (g1.nodes t).flow_increase with
          | none => rw [ha] at h; exact absurd h (by simp)
          | some g2 =>
            rw [ha] at h
            rw [augment_loop_mono _ _ _ _ _ _ ha j]
            simp only at h ⊢
            exact ih _ _ _ _ _ h j
    · rename_i hk
      rw [if_neg hk] at h
      exact h

/-- Whenever `edmonds_karp` returns, the returned graph satisfies `EKPost`. -/
theorem edmonds_karp_post {s t : Nat} (hst : s ≠ t) {g : Graph} (w : g.WF) (vf : g.ValidFlow)
    (hs : 1 ≤ s ∧ s ≤ g.n) (ht : 1 ≤ t ∧ t ≤ g.n) {fuel k : Nat} {g' : Graph}
    (h : edmonds_karp fuel g s t k = some g') : EKPost g s t k g' := by
  obtain ⟨fuel0, g0, hrun, hpost⟩ := edmonds_karp_spec hst k g w vf hs ht
  have h1 := edmonds_karp_mono _ _ _ _ _ _ h fuel0
  have h2 := hrun (fuel + fuel0) (by omega)
  rw [h1] at h2
  cases h2
  exact hpost

/-! ## Reachable flow states -/

theorem get_path_with_increment_inv {g : Graph} (w : g.WF) (vf : g.ValidFlow) {s t : Nat}
    (hs : 1 ≤ s ∧ s ≤ g.n) (ht : 1 ≤ t ∧ t ≤ g.n) {fuel k : Nat}
    {r : Graph × List (Nat × Nat × Nat)} (h : get_path_with_increment fuel g s t k = some r) :
    r.1.WF ∧ r.1.ValidFlow := by
  unfold get_path_with_increment at h
  split at h
  · rename_i hst
    cases he : edmonds_karp fuel g s t k with
    | none => rw [he] at h; exact absurd h (by simp)
    | some g1 =>
      rw [he] at h
      simp only [Option.some.injEq] at h
      subst h
      have hp := edmonds_karp_post hst w vf hs ht he
      exact ⟨hp.shape.shape_wf w, hp.valid⟩
  · simp only [Option.some.injEq] at h
    subst h
    exact ⟨w, vf⟩

theorem FlowReachable.inv {g : Graph} (h : FlowReachable g) : g.WF ∧ g.ValidFlow := by
  induction h with
  | built hb hbuild =>
    obtain ⟨w, hz, -⟩ := build_wf hb hbuild
    exact ⟨w, hz.zero_validFlow⟩
  | @group_of_size g fuel s t k r _ hs1 hsn ht1 htn _ hrun ih =>
    have hsh := reset_flows_sameShape g
    exact get_path_with_increment_inv (hsh.shape_wf ih.1) (reset_flows_validFlow g)
      (g := g.reset_flows) ⟨hs1, hsn⟩ ⟨ht1, htn⟩ hrun
  | @group_of_max_size g fuel s t r _ hs1 hsn ht1 htn hrun ih =>
    have hsh := reset_flows_sameShape g
    exact get_path_with_increment_inv (hsh.shape_wf ih.1) (reset_flows_validFlow g)
      (g := g.reset_flows) ⟨hs1, hsn⟩ ⟨ht1, htn⟩ hrun
  | @with_increment g fuel s t k r _ hs1 hsn ht1 htn _ hrun ih =>
    exact get_path_with_increment_inv ih.1 ih.2 ⟨hs1, hsn⟩ ⟨ht1, htn⟩ hrun

theorem inflow_le_of_zero {g g' : Graph} {s : Nat} (h : g'.inflow s ≤ g.inflow s)
    (h0 : g.inflow s = 0) : g'.inflow s = 0 := by omega

theorem conserved_of_netIn {g g' : Graph} {s t : Nat} (hc : g.Conserved s t)
    (h : ∀ v, v ≠ s → v ≠ t → g'.netIn v = g.netIn v) : g'.Conserved s t := by
  intro v hvs hvt
  have h1 := h v hvs hvt
  have h2 := hc v hvs hvt
  unfold netIn at h1
  omega

/-- What `get_path_for_group_of_size(s, t, K)` guarantees on a well-formed
graph. -/
theorem group_of_size_spec {g : Graph} (w : g.WF) {s t : Nat} (hs : 1 ≤ s ∧ s ≤ g.n)
    (ht : 1 ≤ t ∧ t ≤ g.n) (hst : s ≠ t) (K : Nat) :
    ∃ fuel0 r, (∀ fuel, fuel0 ≤ fuel → get_path_for_group_of_size fuel g s t K = some r) ∧
      SameShape g r.1 ∧ r.1.ValidFlow ∧ r.1.Conserved s t ∧ r.1.inflow s = 0 ∧
      (r.1.outflow s : Int) = r.1.flowValue s ∧
      ((K : Int) ≤ r.1.outflow s ∨ Saturated r.1 s t) ∧
      (1 ≤ K → r.1.outflow s ≤ K + INF - 1) ∧ r.2 = r.1.get_flow_path := by
  have hsh := reset_flows_sameShape g
  obtain ⟨fuel0, g', hrun, hpost⟩ := edmonds_karp_spec hst K g.reset_flows (hsh.shape_wf w)
    (reset_flows_validFlow g) hs ht
  have hin : g'.inflow s = 0 :=
    inflow_le_of_zero hpost.inflow_le (reset_flows_inflow g s)
  have hnet0 : g.reset_flows.netIn s = 0 := by
    unfold netIn; rw [reset_flows_inflow, reset_flows_outflow]; simp
  have hnet : g'.netIn s = -(g'.outflow s : Int) := by
    unfold netIn; rw [hin]; simp
  refine ⟨fuel0, (g', g'.get_flow_path), ?_, hsh.shape_trans hpost.shape, hpost.valid, ?_, hin, ?_, ?_,
    ?_, rfl⟩
  · intro fuel hf
    unfold get_path_for_group_of_size get_path_with_increment
    rw [if_pos hst, hrun fuel hf]
  · apply conserved_of_netIn (g := g.reset_flows) _ hpost.conserve
    intro v _ _
    rw [reset_flows_inflow, reset_flows_outflow]
  · show (g'.outflow s : Int) = g'.flowValue s
    unfold flowValue; rw [hin]; simp
  · show (K : Int) ≤ g'.outflow s ∨ Saturated g' s t
    rcases hpost.enough with h | h
    · left; rw [hnet0, hnet] at h; omega
    · exact Or.inr h
  · intro hK
    show g'.outflow s ≤ K + INF - 1
    have := hpost.bounded hK
    rw [hnet0, hnet] at this
    have h2 : ((g'.outflow s : Nat) : Int) ≤ ((K + INF - 1 : Nat) : Int) := by
      have : 1 ≤ K + INF := by omega
      push_cast [Nat.cast_sub this]
      omega
    exact_mod_cast h2

theorem max_capacity_loop_eq : ∀ (fuel : Nat) (g : Graph) (h : MaxHeap Nat Nat),
    max_capacity_loop fuel g h = search_loop natLt max_capacity_relax fuel g h := by
  intro fuel
  induction fuel with
  | zero => intro g h; rfl
  | succ fuel ih =>
    intro g h
    simp only [max_capacity_loop, search_loop]
    split
    · exact ih _ _
    · rfl

theorem pareto_loop_eq (b : Bool) : ∀ (fuel : Nat) (g : Graph) (h : MaxHeap Nat (Int × Int)),
    pareto_loop b fuel g h = search_loop pairLt (pareto_relax b) fuel g h := by
  intro fuel
  induction fuel with
  | zero => intro g h; rfl
  | succ fuel ih =>
    intro g h
    simp only [pareto_loop, search_loop]
    split
    · exact ih _ _
    · rfl

theorem max_capacity_relax_ok (g0 : Graph) : RelaxOK g0 natLt max_capacity_relax := by
  intro node st e hs
  unfold max_capacity_relax
  simp only
  rw [hs.edges_eq]
  split
  · exact Or.inl rfl
  · rename_i hv
    split
    · right
      refine ⟨_, _, _, ?_, ?_, ?_, ?_, rfl⟩
      · simpa using hv
      · simpa using hv
      · rfl
      · rfl
    · exact Or.inl rfl

theorem pareto_relax_ok (g0 : Graph) (b : Bool) : RelaxOK g0 pairLt (pareto_relax b) := by
  intro node st e hs
  unfold pareto_relax
  simp only
  rw [hs.edges_eq]
  split
  · exact Or.inl rfl
  · rename_i hv
    split
    · right
      refine ⟨_, _, _, ?_, ?_, ?_, ?_, rfl⟩
      · simpa using hv
      · simpa using hv
      · rfl
      · rfl
    · exact Or.inl rfl

theorem isPath_append {g : Graph} : ∀ (es : List Nat) (s t : Nat) (e : Nat),
    g.IsPath s t es → e < g.m → (g.edges e).origin = t →
    g.IsPath s (g.edges e).destination (es ++ [e]) := by
  intro es
  induction es with
  | nil =>
    intro s t e h he ho
    simp only [IsPath] at h
    subst h
    simp [IsPath, he, ho]
  | cons a es ih =>
    intro s t e h he ho
    simp only [IsPath, List.cons_append] at h ⊢
    exact ⟨h.1, h.2.1, ih _ _ _ h.2.2 he ho⟩

theorem Reachable.step {g : Graph} {s t e : Nat} (h : g.Reachable s t) (he : e < g.m)
    (ho : (g.edges e).origin = t) : g.Reachable s (g.edges e).destination := by
  obtain ⟨es, hes⟩ := h
  exact ⟨es ++ [e], isPath_append es s t e hes he ho⟩

/-! ## The search loop: reachability and termination -/

theorem searchMeasure_le {V : Type} {g g' : Graph} {h h' : MaxHeap Nat V} (hn : g'.n = g.n)
    (hsize : h'.size ≤ h.size)
    (hsub : ∀ k, k ≤ g.n → (g'.nodes k).visited = false → (h'.pos k).isSome = false →
      (g.nodes k).visited = false ∧ (h.pos k).isSome = false) :
    searchMeasure g' h' ≤ searchMeasure g h := by
  unfold searchMeasure
  rw [hn]
  apply Nat.add_le_add hsize
  apply Finset.card_le_card
  intro k hk
  simp only [Finset.mem_filter, Finset.mem_range] at hk ⊢
  exact ⟨hk.1, hsub k (by omega) hk.2.1 hk.2.2⟩

theorem searchMeasure_insert {V : Type} {g g' : Graph} {h h' : MaxHeap Nat V} (hn : g'.n = g.n)
    {d : Nat} (hd : d ≤ g.n) (hdv : (g.nodes d).visited = false)
    (hdp : (h.pos d).isSome = false) (hdp' : (h'.pos d).isSome = true)
    (hsize : h'.size = h.size + 1)
    (hsub : ∀ k, k ≤ g.n → (g'.nodes k).visited = false → (h'.pos k).isSome = false →
      (g.nodes k).visited = false ∧ (h.pos k).isSome = false) :
    searchMeasure g' h' ≤ searchMeasure g h := by
  unfold searchMeasure
  rw [hn, hsize]
  have hlt : ((Finset.range (g.n + 1)).filter
      fun k => (g'.nodes k).visited = false ∧ (h'.pos k).isSome = false).card <
      ((Finset.range (g.n + 1)).filter
      fun k => (g.nodes k).visited = false ∧ (h.pos k).isSome = false).card := by
    apply Finset.card_lt_card
    rw [Finset.ssubset_iff_of_subset]
    · refine ⟨d, ?_, ?_⟩
      · simp only [Finset.mem_filter, Finset.mem_range]
        exact ⟨by omega, hdv, hdp⟩
      · simp only [Finset.mem_filter, Finset.mem_range, not_and]
        intro _ _
        rw [hdp']; simp
    · intro k hk
      simp only [Finset.mem_filter, Finset.mem_range] at hk ⊢
      exact ⟨hk.1, hsub k (by omega) hk.2.1 hk.2.2⟩
  omega

theorem relax_step_inv {V : Type} {g0 : Graph} (w : g0.WF) {s : Nat} {lt : V → V → Bool}
    {relax : Nat → Graph × MaxHeap Nat V → Nat → Graph × MaxHeap Nat V}
    (hr : RelaxOK g0 lt relax) {node M : Nat} (hnode : g0.Reachable s node)
    {st : Graph × MaxHeap Nat V} {e : Nat} (he : e ∈ (g0.nodes node).outgoing)
    (h : RelaxInv g0 s M st) : RelaxInv g0 s M (relax node st e) := by
  have hem := (w.mem_out node e).mp he
  rcases hr node st e h.inv.same with h0 | ⟨nd, v, v', hdv, hnv, hno, hni, h1⟩
  · rw [h0]; exact h
  · rw [h1]
    have hdr : g0.Reachable s (g0.edges e).destination := hnode.step hem.1 hem.2
    have hdn : (g0.edges e).destination ≤ st.1.n := by
      rw [h.inv.same.n_eq]; exact w.dest_le e hem.1
    have hvis : ∀ x, ((st.1.setNode (g0.edges e).destination nd).nodes x).visited
        = (st.1.nodes x).visited := by
      intro x
      by_cases hx : x = (g0.edges e).destination
      · subst hx; rw [setNode_nodes_same, hnv, hdv]
      · rw [setNode_nodes_ne _ _ hx]
    have hins := MaxHeap.insert_effect lt st.2 (g0.edges e).destination v
    have hinc := MaxHeap.increase_key_shuffle lt
      (st.2.insert lt (g0.edges e).destination v) (g0.edges e).destination v'
    refine ⟨⟨h.inv.same.net_trans (SameNet.setNode _ _ _ hno hni), ?_, ?_⟩, ?_⟩
    · intro i
      obtain ⟨j, hj⟩ := hinc.keys i
      show ((MaxHeap.increase_key lt _ _ _).a i).key = 0 ∨ _
      rw [hj]
      rcases hins.2.2.1 j with h2 | ⟨l, h2⟩
      · rw [h2]; exact Or.inr hdr
      · rw [h2]; exact h.inv.keys l
    · intro x hx1 hxn hxv
      rw [hvis] at hxv
      exact h.inv.vis x hx1 hxn hxv
    · refine le_trans ?_ h.meas
      show searchMeasure (st.1.setNode (g0.edges e).destination nd)
        (MaxHeap.increase_key lt (st.2.insert lt (g0.edges e).destination v)
          (g0.edges e).destination v') ≤ searchMeasure st.1 st.2
      have hposmono : ∀ k, (st.2.pos k).isSome = true →
          ((MaxHeap.increase_key lt (st.2.insert lt (g0.edges e).destination v)
            (g0.edges e).destination v').pos k).isSome = true :=
        fun k hk => hinc.pos_mono k (hins.2.2.2 k hk)
      have hsub : ∀ k, k ≤ st.1.n →
          ((st.1.setNode (g0.edges e).destination nd).nodes k).visited = false →
          ((MaxHeap.increase_key lt (st.2.insert lt (g0.edges e).destination v)
            (g0.edges e).destination v').pos k).isSome = false →
          (st.1.nodes k).visited = false ∧ (st.2.pos k).isSome = false := by
        intro k _ hkv hkp
        rw [hvis] at hkv
        refine ⟨hkv, ?_⟩
        cases hq : (st.2.pos k).isSome with
        | false => rfl
        | true => rw [hposmono k hq] at hkp; exact Bool.noConfusion hkp
      have hn : (st.1.setNode (g0.edges e).destination nd).n = st.1.n := rfl
      rcases hins.1 with h2 | ⟨h2, h3, h4⟩
      · exact searchMeasure_le hn (by rw [hinc.size_eq, h2]) hsub
      · exact searchMeasure_insert hn hdn hdv h2 (hinc.pos_mono _ h4)
          (by rw [hinc.size_eq, h3]) hsub

/-- One iteration of the search loop keeps the invariant and lowers the
measure. -/
theorem search_iter {V : Type} {g0 : Graph} (w : g0.WF) {s : Nat} {lt : V → V → Bool}
    {relax : Nat → Graph × MaxHeap Nat V → Nat → Graph × MaxHeap Nat V}
    (hr : RelaxOK g0 lt relax) {g : Graph} {h : MaxHeap Nat V} (hinv : SearchInv g0 s g h)
    (hsz : 0 < h.size) :
    let node := (h.remove_max lt).1
    let st := ((g.setNode node { g.nodes node with visited := true }).nodes node).outgoing.foldl
      (relax node) (g.setNode node { g.nodes node with visited := true }, (h.remove_max lt).2)
    SearchInv g0 s st.1 st.2 ∧ searchMeasure st.1 st.2 + 1 ≤ searchMeasure g h := by
  intro node st
  obtain ⟨hmax, hsize, -, hkeys, hpos⟩ := MaxHeap.remove_max_effect lt h hsz
  have hnode : node = 0 ∨ g0.Reachable s node := by
    show (h.remove_max lt).1 = 0 ∨ g0.Reachable s (h.remove_max lt).1
    rw [hmax]; exact hinv.keys 1
  have hsame1 : SameNet g0 (g.setNode node { g.nodes node with visited := true }) :=
    hinv.same.net_trans (SameNet.setNode _ _ _ rfl rfl)
  have hout : ((g.setNode node { g.nodes node with visited := true }).nodes node).outgoing
      = (g0.nodes node).outgoing := by rw [hsame1.out_eq]
  -- the state before the relaxations
  have h0 : RelaxInv g0 s (searchMeasure g h - 1)
      (g.setNode node { g.nodes node with visited := true }, (h.remove_max lt).2) := by
    refine ⟨⟨hsame1, ?_, ?_⟩, ?_⟩
    · intro i
      obtain ⟨j, hj⟩ := hkeys i
      show ((h.remove_max lt).2.a i).key = 0 ∨ _
      rw [hj]; exact hinv.keys j
    · intro x hx1 hxn hxv
      by_cases hx : x = node
      · rcases hnode with h0 | h0
        · omega
        · rw [hx]; exact h0
      · rw [setNode_nodes_ne _ _ hx] at hxv
        exact hinv.vis x hx1 hxn hxv
    · have : searchMeasure (g.setNode node { g.nodes node with visited := true })
          (h.remove_max lt).2 + 1 ≤ searchMeasure g h := by
        unfold searchMeasure
        rw [hsize, setNode_n]
        have hcard : ((Finset.range (g.n + 1)).filter fun k =>
            ((g.setNode node { g.nodes node with visited := true }).nodes k).visited = false ∧
            ((h.remove_max lt).2.pos k).isSome = false).card ≤
            ((Finset.range (g.n + 1)).filter fun k =>
              (g.nodes k).visited = false ∧ (h.pos k).isSome = false).card := by
          apply Finset.card_le_card
          intro k hk
          simp only [Finset.mem_filter, Finset.mem_range] at hk ⊢
          have hkn : k ≠ node := by
            intro hkn
            have := hk.2.1
            rw [hkn, setNode_nodes_same] at this
            exact Bool.noConfusion this
          refine ⟨hk.1, ?_, ?_⟩
          · have := hk.2.1
            rw [setNode_nodes_ne _ _ hkn] at this
            exact this
          · cases hq : (h.pos k).isSome with
            | false => rfl
            | true =>
              have := hpos k (by rw [← hmax]; exact hkn) hq
              rw [this] at hk
              exact Bool.noConfusion hk.2.2
        omega
      show searchMeasure (g.setNode node { g.nodes node with visited := true })
        (h.remove_max lt).2 ≤ searchMeasure g h - 1
      omega
  rcases hnode with hz | hreach
  · -- key 0 has no outgoing edge
    have hempty : (g0.nodes node).outgoing = [] := by
      rw [List.eq_nil_iff_forall_not_mem]
      intro e he
      have := (w.mem_out node e).mp he
      have := w.origin_pos e this.1
      omega
    have hst : st = (g.setNode node { g.nodes node with visited := true }, (h.remove_max lt).2) := by
      show List.foldl _ _ _ = _
      rw [hout, hempty]; rfl
    rw [hst]
    have hm : searchMeasure (g.setNode node { g.nodes node with visited := true })
        (h.remove_max lt).2 ≤ searchMeasure g h - 1 := h0.meas
    have hpos : 0 < searchMeasure g h := by unfold searchMeasure; omega
    have hfin : searchMeasure (g.setNode node { g.nodes node with visited := true })
        (h.remove_max lt).2 + 1 ≤ searchMeasure g h := by omega
    exact ⟨h0.inv, hfin⟩
  · have key := foldl_inv (fun st' => RelaxInv g0 s (searchMeasure g h - 1) st') (relax node)
      (g0.nodes node).outgoing (fun st' e he hJ => relax_step_inv w hr hreach he hJ) _ h0
    have hst : st = (g0.nodes node).outgoing.foldl (relax node)
        (g.setNode node { g.nodes node with visited := true }, (h.remove_max lt).2) := by
      show List.foldl _ _ _ = _
      rw [hout]
    rw [hst]
    have hpos : 0 < searchMeasure g h := by unfold searchMeasure; omega
    have hm := key.meas
    exact ⟨key.inv, by omega⟩

/-- The search loop returns when the fuel reaches the measure, and the graph
it returns satisfies the invariant. -/
theorem search_loop_terminates {V : Type} {g0 : Graph} (w : g0.WF) {s : Nat}
    {lt : V → V → Bool} {relax : Nat → Graph × MaxHeap Nat V → Nat → Graph × MaxHeap Nat V}
    (hr : RelaxOK g0 lt relax) :
    ∀ (fuel : Nat) (g : Graph) (h : MaxHeap Nat V), SearchInv g0 s g h →
      searchMeasure g h ≤ fuel →
      ∃ (g' : Graph) (h' : MaxHeap Nat V),
        search_loop lt relax fuel g h = some g' ∧ SearchInv g0 s g' h' := by
  intro fuel
  induction fuel with
  | zero =>
    intro g h hinv hm
    have : h.size = 0 := by unfold searchMeasure at hm; omega
    exact ⟨g, h, by simp [search_loop, MaxHeap.get_size, this], hinv⟩
  | succ fuel ih =>
    intro g h hinv hm
    by_cases hsz : 0 < h.size
    · obtain ⟨hinv', hm'⟩ := search_iter w hr hinv hsz
      obtain ⟨g', h', hrun, hres⟩ := ih _ _ hinv' (by omega)
      refine ⟨g', h', ?_, hres⟩
      simp only [search_loop, MaxHeap.get_size, gt_iff_lt, hsz, if_true]
      exact hrun
    · exact ⟨g, h, by simp [search_loop, MaxHeap.get_size, hsz], hinv⟩

/-! ## Unreached destinations -/

theorem create_insert_keys {V : Type} (lt : V → V → Bool) (n start : Nat) (v0 v : V) (i : Nat) :
    ((((MaxHeap.create n (2 ^ 32 - 1) 0 v0 : MaxHeap Nat V).insert lt start v).a i).key = 0 ∨
     (((MaxHeap.create n (2 ^ 32 - 1) 0 v0 : MaxHeap Nat V).insert lt start v).a i).key = start) := by
  rcases (MaxHeap.insert_effect lt (MaxHeap.create n (2 ^ 32 - 1) 0 v0 : MaxHeap Nat V) start v).2.2.1 i
    with h | ⟨j, h⟩
  · exact Or.inr h
  · left; rw [h]; rfl

theorem create_insert_size {V : Type} (lt : V → V → Bool) (n start : Nat) (v0 v : V) :
    ((MaxHeap.create n (2 ^ 32 - 1) 0 v0 : MaxHeap Nat V).insert lt start v).size ≤ 1 := by
  rcases (MaxHeap.insert_effect lt (MaxHeap.create n (2 ^ 32 - 1) 0 v0 : MaxHeap Nat V) start v).1
    with h | ⟨-, h, -⟩
  · rw [h]; exact Nat.zero_le _
  · rw [h]; exact le_refl _

theorem searchMeasure_le_init {V : Type} (g : Graph) (h : MaxHeap Nat V) (hs : h.size ≤ 1) :
    searchMeasure g h ≤ g.n + 2 := by
  unfold searchMeasure
  have := Finset.card_filter_le (Finset.range (g.n + 1))
    (fun k => (g.nodes k).visited = false ∧ (h.pos k).isSome = false)
  rw [Finset.card_range] at this
  omega

theorem Reachable.self (g : Graph) (s : Nat) : g.Reachable s s := ⟨[], rfl⟩

/-- The searches start from a state satisfying the loop invariant. -/
theorem searchInv_init {V : Type} (lt : V → V → Bool) (g g2 : Graph) (s : Nat) (v0 v : V)
    (hs : SameNet g g2)
    (hv : ∀ x, 1 ≤ x → x ≤ g.n → (g2.nodes x).visited = false) :
    SearchInv g s g2 ((MaxHeap.create g.n (2 ^ 32 - 1) 0 v0 : MaxHeap Nat V).insert lt s v) := by
  refine ⟨hs, fun i => ?_, fun x h1 hn hx => ?_⟩
  · rcases create_insert_keys lt g.n s v0 v i with h | h
    · exact Or.inl h
    · right; rw [h]; exact Reachable.self g s
  · rw [hv x h1 hn] at hx; exact Bool.noConfusion hx

theorem max_capacity_init_sameNet (g : Graph) (s : Nat) : SameNet g (max_capacity_init g s) := by
  unfold max_capacity_init
  refine ⟨rfl, rfl, rfl, fun v => ?_, fun v => ?_⟩ <;>
  · simp only [setNode_nodes]
    split
    · rename_i h; subst h; split <;> rfl
    · split <;> rfl

theorem max_capacity_init_visited (g : Graph) (s x : Nat) (h1 : 1 ≤ x) (hn : x ≤ g.n) :
    ((max_capacity_init g s).nodes x).visited = false := by
  unfold max_capacity_init
  simp only [setNode_nodes]
  split
  · rename_i h; subst h; simp [h1, hn]
  · simp [h1, hn]

theorem pareto_init_sameNet (g : Graph) (s : Nat) : SameNet g (pareto_init g s) := by
  unfold pareto_init
  refine ⟨rfl, rfl, rfl, fun v => ?_, fun v => ?_⟩ <;>
  · simp only [setNode_nodes]
    split
    · rename_i h; subst h; simp only [if_true]; split <;> rfl
    · split <;> rfl

theorem pareto_init_visited (g : Graph) (s x : Nat) (h1 : 1 ≤ x) (hn : x ≤ g.n) :
    ((pareto_init g s).nodes x).visited = false := by
  unfold pareto_init
  simp only [setNode_nodes]
  split
  · rename_i h; subst h; simp [h1, hn]
  · simp [h1, hn]

theorem max_capacity_dijkstra_unreached {g : Graph} (w : g.WF) {s t : Nat}
    (ht : 1 ≤ t ∧ t ≤ g.n) (hun : ¬ g.Reachable s t) {fuel : Nat} (hf : g.n + 2 ≤ fuel) :
    ∃ g1, g.max_capacity_dijkstra fuel s = some g1 ∧ (g1.nodes t).visited = false := by
  unfold max_capacity_dijkstra
  simp only
  rw [max_capacity_loop_eq]
  have hinit := searchInv_init natLt g (max_capacity_init g s) s 0
    ((max_capacity_init g s).nodes s).capacity (max_capacity_init_sameNet g s)
    (max_capacity_init_visited g s)
  obtain ⟨g1, h1, hrun, hinv⟩ := search_loop_terminates w (max_capacity_relax_ok g) fuel _ _
    hinit (le_trans (searchMeasure_le_init _ _ (create_insert_size natLt g.n s 0 _))
      ((max_capacity_init_sameNet g s).n_eq ▸ hf))
  refine ⟨g1, hrun, ?_⟩
  cases hv : (g1.nodes t).visited with
  | false => rfl
  | true => exact absurd (hinv.vis t ht.1 ht.2 hv) hun

theorem pareto_optimal_dijkstra_unreached {g : Graph} (w : g.WF) {s t : Nat}
    (ht : 1 ≤ t ∧ t ≤ g.n) (hun : ¬ g.Reachable s t) (b : Bool) {fuel : Nat}
    (hf : g.n + 2 ≤ fuel) :
    ∃ g1, g.pareto_optimal_dijkstra fuel s b = some g1 ∧ (g1.nodes t).visited = false := by
  unfold pareto_optimal_dijkstra
  simp only
  rw [pareto_loop_eq]
  have hinit := searchInv_init pairLt g (pareto_init g s) s (0, 0)
    (pareto_weight b ((pareto_init g s).nodes s).capacity
      (uneg ((pareto_init g s).nodes s).distance)) (pareto_init_sameNet g s)
    (pareto_init_visited g s)
  obtain ⟨g1, h1, hrun, hinv⟩ := search_loop_terminates w (pareto_relax_ok g b) fuel _ _
    hinit (le_trans (searchMeasure_le_init _ _ (create_insert_size pairLt g.n s (0, 0) _))
      ((pareto_init_sameNet g s).n_eq ▸ hf))
  refine ⟨g1, hrun, ?_⟩
  cases hv : (g1.nodes t).visited with
  | false => rfl
  | true => exact absurd (hinv.vis t ht.1 ht.2 hv) hun

theorem not_isPath_of_no_in_edge {g : Graph} {t : Nat}
    (h : ∀ e, e < g.m → (g.edges e).destination ≠ t) :
    ∀ (es : List Nat) (s : Nat), s ≠ t → ¬ g.IsPath s t es := by
  intro es
  induction es with
  | nil => intro s hs hp; exact hs hp
  | cons e es ih =>
    intro s _ hp
    simp only [IsPath] at hp
    exact ih _ (h e hp.1) hp.2.2

theorem pendingIn_congr {g0 g g' : Graph} {pend pend' : List Nat} {v : Nat}
    (h : ∀ e, e < g0.m → 0 < (g0.edges e).flow → (g0.edges e).destination = v →
      (((g.nodes (g0.edges e).origin).visited = false ∨ e ∈ pend) ↔
       ((g'.nodes (g0.edges e).origin).visited = false ∨ e ∈ pend'))) :
    pendingIn g0 g pend v = pendingIn g0 g' pend' v := by
  unfold pendingIn
  congr 1
  apply Finset.filter_congr
  intro e he
  have hlt : e < g0.m := Finset.mem_range.mp he
  constructor
  · rintro ⟨h1, h2, h3⟩; exact ⟨h1, h2, (h e hlt h1 h2).mp h3⟩
  · rintro ⟨h1, h2, h3⟩; exact ⟨h1, h2, (h e hlt h1 h2).mpr h3⟩

theorem pendingIn_pos {g0 g : Graph} {pend : List Nat} {e : Nat} (he : g0.PosEdge e)
    (h : (g.nodes (g0.edges e).origin).visited = false ∨ e ∈ pend) :
    1 ≤ pendingIn g0 g pend (g0.edges e).destination := by
  unfold pendingIn
  apply Finset.card_pos.mpr
  exact ⟨e, Finset.mem_filter.mpr ⟨Finset.mem_range.mpr he.1, he.2, rfl, h⟩⟩

theorem pendingIn_zero {g0 g : Graph} {pend : List Nat} {v : Nat}
    (h : pendingIn g0 g pend v = 0) (e : Nat) (he : g0.PosEdge e)
    (hd : (g0.edges e).destination = v) : Handled g0 g pend e := by
  refine ⟨he, ?_, ?_⟩
  · by_contra hv
    have hv' : (g.nodes (g0.edges e).origin).visited = false := by simpa using hv
    have := @pendingIn_pos _ g pend _ he (Or.inl hv')
    rw [hd] at this; omega
  · intro hp
    have := @pendingIn_pos _ g pend _ he (Or.inr hp)
    rw [hd] at this; omega

theorem pendingIn_erase {g0 g g' : Graph} {pend : List Nat} {e : Nat} (he : g0.PosEdge e)
    (hn : e ∉ pend) (hv : (g'.nodes (g0.edges e).origin).visited = true)
    (hvis : ∀ x, (g'.nodes x).visited = (g.nodes x).visited) :
    pendingIn g0 g' pend (g0.edges e).destination + 1
      = pendingIn g0 g (e :: pend) (g0.edges e).destination := by
  unfold pendingIn
  rw [← Finset.card_erase_add_one (a := e)
    (s := (Finset.range g0.m).filter fun e' =>
      0 < (g0.edges e').flow ∧ (g0.edges e').destination = (g0.edges e).destination ∧
        ((g.nodes (g0.edges e').origin).visited = false ∨ e' ∈ e :: pend))]
  · congr 2
    ext e'
    simp only [Finset.mem_filter, Finset.mem_range, Finset.mem_erase, hvis, List.mem_cons]
    constructor
    · rintro ⟨h1, h2, h3, h4⟩
      refine ⟨?_, h1, h2, h3, ?_⟩
      · rintro rfl
        rcases h4 with h4 | h4
        · rw [hvis] at hv; rw [hv] at h4; cases h4
        · exact hn h4
      · rcases h4 with h4 | h4
        · exact Or.inl h4
        · exact Or.inr (Or.inr h4)
    · rintro ⟨h0, h1, h2, h3, h4⟩
      refine ⟨h1, h2, h3, ?_⟩
      rcases h4 with h4 | h4 | h4
      · exact Or.inl h4
      · exact absurd h4 h0
      · exact Or.inr h4
  · exact Finset.mem_filter.mpr ⟨Finset.mem_range.mpr he.1, he.2, rfl, Or.inr (by simp)⟩

/-! ## Positive-flow paths of an acyclic flow -/

theorem isPath_split {g : Graph} : ∀ (a b : List Nat) (s t : Nat),
    g.IsPath s t (a ++ b) → ∃ v, g.IsPath s v a ∧ g.IsPath v t b := by
  intro a
  induction a with
  | nil => intro b s t h; exact ⟨s, rfl, h⟩
  | cons e a ih =>
    intro b s t h
    obtain ⟨h1, h2, h3⟩ := h
    obtain ⟨v, hv1, hv2⟩ := ih b _ t h3
    exact ⟨v, ⟨h1, h2, hv1⟩, hv2⟩

theorem isPath_snoc {g : Graph} {es : List Nat} {s t e : Nat} (h : g.IsPath s t (es ++ [e])) :
    g.IsPath s (g.edges e).origin es ∧ e < g.m ∧ (g.edges e).destination = t := by
  obtain ⟨v, hv1, hv2⟩ := isPath_split es [e] s t h
  obtain ⟨h1, h2, h3⟩ := hv2
  simp only [IsPath] at h3
  exact ⟨h2 ▸ hv1, h1, h3⟩

theorem pathDuration_snoc (g : Graph) (es : List Nat) (e : Nat) :
    g.pathDuration (es ++ [e]) = g.pathDuration es + (g.edges e).duration := by
  simp [pathDuration]

theorem isPosPath_snoc {g : Graph} {es : List Nat} {s e : Nat} (h : g.IsPosPath s (g.edges e).origin es)
    (he : g.PosEdge e) : g.IsPosPath s (g.edges e).destination (es ++ [e]) := by
  refine ⟨isPath_append es s _ e h.1 he.1 rfl, ?_⟩
  intro e' he'
  rcases List.mem_append.mp he' with h' | h'
  · exact h.2 e' h'
  · simp at h'; subst h'; exact he.2

theorem isPosPath_cons {g : Graph} {es : List Nat} {t e : Nat} (he : g.PosEdge e)
    (h : g.IsPosPath (g.edges e).destination t es) : g.IsPosPath (g.edges e).origin t (e :: es) := by
  refine ⟨⟨he.1, rfl, h.1⟩, ?_⟩
  intro e' he'
  rcases List.mem_cons.mp he' with h' | h'
  · subst h'; exact he.2
  · exact h.2 e' h'

/-- In an acyclic flow, the edges of a positive-flow path end in distinct
nodes. -/
theorem posPath_dest_nodup {g : Graph} (hac : g.ActiveAcyclic) : ∀ (es : List Nat) (s t : Nat),
    g.IsPosPath s t es → (es.map fun e => (g.edges e).destination).Nodup := by
  intro es
  induction es with
  | nil => intro s t _; simp
  | cons e es ih =>
    intro s t h
    have htail : g.IsPosPath (g.edges e).destination t es :=
      ⟨h.1.2.2, fun e' he' => h.2 e' (List.mem_cons_of_mem _ he')⟩
    rw [List.map_cons, List.nodup_cons]
    refine ⟨?_, ih _ t htail⟩
    intro hmem
    obtain ⟨e', he', hd⟩ := List.mem_map.mp hmem
    obtain ⟨a, b, hab⟩ := List.append_of_mem he'
    have hsplit : g.IsPath (g.edges e).destination t ((a ++ [e']) ++ b) := by
      rw [List.append_assoc, List.singleton_append, ← hab]; exact htail.1
    obtain ⟨v, hv1, _⟩ := isPath_split (a ++ [e']) b _ t hsplit
    have hv := (isPath_snoc hv1).2.2
    have hcyc : g.IsPosPath (g.edges e).destination (g.edges e).destination (a ++ [e']) := by
      refine ⟨?_, ?_⟩
      · have hvd : v = (g.edges e).destination := hv.symm.trans hd
        rw [hvd] at hv1; exact hv1
      · intro x hx
        apply htail.2
        rw [hab]
        rcases List.mem_append.mp hx with h' | h'
        · exact List.mem_append_left _ h'
        · simp at h'; subst h'; simp
    have := hac _ _ hcyc
    simp at this

theorem isPath_mem_lt {g : Graph} : ∀ (es : List Nat) (s t : Nat), g.IsPath s t es →
    ∀ e ∈ es, e < g.m := by
  intro es
  induction es with
  | nil => intro s t _ e he; simp at he
  | cons e0 es ih =>
    intro s t h e he
    rcases List.mem_cons.mp he with h' | h'
    · subst h'; exact h.1
    · exact ih _ t h.2.2 e h'

/-- In an acyclic flow on a well-formed graph, a positive-flow path has at
most `n` edges. -/
theorem posPath_length_le {g : Graph} (w : g.WF) (hac : g.ActiveAcyclic) (es : List Nat)
    (s t : Nat) (h : g.IsPosPath s t es) : es.length ≤ g.n := by
  have hnd := posPath_dest_nodup hac es s t h
  have hmem : ∀ e ∈ es, e < g.m := isPath_mem_lt es s t h.1
  have hsub : (es.map fun e => (g.edges e).destination).toFinset ⊆ Finset.Icc 1 g.n := by
    intro x hx
    rw [List.mem_toFinset] at hx
    obtain ⟨e, he, rfl⟩ := List.mem_map.mp hx
    exact Finset.mem_Icc.mpr ⟨w.dest_pos e (hmem e he), w.dest_le e (hmem e he)⟩
  have hcard := Finset.card_le_card hsub
  rw [List.toFinset_card_of_nodup hnd, Nat.card_Icc] at hcard
  simpa using hcard

/-- A set of nodes each of which has a positive-flow edge from a node of the
set is empty when the flow is acyclic. -/
theorem closed_under_pred_empty {g : Graph} (w : g.WF) (hac : g.ActiveAcyclic) (U : Nat → Prop)
    (hU : ∀ v, U v → ∃ e, g.PosEdge e ∧ (g.edges e).destination = v ∧ U (g.edges e).origin) :
    ∀ v, ¬ U v := by
  have hlong : ∀ k v, U v → ∃ u es, U u ∧ g.IsPosPath u v es ∧ es.length = k := by
    intro k
    induction k with
    | zero => intro v hv; exact ⟨v, [], hv, ⟨rfl, by simp⟩, rfl⟩
    | succ k ih =>
      intro v hv
      obtain ⟨u, es, hu, hp, hl⟩ := ih v hv
      obtain ⟨e, he, hd, ho⟩ := hU u hu
      refine ⟨_, e :: es, ho, isPosPath_cons he (hd ▸ hp), by simp [hl]⟩
  intro v hv
  obtain ⟨u, es, _, hp, hl⟩ := hlong (g.n + 1) v hv
  have := posPath_length_le w hac es u v hp
  omega

/-- With an acyclic flow whose only source is `s`, no positive-flow edge
enters `s`. -/
theorem onlySource_no_in {g : Graph} (w : g.WF) (hac : g.ActiveAcyclic) {s : Nat}
    (hsrc : g.OnlySource s) : ¬ ∃ e, g.PosEdge e ∧ (g.edges e).destination = s := by
  intro hin
  refine closed_under_pred_empty w hac (fun v => ∃ e, g.PosEdge e ∧ (g.edges e).destination = v)
    ?_ s hin
  intro v ⟨e, he, hd⟩
  refine ⟨e, he, hd, ?_⟩
  by_contra hno
  have := hsrc (g.edges e).origin ⟨e, he, rfl⟩ hno
  rw [this] at hno
  exact hno hin

/-! ## One step of the schedule pass -/

theorem duration_relax_skip (index : Nat) (st : Graph × List Nat) (e : Nat)
    (h : (st.1.edges e).flow = 0) : duration_relax index st e = st := by
  unfold duration_relax; simp [h]

theorem duration_relax_effect (index : Nat) (st : Graph × List Nat) (e : Nat)
    (hf : 0 < (st.1.edges e).flow)
    (hv : (st.1.nodes (st.1.edges e).destination).visited = false) :
    SameNet st.1 (duration_relax index st e).1 ∧
    (∀ v, v ≠ (st.1.edges e).destination →
      (duration_relax index st e).1.nodes v = st.1.nodes v) ∧
    (∀ v, ((duration_relax index st e).1.nodes v).visited = (st.1.nodes v).visited) ∧
    ((duration_relax index st e).1.nodes (st.1.edges e).destination).earliest_start
      = max (st.1.nodes (st.1.edges e).destination).earliest_start
          (uadd (st.1.nodes index).earliest_start (st.1.edges e).duration) ∧
    ((duration_relax index st e).1.nodes (st.1.edges e).destination).in_degree
      = usub (st.1.nodes (st.1.edges e).destination).in_degree 1 ∧
    (duration_relax index st e).2
      = if usub (st.1.nodes (st.1.edges e).destination).in_degree 1 = 0
        then st.2 ++ [(st.1.edges e).destination] else st.2 := by
  obtain ⟨g, q⟩ := st
  simp only at hf hv ⊢
  have hf' : (g.edges e).flow ≠ 0 := by omega
  unfold duration_relax
  simp only [hf', hv, if_false, Bool.false_eq_true]
  by_cases hlt : (g.nodes (g.edges e).destination).earliest_start
      < uadd (g.nodes index).earliest_start (g.edges e).duration <;>
  by_cases hz : usub (g.nodes (g.edges e).destination).in_degree 1 = 0 <;>
  · simp only [hlt, hz, if_true, if_false, setNode_nodes_same, setNode_edges]
    refine ⟨?_, ?_, ?_, ?_, ?_, ?_⟩
    · refine ⟨rfl, rfl, rfl, fun v => ?_, fun v => ?_⟩ <;>
      · by_cases hvd : v = (g.edges e).destination
        · subst hvd; simp
        · simp [setNode_nodes, hvd]
    · intro v hv'; simp [setNode_nodes, hv']
    · intro v
      by_cases hvd : v = (g.edges e).destination
      · subst hvd; simp [hv]
      · simp [setNode_nodes, hvd]
    · simp; omega
    · simp
    · trivial

theorem pendingIn_le (g0 g : Graph) (pend : List Nat) (v : Nat) : pendingIn g0 g pend v ≤ g0.m := by
  unfold pendingIn
  calc _ ≤ (Finset.range g0.m).card := Finset.card_filter_le _ _
    _ = g0.m := Finset.card_range _

theorem pendingIn_cons_zero {g0 g : Graph} {pend : List Nat} {e : Nat}
    (hf : (g0.edges e).flow = 0) (v : Nat) :
    pendingIn g0 g (e :: pend) v = pendingIn g0 g pend v := by
  apply pendingIn_congr
  intro e' _ hpos _
  have hne : e' ≠ e := by rintro rfl; omega
  simp [hne]

theorem duration_relax_inv_zero {g0 : Graph} {s : Nat} {R : Nat → Prop} {g : Graph}
    {q : List Nat} {e : Nat}
    {pend : List Nat} (hinv : DurInv g0 s R g (e :: pend) q) (hf : (g0.edges e).flow = 0) :
    DurInv g0 s R g pend q := by
  have hp : ∀ v, pendingIn g0 g (e :: pend) v = pendingIn g0 g pend v :=
    pendingIn_cons_zero hf
  have hH : ∀ e', Handled g0 g pend e' ↔ Handled g0 g (e :: pend) e' := by
    intro e'
    constructor
    · rintro ⟨h1, h2, h3⟩
      refine ⟨h1, h2, ?_⟩
      intro hm
      rcases List.mem_cons.mp hm with h' | h'
      · subst h'; have := h1.2; omega
      · exact h3 h'
    · rintro ⟨h1, h2, h3⟩
      exact ⟨h1, h2, fun hm => h3 (List.mem_cons_of_mem _ hm)⟩
  refine ⟨hinv.net, ?_, ?_, hinv.longest, ?_, ?_, hinv.q_nodup, ?_, ?_, hinv.start⟩
  · intro v h1 h2; rw [← hp]; exact hinv.indeg v h1 h2
  · intro v h1 h2 h3; rw [← hp]; exact hinv.vis_in v h1 h2 h3
  · intro e' he' hr; exact hinv.upper e' ((hH e').mp he') hr
  · intro v h1 h2 hr
    rcases hinv.attain v h1 h2 hr with h | ⟨e', h3, h4, h5⟩
    · exact Or.inl h
    · exact Or.inr ⟨e', (hH e').mpr h3, h4, h5⟩
  · intro v hv; rw [← hp]; exact hinv.q_mem v hv
  · intro v h1 h2 h3 h4 h5; rw [← hp] at h4; exact hinv.ready v h1 h2 h3 h4 h5

theorem duration_relax_inv_pos {g0 : Graph} {s index : Nat} {R : Nat → Prop} (w : g0.WF)
    (hR : ∀ e, g0.PosEdge e → R (g0.edges e).destination → R (g0.edges e).origin)
    (hno : ∀ v es, R v → g0.IsPosPath s v es → g0.pathDuration es < U64)
    {g : Graph} {q : List Nat} {e : Nat} {pend : List Nat}
    (hinv : DurInv g0 s R g (e :: pend) q) (hpe : g0.PosEdge e)
    (ho : (g0.edges e).origin = index) (hn : e ∉ pend)
    (hi : 1 ≤ index ∧ index ≤ g0.n) (hvi : (g.nodes index).visited = true) :
    DurInv g0 s R (duration_relax index (g, q) e).1 pend (duration_relax index (g, q) e).2 ∧
    ∀ x, ((duration_relax index (g, q) e).1.nodes x).visited = (g.nodes x).visited := by
  have hedges : g.edges = g0.edges := hinv.net.edges_eq
  have hd1 := w.dest_pos e hpe.1
  have hd2 := w.dest_le e hpe.1
  have hpd : 1 ≤ pendingIn g0 g (e :: pend) (g0.edges e).destination :=
    pendingIn_pos hpe (Or.inr (List.mem_cons_self _ _))
  have hdv : (g.nodes (g0.edges e).destination).visited = false := by
    by_contra hc
    have hc' : (g.nodes (g0.edges e).destination).visited = true := by simpa using hc
    have := hinv.vis_in _ hd1 hd2 hc'
    omega
  have hdi : (g0.edges e).destination ≠ index := by
    intro h; rw [h] at hdv; rw [hdv] at hvi; cases hvi
  have hdq : (g0.edges e).destination ∉ q := by
    intro h; have := (hinv.q_mem _ h).2.2.2.1; omega
  have hadd : R (g0.edges e).destination →
      uadd (g.nodes index).earliest_start (g0.edges e).duration
        = (g.nodes index).earliest_start + (g0.edges e).duration := by
    intro hr
    obtain ⟨⟨pes, hpes, hpd'⟩, _⟩ := hinv.longest index hi.1 hi.2 hvi (ho ▸ hR e hpe hr)
    apply uadd_eq_add
    have h1 := hno _ _ hr (isPosPath_snoc (ho ▸ hpes) hpe)
    rw [pathDuration_snoc, hpd'] at h1
    exact h1
  have hsub : usub (g.nodes (g0.edges e).destination).in_degree 1
      = (g.nodes (g0.edges e).destination).in_degree - 1 := by
    have h1 := hinv.indeg _ hd1 hd2
    have h2 := pendingIn_le g0 g (e :: pend) (g0.edges e).destination
    have h3 := w.m_lt
    apply usub_eq_sub <;> omega
  have heff := duration_relax_effect index (g, q) e (by simpa [hedges] using hpe.2)
    (by simpa [hedges] using hdv)
  simp only [hedges, hsub] at heff
  obtain ⟨hnet, hsame, hvis, hes, hdeg, hq⟩ := heff
  generalize duration_relax index (g, q) e = r at hnet hsame hvis hes hdeg hq ⊢
  obtain ⟨g', q'⟩ := r
  simp only at hnet hsame hvis hes hdeg hq ⊢
  have hvis_ne : ∀ x, (g.nodes x).visited = true → g'.nodes x = g.nodes x := by
    intro x hx
    apply hsame
    intro h; rw [h] at hx; rw [hdv] at hx; cases hx
  have hvo : (g'.nodes (g0.edges e).origin).visited = true := by rw [hvis, ho]; exact hvi
  have hp_d := @pendingIn_erase _ g g' _ _ hpe hn hvo hvis
  have hp_ne : ∀ v, v ≠ (g0.edges e).destination →
      pendingIn g0 g' pend v = pendingIn g0 g (e :: pend) v := by
    intro v hv
    apply pendingIn_congr
    intro e' _ _ hd'
    have hne : e' ≠ e := by rintro rfl; exact hv hd'.symm
    simp [hvis, hne]
  have hH_old : ∀ e', Handled g0 g (e :: pend) e' → Handled g0 g' pend e' := by
    rintro e' ⟨h1, h2, h3⟩
    exact ⟨h1, by rw [hvis]; exact h2, fun hm => h3 (List.mem_cons_of_mem _ hm)⟩
  have hH_e : Handled g0 g' pend e := ⟨hpe, hvo, hn⟩
  have hH_new : ∀ e', Handled g0 g' pend e' → e' = e ∨ Handled g0 g (e :: pend) e' := by
    rintro e' ⟨h1, h2, h3⟩
    by_cases hee : e' = e
    · exact Or.inl hee
    · refine Or.inr ⟨h1, by rw [← hvis]; exact h2, ?_⟩
      intro hm
      rcases List.mem_cons.mp hm with h' | h'
      · exact hee h'
      · exact h3 h'
  have hes_ge : ∀ x, (g.nodes x).earliest_start ≤ (g'.nodes x).earliest_start := by
    intro x
    by_cases hx : x = (g0.edges e).destination
    · subst hx; rw [hes]; exact le_max_left _ _
    · rw [hsame x hx]
  have hidx : g'.nodes index = g.nodes index := hvis_ne index hvi
  have hqd : (g'.nodes (g0.edges e).destination).in_degree = 0 →
      pendingIn g0 g' pend (g0.edges e).destination = 0 := by
    intro h0
    have h1 := hinv.indeg _ hd1 hd2
    omega
  refine ⟨⟨hinv.net.net_trans hnet, ?_, ?_, ?_, ?_, ?_, ?_, ?_, ?_, ?_⟩, hvis⟩
  · intro v h1 h2
    by_cases hv : v = (g0.edges e).destination
    · subst hv
      have := hinv.indeg _ h1 h2
      omega
    · rw [hsame v hv, hp_ne v hv]; exact hinv.indeg v h1 h2
  · intro v h1 h2 h3
    rw [hvis] at h3
    have hv : v ≠ (g0.edges e).destination := by
      intro h; rw [h] at h3; rw [hdv] at h3; cases h3
    rw [hp_ne v hv]; exact hinv.vis_in v h1 h2 h3
  · intro v h1 h2 h3 hr
    rw [hvis] at h3
    rw [hvis_ne v h3]; exact hinv.longest v h1 h2 h3 hr
  · intro e' he' hr
    rcases hH_new e' he' with h | h
    · subst h
      rw [ho, hidx, hes, hadd hr]; exact le_max_right _ _
    · rw [hvis_ne _ h.2.1]
      exact le_trans (hinv.upper e' h hr) (hes_ge _)
  · intro v h1 h2 hr
    by_cases hv : v = (g0.edges e).destination
    · subst hv
      rw [hes, hadd hr]
      by_cases hlt : (g.nodes (g0.edges e).destination).earliest_start
          < (g.nodes index).earliest_start + (g0.edges e).duration
      · right
        refine ⟨e, hH_e, rfl, ?_⟩
        rw [ho, hidx, max_eq_right (le_of_lt hlt)]
      · rw [max_eq_left (by omega)]
        rcases hinv.attain _ h1 h2 hr with h | ⟨e', h3, h4, h5⟩
        · exact Or.inl h
        · exact Or.inr ⟨e', hH_old e' h3, h4, by rw [hvis_ne _ h3.2.1]; exact h5⟩
    · rw [hsame v hv]
      rcases hinv.attain v h1 h2 hr with h | ⟨e', h3, h4, h5⟩
      · exact Or.inl h
      · exact Or.inr ⟨e', hH_old e' h3, h4, by rw [hvis_ne _ h3.2.1]; exact h5⟩
  · rw [hq]
    split_ifs
    · rw [List.nodup_append]
      refine ⟨hinv.q_nodup, by simp, ?_⟩
      intro a ha hb
      simp at hb; subst hb; exact hdq ha
    · exact hinv.q_nodup
  · intro v hv
    have hold : v ∈ q → _ := fun hvq => by
      have hv' : v ≠ (g0.edges e).destination := by rintro rfl; exact hdq hvq
      have := hinv.q_mem v hvq
      exact (show 1 ≤ v ∧ v ≤ g0.n ∧ (g'.nodes v).visited = false ∧
          pendingIn g0 g' pend v = 0 ∧
          (v = s ∨ ∃ e, g0.PosEdge e ∧ (g0.edges e).destination = v) from
        ⟨this.1, this.2.1, by rw [hvis]; exact this.2.2.1, by rw [hp_ne v hv']; exact this.2.2.2.1,
          this.2.2.2.2⟩)
    rw [hq] at hv
    split_ifs at hv with hz
    · rcases List.mem_append.mp hv with h | h
      · exact hold h
      · simp at h; subst h
        refine ⟨hd1, hd2, by rw [hvis]; exact hdv, hqd (by rw [hdeg]; exact hz), Or.inr ⟨e, hpe, rfl⟩⟩
    · exact hold hv
  · intro v h1 h2 h3 h4 h5
    rw [hq]
    by_cases hv : v = (g0.edges e).destination
    · subst hv
      have h6 := hinv.indeg _ h1 h2
      have hz : (g.nodes (g0.edges e).destination).in_degree - 1 = 0 := by omega
      simp [hz]
    · rw [hvis] at h3
      rw [hp_ne v hv] at h4
      have := hinv.ready v h1 h2 h3 h4 h5
      split_ifs
      · exact List.mem_append_left _ this
      · exact this
  · rcases hinv.start with h | h
    · left; rw [hq]; split_ifs
      · exact List.mem_append_left _ h
      · exact h
    · right; rw [hvis]; exact h

/-! ## The loops of `biggest_duration` -/

theorem duration_fold_inv {g0 : Graph} {s index : Nat} {R : Nat → Prop} (w : g0.WF)
    (hR : ∀ e, g0.PosEdge e → R (g0.edges e).destination → R (g0.edges e).origin)
    (hno : ∀ v es, R v → g0.IsPosPath s v es → g0.pathDuration es < U64)
    (hi : 1 ≤ index ∧ index ≤ g0.n) :
    ∀ (l : List Nat) (g : Graph) (q : List Nat), l.Nodup →
      (∀ e ∈ l, e < g0.m ∧ (g0.edges e).origin = index) →
      DurInv g0 s R g l q → (g.nodes index).visited = true →
      DurInv g0 s R (l.foldl (duration_relax index) (g, q)).1 []
        (l.foldl (duration_relax index) (g, q)).2 ∧
      ∀ x, ((l.foldl (duration_relax index) (g, q)).1.nodes x).visited = (g.nodes x).visited := by
  intro l
  induction l with
  | nil => intro g q _ _ hinv _; exact ⟨hinv, fun _ => rfl⟩
  | cons e l ih =>
    intro g q hnd hl hinv hvi
    rw [List.foldl_cons]
    have hnd' := List.nodup_cons.mp hnd
    have hl' : ∀ e' ∈ l, e' < g0.m ∧ (g0.edges e').origin = index :=
      fun e' he' => hl e' (List.mem_cons_of_mem _ he')
    have he := hl e (List.mem_cons_self _ _)
    by_cases hf : (g0.edges e).flow = 0
    · rw [duration_relax_skip index (g, q) e (by rw [hinv.net.edges_eq]; exact hf)]
      exact ih g q hnd'.2 hl' (duration_relax_inv_zero hinv hf) hvi
    · have hstep := duration_relax_inv_pos w hR hno hinv ⟨he.1, by omega⟩ he.2 hnd'.1 hi hvi
      generalize duration_relax index (g, q) e = r at hstep ⊢
      obtain ⟨g', q'⟩ := r
      have := ih g' q' hnd'.2 hl' hstep.1 (by rw [hstep.2]; exact hvi)
      exact ⟨this.1, fun x => (this.2 x).trans (hstep.2 x)⟩

/-- When every positive-flow edge into `v` is handled, `earliest_start` of `v`
is the greatest duration of a positive-flow path from `s`. -/
theorem longest_of_ready {g0 : Graph} {s : Nat} {R : Nat → Prop} (w : g0.WF)
    (hR : ∀ e, g0.PosEdge e → R (g0.edges e).destination → R (g0.edges e).origin)
    {g : Graph} {pend q : List Nat}
    (hinv : DurInv g0 s R g pend q) {v : Nat} (h1 : 1 ≤ v ∧ v ≤ g0.n) (hr : R v)
    (hp : pendingIn g0 g pend v = 0)
    (hsrc : v = s ∨ ∃ e, g0.PosEdge e ∧ (g0.edges e).destination = v) :
    IsLongest g0 s v (g.nodes v).earliest_start := by
  have hvis : ∀ e, Handled g0 g pend e → (g0.edges e).destination = v →
      IsLongest g0 s (g0.edges e).origin (g.nodes (g0.edges e).origin).earliest_start :=
    fun e he hd => hinv.longest _ (w.origin_pos e he.1.1) (w.origin_le e he.1.1) he.2.1
      (hR e he.1 (hd ▸ hr))
  have hatt : ∀ e, Handled g0 g pend e → (g0.edges e).destination = v →
      ∃ es, g0.IsPosPath s v es ∧ g0.pathDuration es
        = (g.nodes (g0.edges e).origin).earliest_start + (g0.edges e).duration := by
    intro e he hd
    obtain ⟨⟨p, hp1, hp2⟩, _⟩ := hvis e he hd
    exact ⟨p ++ [e], hd ▸ isPosPath_snoc hp1 he.1, by rw [pathDuration_snoc, hp2]⟩
  constructor
  · by_cases hz : (g.nodes v).earliest_start = 0
    · rcases hsrc with h | ⟨e, he, hd⟩
      · exact ⟨[], ⟨h.symm, by simp⟩, by rw [hz]; rfl⟩
      · have hh := pendingIn_zero hp e he hd
        obtain ⟨es, h1, h2⟩ := hatt e hh hd
        have := hinv.upper e hh (hd ▸ hr)
        rw [hd] at this
        exact ⟨es, h1, by omega⟩
    · rcases hinv.attain v h1.1 h1.2 hr with h | ⟨e, h3, h4, h5⟩
      · exact absurd h hz
      · obtain ⟨es, h6, h7⟩ := hatt e h3 h4
        exact ⟨es, h6, by omega⟩
  · intro es hes
    rcases List.eq_nil_or_concat es with h | ⟨es', e, h⟩
    · subst h; simp [pathDuration]
    · rw [List.concat_eq_append] at h
      subst h
      obtain ⟨h1, h2, h3⟩ := isPath_snoc hes.1
      have hpe : g0.PosEdge e := ⟨h2, hes.2 e (by simp)⟩
      have hh := pendingIn_zero hp e hpe h3
      have hup := hinv.upper e hh (h3 ▸ hr)
      rw [h3] at hup
      have hle := (hvis e hh h3).2 es' ⟨h1, fun x hx => hes.2 x (by simp [hx])⟩
      rw [pathDuration_snoc]
      omega

theorem unvisitedCount_lt {g g' : Graph} {c : Nat} (hn : g'.n = g.n) (hc : c ≤ g.n)
    (hcv : (g.nodes c).visited = false) (hcv' : (g'.nodes c).visited = true)
    (hmono : ∀ x, (g.nodes x).visited = true → (g'.nodes x).visited = true) :
    unvisitedCount g' < unvisitedCount g := by
  unfold unvisitedCount
  rw [hn]
  apply Finset.card_lt_card
  rw [Finset.ssubset_iff_of_subset]
  · refine ⟨c, ?_, ?_⟩
    · simp only [Finset.mem_filter, Finset.mem_range]
      exact ⟨by omega, hcv⟩
    · simp only [Finset.mem_filter, Finset.mem_range, not_and]
      intro _; rw [hcv']; simp
  · intro x hx
    simp only [Finset.mem_filter, Finset.mem_range] at hx ⊢
    refine ⟨hx.1, ?_⟩
    by_contra hxv
    have := hmono x (by simpa using hxv)
    rw [hx.2] at this; cases this

theorem unvisitedCount_le (g : Graph) : unvisitedCount g ≤ g.n + 1 := by
  unfold unvisitedCount
  calc _ ≤ (Finset.range (g.n + 1)).card := Finset.card_filter_le _ _
    _ = g.n + 1 := Finset.card_range _

/-- Dequeuing `index` and marking it visited keeps the invariant, with the
edges leaving `index` pending. -/
theorem duration_visit_inv {g0 : Graph} {s : Nat} {R : Nat → Prop} (w : g0.WF)
    (hR : ∀ e, g0.PosEdge e → R (g0.edges e).destination → R (g0.edges e).origin)
    {g : Graph} {index : Nat}
    {rest : List Nat} (hinv : DurInv g0 s R g [] (index :: rest)) :
    DurInv g0 s R (g.setNode index { g.nodes index with visited := true })
      (g0.nodes index).outgoing rest := by
  obtain ⟨hi1, hi2, hiv, hip, hisrc⟩ := hinv.q_mem index (List.mem_cons_self _ _)
  have hnd := List.nodup_cons.mp hinv.q_nodup
  have hlong := fun hr => longest_of_ready w hR hinv ⟨hi1, hi2⟩ hr hip hisrc
  have hes : ∀ x, ((g.setNode index { g.nodes index with visited := true }).nodes x).earliest_start
      = (g.nodes x).earliest_start := by
    intro x; simp only [setNode_nodes]; split_ifs with h
    · subst h; rfl
    · rfl
  have hdeg : ∀ x, ((g.setNode index { g.nodes index with visited := true }).nodes x).in_degree
      = (g.nodes x).in_degree := by
    intro x; simp only [setNode_nodes]; split_ifs with h
    · subst h; rfl
    · rfl
  have hvis : ∀ x, ((g.setNode index { g.nodes index with visited := true }).nodes x).visited
      = if x = index then true else (g.nodes x).visited := by
    intro x; simp only [setNode_nodes]; split_ifs <;> rfl
  have hcond : ∀ e, e < g0.m →
      ((((g.setNode index { g.nodes index with visited := true }).nodes
          (g0.edges e).origin).visited = false ∨ e ∈ (g0.nodes index).outgoing) ↔
       ((g.nodes (g0.edges e).origin).visited = false ∨ e ∈ ([] : List Nat))) := by
    intro e he
    rw [hvis, w.mem_out]
    by_cases ho : (g0.edges e).origin = index
    · simp [ho, he, hiv]
    · simp [ho]
  have hp : ∀ v, pendingIn g0 (g.setNode index { g.nodes index with visited := true })
      (g0.nodes index).outgoing v = pendingIn g0 g [] v :=
    fun v => pendingIn_congr (fun e he _ _ => hcond e he)
  have hH : ∀ e, Handled g0 (g.setNode index { g.nodes index with visited := true })
      (g0.nodes index).outgoing e ↔ Handled g0 g [] e := by
    intro e
    unfold Handled
    constructor
    · rintro ⟨h1, h2, h3⟩
      have := (hcond e h1.1).not.mp (by rw [h2]; simpa using h3)
      refine ⟨h1, ?_, by simp⟩
      by_contra hc; exact this (Or.inl (by simpa using hc))
    · rintro ⟨h1, h2, h3⟩
      have := (hcond e h1.1).not.mpr (by rw [h2]; simp)
      refine ⟨h1, ?_, fun hc => this (Or.inr hc)⟩
      by_contra hc; exact this (Or.inl (by simpa using hc))
  refine ⟨hinv.net.net_trans (SameNet.setNode g index _ rfl rfl), ?_, ?_, ?_, ?_, ?_, hnd.2,
    ?_, ?_, ?_⟩
  · intro v h1 h2; rw [hdeg, hp]; exact hinv.indeg v h1 h2
  · intro v h1 h2 h3
    rw [hp]
    rw [hvis] at h3
    by_cases hv : v = index
    · subst hv; exact hip
    · rw [if_neg hv] at h3; exact hinv.vis_in v h1 h2 h3
  · intro v h1 h2 h3
    rw [hes]
    rw [hvis] at h3
    by_cases hv : v = index
    · subst hv; exact hlong
    · rw [if_neg hv] at h3; exact hinv.longest v h1 h2 h3
  · intro e he hr; rw [hes, hes]; exact hinv.upper e ((hH e).mp he) hr
  · intro v h1 h2 hr
    rw [hes]
    rcases hinv.attain v h1 h2 hr with h | ⟨e, h3, h4, h5⟩
    · exact Or.inl h
    · exact Or.inr ⟨e, (hH e).mpr h3, h4, by rw [hes]; exact h5⟩
  · intro v hv
    have hne : v ≠ index := by rintro rfl; exact hnd.1 hv
    have := hinv.q_mem v (List.mem_cons_of_mem _ hv)
    refine ⟨this.1, this.2.1, ?_, ?_, this.2.2.2.2⟩
    · rw [hvis, if_neg hne]; exact this.2.2.1
    · rw [hp]; exact this.2.2.2.1
  · intro v h1 h2 h3 h4 h5
    rw [hvis] at h3
    by_cases hv : v = index
    · rw [if_pos hv] at h3; cases h3
    · rw [if_neg hv] at h3
      rw [hp] at h4
      rcases List.mem_cons.mp (hinv.ready v h1 h2 h3 h4 h5) with h | h
      · exact absurd h hv
      · exact h
  · rcases hinv.start with h | h
    · rcases List.mem_cons.mp h with h' | h'
      · right; rw [hvis, if_pos h']
      · exact Or.inl h'
    · right; rw [hvis]; split_ifs
      · rfl
      · exact h

theorem duration_loop_spec {g0 : Graph} {s : Nat} {R : Nat → Prop} (w : g0.WF)
    (hR : ∀ e, g0.PosEdge e → R (g0.edges e).destination → R (g0.edges e).origin)
    (hno : ∀ v es, R v → g0.IsPosPath s v es → g0.pathDuration es < U64) :
    ∀ (fuel : Nat) (g : Graph) (q : List Nat), DurInv g0 s R g [] q → unvisitedCount g ≤ fuel →
      ∃ g', duration_loop fuel g q = some g' ∧ DurInv g0 s R g' [] [] := by
  intro fuel
  induction fuel with
  | zero =>
    intro g q hinv hfuel
    cases q with
    | nil => exact ⟨g, rfl, hinv⟩
    | cons index rest =>
      exfalso
      obtain ⟨hi1, hi2, hiv, -, -⟩ := hinv.q_mem index (List.mem_cons_self _ _)
      have hlt := @unvisitedCount_lt g
        (g.setNode index { g.nodes index with visited := true }) index rfl
        (by rw [hinv.net.n_eq]; exact hi2) hiv (by simp) (by
          intro x hx; simp only [setNode_nodes]; split_ifs
          · rfl
          · exact hx)
      omega
  | succ fuel ih =>
    intro g q hinv hfuel
    cases q with
    | nil => exact ⟨g, rfl, hinv⟩
    | cons index rest =>
      obtain ⟨hi1, hi2, hiv, -, -⟩ := hinv.q_mem index (List.mem_cons_self _ _)
      have hvisit := duration_visit_inv w hR hinv
      have hout : ((g.setNode index { g.nodes index with visited := true }).nodes index).outgoing
          = (g0.nodes index).outgoing := by
        rw [setNode_nodes_same]; exact hinv.net.out_eq index
      have hfold := duration_fold_inv w hR hno ⟨hi1, hi2⟩ (g0.nodes index).outgoing
        (g.setNode index { g.nodes index with visited := true }) rest (w.nodup_out index)
        (fun e he => (w.mem_out index e).mp he) hvisit (by simp)
      simp only [duration_loop]
      rw [hout]
      generalize (g0.nodes index).outgoing.foldl (duration_relax index)
        (g.setNode index { g.nodes index with visited := true }, rest) = r at hfold ⊢
      obtain ⟨g', q'⟩ := r
      apply ih g' q' hfold.1
      have hlt := @unvisitedCount_lt g g' index
        (by rw [hfold.1.net.n_eq, hinv.net.n_eq])
        (by rw [hinv.net.n_eq]; exact hi2) hiv (by rw [hfold.2]; simp) (by
          intro x hx; rw [hfold.2]; simp only [setNode_nodes]; split_ifs
          · rfl
          · exact hx)
      omega

theorem count_in_degree_fold {g0 : Graph} (w : g0.WF) (g1 : Graph) (h1 : SameNet g0 g1)
    (hz : ∀ v, 1 ≤ v → v ≤ g0.n → (g1.nodes v).in_degree = 0) :
    ∀ k, k ≤ g0.m →
      SameNet g0 ((List.range k).foldl count_in_degree g1) ∧
      (∀ v, (((List.range k).foldl count_in_degree g1).nodes v).visited = (g1.nodes v).visited ∧
        (((List.range k).foldl count_in_degree g1).nodes v).earliest_start
          = (g1.nodes v).earliest_start) ∧
      ∀ v, 1 ≤ v → v ≤ g0.n → (((List.range k).foldl count_in_degree g1).nodes v).in_degree
        = ((Finset.range k).filter fun e =>
            0 < (g0.edges e).flow ∧ (g0.edges e).destination = v).card := by
  intro k
  induction k with
  | zero => intro _; exact ⟨h1, fun _ => ⟨rfl, rfl⟩, fun v hv1 hv2 => by simpa using hz v hv1 hv2⟩
  | succ k ih =>
    intro hk
    obtain ⟨hnet, hsame, hdeg⟩ := ih (by omega)
    rw [List.range_succ, List.foldl_append, List.foldl_cons, List.foldl_nil]
    generalize (List.range k).foldl count_in_degree g1 = gk at hnet hsame hdeg ⊢
    have hcard : ∀ v, ((Finset.range (k + 1)).filter fun e =>
          0 < (g0.edges e).flow ∧ (g0.edges e).destination = v).card
        = ((Finset.range k).filter fun e =>
          0 < (g0.edges e).flow ∧ (g0.edges e).destination = v).card
          + if 0 < (g0.edges k).flow ∧ (g0.edges k).destination = v then 1 else 0 := by
      intro v
      rw [Finset.range_succ, Finset.filter_insert]
      split_ifs with h
      · rw [Finset.card_insert_of_not_mem]
        simp
      · rfl
    unfold count_in_degree
    simp only [hnet.edges_eq]
    by_cases hf : 0 < (g0.edges k).flow
    · simp only [hf, if_true, true_and]
      have hd1 := w.dest_pos k (by omega)
      have hd2 := w.dest_le k (by omega)
      have hle : (gk.nodes (g0.edges k).destination).in_degree ≤ k := by
        rw [hdeg _ hd1 hd2]
        calc _ ≤ (Finset.range k).card := Finset.card_filter_le _ _
          _ = k := Finset.card_range _
      have hadd : uadd (gk.nodes (g0.edges k).destination).in_degree 1
          = (gk.nodes (g0.edges k).destination).in_degree + 1 := by
        apply uadd_eq_add
        have := w.m_lt
        omega
      refine ⟨hnet.net_trans (SameNet.setNode gk _ _ rfl rfl), fun v => ?_, fun v hv1 hv2 => ?_⟩
      · simp only [setNode_nodes]
        split_ifs with h
        · subst h; exact hsame _
        · exact hsame v
      · rw [hcard]
        simp only [setNode_nodes]
        by_cases hv : v = (g0.edges k).destination
        · subst hv
          simp only [if_true, hadd]
          rw [hdeg _ hv1 hv2]
          simp [hf]
        · rw [if_neg hv, if_neg (fun h => hv h.2.symm), hdeg v hv1 hv2]
          rfl
    · simp only [hf, if_false, false_and]
      refine ⟨hnet, hsame, fun v hv1 hv2 => ?_⟩
      rw [hcard, hdeg v hv1 hv2]
      simp [hf]

theorem duration_init_spec {g : Graph} (w : g.WF) :
    SameNet g (duration_init g) ∧
    ∀ v, 1 ≤ v → v ≤ g.n → ((duration_init g).nodes v).visited = false ∧
      ((duration_init g).nodes v).earliest_start = 0 ∧
      ((duration_init g).nodes v).in_degree = ((Finset.range g.m).filter fun e =>
        0 < (g.edges e).flow ∧ (g.edges e).destination = v).card := by
  have hnodes : ∀ i, (duration_reset g).nodes i = if 1 ≤ i ∧ i ≤ g.n then
        { g.nodes i with parent := 0, visited := false, earliest_start := 0, in_degree := 0 }
      else g.nodes i := fun i => rfl
  have hreset : SameNet g (duration_reset g) := by
    refine ⟨rfl, rfl, rfl, fun v => ?_, fun v => ?_⟩ <;>
    · rw [hnodes]; split <;> rfl
  have hz : ∀ v, 1 ≤ v → v ≤ g.n → ((duration_reset g).nodes v).in_degree = 0 := by
    intro v h1 h2; rw [hnodes, if_pos ⟨h1, h2⟩]
  have hinit : duration_init g = (List.range g.m).foldl count_in_degree (duration_reset g) := rfl
  obtain ⟨hnet, hsame, hdeg⟩ := count_in_degree_fold w (duration_reset g) hreset hz g.m le_rfl
  rw [hinit]
  refine ⟨hnet, fun v h1 h2 => ⟨?_, ?_, hdeg v h1 h2⟩⟩
  · rw [(hsame v).1, hnodes, if_pos ⟨h1, h2⟩]
  · rw [(hsame v).2, hnodes, if_pos ⟨h1, h2⟩]

/-- The state prepared by `biggest_duration` satisfies the loop invariant with
the queue `[s]`, provided no positive-flow edge enters `s`. -/
theorem duration_init_inv {g : Graph} (R : Nat → Prop) (w : g.WF) {s : Nat}
    (hs : 1 ≤ s ∧ s ≤ g.n)
    (hin : ¬ ∃ e, g.PosEdge e ∧ (g.edges e).destination = s) :
    DurInv g s R (duration_init g) [] [s] := by
  obtain ⟨hnet, hspec⟩ := duration_init_spec w
  have hunv : ∀ e, e < g.m → ((duration_init g).nodes (g.edges e).origin).visited = false :=
    fun e he => (hspec _ (w.origin_pos e he) (w.origin_le e he)).1
  have hp : ∀ v, pendingIn g (duration_init g) [] v = ((Finset.range g.m).filter fun e =>
        0 < (g.edges e).flow ∧ (g.edges e).destination = v).card := by
    intro v
    unfold pendingIn
    congr 1
    apply Finset.filter_congr
    intro e he
    simp [hunv e (Finset.mem_range.mp he)]
  have hnoH : ∀ e, ¬ Handled g (duration_init g) [] e := by
    rintro e ⟨h1, h2, -⟩
    rw [hunv e h1.1] at h2; cases h2
  have hps : pendingIn g (duration_init g) [] s = 0 := by
    by_contra hc
    unfold pendingIn at hc
    obtain ⟨e, he⟩ := Finset.card_pos.mp (Nat.pos_of_ne_zero hc)
    simp only [Finset.mem_filter, Finset.mem_range] at he
    exact hin ⟨e, ⟨he.1, he.2.1⟩, he.2.2.1⟩
  refine ⟨hnet, ?_, ?_, ?_, ?_, ?_, by simp, ?_, ?_, Or.inl (by simp)⟩
  · intro v h1 h2; rw [hp]; exact (hspec v h1 h2).2.2
  · intro v h1 h2 h3; rw [(hspec v h1 h2).1] at h3; cases h3
  · intro v h1 h2 h3; rw [(hspec v h1 h2).1] at h3; cases h3
  · intro e he; exact absurd he (hnoH e)
  · intro v h1 h2 _; exact Or.inl (hspec v h1 h2).2.1
  · intro v hv
    simp at hv; subst hv
    exact ⟨hs.1, hs.2, (hspec v hs.1 hs.2).1, hps, Or.inl rfl⟩
  · intro v h1 h2 _ h4 ⟨e, he, hd⟩
    have := @pendingIn_pos _ (duration_init g) [] _ he (Or.inl (hunv e he.1))
    rw [hd] at this; omega

theorem isPosPath_concat {g : Graph} : ∀ (a b : List Nat) (s v t : Nat),
    g.IsPosPath s v a → g.IsPosPath v t b → g.IsPosPath s t (a ++ b) := by
  intro a
  induction a with
  | nil =>
    intro b s v t ha hb
    have : s = v := ha.1
    subst this; exact hb
  | cons e a ih =>
    intro b s v t ha hb
    have htail : g.IsPosPath (g.edges e).destination v a :=
      ⟨ha.1.2.2, fun e' he' => ha.2 e' (List.mem_cons_of_mem _ he')⟩
    have hrec := ih b _ v t htail hb
    refine ⟨⟨ha.1.1, ha.1.2.1, hrec.1⟩, ?_⟩
    intro e' he'
    rcases List.mem_cons.mp he' with h | h
    · subst h; exact ha.2 e' (List.mem_cons_self _ _)
    · exact hrec.2 e' h

theorem pathDuration_append (g : Graph) (a b : List Nat) :
    g.pathDuration (a ++ b) = g.pathDuration a + g.pathDuration b := by
  simp [pathDuration]

/-- `get_earliest_meetup` on an acyclic flow whose only source is `start`:
with fuel at least `n + 1` it returns the greatest duration of a
positive-flow path from `start` to `end`, as long as no such duration reaches
`2^64`. -/
theorem get_earliest_meetup_spec {g : Graph} (w : g.WF) {start end_ : Nat}
    (hs : 1 ≤ start ∧ start ≤ g.n) (hac : g.ActiveAcyclic) (hsrc : g.OnlySource start)
    (hno : ∀ es, g.IsPosPath start end_ es → g.pathDuration es < U64)
    (hreach : ∃ es, g.IsPosPath start end_ es) (fuel : Nat) (hfuel : g.n + 1 ≤ fuel) :
    ∃ g' L, g.get_earliest_meetup fuel start end_ = some (g', L) ∧ IsLongest g start end_ L := by
  have hin := onlySource_no_in w hac hsrc
  have hR : ∀ e, g.PosEdge e → (∃ es, g.IsPosPath (g.edges e).destination end_ es) →
      ∃ es, g.IsPosPath (g.edges e).origin end_ es :=
    fun e he ⟨es, hes⟩ => ⟨e :: es, isPosPath_cons he hes⟩
  have hno' : ∀ v es, (∃ es2, g.IsPosPath v end_ es2) → g.IsPosPath start v es →
      g.pathDuration es < U64 := by
    rintro v es ⟨es2, hes2⟩ hes
    have := hno _ (isPosPath_concat es es2 start v end_ hes hes2)
    rw [pathDuration_append] at this
    omega
  have hinit := duration_init_inv (fun v => ∃ es, g.IsPosPath v end_ es) w hs hin
  have hcount : unvisitedCount (duration_init g) ≤ fuel := by
    have := unvisitedCount_le (duration_init g)
    rw [hinit.net.n_eq] at this
    omega
  obtain ⟨g', hrun, hinv⟩ := duration_loop_spec w hR hno' fuel _ _ hinit hcount
  have hsv : (g'.nodes start).visited = true := by
    rcases hinv.start with h | h
    · simp at h
    · exact h
  have hU := closed_under_pred_empty w hac
    (fun v => 1 ≤ v ∧ v ≤ g.n ∧ (g'.nodes v).visited = false ∧
      ∃ e, g.PosEdge e ∧ (g.edges e).destination = v) (by
    rintro v ⟨h1, h2, h3, h4⟩
    have hpn : pendingIn g g' [] v ≠ 0 := by
      intro hp
      have := hinv.ready v h1 h2 h3 hp h4
      simp at this
    unfold pendingIn at hpn
    obtain ⟨e, he⟩ := Finset.card_pos.mp (Nat.pos_of_ne_zero hpn)
    simp only [Finset.mem_filter, Finset.mem_range, List.not_mem_nil, or_false] at he
    obtain ⟨he1, he2, he3, he4⟩ := he
    refine ⟨e, ⟨he1, he2⟩, he3, w.origin_pos e he1, w.origin_le e he1, he4, ?_⟩
    by_contra hno_in
    have := hsrc _ ⟨e, ⟨he1, he2⟩, rfl⟩ hno_in
    rw [this, hsv] at he4; cases he4)
  obtain ⟨es, hes⟩ := hreach
  have hend : 1 ≤ end_ ∧ end_ ≤ g.n ∧ (g'.nodes end_).visited = true := by
    rcases List.eq_nil_or_concat es with h | ⟨es', e, h⟩
    · subst h
      have : start = end_ := hes.1
      subst this; exact ⟨hs.1, hs.2, hsv⟩
    · rw [List.concat_eq_append] at h
      subst h
      obtain ⟨_, h2, h3⟩ := isPath_snoc hes.1
      have hpe : g.PosEdge e := ⟨h2, hes.2 e (by simp)⟩
      have h1 := w.dest_pos e h2
      have h1' := w.dest_le e h2
      rw [h3] at h1 h1'
      refine ⟨h1, h1', ?_⟩
      by_contra hc
      exact hU end_ ⟨h1, h1', by simpa using hc, e, hpe, h3⟩
  have hp := hinv.vis_in end_ hend.1 hend.2.1 hend.2.2
  have hdeg := hinv.indeg end_ hend.1 hend.2.1
  refine ⟨g', (g'.nodes end_).earliest_start, ?_,
    hinv.longest end_ hend.1 hend.2.1 hend.2.2 ⟨[], rfl, by simp⟩⟩
  unfold get_earliest_meetup biggest_duration
  rw [hrun]
  simp [hend.2.2, hdeg, hp]

theorem isPath_lt_of_increasing {g : Graph}
    (h : ∀ e, e < g.m → (g.edges e).origin < (g.edges e).destination) :
    ∀ (es : List Nat) (s t : Nat), g.IsPath s t es → es ≠ [] → s < t := by
  intro es
  induction es with
  | nil => intro s t _ hne; exact absurd rfl hne
  | cons e es ih =>
    intro s t hp _
    obtain ⟨h1, h2, h3⟩ := hp
    have hlt := h e h1
    rw [h2] at hlt
    by_cases hes : es = []
    · subst hes
      have : (g.edges e).destination = t := h3
      omega
    · have := ih _ t h3 hes
      omega

/-- A flow on a graph whose edges all lead to a higher-numbered node is
acyclic. -/
theorem activeAcyclic_of_increasing {g : Graph}
    (h : ∀ e, e < g.m → (g.edges e).origin < (g.edges e).destination) : g.ActiveAcyclic := by
  intro v es hes
  by_contra hne
  have := isPath_lt_of_increasing h es v v hes.1 hne
  omega

theorem pathDuration_le {g : Graph} {D : Nat} (h : ∀ e, e < g.m → (g.edges e).duration ≤ D) :
    ∀ (es : List Nat) (s t : Nat), g.IsPath s t es → g.pathDuration es ≤ es.length * D := by
  intro es
  induction es with
  | nil => intro s t _; simp [pathDuration]
  | cons e es ih =>
    intro s t hp
    have h1 := h e hp.1
    have h2 := ih _ t hp.2.2
    unfold pathDuration at h2 ⊢
    simp only [List.map_cons, List.sum_cons, List.length_cons]
    rw [Nat.add_mul]
    omega

theorem pareto_weight_false {d c : Nat} (hd : d < 2 ^ 63) (hc : c < 2 ^ 63) :
    pareto_weight false c (uneg d) = hopWeight d c := by
  unfold pareto_weight hopWeight
  simp [toLong_uneg hd, toLong_small hc]

theorem pairLt_hopWeight (d c d' c' : Nat) :
    pairLt (hopWeight d c) (hopWeight d' c') = true ↔ d' < d ∨ (d = d' ∧ c < c') := by
  simp only [pairLt, hopWeight, Bool.or_eq_true, Bool.and_eq_true, decide_eq_true_eq,
    Bool.not_eq_true', decide_eq_false_iff_not]
  omega

/-- Body of the loop over the outgoing edges in the hop-count-first search,
with the machine arithmetic carried out. -/
theorem pareto_relax_hop (cur : Nat) (g : Graph) (h : MaxHeap Nat (Int × Int)) (e : Nat)
    (hD : (g.nodes cur).distance < INF) (hcc : (g.nodes cur).capacity ≤ INF)
    (hdv : (g.nodes (g.edges e).destination).distance ≤ INF)
    (hcv : (g.nodes (g.edges e).destination).capacity ≤ INF) :
    pareto_relax false cur (g, h) e =
      if (g.nodes (g.edges e).destination).visited = true then (g, h)
      else if (g.nodes cur).distance + 1 < (g.nodes (g.edges e).destination).distance ∨
          ((g.nodes (g.edges e).destination).distance = (g.nodes cur).distance + 1 ∧
            (g.nodes (g.edges e).destination).capacity
              < min (g.nodes cur).capacity (g.edges e).capacity) then
        (g.setNode (g.edges e).destination
          { g.nodes (g.edges e).destination with
            capacity := min (g.nodes cur).capacity (g.edges e).capacity,
            distance := (g.nodes cur).distance + 1, parent := cur },
         ((h.insert pairLt (g.edges e).destination
            (hopWeight ((g.nodes cur).distance + 1)
              (min (g.nodes cur).capacity (g.edges e).capacity))).increase_key pairLt
            (g.edges e).destination
            (hopWeight ((g.nodes cur).distance + 1)
              (min (g.nodes cur).capacity (g.edges e).capacity))))
      else (g, h) := by
  have hINF : INF < 2 ^ 62 := by unfold INF; norm_num
  have hmin : min (g.nodes cur).capacity (g.edges e).capacity ≤ INF :=
    le_trans (min_le_left _ _) hcc
  have w1 : pareto_weight false (min (g.nodes cur).capacity (g.edges e).capacity)
      (usub (uneg (g.nodes cur).distance) 1)
      = hopWeight ((g.nodes cur).distance + 1)
          (min (g.nodes cur).capacity (g.edges e).capacity) := by
    rw [usub_uneg_one (by omega), pareto_weight_false (by omega) (by omega)]
  have w2 : pareto_weight false (g.nodes (g.edges e).destination).capacity
      (uneg (g.nodes (g.edges e).destination).distance)
      = hopWeight (g.nodes (g.edges e).destination).distance
          (g.nodes (g.edges e).destination).capacity :=
    pareto_weight_false (by omega) (by omega)
  have w3 : uadd (g.nodes cur).distance 1 = (g.nodes cur).distance + 1 :=
    uadd_eq_add (by unfold U64; omega)
  unfold pareto_relax
  simp only [w1, w2, w3, pairLt_hopWeight]

theorem pathCap_le (g : Graph) (es : List Nat) : g.pathCap es ≤ INF := by
  unfold pathCap
  induction es with
  | nil => simp
  | cons e es ih => simp only [List.foldr_cons]; exact le_trans (min_le_right _ _) ih

theorem pathCap_snoc (g : Graph) (es : List Nat) (e : Nat) :
    g.pathCap (es ++ [e]) = min (g.pathCap es) (g.edges e).capacity := by
  unfold pathCap
  induction es with
  | nil => simp [min_comm]
  | cons a es ih =>
    simp only [List.cons_append, List.foldr_cons]
    rw [ih, min_assoc]

/-- A heap whose keys are distinct nodes in `[1, n]` other than `v` has fewer
than `n` elements. -/
theorem heap_size_lt {V : Type} {h : MaxHeap Nat V} (ki : MaxHeap.KeyInv h) {n v : Nat}
    (hv : 1 ≤ v ∧ v ≤ n)
    (hk : ∀ j, 1 ≤ j → j ≤ h.size → 1 ≤ (h.a j).key ∧ (h.a j).key ≤ n ∧ (h.a j).key ≠ v) :
    h.size < n := by
  have hcard : (Finset.Icc 1 h.size).card ≤ ((Finset.Icc 1 n).erase v).card := by
    apply Finset.card_le_card_of_injOn (fun j => (h.a j).key)
    · intro j hj
      have hj' := Finset.mem_Icc.mp (Finset.mem_coe.mp hj)
      obtain ⟨h1, h2, h3⟩ := hk j hj'.1 hj'.2
      exact Finset.mem_coe.mpr (Finset.mem_erase.mpr ⟨h3, Finset.mem_Icc.mpr ⟨h1, h2⟩⟩)
    · intro j hj j' hj' e
      have a1 := Finset.mem_Icc.mp (Finset.mem_coe.mp hj)
      have a2 := Finset.mem_Icc.mp (Finset.mem_coe.mp hj')
      exact ki.nodup j j' a1.1 a1.2 a2.1 a2.2 e
  rw [Finset.card_erase_of_mem (Finset.mem_Icc.mpr hv), Nat.card_Icc, Nat.card_Icc] at hcard
  omega

/-- The two heap calls of a relaxation that sets the distance of `v` to
`D + 1`: afterwards the heap holds `v` and the keys it held, and its elements
still carry the negated distances of their keys. -/
theorem hop_heap_update (h : MaxHeap Nat (Int × Int)) (hi : MaxHeap.HeapInv pairLt h)
    (n D v c : Nat) (vis : Nat → Bool) (dist : Nat → Nat)
    (hQ : ∀ j, 1 ≤ j → j ≤ h.size → HopEntry n D vis dist (h.a j))
    (hv : 1 ≤ v ∧ v ≤ n) (hvv : vis v = false) (hdv : dist v = D + 1) (hmax : h.max_size = n) :
    MaxHeap.HeapInv pairLt ((h.insert pairLt v (hopWeight (D + 1) c)).increase_key pairLt v
      (hopWeight (D + 1) c)) ∧
    ((h.insert pairLt v (hopWeight (D + 1) c)).increase_key pairLt v
      (hopWeight (D + 1) c)).max_size = n ∧
    (∀ j, 1 ≤ j → j ≤ ((h.insert pairLt v (hopWeight (D + 1) c)).increase_key pairLt v
        (hopWeight (D + 1) c)).size →
      HopEntry n D vis dist (((h.insert pairLt v (hopWeight (D + 1) c)).increase_key pairLt v
        (hopWeight (D + 1) c)).a j)) ∧
    (∃ j, 1 ≤ j ∧ j ≤ ((h.insert pairLt v (hopWeight (D + 1) c)).increase_key pairLt v
        (hopWeight (D + 1) c)).size ∧
      (((h.insert pairLt v (hopWeight (D + 1) c)).increase_key pairLt v
        (hopWeight (D + 1) c)).a j).key = v) ∧
    (∀ j, 1 ≤ j → j ≤ h.size →
      ∃ j', 1 ≤ j' ∧ j' ≤ ((h.insert pairLt v (hopWeight (D + 1) c)).increase_key pairLt v
          (hopWeight (D + 1) c)).size ∧
        (((h.insert pairLt v (hopWeight (D + 1) c)).increase_key pairLt v
          (hopWeight (D + 1) c)).a j').key = (h.a j).key) := by
  have o := pairLt_strictOrd
  -- the heap after `insert`
  have hins : ∃ h1 : MaxHeap Nat (Int × Int), h1 = h.insert pairLt v (hopWeight (D + 1) c) ∧
      MaxHeap.HeapInv pairLt h1 ∧ h1.max_size = n ∧
      (∀ j, 1 ≤ j → j ≤ h1.size → HopEntry n D vis dist (h1.a j)) ∧
      (∃ j, 1 ≤ j ∧ j ≤ h1.size ∧ (h1.a j).key = v) ∧
      (∀ j, 1 ≤ j → j ≤ h.size → ∃ j', 1 ≤ j' ∧ j' ≤ h1.size ∧ (h1.a j').key = (h.a j).key) := by
    cases hp : h.pos v with
    | none =>
      have hkn := hi.keys.not_mem_of_none hp
      have hsz : h.size < h.max_size := by
        rw [hmax]
        exact heap_size_lt hi.keys hv
          (fun j h1 h2 => ⟨(hQ j h1 h2).1, (hQ j h1 h2).2.1, hkn j h1 h2⟩)
      obtain ⟨i1, i2, i3, i4, i5, i6⟩ :=
        MaxHeap.insert_inv pairLt o h hi v (hopWeight (D + 1) c) hsz hp
      refine ⟨_, rfl, i1, by rw [i3, hmax], ?_, ?_, ?_⟩
      · intro j hj1 hj2
        rw [i2] at hj2
        rcases i4 j hj1 hj2 with e | ⟨j', h1', h2', e⟩
        · rw [e]
          exact ⟨hv.1, hv.2, hvv, by simp [hopWeight, hdv], by show D ≤ dist v; omega,
            by show dist v ≤ D + 1; omega⟩
        · rw [e]; exact hQ j' h1' h2'
      · obtain ⟨j, h1', h2', e⟩ := i5
        exact ⟨j, h1', by rw [i2]; exact h2', by rw [e]⟩
      · intro j hj1 hj2
        obtain ⟨j', h1', h2', e⟩ := i6 j hj1 hj2
        exact ⟨j', h1', by rw [i2]; exact h2', by rw [e]⟩
    | some i =>
      rw [MaxHeap.insert_noop pairLt h v _ hp]
      obtain ⟨j0, h1', h2', hk, _⟩ := hi.keys.mem_of_pos hp
      exact ⟨h, rfl, hi, hmax, hQ, ⟨j0, h1', h2', hk⟩, fun j hj1 hj2 => ⟨j, hj1, hj2, rfl⟩⟩
  obtain ⟨h1, hh1, hi1, hmax1, hQ1, hv1, hk1⟩ := hins
  rw [← hh1]
  obtain ⟨k1, k2, k3, k4, k5⟩ :=
    MaxHeap.increase_key_inv pairLt o h1 hi1 v (hopWeight (D + 1) c)
  refine ⟨k1, by rw [k3, hmax1], ?_, ?_, ?_⟩
  · intro j hj1 hj2
    rw [k2] at hj2
    obtain ⟨j', h1', h2', ek, ev⟩ := k4 j hj1 hj2
    obtain ⟨q1, q2, q3, q4, q5, q6⟩ := hQ1 j' h1' h2'
    refine ⟨by rw [ek]; exact q1, by rw [ek]; exact q2, by rw [ek]; exact q3, ?_,
      by rw [ek]; exact q5, by rw [ek]; exact q6⟩
    rw [ek]
    rcases ev with ev | ⟨ev, hge⟩
    · rw [ev]; exact q4
    · rw [ev]
      have : ¬ (hopWeight (D + 1) c).1 < (h1.a j').value.1 := by
        intro hlt
        have : pairLt (hopWeight (D + 1) c) (h1.a j').value = true := by
          simp [pairLt, hlt]
        rw [hge] at this; cases this
      rw [q4] at this
      simp only [hopWeight] at this ⊢
      omega
  · obtain ⟨j, h1', h2', e⟩ := hv1
    obtain ⟨j', a1, a2, a3⟩ := k5 j h1' h2'
    exact ⟨j', a1, by rw [k2]; exact a2, by rw [a3, e]⟩
  · intro j hj1 hj2
    obtain ⟨j', a1, a2, a3⟩ := hk1 j hj1 hj2
    obtain ⟨j'', b1, b2, b3⟩ := k5 j' a1 a2
    exact ⟨j'', b1, by rw [k2]; exact b2, by rw [b3, a3]⟩

theorem HopInv.dist_le {g0 : Graph} {s D : Nat} {pend : List Nat} {g : Graph}
    {h : MaxHeap Nat (Int × Int)} (hinv : HopInv g0 s D pend g h) (hn : g0.n < INF) (x : Nat)
    (h1 : 1 ≤ x) (h2 : x ≤ g0.n) : (g.nodes x).distance ≤ INF := by
  by_cases hx : (g.nodes x).distance = INF
  · exact le_of_eq hx
  · have hb := hinv.bound
    cases hv : (g.nodes x).visited with
    | true => have := (hinv.opt x h1 h2 hv).1; omega
    | false =>
      obtain ⟨j, hj1, hj2, hk⟩ := hinv.inheap x h1 h2 hv hx
      have := (hinv.ent j hj1 hj2).2.2.2.2.2
      rw [hk] at this; omega

theorem HopInv.cap_le {g0 : Graph} {s D : Nat} {pend : List Nat} {g : Graph}
    {h : MaxHeap Nat (Int × Int)} (hinv : HopInv g0 s D pend g h) (x : Nat)
    (h1 : 1 ≤ x) (h2 : x ≤ g0.n) : (g.nodes x).capacity ≤ INF := by
  by_cases hx : (g.nodes x).distance = INF
  · rw [(hinv.undisc x h1 h2 hx).1]; exact Nat.zero_le _
  · obtain ⟨es, _, _, hc⟩ := hinv.real x h1 h2 hx
    rw [← hc]; exact pathCap_le g0 es

/-- An edge whose scan left the state as it was leaves the invariant, once
the labels of its destination account for it. -/
theorem HopInv.weaken {g0 : Graph} {s D : Nat} {pend : List Nat} {g : Graph}
    {h : MaxHeap Nat (Int × Int)} {e : Nat} (hinv : HopInv g0 s D (e :: pend) g h)
    (hb : (g.nodes (g0.edges e).destination).visited = false → Better g0 g e) :
    HopInv g0 s D pend g h := by
  refine ⟨hinv.net, hinv.heap, hinv.hmax, hinv.bound, hinv.ent, hinv.inheap, hinv.undisc,
    hinv.real, hinv.opt, ?_, hinv.par, hinv.start⟩
  intro e' he' ho' hp' hd'
  by_cases hee : e' = e
  · subst hee; exact hb hd'
  · exact hinv.relaxed e' he' ho' (by simp [hee, hp']) hd'

/-- The relaxation that updates the labels of an unvisited destination keeps
the invariant. -/
theorem hop_update_inv {g0 : Graph} {s D cur : Nat} (w : g0.WF) (hn : g0.n < INF)
    {g : Graph} {h : MaxHeap Nat (Int × Int)} {e : Nat} {pend : List Nat}
    (hinv : HopInv g0 s D (e :: pend) g h) (he : e < g0.m) (ho : (g0.edges e).origin = cur)
    (hc : 1 ≤ cur ∧ cur ≤ g0.n) (hcv : (g.nodes cur).visited = true)
    (hcd : (g.nodes cur).distance = D)
    (hvf : (g.nodes (g0.edges e).destination).visited = false)
    (hcond : D + 1 < (g.nodes (g0.edges e).destination).distance ∨
      ((g.nodes (g0.edges e).destination).distance = D + 1 ∧
        (g.nodes (g0.edges e).destination).capacity
          < min (g.nodes cur).capacity (g0.edges e).capacity))
    (g1 : Graph) (h2 : MaxHeap Nat (Int × Int))
    (hg1 : g1 = g.setNode (g0.edges e).destination
      { g.nodes (g0.edges e).destination with
        capacity := min (g.nodes cur).capacity (g0.edges e).capacity,
        distance := D + 1, parent := cur })
    (hh2 : h2 = (h.insert pairLt (g0.edges e).destination
        (hopWeight (D + 1) (min (g.nodes cur).capacity (g0.edges e).capacity))).increase_key
        pairLt (g0.edges e).destination
        (hopWeight (D + 1) (min (g.nodes cur).capacity (g0.edges e).capacity))) :
    HopInv g0 s D pend g1 h2 ∧ (∀ x, (g1.nodes x).visited = (g.nodes x).visited) ∧
    ∀ x, (g.nodes x).visited = true → g1.nodes x = g.nodes x := by
  have hv1 := w.dest_pos e he
  have hv2 := w.dest_le e he
  have hb := hinv.bound
  generalize hvdef : (g0.edges e).destination = v at *
  have hsame : ∀ x, x ≠ v → g1.nodes x = g.nodes x := by
    intro x hx; rw [hg1, setNode_nodes_ne g _ hx]
  have hvd : (g1.nodes v).distance = D + 1 := by rw [hg1]; simp
  have hvcap : (g1.nodes v).capacity = min (g.nodes cur).capacity (g0.edges e).capacity := by
    rw [hg1]; simp
  have hvp : (g1.nodes v).parent = cur := by rw [hg1]; simp
  have hvis : ∀ x, (g1.nodes x).visited = (g.nodes x).visited := by
    intro x
    by_cases hx : x = v
    · subst hx; rw [hg1]; simp
    · rw [hsame x hx]
  have hvisne : ∀ x, (g.nodes x).visited = true → g1.nodes x = g.nodes x := by
    intro x hx; apply hsame; intro e'; rw [e', hvf] at hx; cases hx
  have hcur : g1.nodes cur = g.nodes cur := hvisne cur hcv
  have hnet : SameNet g g1 := by rw [hg1]; exact SameNet.setNode g v _ rfl rfl
  have hQ : ∀ j, 1 ≤ j → j ≤ h.size → HopEntry g0.n D (fun x => (g1.nodes x).visited)
      (fun x => (g1.nodes x).distance) (h.a j) := by
    intro j hj1 hj2
    obtain ⟨q1, q2, q3, q4, q5, q6⟩ := hinv.ent j hj1 hj2
    by_cases hk : (h.a j).key = v
    · rw [hk] at q3 q4 q5 q6
      have hdv : (g.nodes v).distance = D + 1 := by omega
      refine ⟨q1, q2, ?_, ?_, ?_, ?_⟩
      · show (g1.nodes (h.a j).key).visited = false
        rw [hk, hvis]; exact q3
      · show (h.a j).value.1 = -((g1.nodes (h.a j).key).distance : Int)
        rw [hk, hvd, q4, hdv]
      · show D ≤ (g1.nodes (h.a j).key).distance
        rw [hk, hvd]; omega
      · show (g1.nodes (h.a j).key).distance ≤ D + 1
        rw [hk, hvd]
    · refine ⟨q1, q2, ?_, ?_, ?_, ?_⟩
      · show (g1.nodes (h.a j).key).visited = false
        rw [hsame _ hk]; exact q3
      · show (h.a j).value.1 = -((g1.nodes (h.a j).key).distance : Int)
        rw [hsame _ hk]; exact q4
      · show D ≤ (g1.nodes (h.a j).key).distance
        rw [hsame _ hk]; exact q5
      · show (g1.nodes (h.a j).key).distance ≤ D + 1
        rw [hsame _ hk]; exact q6
  obtain ⟨u1, u2, u3, u4, u5⟩ := hop_heap_update h hinv.heap g0.n D v
    (min (g.nodes cur).capacity (g0.edges e).capacity) (fun x => (g1.nodes x).visited)
    (fun x => (g1.nodes x).distance) hQ ⟨hv1, hv2⟩ (by show (g1.nodes v).visited = false; rw [hvis]; exact hvf)
    hvd hinv.hmax
  rw [← hh2] at u1 u2 u3 u4 u5
  have hINF : D + 1 < INF := by omega
  refine ⟨⟨hinv.net.net_trans hnet, u1, u2, hb, u3, ?_, ?_, ?_, ?_, ?_, ?_, ?_⟩, hvis, hvisne⟩
  · intro x hx1 hx2 hxv hxd
    by_cases hx : x = v
    · subst hx; exact u4
    · rw [hsame x hx] at hxv hxd
      obtain ⟨j, hj1, hj2, hk⟩ := hinv.inheap x hx1 hx2 hxv hxd
      obtain ⟨j', a1, a2, a3⟩ := u5 j hj1 hj2
      exact ⟨j', a1, a2, a3.trans hk⟩
  · intro x hx1 hx2 hxd
    have hx : x ≠ v := by rintro rfl; rw [hvd] at hxd; omega
    rw [hsame x hx] at hxd ⊢
    exact hinv.undisc x hx1 hx2 hxd
  · intro x hx1 hx2 hxd
    by_cases hx : x = v
    · subst hx
      obtain ⟨es, p1, p2, p3⟩ := hinv.real cur hc.1 hc.2 (by rw [hcd]; omega)
      refine ⟨es ++ [e], ?_, ?_, ?_⟩
      · rw [← hvdef]; exact isPath_append es s cur e p1 he ho
      · rw [hvd, List.length_append, p2, hcd]; rfl
      · rw [pathCap_snoc, p3, hvcap]
    · rw [hsame x hx] at hxd ⊢
      exact hinv.real x hx1 hx2 hxd
  · intro x hx1 hx2 hxv
    rw [hvis] at hxv
    rw [hvisne x hxv]
    exact hinv.opt x hx1 hx2 hxv
  · intro e' he' ho' hp' hd'
    rw [hvis] at ho' hd'
    have horig := hvisne _ ho'
    unfold Better
    rw [horig]
    by_cases hee : e' = e
    · subst hee
      right
      rw [hvdef, hvd, hvcap, ho, hcd]
      exact ⟨rfl, le_refl _⟩
    · have hold := hinv.relaxed e' he' ho' (by simp [hee, hp']) hd'
      unfold Better at hold
      by_cases hdv : (g0.edges e').destination = v
      · rw [hdv] at hold ⊢
        rw [hvd, hvcap]
        omega
      · rw [hsame _ hdv]; exact hold
  · intro x hx1 hx2 hxp
    by_cases hx : x = v
    · subst hx
      rw [hvp, hcur, hvd, hcd]
      exact ⟨hc.1, hc.2, hcv, rfl⟩
    · rw [hsame x hx] at hxp ⊢
      obtain ⟨p1, p2, p3, p4⟩ := hinv.par x hx1 hx2 hxp
      rw [hvisne _ p3]
      exact ⟨p1, p2, p3, p4⟩
  · by_cases hx : s = v
    · have := hinv.start
      rw [hx] at this
      omega
    · rw [hsame s hx]; exact hinv.start

theorem hop_relax_inv {g0 : Graph} {s D cur : Nat} (w : g0.WF) (hn : g0.n < INF)
    {g : Graph} {h : MaxHeap Nat (Int × Int)} {e : Nat} {pend : List Nat}
    (hinv : HopInv g0 s D (e :: pend) g h) (he : e < g0.m) (ho : (g0.edges e).origin = cur)
    (hc : 1 ≤ cur ∧ cur ≤ g0.n) (hcv : (g.nodes cur).visited = true)
    (hcd : (g.nodes cur).distance = D) :
    HopInv g0 s D pend (pareto_relax false cur (g, h) e).1 (pareto_relax false cur (g, h) e).2 ∧
    (∀ x, ((pareto_relax false cur (g, h) e).1.nodes x).visited = (g.nodes x).visited) ∧
    ∀ x, (g.nodes x).visited = true → (pareto_relax false cur (g, h) e).1.nodes x = g.nodes x := by
  have hedges : g.edges = g0.edges := hinv.net.edges_eq
  have hv1 := w.dest_pos e he
  have hv2 := w.dest_le e he
  have hb := hinv.bound
  rw [pareto_relax_hop cur g h e (by rw [hcd]; omega) (hinv.cap_le cur hc.1 hc.2)
    (by rw [hedges]; exact hinv.dist_le hn _ hv1 hv2)
    (by rw [hedges]; exact hinv.cap_le _ hv1 hv2)]
  rw [hedges, hcd]
  by_cases hvis : (g.nodes (g0.edges e).destination).visited = true
  · rw [if_pos hvis]
    exact ⟨hinv.weaken (fun hf => by rw [hvis] at hf; cases hf), fun _ => rfl, fun _ _ => rfl⟩
  · rw [if_neg hvis]
    have hvf : (g.nodes (g0.edges e).destination).visited = false := by simpa using hvis
    by_cases hcond : D + 1 < (g.nodes (g0.edges e).destination).distance ∨
        ((g.nodes (g0.edges e).destination).distance = D + 1 ∧
          (g.nodes (g0.edges e).destination).capacity
            < min (g.nodes cur).capacity (g0.edges e).capacity)
    · rw [if_pos hcond]
      exact hop_update_inv w hn hinv he ho hc hcv hcd hvf hcond _ _ rfl rfl
    · rw [if_neg hcond]
      refine ⟨hinv.weaken (fun _ => ?_), fun _ => rfl, fun _ _ => rfl⟩
      unfold Better
      rw [ho, hcd]
      omega

theorem hop_fold_inv {g0 : Graph} {s D cur : Nat} (w : g0.WF) (hn : g0.n < INF)
    (hc : 1 ≤ cur ∧ cur ≤ g0.n) :
    ∀ (l : List Nat) (g : Graph) (h : MaxHeap Nat (Int × Int)),
      (∀ e ∈ l, e < g0.m ∧ (g0.edges e).origin = cur) →
      HopInv g0 s D l g h → (g.nodes cur).visited = true → (g.nodes cur).distance = D →
      HopInv g0 s D [] (l.foldl (pareto_relax false cur) (g, h)).1
        (l.foldl (pareto_relax false cur) (g, h)).2 ∧
      ∀ x, ((l.foldl (pareto_relax false cur) (g, h)).1.nodes x).visited
        = (g.nodes x).visited := by
  intro l
  induction l with
  | nil => intro g h _ hinv _ _; exact ⟨hinv, fun _ => rfl⟩
  | cons e l ih =>
    intro g h hl hinv hcv hcd
    rw [List.foldl_cons]
    have he := hl e (List.mem_cons_self _ _)
    have hstep := hop_relax_inv w hn hinv he.1 he.2 hc hcv hcd
    generalize pareto_relax false cur (g, h) e = r at hstep ⊢
    obtain ⟨g', h'⟩ := r
    have hcur : g'.nodes cur = g.nodes cur := hstep.2.2 cur hcv
    have := ih g' h' (fun e' he' => hl e' (List.mem_cons_of_mem _ he')) hstep.1
      (by rw [hstep.2.1]; exact hcv) (by rw [hcur]; exact hcd)
    exact ⟨this.1, fun x => (this.2 x).trans (hstep.2.1 x)⟩

/-! ## Shortest paths are short -/

theorem pathNodes_cons (g : Graph) (s e : Nat) (es : List Nat) :
    g.pathNodes s (e :: es) = s :: g.pathNodes (g.edges e).destination es := rfl

/-- From a node on a path, the rest of the path. -/
theorem path_suffix {g : Graph} : ∀ (p : List Nat) (x v y : Nat), g.IsPath x v p →
    y ∈ g.pathNodes x p →
    ∃ p2, g.IsPath y v p2 ∧ p2.length ≤ p.length ∧
      (g.pathNodes y p2).Sublist (g.pathNodes x p) := by
  intro p
  induction p with
  | nil =>
    intro x v y hp hy
    simp [pathNodes] at hy
    subst hy
    exact ⟨[], hp, le_refl _, List.Sublist.refl _⟩
  | cons e p ih =>
    intro x v y hp hy
    rw [pathNodes_cons] at hy
    rcases List.mem_cons.mp hy with hy | hy
    · subst hy
      exact ⟨e :: p, hp, le_refl _, List.Sublist.refl _⟩
    · obtain ⟨p2, h1, h2, h3⟩ := ih _ v y hp.2.2 hy
      refine ⟨p2, h1, by simp; omega, ?_⟩
      rw [pathNodes_cons]
      exact h3.cons _

/-- Every path can be replaced by one that is not longer and repeats no
node. -/
theorem exists_simple_path {g : Graph} : ∀ (es : List Nat) (s v : Nat), g.IsPath s v es →
    ∃ es', g.IsPath s v es' ∧ es'.length ≤ es.length ∧ (g.pathNodes s es').Nodup := by
  intro es
  induction es with
  | nil => intro s v h; exact ⟨[], h, le_refl _, by simp [pathNodes]⟩
  | cons e es ih =>
    intro s v h
    obtain ⟨r, hr1, hr2, hr3⟩ := ih _ v h.2.2
    by_cases hs : s ∈ g.pathNodes (g.edges e).destination r
    · obtain ⟨p2, h1, h2, h3⟩ := path_suffix r _ v s hr1 hs
      exact ⟨p2, h1, by simp; omega, hr3.sublist h3⟩
    · refine ⟨e :: r, ⟨h.1, h.2.1, hr1⟩, by simp; omega, ?_⟩
      rw [pathNodes_cons]
      exact List.nodup_cons.mpr ⟨hs, hr3⟩

/-- A path with the fewest edges from a node `s` of `[1, n]` has fewer than
`n` edges. -/
theorem shortest_lt_n {g : Graph} (w : g.WF) {s v : Nat} (hs : 1 ≤ s ∧ s ≤ g.n)
    {es : List Nat} (hp : g.IsPath s v es)
    (hmin : ∀ es', g.IsPath s v es' → es.length ≤ es'.length) : es.length < g.n := by
  obtain ⟨r, hr1, hr2, hr3⟩ := exists_simple_path es s v hp
  have hle := hmin r hr1
  have hsub : (g.pathNodes s r).toFinset ⊆ Finset.Icc 1 g.n := by
    intro x hx
    rw [List.mem_toFinset] at hx
    unfold pathNodes at hx
    rcases List.mem_cons.mp hx with hx | hx
    · subst hx; exact Finset.mem_Icc.mpr hs
    · obtain ⟨e, he, rfl⟩ := List.mem_map.mp hx
      have := isPath_mem_lt r s v hr1 e he
      exact Finset.mem_Icc.mpr ⟨w.dest_pos e this, w.dest_le e this⟩
  have hcard := Finset.card_le_card hsub
  rw [List.toFinset_card_of_nodup hr3, Nat.card_Icc] at hcard
  simp [pathNodes] at hcard
  omega

/-- At the head of the loop, every node that a path from `s` reaches in fewer
edges than the distance label of a key of the heap that is not above any
other has been visited. -/
theorem hop_front_visited {g0 : Graph} {s D : Nat} (w : g0.WF) (hn : g0.n < INF)
    (hs : 1 ≤ s ∧ s ≤ g0.n) {g : Graph} {h : MaxHeap Nat (Int × Int)}
    (hinv : HopInv g0 s D [] g h) (d : Nat)
    (hmin : ∀ j, 1 ≤ j → j ≤ h.size → d ≤ (g.nodes (h.a j).key).distance) :
    ∀ (es : List Nat) (x : Nat), g0.IsPath s x es → es.length < d →
      (g.nodes x).visited = true := by
  have hb := hinv.bound
  intro es
  induction es using List.reverseRecOn with
  | nil =>
    intro x hp hlen
    have hx : s = x := hp
    subst hx
    by_contra hv
    have hv' : (g.nodes s).visited = false := by simpa using hv
    obtain ⟨j, hj1, hj2, hk⟩ := hinv.inheap s hs.1 hs.2 hv'
      (by rw [hinv.start]; unfold INF; omega)
    have := hmin j hj1 hj2
    rw [hk, hinv.start] at this
    simp at hlen
    omega
  | append_singleton es e ih =>
    intro x hp hlen
    obtain ⟨h1, h2, h3⟩ := isPath_snoc hp
    simp at hlen
    have hpv := ih _ h1 (by omega)
    have hp1 := w.origin_pos e h2
    have hp2 := w.origin_le e h2
    have hx1 := w.dest_pos e h2
    have hx2 := w.dest_le e h2
    rw [h3] at hx1 hx2
    have hopt := hinv.opt _ hp1 hp2 hpv
    have hdp := (hopt.2 es h1).1
    by_contra hv
    have hv' : (g.nodes x).visited = false := by simpa using hv
    have hbet := hinv.relaxed e h2 hpv (by simp) (by rw [h3]; exact hv')
    unfold Better at hbet
    rw [h3] at hbet
    have hdx : (g.nodes x).distance ≤ (g.nodes (g0.edges e).origin).distance + 1 := by omega
    obtain ⟨j, hj1, hj2, hk⟩ := hinv.inheap x hx1 hx2 hv' (by have := hopt.1; omega)
    have := hmin j hj1 hj2
    rw [hk] at this
    omega

/-- The labels of a key of the heap that is not above any other are
optimal. -/
theorem hop_root_opt {g0 : Graph} {s D : Nat} (w : g0.WF) (hn : g0.n < INF)
    (hs : 1 ≤ s ∧ s ≤ g0.n) {g : Graph} {h : MaxHeap Nat (Int × Int)}
    (hinv : HopInv g0 s D [] g h) (r : Nat) (hr : 1 ≤ r ∧ r ≤ g0.n)
    (hrv : (g.nodes r).visited = false) (hrd : (g.nodes r).distance ≤ D + 1)
    (hmin : ∀ j, 1 ≤ j → j ≤ h.size → (g.nodes r).distance ≤ (g.nodes (h.a j).key).distance) :
    HopOpt g0 s r (g.nodes r).distance (g.nodes r).capacity := by
  have hb := hinv.bound
  have hfront := hop_front_visited w hn hs hinv (g.nodes r).distance hmin
  intro es hp
  have hlen : (g.nodes r).distance ≤ es.length := by
    by_contra hc
    have := hfront es r hp (by omega)
    rw [hrv] at this; cases this
  refine ⟨hlen, fun heq => ?_⟩
  rcases List.eq_nil_or_concat es with hnil | ⟨es', e, hcons⟩
  · subst hnil
    obtain ⟨p, p1, p2, p3⟩ := hinv.real r hr.1 hr.2 (by omega)
    simp at heq
    rw [← heq] at p2
    have : p = [] := List.length_eq_zero.mp p2
    subst this
    exact le_of_eq p3
  · rw [List.concat_eq_append] at hcons
    subst hcons
    obtain ⟨h1, h2, h3⟩ := isPath_snoc hp
    simp at heq
    have hpv := hfront es' _ h1 (by omega)
    have hp1 := w.origin_pos e h2
    have hp2 := w.origin_le e h2
    have hopt := (hinv.opt _ hp1 hp2 hpv).2 es' h1
    have hbet := hinv.relaxed e h2 hpv (by simp) (by rw [h3]; exact hrv)
    unfold Better at hbet
    rw [h3] at hbet
    have hdeq : (g.nodes (g0.edges e).origin).distance = es'.length := by omega
    have hcap := hopt.2 hdeq.symm
    rw [pathCap_snoc]
    have hmn : min (g.nodes (g0.edges e).origin).capacity (g0.edges e).capacity
        ≤ (g.nodes r).capacity := by omega
    exact le_trans (min_le_min_right _ hcap) hmn

/-- Dequeuing the node `r` and marking it visited keeps the invariant, with
the distance of `r` as the current one and the edges leaving `r` pending. -/
theorem hop_extract_inv {g0 : Graph} {s D : Nat} (w : g0.WF) (hn : g0.n < INF)
    (hs : 1 ≤ s ∧ s ≤ g0.n) {g : Graph} {h : MaxHeap Nat (Int × Int)}
    (hinv : HopInv g0 s D [] g h) (hsz : 1 ≤ h.size) :
    1 ≤ (h.remove_max pairLt).1 ∧ (h.remove_max pairLt).1 ≤ g0.n ∧
    (g.nodes (h.remove_max pairLt).1).visited = false ∧
    HopInv g0 s (g.nodes (h.remove_max pairLt).1).distance
      (g0.nodes (h.remove_max pairLt).1).outgoing
      (g.setNode (h.remove_max pairLt).1
        { g.nodes (h.remove_max pairLt).1 with visited := true })
      (h.remove_max pairLt).2 := by
  obtain ⟨m1, m2, m3, m4, m5, m6, m7⟩ :=
    MaxHeap.remove_max_inv pairLt pairLt_strictOrd h hinv.heap hsz
  rw [m1]
  generalize (h.remove_max pairLt).2 = h' at m2 m3 m4 m6 m7 ⊢
  obtain ⟨r1, r2, rv, rf, rd1, rd2⟩ := hinv.ent 1 (le_refl 1) hsz
  generalize hrdef : (h.a 1).key = r at *
  have hb := hinv.bound
  have hmin : ∀ j, 1 ≤ j → j ≤ h.size → (g.nodes r).distance ≤ (g.nodes (h.a j).key).distance := by
    intro j hj1 hj2
    have hlt := m5 j hj1 hj2
    have hf := (hinv.ent j hj1 hj2).2.2.2.1
    have : ¬ (h.a 1).value.1 < (h.a j).value.1 := by
      intro hc
      have : pairLt (h.a 1).value (h.a j).value = true := by simp [pairLt, hc]
      rw [hlt] at this; cases this
    rw [rf, hf] at this
    omega
  have hopt := hop_root_opt w hn hs hinv r ⟨r1, r2⟩ rv rd2 hmin
  obtain ⟨p, p1, p2, p3⟩ := hinv.real r r1 r2 (by omega)
  have hbound : (g.nodes r).distance < g0.n :=
    p2 ▸ shortest_lt_n w hs p1 (fun es' hes' => by rw [p2]; exact (hopt es' hes').1)
  have hkey : ∀ j, 2 ≤ j → j ≤ h.size → (h.a j).key ≠ r := by
    intro j hj1 hj2 e
    have := hinv.heap.keys.nodup j 1 (by omega) hj2 (le_refl 1) hsz (by rw [e, hrdef])
    omega
  have hnodes : ∀ x, x ≠ r →
      (g.setNode r { g.nodes r with visited := true }).nodes x = g.nodes x :=
    fun x hx => setNode_nodes_ne g _ hx
  have hdist : ∀ x, ((g.setNode r { g.nodes r with visited := true }).nodes x).distance
      = (g.nodes x).distance := by
    intro x; simp only [setNode_nodes]; split_ifs with c
    · rw [c]
    · rfl
  have hcap : ∀ x, ((g.setNode r { g.nodes r with visited := true }).nodes x).capacity
      = (g.nodes x).capacity := by
    intro x; simp only [setNode_nodes]; split_ifs with c
    · rw [c]
    · rfl
  have hpar : ∀ x, ((g.setNode r { g.nodes r with visited := true }).nodes x).parent
      = (g.nodes x).parent := by
    intro x; simp only [setNode_nodes]; split_ifs with c
    · rw [c]
    · rfl
  have hvis : ∀ x, ((g.setNode r { g.nodes r with visited := true }).nodes x).visited
      = if x = r then true else (g.nodes x).visited := by
    intro x; simp only [setNode_nodes]; split_ifs <;> rfl
  refine ⟨r1, r2, rv, hinv.net.net_trans (SameNet.setNode g r _ rfl rfl), m2,
    by rw [m4]; exact hinv.hmax, hbound, ?_, ?_, ?_, ?_, ?_, ?_, ?_, ?_⟩
  · intro j hj1 hj2
    rw [m3] at hj2
    obtain ⟨j', a1, a2, a3⟩ := m6 j hj1 hj2
    rw [a3]
    obtain ⟨q1, q2, q3, q4, q5, q6⟩ := hinv.ent j' (by omega) a2
    have hne := hkey j' a1 a2
    have hm := hmin j' (by omega) a2
    rw [hdist, hvis, if_neg hne]
    exact ⟨q1, q2, q3, q4, hm, by omega⟩
  · intro x hx1 hx2 hxv hxd
    rw [hvis] at hxv
    rw [hdist] at hxd
    by_cases hx : x = r
    · rw [if_pos hx] at hxv; cases hxv
    · rw [if_neg hx] at hxv
      obtain ⟨j, hj1, hj2, hk⟩ := hinv.inheap x hx1 hx2 hxv hxd
      have hj : 2 ≤ j := by
        by_contra hc
        have : j = 1 := by omega
        subst this
        exact hx (hk.symm.trans hrdef)
      obtain ⟨j', a1, a2, a3⟩ := m7 j hj hj2
      exact ⟨j', a1, by rw [m3]; exact a2, by rw [a3]; exact hk⟩
  · intro x hx1 hx2 hxd
    rw [hdist] at hxd
    have hx : x ≠ r := by rintro rfl; omega
    rw [hcap, hvis, if_neg hx]
    exact hinv.undisc x hx1 hx2 hxd
  · intro x hx1 hx2 hxd
    rw [hdist] at hxd ⊢
    rw [hcap]
    exact hinv.real x hx1 hx2 hxd
  · intro x hx1 hx2 hxv
    rw [hvis] at hxv
    rw [hdist, hcap]
    by_cases hx : x = r
    · subst hx; exact ⟨le_refl _, hopt⟩
    · rw [if_neg hx] at hxv
      have := hinv.opt x hx1 hx2 hxv
      exact ⟨by omega, this.2⟩
  · intro e he ho hp hd
    rw [hvis] at ho hd
    have hor : (g0.edges e).origin ≠ r := by
      intro c
      exact hp ((w.mem_out r e).mpr ⟨he, c⟩)
    rw [if_neg hor] at ho
    have hdr : (g0.edges e).destination ≠ r := by
      intro c; rw [if_pos c] at hd; cases hd
    rw [if_neg hdr] at hd
    have := hinv.relaxed e he ho (by simp) hd
    unfold Better at this ⊢
    rw [hdist, hdist, hcap, hcap]
    exact this
  · intro x hx1 hx2 hxp
    rw [hpar] at hxp ⊢
    rw [hdist, hdist, hvis]
    obtain ⟨q1, q2, q3, q4⟩ := hinv.par x hx1 hx2 hxp
    refine ⟨q1, q2, ?_, q4⟩
    split_ifs
    · rfl
    · exact q3
  · rw [hdist]; exact hinv.start

/-- The loop of the hop-count-first search ends, within as many iterations as
there are unvisited nodes, in a state satisfying the invariant with an empty
heap. -/
theorem hop_loop_spec {g0 : Graph} {s : Nat} (w : g0.WF) (hn : g0.n < INF)
    (hs : 1 ≤ s ∧ s ≤ g0.n) :
    ∀ (fuel : Nat) (g : Graph) (h : MaxHeap Nat (Int × Int)) (D : Nat),
      HopInv g0 s D [] g h → unvisitedCount g ≤ fuel →
      ∃ g' h' D', pareto_loop false fuel g h = some g' ∧ HopInv g0 s D' [] g' h' ∧
        h'.size = 0 := by
  intro fuel
  induction fuel with
  | zero =>
    intro g h D hinv hfuel
    by_cases hsz : h.size = 0
    · exact ⟨g, h, D, by simp [pareto_loop, MaxHeap.get_size, hsz], hinv, hsz⟩
    · exfalso
      obtain ⟨r1, r2, rv, _⟩ := hinv.ent 1 (le_refl 1) (by omega)
      have hlt := @unvisitedCount_lt g
        (g.setNode (h.a 1).key { g.nodes (h.a 1).key with visited := true }) (h.a 1).key rfl
        (by rw [hinv.net.n_eq]; exact r2) rv (by simp) (by
          intro x hx; simp only [setNode_nodes]; split_ifs
          · rfl
          · exact hx)
      omega
  | succ fuel ih =>
    intro g h D hinv hfuel
    by_cases hsz : h.size = 0
    · exact ⟨g, h, D, by simp [pareto_loop, MaxHeap.get_size, hsz], hinv, hsz⟩
    · have hpos : h.get_size > 0 := by unfold MaxHeap.get_size; omega
      simp only [pareto_loop, if_pos hpos]
      obtain ⟨r1, r2, rv, hext⟩ := hop_extract_inv w hn hs hinv (by omega)
      generalize (h.remove_max pairLt).1 = r at r1 r2 rv hext ⊢
      generalize (h.remove_max pairLt).2 = h1 at hext ⊢
      have hout : ((g.setNode r { g.nodes r with visited := true }).nodes r).outgoing
          = (g0.nodes r).outgoing := by
        rw [setNode_nodes_same]; exact hinv.net.out_eq r
      rw [hout]
      have hfold := hop_fold_inv w hn ⟨r1, r2⟩ (g0.nodes r).outgoing
        (g.setNode r { g.nodes r with visited := true }) h1
        (fun e he => (w.mem_out r e).mp he) hext (by simp) (by simp)
      generalize (g0.nodes r).outgoing.foldl (pareto_relax false r)
        (g.setNode r { g.nodes r with visited := true }, h1) = st at hfold ⊢
      obtain ⟨g', h'⟩ := st
      apply ih g' h' _ hfold.1
      have hlt := @unvisitedCount_lt g g' r
        (by rw [hfold.1.net.n_eq, hinv.net.n_eq])
        (by rw [hinv.net.n_eq]; exact r2) rv (by rw [hfold.2]; simp) (by
          intro x hx; rw [hfold.2]; simp only [setNode_nodes]; split_ifs
          · rfl
          · exact hx)
      omega

/-- When the search has ended, every node reachable from a visited node is
visited. -/
theorem hop_final_visited {g0 : Graph} {s D : Nat} (w : g0.WF) (hn : g0.n < INF)
    {g : Graph} {h : MaxHeap Nat (Int × Int)} (hinv : HopInv g0 s D [] g h)
    (hsz : h.size = 0) :
    ∀ (es : List Nat) (x t : Nat), 1 ≤ x → x ≤ g0.n → (g.nodes x).visited = true →
      g0.IsPath x t es → (g.nodes t).visited = true ∧ 1 ≤ t ∧ t ≤ g0.n := by
  have hb := hinv.bound
  intro es
  induction es with
  | nil => intro x t h1 h2 hv hp; have : x = t := hp; subst this; exact ⟨hv, h1, h2⟩
  | cons e es ih =>
    intro x t h1 h2 hv hp
    obtain ⟨p1, p2, p3⟩ := hp
    have hd1 := w.dest_pos e p1
    have hd2 := w.dest_le e p1
    refine ih _ t hd1 hd2 ?_ p3
    by_contra hc
    have hc' : (g.nodes (g0.edges e).destination).visited = false := by simpa using hc
    have hbet := hinv.relaxed e p1 (by rw [p2]; exact hv) (by simp) hc'
    unfold Better at hbet
    have hox := (hinv.opt _ h1 h2 hv).1
    rw [p2] at hbet
    obtain ⟨j, hj1, hj2, _⟩ := hinv.inheap _ hd1 hd2 hc' (by omega)
    omega

/-- The walk of `get_path` along the parents ends within as many steps as
the distance label of the node it starts from. -/
theorem hop_get_path_loop {g0 : Graph} {s D : Nat} {g : Graph} {h : MaxHeap Nat (Int × Int)}
    (hinv : HopInv g0 s D [] g h) :
    ∀ (fuel cur : Nat) (path : List Nat), 1 ≤ cur → cur ≤ g0.n →
      (g.nodes cur).distance ≤ fuel → ∃ p, get_path_loop fuel g cur path = some p := by
  intro fuel
  induction fuel with
  | zero =>
    intro cur path h1 h2 hd
    by_cases hp : (g.nodes cur).parent = 0
    · exact ⟨cur :: path, by simp [get_path_loop, hp]⟩
    · have := (hinv.par cur h1 h2 hp).2.2.2
      omega
  | succ fuel ih =>
    intro cur path h1 h2 hd
    by_cases hp : (g.nodes cur).parent = 0
    · exact ⟨cur :: path, by simp [get_path_loop, hp]⟩
    · obtain ⟨q1, q2, _, q4⟩ := hinv.par cur h1 h2 hp
      obtain ⟨p, hp'⟩ := ih (g.nodes cur).parent (cur :: path) q1 q2 (by omega)
      exact ⟨p, by simp only [get_path_loop]; rw [if_pos hp]; exact hp'⟩

theorem pareto_init_nodes (g : Graph) (s x : Nat) (h1 : 1 ≤ x) (h2 : x ≤ g.n) :
    ((pareto_init g s).nodes x).visited = false ∧ ((pareto_init g s).nodes x).parent = 0 ∧
    ((pareto_init g s).nodes x).capacity = (if x = s then INF else 0) ∧
    ((pareto_init g s).nodes x).distance = (if x = s then 0 else INF) := by
  unfold pareto_init
  simp only [setNode_nodes]
  by_cases hx : x = s
  · subst hx; simp [h1, h2]
  · simp [hx, h1, h2]

theorem create_heapInv {V : Type} (lt : V → V → Bool) (n : Nat) (v0 : V) :
    MaxHeap.HeapInv lt (MaxHeap.create n (2 ^ 32 - 1) 0 v0 : MaxHeap Nat V) := by
  refine ⟨⟨?_, ?_, ?_, ?_⟩, ?_, ?_⟩
  · intro j j' _ h2; simp [MaxHeap.create] at h2; omega
  · intro j h1 h2; simp [MaxHeap.create] at h2; omega
  · intro h1; simp [MaxHeap.create] at h1
  · intro k _; rfl
  · intro h1; simp [MaxHeap.create] at h1
  · intro j h1 h2; simp [MaxHeap.create] at h2; omega

/-- The state in which `pareto_optimal_dijkstra(s, false)` enters its loop
satisfies the invariant. -/
theorem hop_init_inv {g : Graph} (w : g.WF) {s : Nat} (hs : 1 ≤ s ∧ s ≤ g.n) :
    HopInv g s 0 [] (pareto_init g s)
      ((MaxHeap.create g.n (2 ^ 32 - 1) 0 (0, 0) : MaxHeap Nat (Int × Int)).insert pairLt s
        (hopWeight 0 INF)) := by
  obtain ⟨i1, i2, i3, i4, i5, _⟩ := MaxHeap.insert_inv pairLt pairLt_strictOrd
    (MaxHeap.create g.n (2 ^ 32 - 1) 0 (0, 0) : MaxHeap Nat (Int × Int)) (create_heapInv pairLt g.n (0, 0))
    s (hopWeight 0 INF) (by show 0 < g.n; omega) rfl
  have hsz0 : (MaxHeap.create g.n (2 ^ 32 - 1) 0 (0, 0) : MaxHeap Nat (Int × Int)).size = 0 := rfl
  rw [hsz0] at i2 i4 i5
  generalize (MaxHeap.create g.n (2 ^ 32 - 1) 0 (0, 0) : MaxHeap Nat (Int × Int)).insert pairLt s
    (hopWeight 0 INF) = h at i1 i2 i3 i4 i5 ⊢
  have hslot : ∀ j, 1 ≤ j → j ≤ h.size → h.a j = ⟨s, hopWeight 0 INF⟩ := by
    intro j hj1 hj2
    rcases i4 j hj1 (by omega) with e | ⟨j', a1, a2, _⟩
    · exact e
    · omega
  have hnodes := pareto_init_nodes g s
  refine ⟨pareto_init_sameNet g s, i1, by rw [i3]; rfl, by omega, ?_, ?_, ?_, ?_, ?_, ?_, ?_, ?_⟩
  · intro j hj1 hj2
    rw [hslot j hj1 hj2]
    obtain ⟨n1, _, _, n4⟩ := hnodes s hs.1 hs.2
    refine ⟨hs.1, hs.2, n1, ?_, ?_, ?_⟩
    · show (hopWeight 0 INF).1 = -(((pareto_init g s).nodes s).distance : Int)
      rw [n4]; simp [hopWeight]
    · exact Nat.zero_le _
    · show ((pareto_init g s).nodes s).distance ≤ 0 + 1
      rw [n4]; simp
  · intro x hx1 hx2 _ hxd
    obtain ⟨_, _, _, n4⟩ := hnodes x hx1 hx2
    have hx : x = s := by
      by_contra hc
      rw [n4, if_neg hc] at hxd
      exact hxd rfl
    obtain ⟨j, a1, a2, a3⟩ := i5
    exact ⟨j, a1, by omega, by rw [a3]; exact hx.symm⟩
  · intro x hx1 hx2 hxd
    obtain ⟨n1, _, n3, n4⟩ := hnodes x hx1 hx2
    have hx : x ≠ s := by
      rintro rfl
      rw [n4, if_pos rfl] at hxd
      unfold INF at hxd; omega
    rw [n3, if_neg hx]
    exact ⟨rfl, n1⟩
  · intro x hx1 hx2 hxd
    obtain ⟨_, _, n3, n4⟩ := hnodes x hx1 hx2
    have hx : x = s := by
      by_contra hc
      rw [n4, if_neg hc] at hxd
      exact hxd rfl
    subst hx
    refine ⟨[], rfl, ?_, ?_⟩
    · rw [n4, if_pos rfl]; rfl
    · rw [n3, if_pos rfl]; rfl
  · intro x hx1 hx2 hxv
    rw [(hnodes x hx1 hx2).1] at hxv; cases hxv
  · intro e he ho _ _
    rw [(hnodes _ (w.origin_pos e he) (w.origin_le e he)).1] at ho; cases ho
  · intro x hx1 hx2 hxp
    exact absurd (hnodes x hx1 hx2).2.1 hxp
  · rw [(hnodes s hs.1 hs.2).2.2.2, if_pos rfl]

/-- `get_pareto_optimal_path(start, end, false)` on a well-formed graph with
fewer than 999999 nodes, for `end` reachable from `start`: with fuel at least
`n + 1` it returns a distance and a capacity that are those of a path from
`start` to `end` and that are optimal. -/
theorem get_pareto_optimal_path_hop_spec {g : Graph} (w : g.WF) (hn : g.n < INF)
    {start end_ : Nat} (hs : 1 ≤ start ∧ start ≤ g.n) (hreach : g.Reachable start end_)
    (fuel : Nat) (hfuel : g.n + 1 ≤ fuel) :
    ∃ g1 path C D, g.get_pareto_optimal_path fuel start end_ false = some (g1, (path, C, D)) ∧
      (∃ es, g.IsPath start end_ es ∧ es.length = D ∧ g.pathCap es = C) ∧
      HopOpt g start end_ D C := by
  have hinit := hop_init_inv w hs
  have hw : pareto_weight false ((pareto_init g start).nodes start).capacity
      (uneg ((pareto_init g start).nodes start).distance) = hopWeight 0 INF := by
    obtain ⟨_, _, n3, n4⟩ := pareto_init_nodes g start start hs.1 hs.2
    rw [n3, n4, if_pos rfl, if_pos rfl]
    exact pareto_weight_false (by norm_num) (by unfold INF; norm_num)
  have hcount : unvisitedCount (pareto_init g start) ≤ fuel := by
    have := unvisitedCount_le (pareto_init g start)
    rw [hinit.net.n_eq] at this
    omega
  obtain ⟨g', h', D', hrun, hinv, hsz⟩ := hop_loop_spec w hn hs fuel _ _ 0 hinit hcount
  have hsv : (g'.nodes start).visited = true := by
    by_contra hc
    obtain ⟨j, hj1, hj2, _⟩ := hinv.inheap start hs.1 hs.2 (by simpa using hc)
      (by rw [hinv.start]; unfold INF; omega)
    omega
  obtain ⟨es, hes⟩ := hreach
  obtain ⟨hev, he1, he2⟩ := hop_final_visited w hn hinv hsz es start end_ hs.1 hs.2 hsv hes
  have hopt := hinv.opt end_ he1 he2 hev
  have hb := hinv.bound
  obtain ⟨p, hp⟩ := hop_get_path_loop hinv fuel end_ [] he1 he2 (by omega)
  refine ⟨g', p, (g'.nodes end_).capacity, (g'.nodes end_).distance, ?_,
    hinv.real end_ he1 he2 (by omega), hopt.2⟩
  unfold get_pareto_optimal_path pareto_optimal_dijkstra
  simp only [hw, hrun]
  unfold get_path
  simp [hev, hp]

theorem pathCap_le_mem (g : Graph) (es : List Nat) : ∀ e ∈ es, g.pathCap es ≤ (g.edges e).capacity := by
  unfold pathCap
  induction es with
  | nil => intro e he; simp at he
  | cons a es ih =>
    intro e he
    simp only [List.foldr_cons]
    rcases List.mem_cons.mp he with h | h
    · subst h; exact min_le_left _ _
    · exact le_trans (min_le_right _ _) (ih e h)

theorem pathCap_attained (g : Graph) (es : List Nat) (hne : es ≠ [])
    (hcap : ∀ e ∈ es, (g.edges e).capacity < INF) :
    ∃ e ∈ es, (g.edges e).capacity = g.pathCap es := by
  unfold pathCap
  induction es with
  | nil => exact absurd rfl hne
  | cons a es ih =>
    simp only [List.foldr_cons]
    by_cases hes : es = []
    · subst hes
      refine ⟨a, by simp, ?_⟩
      have := hcap a (by simp)
      simp only [List.foldr_nil]
      rw [min_eq_left (le_of_lt this)]
    · obtain ⟨e, he, heq⟩ := ih hes (fun e he => hcap e (List.mem_cons_of_mem _ he))
      by_cases hle : (g.edges a).capacity ≤ es.foldr (fun e acc => min (g.edges e).capacity acc) INF
      · exact ⟨a, by simp, by rw [min_eq_left hle]⟩
      · exact ⟨e, List.mem_cons_of_mem _ he, by rw [min_eq_right (by omega)]; exact heq⟩

/-! ## The flow list -/

theorem filterMap_ite_eq {α β : Type} (p : α → Prop) [DecidablePred p] (f : α → β) (l : List α) :
    (l.filterMap fun i => if p i then some (f i) else none)
      = (l.filter fun i => decide (p i)).map f := by
  induction l with
  | nil => rfl
  | cons a l ih =>
    by_cases h : p a
    · simp [List.filterMap_cons, List.filter_cons, h, ih]
    · simp [List.filterMap_cons, List.filter_cons, h, ih]

theorem get_flow_path_reset (g : Graph) : (reset_flows g).get_flow_path = [] := by
  unfold get_flow_path
  apply List.filterMap_eq_nil_iff.mpr
  intro i hi
  have him : i < g.m := by
    have := List.mem_range.mp hi
    simpa [reset_flows] using this
  simp [reset_flows, him]

/-! ## The schedule pass on any flow -/

theorem duration_relax_visited (index : Nat) (st : Graph × List Nat) (e : Nat)
    (hv : (st.1.nodes (st.1.edges e).destination).visited = true) :
    duration_relax index st e = st := by
  unfold duration_relax
  simp [hv]

theorem pendingIn_cons_ne {g0 g : Graph} {pend : List Nat} {e v : Nat}
    (hv : v ≠ (g0.edges e).destination) :
    pendingIn g0 g pend v = pendingIn g0 g (e :: pend) v := by
  apply pendingIn_congr
  intro e' _ _ hd'
  have hne : e' ≠ e := by rintro rfl; exact hv hd'.symm
  simp [hne]

theorem pass_relax_inv {g0 : Graph} {s index : Nat} (w : g0.WF)
    {g : Graph} {q : List Nat} {e : Nat} {pend : List Nat}
    (hinv : PassInv g0 s g (e :: pend) q) (hem : e < g0.m)
    (ho : (g0.edges e).origin = index) (hn : e ∉ pend)
    (hi : 1 ≤ index ∧ index ≤ g0.n) (hvi : (g.nodes index).visited = true) :
    PassInv g0 s (duration_relax index (g, q) e).1 pend (duration_relax index (g, q) e).2 ∧
    ∀ x, ((duration_relax index (g, q) e).1.nodes x).visited = (g.nodes x).visited := by
  have hedges : g.edges = g0.edges := hinv.net.edges_eq
  by_cases hf : (g0.edges e).flow = 0
  · rw [duration_relax_skip index (g, q) e (by simpa [hedges] using hf)]
    refine ⟨⟨hinv.net, hinv.s_vis, ?_, hinv.reach, hinv.q_nodup, ?_⟩, fun _ => rfl⟩
    · intro v h1 h2 h3
      rw [← pendingIn_cons_zero hf v]; exact hinv.indeg v h1 h2 h3
    · intro v hv
      have := hinv.q_mem v hv
      rw [pendingIn_cons_zero hf v] at this
      exact this
  have hpe : g0.PosEdge e := ⟨hem, Nat.pos_of_ne_zero hf⟩
  have hd1 := w.dest_pos e hem
  have hd2 := w.dest_le e hem
  by_cases hdv : (g.nodes (g0.edges e).destination).visited = true
  · rw [duration_relax_visited index (g, q) e (by simpa [hedges] using hdv)]
    refine ⟨⟨hinv.net, hinv.s_vis, ?_, hinv.reach, hinv.q_nodup, ?_⟩, fun _ => rfl⟩
    · intro v h1 h2 h3
      have hv : v ≠ (g0.edges e).destination := by
        intro h; rw [h] at h3; rw [hdv] at h3; cases h3
      rw [pendingIn_cons_ne hv]; exact hinv.indeg v h1 h2 h3
    · intro v hv
      have := hinv.q_mem v hv
      have hv' : v ≠ (g0.edges e).destination := by
        intro h; rw [h] at this; rw [hdv] at this; exact absurd this.2.2.1 (by simp)
      rw [pendingIn_cons_ne hv']
      exact this
  have hdv : (g.nodes (g0.edges e).destination).visited = false := by simpa using hdv
  have hpd : 1 ≤ pendingIn g0 g (e :: pend) (g0.edges e).destination :=
    pendingIn_pos hpe (Or.inr (List.mem_cons_self _ _))
  have hdq : (g0.edges e).destination ∉ q := by
    intro h; have := (hinv.q_mem _ h).2.2.2.1; omega
  have hsub : usub (g.nodes (g0.edges e).destination).in_degree 1
      = (g.nodes (g0.edges e).destination).in_degree - 1 := by
    have h1 := hinv.indeg _ hd1 hd2 hdv
    have h2 := pendingIn_le g0 g (e :: pend) (g0.edges e).destination
    have h3 := w.m_lt
    apply usub_eq_sub <;> omega
  have heff := duration_relax_effect index (g, q) e (by simpa [hedges] using hpe.2)
    (by simpa [hedges] using hdv)
  simp only [hedges, hsub] at heff
  obtain ⟨hnet, hsame, hvis, -, hdeg, hq⟩ := heff
  generalize duration_relax index (g, q) e = r at hnet hsame hvis hdeg hq ⊢
  obtain ⟨g', q'⟩ := r
  simp only at hnet hsame hvis hdeg hq ⊢
  have hvo : (g'.nodes (g0.edges e).origin).visited = true := by rw [hvis, ho]; exact hvi
  have hp_d := @pendingIn_erase _ g g' _ _ hpe hn hvo hvis
  have hp_ne : ∀ v, v ≠ (g0.edges e).destination →
      pendingIn g0 g' pend v = pendingIn g0 g (e :: pend) v := by
    intro v hv
    apply pendingIn_congr
    intro e' _ _ hd'
    have hne : e' ≠ e := by rintro rfl; exact hv hd'.symm
    simp [hvis, hne]
  have hrd : ∃ es, g0.IsPosPath s (g0.edges e).destination es := by
    obtain ⟨es, hes⟩ := hinv.reach index hi.1 hi.2 hvi
    exact ⟨es ++ [e], isPosPath_snoc (ho ▸ hes) hpe⟩
  refine ⟨⟨hinv.net.net_trans hnet, by rw [hvis]; exact hinv.s_vis, ?_, ?_, ?_, ?_⟩, hvis⟩
  · intro v h1 h2 h3
    rw [hvis] at h3
    by_cases hv : v = (g0.edges e).destination
    · subst hv
      have := hinv.indeg _ h1 h2 h3
      omega
    · rw [hsame v hv, hp_ne v hv]; exact hinv.indeg v h1 h2 h3
  · intro v h1 h2 h3
    rw [hvis] at h3
    exact hinv.reach v h1 h2 h3
  · rw [hq]
    split_ifs
    · rw [List.nodup_append]
      refine ⟨hinv.q_nodup, by simp, ?_⟩
      intro a ha hb
      simp at hb; subst hb; exact hdq ha
    · exact hinv.q_nodup
  · intro v hv
    have hold : v ∈ q → _ := fun hvq => by
      have hv' : v ≠ (g0.edges e).destination := by rintro rfl; exact hdq hvq
      have := hinv.q_mem v hvq
      exact (show 1 ≤ v ∧ v ≤ g0.n ∧ (g'.nodes v).visited = false ∧
          pendingIn g0 g' pend v = 0 ∧ ∃ es, g0.IsPosPath s v es from
        ⟨this.1, this.2.1, by rw [hvis]; exact this.2.2.1, by rw [hp_ne v hv']; exact this.2.2.2.1,
          this.2.2.2.2⟩)
    rw [hq] at hv
    split_ifs at hv with hz
    · rcases List.mem_append.mp hv with h | h
      · exact hold h
      · simp at h; subst h
        have h1 := hinv.indeg _ hd1 hd2 hdv
        refine ⟨hd1, hd2, by rw [hvis]; exact hdv, by omega, hrd⟩
    · exact hold hv

theorem pass_fold_inv {g0 : Graph} {s index : Nat} (w : g0.WF)
    (hi : 1 ≤ index ∧ index ≤ g0.n) :
    ∀ (l : List Nat) (g : Graph) (q : List Nat), l.Nodup →
      (∀ e ∈ l, e < g0.m ∧ (g0.edges e).origin = index) →
      PassInv g0 s g l q → (g.nodes index).visited = true →
      PassInv g0 s (l.foldl (duration_relax index) (g, q)).1 []
        (l.foldl (duration_relax index) (g, q)).2 ∧
      ∀ x, ((l.foldl (duration_relax index) (g, q)).1.nodes x).visited = (g.nodes x).visited := by
  intro l
  induction l with
  | nil => intro g q _ _ hinv _; exact ⟨hinv, fun _ => rfl⟩
  | cons e l ih =>
    intro g q hnd hl hinv hvi
    have hnd' := List.nodup_cons.mp hnd
    obtain ⟨he1, he2⟩ := hl e (List.mem_cons_self _ _)
    have hstep := pass_relax_inv w hinv he1 he2 hnd'.1 hi hvi
    simp only [List.foldl_cons]
    generalize duration_relax index (g, q) e = r at hstep ⊢
    obtain ⟨g', q'⟩ := r
    have := ih g' q' hnd'.2 (fun e' he' => hl e' (List.mem_cons_of_mem _ he')) hstep.1
      (by rw [hstep.2]; exact hvi)
    exact ⟨this.1, fun x => by rw [this.2, hstep.2]⟩

theorem pass_visit_pending {g0 : Graph} (w : g0.WF) {g : Graph} {index : Nat}
    (hiv : (g.nodes index).visited = false) (v : Nat) :
    pendingIn g0 (g.setNode index { g.nodes index with visited := true })
      (g0.nodes index).outgoing v = pendingIn g0 g [] v := by
  apply pendingIn_congr
  intro e he _ _
  simp only [setNode_nodes]
  rw [w.mem_out]
  by_cases ho : (g0.edges e).origin = index
  · simp [ho, he, hiv]
  · simp [ho]

theorem pass_visit_inv {g0 : Graph} {s : Nat} (w : g0.WF)
    {g : Graph} {index : Nat}
    {rest : List Nat} (hinv : PassInv g0 s g [] (index :: rest)) :
    PassInv g0 s (g.setNode index { g.nodes index with visited := true })
      (g0.nodes index).outgoing rest := by
  obtain ⟨hi1, hi2, hiv, hip, hir⟩ := hinv.q_mem index (List.mem_cons_self _ _)
  have hnd := List.nodup_cons.mp hinv.q_nodup
  have hdeg : ∀ x, ((g.setNode index { g.nodes index with visited := true }).nodes x).in_degree
      = (g.nodes x).in_degree := by
    intro x; simp only [setNode_nodes]; split_ifs with h
    · subst h; rfl
    · rfl
  have hvis : ∀ x, ((g.setNode index { g.nodes index with visited := true }).nodes x).visited
      = if x = index then true else (g.nodes x).visited := by
    intro x; simp only [setNode_nodes]; split_ifs <;> rfl
  have hp := fun v => @pass_visit_pending g0 w g index hiv v
  refine ⟨hinv.net.net_trans (SameNet.setNode g index _ rfl rfl), ?_, ?_, ?_, hnd.2, ?_⟩
  · rw [hvis]; split_ifs
    · rfl
    · exact hinv.s_vis
  · intro v h1 h2 h3
    rw [hvis] at h3
    by_cases hv : v = index
    · rw [if_pos hv] at h3; cases h3
    · rw [if_neg hv] at h3
      rw [hdeg, hp]; exact hinv.indeg v h1 h2 h3
  · intro v h1 h2 h3
    rw [hvis] at h3
    by_cases hv : v = index
    · subst hv; exact hir
    · rw [if_neg hv] at h3; exact hinv.reach v h1 h2 h3
  · intro v hv
    have hne : v ≠ index := by rintro rfl; exact hnd.1 hv
    have := hinv.q_mem v (List.mem_cons_of_mem _ hv)
    refine ⟨this.1, this.2.1, ?_, ?_, this.2.2.2.2⟩
    · rw [hvis, if_neg hne]; exact this.2.2.1
    · rw [hp]; exact this.2.2.2.1

theorem pass_loop_spec {g0 : Graph} {s : Nat} (w : g0.WF) :
    ∀ (fuel : Nat) (g : Graph) (q : List Nat), PassInv g0 s g [] q → unvisitedCount g ≤ fuel →
      ∃ g', duration_loop fuel g q = some g' ∧ PassInv g0 s g' [] [] := by
  intro fuel
  induction fuel with
  | zero =>
    intro g q hinv hfuel
    cases q with
    | nil => exact ⟨g, rfl, hinv⟩
    | cons index rest =>
      exfalso
      obtain ⟨hi1, hi2, hiv, -, -⟩ := hinv.q_mem index (List.mem_cons_self _ _)
      have hlt := @unvisitedCount_lt g
        (g.setNode index { g.nodes index with visited := true }) index rfl
        (by rw [hinv.net.n_eq]; exact hi2) hiv (by simp) (by
          intro x hx; simp only [setNode_nodes]; split_ifs
          · rfl
          · exact hx)
      omega
  | succ fuel ih =>
    intro g q hinv hfuel
    cases q with
    | nil => exact ⟨g, rfl, hinv⟩
    | cons index rest =>
      obtain ⟨hi1, hi2, hiv, -, -⟩ := hinv.q_mem index (List.mem_cons_self _ _)
      have hvisit := pass_visit_inv w hinv
      have hout : ((g.setNode index { g.nodes index with visited := true }).nodes index).outgoing
          = (g0.nodes index).outgoing := by
        rw [setNode_nodes_same]; exact hinv.net.out_eq index
      have hfold := pass_fold_inv w ⟨hi1, hi2⟩ (g0.nodes index).outgoing
        (g.setNode index { g.nodes index with visited := true }) rest (w.nodup_out index)
        (fun e he => (w.mem_out index e).mp he) hvisit (by simp)
      simp only [duration_loop]
      rw [hout]
      generalize (g0.nodes index).outgoing.foldl (duration_relax index)
        (g.setNode index { g.nodes index with visited := true }, rest) = r at hfold ⊢
      obtain ⟨g', q'⟩ := r
      apply ih g' q' hfold.1
      have hlt := @unvisitedCount_lt g g' index
        (by rw [hfold.1.net.n_eq, hinv.net.n_eq])
        (by rw [hinv.net.n_eq]; exact hi2) hiv (by rw [hfold.2]; simp) (by
          intro x hx; rw [hfold.2]; simp only [setNode_nodes]; split_ifs
          · rfl
          · exact hx)
      omega

/-- On any flow of a well-formed graph, `biggest_duration(start)` returns
within `n + 1` iterations; the network is as before and every node it has
marked visited can be reached from `start` along positive-flow edges. -/
theorem biggest_duration_total {g : Graph} (w : g.WF) {start : Nat}
    (hs : 1 ≤ start ∧ start ≤ g.n) {fuel : Nat} (hf : g.n + 1 ≤ fuel) :
    ∃ g1, g.biggest_duration fuel start = some g1 ∧ PassInv g start g1 [] [] := by
  obtain ⟨hnet, hinit⟩ := duration_init_spec w
  obtain ⟨fuel, rfl⟩ : ∃ k, fuel = k + 1 := ⟨fuel - 1, by omega⟩
  have hsv := (hinit start hs.1 hs.2).1
  have hvis : ∀ x, (((duration_init g).setNode start
      { (duration_init g).nodes start with visited := true }).nodes x).visited
      = if x = start then true else ((duration_init g).nodes x).visited := by
    intro x; simp only [setNode_nodes]; split_ifs <;> rfl
  have hdeg : ∀ x, (((duration_init g).setNode start
      { (duration_init g).nodes start with visited := true }).nodes x).in_degree
      = ((duration_init g).nodes x).in_degree := by
    intro x; simp only [setNode_nodes]; split_ifs with h
    · subst h; rfl
    · rfl
  have h0 : PassInv g start ((duration_init g).setNode start
      { (duration_init g).nodes start with visited := true }) (g.nodes start).outgoing [] := by
    refine ⟨hnet.net_trans (SameNet.setNode _ start _ rfl rfl), by rw [hvis, if_pos rfl], ?_, ?_,
      List.nodup_nil, by simp⟩
    · intro v h1 h2 h3
      rw [hdeg, (hinit v h1 h2).2.2]
      unfold pendingIn
      congr 1
      apply Finset.filter_congr
      intro e he
      have hem := Finset.mem_range.mp he
      have ho1 := w.origin_pos e hem
      have ho2 := w.origin_le e hem
      rw [hvis, w.mem_out]
      by_cases ho : (g.edges e).origin = start
      · simp [ho, hem]
      · simp [ho, (hinit _ ho1 ho2).1]
    · intro v h1 h2 h3
      rw [hvis] at h3
      by_cases hv : v = start
      · subst hv; exact ⟨[], rfl, by simp⟩
      · rw [if_neg hv, (hinit v h1 h2).1] at h3; cases h3
  have hout : (((duration_init g).setNode start
      { (duration_init g).nodes start with visited := true }).nodes start).outgoing
      = (g.nodes start).outgoing := by
    rw [setNode_nodes_same]; exact hnet.out_eq start
  have hfold := pass_fold_inv w hs (g.nodes start).outgoing _ [] (w.nodup_out start)
    (fun e he => (w.mem_out start e).mp he) h0 (by rw [hvis, if_pos rfl])
  unfold biggest_duration
  simp only [duration_loop]
  rw [hout]
  generalize (g.nodes start).outgoing.foldl (duration_relax start)
    ((duration_init g).setNode start { (duration_init g).nodes start with visited := true }, [])
    = r at hfold ⊢
  obtain ⟨g', q'⟩ := r
  apply pass_loop_spec w fuel g' q' hfold.1
  have hlt := @unvisitedCount_lt (duration_init g) g' start
    (by rw [hfold.1.net.n_eq, hnet.n_eq])
    (by rw [hnet.n_eq]; exact hs.2) hsv (by rw [hfold.2, hvis, if_pos rfl]) (by
      intro x hx; rw [hfold.2, hvis]; split_ifs
      · rfl
      · exact hx)
  have := unvisitedCount_le (duration_init g)
  rw [hnet.n_eq] at this
  omega

/-! ## Parent chains of the searches -/

theorem RelaxPar.relaxOK {V : Type} {g0 : Graph} {lt : V → V → Bool}
    {relax : Nat → Graph × MaxHeap Nat V → Nat → Graph × MaxHeap Nat V}
    (h : RelaxPar g0 lt relax) : RelaxOK g0 lt relax := by
  intro node st e hs
  rcases h node st e hs with h0 | ⟨nd, v, v', h1, h2, h3, h4, -, -, h7⟩
  · exact Or.inl h0
  · exact Or.inr ⟨nd, v, v', h1, h2, h3, h4, h7⟩

theorem max_capacity_relax_par (g0 : Graph) : RelaxPar g0 natLt max_capacity_relax := by
  intro node st e hs
  unfold max_capacity_relax
  simp only
  rw [hs.edges_eq]
  split
  · exact Or.inl rfl
  · rename_i hv
    split
    · right
      refine ⟨_, _, _, ?_, ?_, ?_, ?_, ?_, ?_, rfl⟩
      · simpa using hv
      · simpa using hv
      · rfl
      · rfl
      · rfl
      · rfl
    · exact Or.inl rfl

theorem pareto_relax_par (g0 : Graph) (b : Bool) : RelaxPar g0 pairLt (pareto_relax b) := by
  intro node st e hs
  unfold pareto_relax
  simp only
  rw [hs.edges_eq]
  split
  · exact Or.inl rfl
  · rename_i hv
    split
    · right
      refine ⟨_, _, _, ?_, ?_, ?_, ?_, ?_, ?_, rfl⟩
      · simpa using hv
      · simpa using hv
      · rfl
      · rfl
      · rfl
      · rfl
    · exact Or.inl rfl

theorem ParChain.congr {g g' : Graph} {s : Nat} : ∀ {x : Nat} {p : List Nat},
    ParChain g s x p → (∀ y ∈ p, (g'.nodes y).parent = (g.nodes y).parent) →
    ParChain g' s x p := by
  intro x p h
  induction h with
  | base h0 => intro hp; exact ParChain.base (by rw [hp s (by simp)]; exact h0)
  | step hx hnot _ ih =>
    intro hp
    have hpx := hp _ (List.mem_cons_self _ _)
    refine ParChain.step (by rw [hpx]; exact hx) hnot ?_
    rw [hpx]
    exact ih (fun y hy => hp y (List.mem_cons_of_mem _ hy))

theorem ParChain.nodup {g : Graph} {s : Nat} : ∀ {x : Nat} {p : List Nat},
    ParChain g s x p → p.Nodup := by
  intro x p h
  induction h with
  | base _ => simp
  | step _ hnot _ ih => exact List.nodup_cons.mpr ⟨hnot, ih⟩

theorem ParChain.head_last {g : Graph} {s : Nat} : ∀ {x : Nat} {p : List Nat},
    ParChain g s x p → p.head? = some x ∧ p.getLast? = some s := by
  intro x p h
  induction h with
  | base _ => simp
  | @step x' p' _ _ hc ih =>
    refine ⟨rfl, ?_⟩
    cases p' with
    | nil => simp at ih
    | cons a t => rw [List.getLast?_cons_cons]; exact ih.2

/-- The `while` loop of `get_path` walks a parent chain to its end. -/
theorem get_path_loop_chain {g : Graph} {s : Nat} : ∀ {x : Nat} {p : List Nat},
    ParChain g s x p → ∀ (fuel : Nat) (acc : List Nat), p.length ≤ fuel + 1 →
    get_path_loop fuel g x acc = some (p.reverse ++ acc) := by
  intro x p h
  induction h with
  | base h0 =>
    intro fuel acc _
    cases fuel <;> simp [get_path_loop, h0]
  | @step x' p' hx _ hc ih =>
    intro fuel acc hlen
    cases fuel with
    | zero =>
      have := hc.head_last.1
      cases p' with
      | nil => simp at this
      | cons a t => simp at hlen
    | succ k =>
      simp only [get_path_loop, hx, ne_eq, not_false_eq_true, if_true]
      rw [ih k _ (by simpa using hlen)]
      simp

theorem length_le_of_range {l : List Nat} {n : Nat} (hnd : l.Nodup)
    (hr : ∀ y ∈ l, 1 ≤ y ∧ y ≤ n) : l.length ≤ n := by
  have h1 : l.toFinset ⊆ Finset.Icc 1 n := by
    intro y hy
    have := hr y (List.mem_toFinset.mp hy)
    exact Finset.mem_Icc.mpr this
  have h2 := Finset.card_le_card h1
  rw [List.toFinset_card_of_nodup hnd, Nat.card_Icc] at h2
  omega

/-- Along a parent chain every node is joined to its parent by an edge whose
capacity is at least the capacity recorded at the first node. -/
theorem ParChain.joined {V : Type} {g0 g : Graph} {s : Nat} {h : MaxHeap Nat V}
    (hinv : PathInv g0 s g h) : ∀ {x : Nat} {p : List Nat},
    ParChain g s x p → (∀ y ∈ p, 1 ≤ y ∧ y ≤ g0.n) → ∀ c, c ≤ (g.nodes x).capacity →
    List.Chain' (fun a b => g0.Joined c b a) p := by
  intro x p hc
  induction hc with
  | base _ => intro _ c _; simp
  | @step x' p' hx _ hc ih =>
    intro hr c hcx
    obtain ⟨hx1, hx2⟩ := hr _ (List.mem_cons_self _ _)
    obtain ⟨-, -, -, hcap, e, he1, he2, he3, he4⟩ := hinv.par _ hx1 hx2 hx
    have ih' := ih (fun y hy => hr y (List.mem_cons_of_mem _ hy)) c (le_trans hcx hcap)
    rw [List.chain'_cons']
    refine ⟨?_, ih'⟩
    intro b hb
    rw [hc.head_last.1] at hb
    simp only [Option.mem_def, Option.some.injEq] at hb
    subst hb
    exact ⟨e, he1, he2, he3, le_trans hcx he4⟩

theorem path_relax_inv {V : Type} {g0 : Graph} (w : g0.WF) {s : Nat} {lt : V → V → Bool}
    {relax : Nat → Graph × MaxHeap Nat V → Nat → Graph × MaxHeap Nat V}
    (hr : RelaxPar g0 lt relax) {node : Nat}
    {st : Graph × MaxHeap Nat V} {e : Nat} (he : e ∈ (g0.nodes node).outgoing)
    (h : PathInv g0 s st.1 st.2 ∧ (st.1.nodes node).visited = true) :
    PathInv g0 s (relax node st e).1 (relax node st e).2 ∧
      ((relax node st e).1.nodes node).visited = true := by
  obtain ⟨hinv, hnv⟩ := h
  have hem := (w.mem_out node e).mp he
  have hn1 : 1 ≤ node := hem.2 ▸ w.origin_pos e hem.1
  have hn2 : node ≤ g0.n := hem.2 ▸ w.origin_le e hem.1
  have hd1 := w.dest_pos e hem.1
  have hd2 := w.dest_le e hem.1
  rcases hr node st e hinv.same with h0 | ⟨nd, v, v', hdv, hndv, hno, hni, hpar, hcap, h1⟩
  · rw [h0]; exact ⟨hinv, hnv⟩
  · rw [h1]
    have hdn : (g0.edges e).destination ≠ node := by
      intro hh; rw [hh] at hdv; rw [hdv] at hnv; cases hnv
    have hds : (g0.edges e).destination ≠ s := by
      intro hh; rw [hh] at hdv; have := hinv.s_vis; rw [hdv] at this; cases this
    have hne : ∀ x, x ≠ (g0.edges e).destination →
        (st.1.setNode (g0.edges e).destination nd).nodes x = st.1.nodes x :=
      fun x hx => setNode_nodes_ne _ _ hx
    have hvne : ∀ x, (st.1.nodes x).visited = true → x ≠ (g0.edges e).destination := by
      intro x hx hh; rw [hh] at hx; rw [hdv] at hx; cases hx
    have hvis : ∀ x, ((st.1.setNode (g0.edges e).destination nd).nodes x).visited
        = (st.1.nodes x).visited := by
      intro x
      by_cases hx : x = (g0.edges e).destination
      · subst hx; rw [setNode_nodes_same, hndv, hdv]
      · rw [hne x hx]
    have hins := MaxHeap.insert_effect lt st.2 (g0.edges e).destination v
    have hinc := MaxHeap.increase_key_shuffle lt
      (st.2.insert lt (g0.edges e).destination v) (g0.edges e).destination v'
    have hdpar : ((st.1.setNode (g0.edges e).destination nd).nodes
        (g0.edges e).destination).parent ≠ 0 := by
      rw [setNode_nodes_same, hpar]; omega
    refine ⟨⟨hinv.same.net_trans (SameNet.setNode _ _ _ hno hni), ?_, ?_, ?_, ?_, ?_⟩, ?_⟩
    · show ((st.1.setNode (g0.edges e).destination nd).nodes s).visited = true
      rw [hvis]; exact hinv.s_vis
    · show ((st.1.setNode (g0.edges e).destination nd).nodes s).parent = 0
      rw [hne s (Ne.symm hds)]; exact hinv.s_par
    · intro i
      obtain ⟨j, hj⟩ := hinc.keys i
      show ((MaxHeap.increase_key lt _ _ _).a i).key = 0 ∨ _
      rw [hj]
      rcases hins.2.2.1 j with h2 | ⟨l, h2⟩
      · rw [h2]; exact Or.inr ⟨hd1, hd2, Or.inr hdpar⟩
      · rw [h2]
        rcases hinv.keys l with h3 | ⟨h3, h4, h5⟩
        · exact Or.inl h3
        · refine Or.inr ⟨h3, h4, ?_⟩
          by_cases hk : (st.2.a l).key = (g0.edges e).destination
          · rw [hk]; exact Or.inr hdpar
          · show ((st.1.setNode _ nd).nodes _).visited = true ∨
              ((st.1.setNode _ nd).nodes _).parent ≠ 0
            rw [hne _ hk]; exact h5
    · intro x hx1 hx2 hxp
      show 1 ≤ ((st.1.setNode _ nd).nodes x).parent ∧ _
      by_cases hx : x = (g0.edges e).destination
      · subst hx
        simp only [setNode_nodes_same]
        rw [hpar, hne node (Ne.symm hdn)]
        refine ⟨hn1, hn2, hnv, ?_, e, hem.1, hem.2, rfl, ?_⟩
        · rw [hcap]; exact min_le_left _ _
        · rw [hcap]; exact min_le_right _ _
      · have hxp' : (st.1.nodes x).parent ≠ 0 := by
          have := hxp
          change ((st.1.setNode _ nd).nodes x).parent ≠ 0 at this
          rwa [hne x hx] at this
        obtain ⟨h3, h4, h5, h6, h7⟩ := hinv.par x hx1 hx2 hxp'
        rw [hne x hx, hne _ (hvne _ h5)]
        exact ⟨h3, h4, h5, h6, h7⟩
    · intro x hx1 hx2 hxv
      change ((st.1.setNode _ nd).nodes x).visited = true at hxv
      rw [hvis] at hxv
      obtain ⟨p, hp, hall⟩ := hinv.chain x hx1 hx2 hxv
      refine ⟨p, hp.congr (fun y hy => by rw [hne y (hvne y (hall y hy).1)]), ?_⟩
      intro y hy
      refine ⟨?_, (hall y hy).2⟩
      show ((st.1.setNode _ nd).nodes y).visited = true
      rw [hvis]; exact (hall y hy).1
    · show ((st.1.setNode _ nd).nodes node).visited = true
      rw [hvis]; exact hnv

theorem path_scan_fold {V : Type} {g0 : Graph} (w : g0.WF) {s : Nat} {lt : V → V → Bool}
    {relax : Nat → Graph × MaxHeap Nat V → Nat → Graph × MaxHeap Nat V}
    (hr : RelaxPar g0 lt relax) (node : Nat) (st : Graph × MaxHeap Nat V)
    (h : PathInv g0 s st.1 st.2 ∧ (st.1.nodes node).visited = true) :
    PathInv g0 s ((g0.nodes node).outgoing.foldl (relax node) st).1
      ((g0.nodes node).outgoing.foldl (relax node) st).2 :=
  (foldl_inv (fun st' : Graph × MaxHeap Nat V =>
      PathInv g0 s st'.1 st'.2 ∧ (st'.1.nodes node).visited = true) (relax node)
    (g0.nodes node).outgoing (fun _ _ he hJ => path_relax_inv w hr he hJ) st h).1

theorem path_extract_inv {V : Type} {g0 : Graph} {s : Nat} (lt : V → V → Bool)
    {g : Graph} {h : MaxHeap Nat V} (hinv : PathInv g0 s g h) (hsz : 0 < h.size) :
    PathInv g0 s (g.setNode (h.remove_max lt).1
        { g.nodes (h.remove_max lt).1 with visited := true }) (h.remove_max lt).2 := by
  obtain ⟨hmax, -, -, hkeys, -⟩ := MaxHeap.remove_max_effect lt h hsz
  generalize (h.remove_max lt).1 = node at hmax ⊢
  have hnode := hinv.keys 1
  rw [← hmax] at hnode
  have hpar : ∀ x, ((g.setNode node { g.nodes node with visited := true }).nodes x).parent
      = (g.nodes x).parent := by
    intro x; simp only [setNode_nodes]; split_ifs with hx
    · subst hx; rfl
    · rfl
  have hcap : ∀ x, ((g.setNode node { g.nodes node with visited := true }).nodes x).capacity
      = (g.nodes x).capacity := by
    intro x; simp only [setNode_nodes]; split_ifs with hx
    · subst hx; rfl
    · rfl
  have hvis : ∀ x, ((g.setNode node { g.nodes node with visited := true }).nodes x).visited
      = if x = node then true else (g.nodes x).visited := by
    intro x; simp only [setNode_nodes]; split_ifs <;> rfl
  have hmono : ∀ x, (g.nodes x).visited = true →
      ((g.setNode node { g.nodes node with visited := true }).nodes x).visited = true := by
    intro x hx; rw [hvis]; split_ifs
    · rfl
    · exact hx
  have hold : ∀ x, 1 ≤ x → x ≤ g0.n → (g.nodes x).visited = true →
      ∃ p, ParChain (g.setNode node { g.nodes node with visited := true }) s x p ∧
        ∀ y ∈ p, ((g.setNode node { g.nodes node with visited := true }).nodes y).visited = true ∧
          1 ≤ y ∧ y ≤ g0.n := by
    intro x hx1 hx2 hxv
    obtain ⟨p, hp, hall⟩ := hinv.chain x hx1 hx2 hxv
    exact ⟨p, hp.congr (fun y _ => hpar y), fun y hy => ⟨hmono y (hall y hy).1, (hall y hy).2⟩⟩
  refine ⟨hinv.same.net_trans (SameNet.setNode _ _ _ rfl rfl), hmono s hinv.s_vis, ?_, ?_, ?_, ?_⟩
  · rw [hpar]; exact hinv.s_par
  · intro i
    obtain ⟨j, hj⟩ := hkeys i
    rw [hj]
    rcases hinv.keys j with h3 | ⟨h3, h4, h5⟩
    · exact Or.inl h3
    · refine Or.inr ⟨h3, h4, ?_⟩
      rw [hpar]
      rcases h5 with h5 | h5
      · exact Or.inl (hmono _ h5)
      · exact Or.inr h5
  · intro x hx1 hx2 hxp
    rw [hpar] at hxp ⊢
    rw [hcap, hcap]
    obtain ⟨h3, h4, h5, h6, h7⟩ := hinv.par x hx1 hx2 hxp
    exact ⟨h3, h4, hmono _ h5, h6, h7⟩
  · intro x hx1 hx2 hxv
    rw [hvis] at hxv
    by_cases hx : x = node
    · cases hgv : (g.nodes x).visited with
      | true => exact hold x hx1 hx2 hgv
      | false =>
        subst hx
        rcases hnode with h0 | ⟨-, -, h5⟩
        · omega
        · rcases h5 with h5 | h5
          · rw [hgv] at h5; cases h5
          · obtain ⟨h3, h4, h6, -, -⟩ := hinv.par x hx1 hx2 h5
            obtain ⟨p, hp, hall⟩ := hinv.chain _ h3 h4 h6
            have hnot : x ∉ p := by
              intro hm; have := (hall x hm).1; rw [hgv] at this; cases this
            refine ⟨x :: p, ParChain.step (by rw [hpar]; exact h5) hnot ?_, ?_⟩
            · rw [hpar]; exact hp.congr (fun y _ => hpar y)
            · intro y hy
              rcases List.mem_cons.mp hy with h' | h'
              · subst h'; exact ⟨by rw [hvis, if_pos rfl], hx1, hx2⟩
              · exact ⟨hmono y (hall y h').1, (hall y h').2⟩
    · rw [if_neg hx] at hxv
      exact hold x hx1 hx2 hxv

/-- If the search loop returns from a state satisfying `PathInv`, the graph it
returns satisfies it. -/
theorem path_loop_inv {V : Type} {g0 : Graph} (w : g0.WF) {s : Nat} {lt : V → V → Bool}
    {relax : Nat → Graph × MaxHeap Nat V → Nat → Graph × MaxHeap Nat V}
    (hr : RelaxPar g0 lt relax) :
    ∀ (fuel : Nat) (g : Graph) (h : MaxHeap Nat V) (g' : Graph), PathInv g0 s g h →
      search_loop lt relax fuel g h = some g' → ∃ h' : MaxHeap Nat V, PathInv g0 s g' h' := by
  intro fuel
  induction fuel with
  | zero =>
    intro g h g' hinv hrun
    simp only [search_loop] at hrun
    split at hrun
    · cases hrun
    · cases hrun; exact ⟨h, hinv⟩
  | succ fuel ih =>
    intro g h g' hinv hrun
    simp only [search_loop] at hrun
    split at hrun
    · rename_i hsz
      have hsz' : 0 < h.size := hsz
      have h1 := path_extract_inv lt hinv hsz'
      have hout : ((g.setNode (h.remove_max lt).1
          { g.nodes (h.remove_max lt).1 with visited := true }).nodes
            (h.remove_max lt).1).outgoing = (g0.nodes (h.remove_max lt).1).outgoing := by
        rw [h1.same.out_eq]
      rw [hout] at hrun
      have h2 := path_scan_fold w hr (h.remove_max lt).1
        (g.setNode (h.remove_max lt).1 { g.nodes (h.remove_max lt).1 with visited := true },
          (h.remove_max lt).2) ⟨h1, by rw [setNode_nodes_same]⟩
      exact ih _ _ g' h2 hrun
    · cases hrun; exact ⟨h, hinv⟩

theorem create_insert_root {V : Type} (lt : V → V → Bool) (n start : Nat) (v0 v : V)
    (hn : 1 ≤ n) :
    ((MaxHeap.create n (2 ^ 32 - 1) 0 v0 : MaxHeap Nat V).insert lt start v).size = 1 ∧
    (((MaxHeap.create n (2 ^ 32 - 1) 0 v0 : MaxHeap Nat V).insert lt start v).a 1).key = start := by
  have h0 : (0 : Nat) ≠ n := by omega
  simp [MaxHeap.insert, MaxHeap.create, MaxHeap.has_key, MaxHeap.up_heap, MaxHeap.up_heap_loop,
    MaxHeap.setA, h0]

/-- The searches, started as the code starts them, leave a state satisfying
`PathInv` whenever they return. -/
theorem path_search_spec {V : Type} {g0 : Graph} (w : g0.WF) {s : Nat}
    (hs : 1 ≤ s ∧ s ≤ g0.n) {lt : V → V → Bool}
    {relax : Nat → Graph × MaxHeap Nat V → Nat → Graph × MaxHeap Nat V}
    (hr : RelaxPar g0 lt relax) (g2 : Graph) (hsame : SameNet g0 g2)
    (hinit : ∀ x, 1 ≤ x → x ≤ g0.n → (g2.nodes x).visited = false ∧ (g2.nodes x).parent = 0)
    (v0 v : V) :
    ∀ (fuel : Nat) (g' : Graph),
      search_loop lt relax fuel g2
        ((MaxHeap.create g0.n (2 ^ 32 - 1) 0 v0 : MaxHeap Nat V).insert lt s v) = some g' →
      ∃ h' : MaxHeap Nat V, PathInv g0 s g' h' := by
  intro fuel g' hrun
  obtain ⟨hsize, hroot⟩ := create_insert_root lt g0.n s v0 v (by omega)
  have hkeys1 := create_insert_keys lt g0.n s v0 v
  generalize (MaxHeap.create g0.n (2 ^ 32 - 1) 0 v0 : MaxHeap Nat V).insert lt s v = h1
    at hrun hsize hroot hkeys1
  cases fuel with
  | zero => simp [search_loop, MaxHeap.get_size, hsize] at hrun
  | succ fuel =>
    simp only [search_loop, MaxHeap.get_size, hsize, gt_iff_lt, Nat.lt_one_iff, Nat.zero_lt_one,
      if_true] at hrun
    obtain ⟨hmax, -, -, hkeys, -⟩ := MaxHeap.remove_max_effect lt h1 (by omega)
    have hnode : (h1.remove_max lt).1 = s := by rw [hmax, hroot]
    rw [hnode] at hrun
    have hpar : ∀ x, ((g2.setNode s { g2.nodes s with visited := true }).nodes x).parent
        = (g2.nodes x).parent := by
      intro x; simp only [setNode_nodes]; split_ifs with hx
      · subst hx; rfl
      · rfl
    have hvis : ∀ x, ((g2.setNode s { g2.nodes s with visited := true }).nodes x).visited
        = if x = s then true else (g2.nodes x).visited := by
      intro x; simp only [setNode_nodes]; split_ifs <;> rfl
    have hsame1 : SameNet g0 (g2.setNode s { g2.nodes s with visited := true }) :=
      hsame.net_trans (SameNet.setNode _ _ _ rfl rfl)
    have hJ : PathInv g0 s (g2.setNode s { g2.nodes s with visited := true })
        (h1.remove_max lt).2 := by
      refine ⟨hsame1, by rw [hvis, if_pos rfl], by rw [hpar]; exact (hinit s hs.1 hs.2).2,
        ?_, ?_, ?_⟩
      · intro i
        obtain ⟨j, hj⟩ := hkeys i
        rw [hj]
        rcases hkeys1 j with h3 | h3
        · exact Or.inl h3
        · rw [h3]; exact Or.inr ⟨hs.1, hs.2, Or.inl (by rw [hvis, if_pos rfl])⟩
      · intro x hx1 hx2 hxp
        rw [hpar] at hxp
        exact absurd (hinit x hx1 hx2).2 hxp
      · intro x hx1 hx2 hxv
        rw [hvis] at hxv
        by_cases hx : x = s
        · subst hx
          refine ⟨[x], ParChain.base (by rw [hpar]; exact (hinit x hx1 hx2).2), ?_⟩
          intro y hy
          simp only [List.mem_singleton] at hy
          subst hy
          exact ⟨by rw [hvis, if_pos rfl], hx1, hx2⟩
        · rw [if_neg hx, (hinit x hx1 hx2).1] at hxv; cases hxv
    have hout : ((g2.setNode s { g2.nodes s with visited := true }).nodes s).outgoing
        = (g0.nodes s).outgoing := by rw [hsame1.out_eq]
    rw [hout] at hrun
    exact path_loop_inv w hr fuel _ _ g'
      (path_scan_fold w hr s (g2.setNode s { g2.nodes s with visited := true },
        (h1.remove_max lt).2) ⟨hJ, by rw [setNode_nodes_same]⟩) hrun

theorem max_capacity_init_parent (g : Graph) (s x : Nat) (h1 : 1 ≤ x) (hn : x ≤ g.n) :
    ((max_capacity_init g s).nodes x).parent = 0 := by
  unfold max_capacity_init
  simp only [setNode_nodes]
  split
  · rename_i h; subst h; simp [h1, hn]
  · simp [h1, hn]

theorem pareto_init_parent (g : Graph) (s x : Nat) (h1 : 1 ≤ x) (hn : x ≤ g.n) :
    ((pareto_init g s).nodes x).parent = 0 := by
  unfold pareto_init
  simp only [setNode_nodes]
  split
  · rename_i h; subst h; simp [h1, hn]
  · simp [h1, hn]

/-- `max_capacity_dijkstra` returns within `n + 2` iterations and leaves a
state satisfying `PathInv`. -/
theorem max_capacity_dijkstra_path {g : Graph} (w : g.WF) {s : Nat} (hs : 1 ≤ s ∧ s ≤ g.n)
    {fuel : Nat} (hf : g.n + 2 ≤ fuel) :
    ∃ (g1 : Graph) (h' : MaxHeap Nat Nat),
      g.max_capacity_dijkstra fuel s = some g1 ∧ PathInv g s g1 h' := by
  unfold max_capacity_dijkstra
  simp only
  rw [max_capacity_loop_eq]
  have hinit := searchInv_init natLt g (max_capacity_init g s) s 0
    ((max_capacity_init g s).nodes s).capacity (max_capacity_init_sameNet g s)
    (max_capacity_init_visited g s)
  obtain ⟨g1, h1, hrun, -⟩ := search_loop_terminates w (max_capacity_relax_ok g) fuel _ _
    hinit (le_trans (searchMeasure_le_init _ _ (create_insert_size natLt g.n s 0 _))
      ((max_capacity_init_sameNet g s).n_eq ▸ hf))
  obtain ⟨h', hinv⟩ := path_search_spec w hs (max_capacity_relax_par g) (max_capacity_init g s)
    (max_capacity_init_sameNet g s)
    (fun x h1 hn => ⟨max_capacity_init_visited g s x h1 hn, max_capacity_init_parent g s x h1 hn⟩)
    0 _ fuel g1 hrun
  exact ⟨g1, h', hrun, hinv⟩

/-- `pareto_optimal_dijkstra` returns within `n + 2` iterations and leaves a
state satisfying `PathInv`. -/
theorem pareto_optimal_dijkstra_path {g : Graph} (w : g.WF) {s : Nat} (hs : 1 ≤ s ∧ s ≤ g.n)
    (b : Bool) {fuel : Nat} (hf : g.n + 2 ≤ fuel) :
    ∃ (g1 : Graph) (h' : MaxHeap Nat (Int × Int)),
      g.pareto_optimal_dijkstra fuel s b = some g1 ∧ PathInv g s g1 h' := by
  unfold pareto_optimal_dijkstra
  simp only
  rw [pareto_loop_eq]
  have hinit := searchInv_init pairLt g (pareto_init g s) s (0, 0)
    (pareto_weight b ((pareto_init g s).nodes s).capacity
      (uneg ((pareto_init g s).nodes s).distance)) (pareto_init_sameNet g s)
    (pareto_init_visited g s)
  obtain ⟨g1, h1, hrun, -⟩ := search_loop_terminates w (pareto_relax_ok g b) fuel _ _
    hinit (le_trans (searchMeasure_le_init _ _ (create_insert_size pairLt g.n s (0, 0) _))
      ((pareto_init_sameNet g s).n_eq ▸ hf))
  obtain ⟨h', hinv⟩ := path_search_spec w hs (pareto_relax_par g b) (pareto_init g s)
    (pareto_init_sameNet g s)
    (fun x h1 hn => ⟨pareto_init_visited g s x h1 hn, pareto_init_parent g s x h1 hn⟩)
    (0, 0) _ fuel g1 hrun
  exact ⟨g1, h', hrun, hinv⟩

/-- After a search, `get_path` returns within `n` iterations of its loop: the
empty path with zeros for an unvisited `end`, and otherwise a real path from
the start to `end` together with the `capacity` and `distance` of `end`. -/
theorem get_path_spec {V : Type} {g0 g1 : Graph} {s : Nat} {h : MaxHeap Nat V}
    (hinv : PathInv g0 s g1 h) {t : Nat} (ht : 1 ≤ t ∧ t ≤ g0.n) {fuel : Nat}
    (hf : g0.n ≤ fuel + 1) (s' : Nat) :
    ∃ path, get_path fuel g1 s' t = some (path,
        if (g1.nodes t).visited = true then ((g1.nodes t).capacity, (g1.nodes t).distance)
        else (0, 0)) ∧
      (path ≠ [] → (g1.nodes t).visited = true ∧ g0.IsRealPath s t (g1.nodes t).capacity path) ∧
      ((g1.nodes t).visited = true → path ≠ []) := by
  unfold get_path
  cases hv : (g1.nodes t).visited with
  | false => exact ⟨[], by simp, by simp, by simp⟩
  | true =>
    obtain ⟨p, hp, hall⟩ := hinv.chain t ht.1 ht.2 hv
    have hlen : p.length ≤ fuel + 1 :=
      le_trans (length_le_of_range hp.nodup (fun y hy => (hall y hy).2)) hf
    have hrun := get_path_loop_chain hp fuel [] hlen
    rw [List.append_nil] at hrun
    refine ⟨p.reverse, by simp [hrun], ?_, ?_⟩
    · intro _
      refine ⟨rfl, ?_, ?_, List.nodup_reverse.mpr hp.nodup, ?_⟩
      · rw [List.head?_reverse]; exact hp.head_last.2
      · rw [List.getLast?_reverse]; exact hp.head_last.1
      · rw [List.chain'_reverse]
        exact hp.joined hinv (fun y hy => (hall y hy).2) _ le_rfl
    · intro _ hnil
      have := hp.head_last.1
      rw [List.reverse_eq_nil_iff] at hnil
      rw [hnil] at this
      simp at this

/-! ## Two runs of a search from states with the same network -/

theorem foldl_rel {σ α : Type} (R : σ → σ → Prop) (f : σ → α → σ) (l : List α)
    (hstep : ∀ e ∈ l, ∀ st st', R st st' → R (f st e) (f st' e)) :
    ∀ st st', R st st' → R (l.foldl f st) (l.foldl f st') := by
  induction l with
  | nil => intro st st' h; exact h
  | cons a l ih =>
    intro st st' h
    simp only [List.foldl_cons]
    exact ih (fun e he => hstep e (List.mem_cons_of_mem _ he)) _ _
      (hstep a (List.mem_cons_self _ _) st st' h)

theorem SearchAgree.agree_setNode {d : Bool} {g g' : Graph} (h : SearchAgree d g g') (i : Nat)
    (nd nd' : Node) (ho : nd.outgoing = (g.nodes i).outgoing)
    (hi : nd.incoming = (g.nodes i).incoming)
    (ho' : nd'.outgoing = (g'.nodes i).outgoing) (hi' : nd'.incoming = (g'.nodes i).incoming)
    (hin : 1 ≤ i → i ≤ g.n → nd'.visited = nd.visited ∧ nd'.parent = nd.parent ∧
      nd'.capacity = nd.capacity ∧ (d = true → nd'.distance = nd.distance)) :
    SearchAgree d (g.setNode i nd) (g'.setNode i nd') := by
  refine ⟨⟨h.net.n_eq, h.net.m_eq, h.net.edges_eq, fun v => ?_, fun v => ?_⟩, ?_, ?_, ?_, ?_⟩
  · simp only [setNode_nodes]; split_ifs with hx
    · subst hx; rw [ho', ho]; exact h.net.out_eq _
    · exact h.net.out_eq v
  · simp only [setNode_nodes]; split_ifs with hx
    · subst hx; rw [hi', hi]; exact h.net.in_eq _
    · exact h.net.in_eq v
  · intro x h1 h2; simp only [setNode_nodes]; split_ifs with hx
    · subst hx; exact (hin h1 h2).1
    · exact h.vis x h1 h2
  · intro x h1 h2; simp only [setNode_nodes]; split_ifs with hx
    · subst hx; exact (hin h1 h2).2.1
    · exact h.par x h1 h2
  · intro x h1 h2; simp only [setNode_nodes]; split_ifs with hx
    · subst hx; exact (hin h1 h2).2.2.1
    · exact h.cap x h1 h2
  · intro hd' x h1 h2; simp only [setNode_nodes]; split_ifs with hx
    · subst hx; exact (hin h1 h2).2.2.2 hd'
    · exact h.dist hd' x h1 h2

theorem max_capacity_relax_sim : RelaxSim false max_capacity_relax := by
  intro node st st' e hrel hn1 hn2 hd1 hd2
  obtain ⟨g, h⟩ := st
  obtain ⟨g', h'⟩ := st'
  obtain ⟨hh, ha⟩ := hrel
  simp only at hh ha hn2 hd1 hd2
  subst hh
  unfold max_capacity_relax
  simp only
  rw [ha.net.edges_eq, ha.vis _ hd1 hd2, ha.cap _ hn1 hn2, ha.cap _ hd1 hd2]
  split
  · exact ⟨rfl, ha⟩
  · split
    · refine ⟨?_, ?_⟩
      · simp only [setNode_nodes_same]
      · exact ha.agree_setNode _ _ _ rfl rfl rfl rfl (fun _ _ => ⟨rfl, rfl, rfl, fun hd => by cases hd⟩)
    · exact ⟨rfl, ha⟩

theorem pareto_relax_sim (b : Bool) : RelaxSim true (pareto_relax b) := by
  intro node st st' e hrel hn1 hn2 hd1 hd2
  obtain ⟨g, h⟩ := st
  obtain ⟨g', h'⟩ := st'
  obtain ⟨hh, ha⟩ := hrel
  simp only at hh ha hn2 hd1 hd2
  subst hh
  unfold pareto_relax
  simp only
  rw [ha.net.edges_eq, ha.vis _ hd1 hd2, ha.cap _ hn1 hn2, ha.cap _ hd1 hd2,
    ha.dist rfl _ hn1 hn2, ha.dist rfl _ hd1 hd2]
  split
  · exact ⟨rfl, ha⟩
  · split
    · refine ⟨rfl, ?_⟩
      exact ha.agree_setNode _ _ _ rfl rfl rfl rfl (fun _ _ => ⟨rfl, rfl, rfl, fun _ => rfl⟩)
    · exact ⟨rfl, ha⟩

/-- Two runs of the search loop from agreeing states with the same heap both
run out of fuel or both return, with agreeing states. -/
theorem search_loop_sim {V : Type} {d : Bool} {g0 : Graph} (w : g0.WF) {lt : V → V → Bool}
    {relax : Nat → Graph × MaxHeap Nat V → Nat → Graph × MaxHeap Nat V}
    (hr : RelaxOK g0 lt relax) (hsim : RelaxSim d relax) :
    ∀ (fuel : Nat) (g g' : Graph) (h : MaxHeap Nat V), SameNet g0 g → SearchAgree d g g' →
      Option.Rel (SearchAgree d) (search_loop lt relax fuel g h)
        (search_loop lt relax fuel g' h) := by
  intro fuel
  induction fuel with
  | zero =>
    intro g g' h _ ha
    simp only [search_loop]
    split
    · exact Option.Rel.none
    · exact Option.Rel.some ha
  | succ fuel ih =>
    intro g g' h hs ha
    simp only [search_loop]
    split
    · have ha1 : SearchAgree d (g.setNode (h.remove_max lt).1
          { g.nodes (h.remove_max lt).1 with visited := true })
          (g'.setNode (h.remove_max lt).1
          { g'.nodes (h.remove_max lt).1 with visited := true }) :=
        ha.agree_setNode _ _ _ rfl rfl rfl rfl
          (fun h1 h2 => ⟨rfl, ha.par _ h1 h2, ha.cap _ h1 h2, fun hd => ha.dist hd _ h1 h2⟩)
      have hs1 : SameNet g0 (g.setNode (h.remove_max lt).1
          { g.nodes (h.remove_max lt).1 with visited := true }) :=
        hs.net_trans (SameNet.setNode _ _ _ rfl rfl)
      have hout : ((g.setNode (h.remove_max lt).1
          { g.nodes (h.remove_max lt).1 with visited := true }).nodes
            (h.remove_max lt).1).outgoing = (g0.nodes (h.remove_max lt).1).outgoing := by
        rw [hs1.out_eq]
      have hout' : ((g'.setNode (h.remove_max lt).1
          { g'.nodes (h.remove_max lt).1 with visited := true }).nodes
            (h.remove_max lt).1).outgoing = (g0.nodes (h.remove_max lt).1).outgoing := by
        rw [ha1.net.out_eq, hs1.out_eq]
      rw [hout, hout']
      have hfold := foldl_rel
        (fun st st' : Graph × MaxHeap Nat V => SearchRel d st st' ∧ SameNet g0 st.1)
        (relax (h.remove_max lt).1) (g0.nodes (h.remove_max lt).1).outgoing
        (by
          intro e he st st' hR
          have hem := (w.mem_out _ e).mp he
          have hn1 := w.origin_pos e hem.1
          have hn2 := w.origin_le e hem.1
          have hd1 := w.dest_pos e hem.1
          have hd2 := w.dest_le e hem.1
          rw [hem.2] at hn1 hn2
          refine ⟨hsim _ st st' e hR.1 hn1 (by rw [hR.2.n_eq]; exact hn2)
            (by rw [hR.2.edges_eq]; exact hd1) (by rw [hR.2.edges_eq, hR.2.n_eq]; exact hd2), ?_⟩
          rcases hr (h.remove_max lt).1 st e hR.2 with h0 | ⟨nd, v, v', -, -, hno, hni, h1⟩
          · rw [h0]; exact hR.2
          · rw [h1]; exact hR.2.net_trans (SameNet.setNode _ _ _ hno hni))
        (g.setNode (h.remove_max lt).1 { g.nodes (h.remove_max lt).1 with visited := true },
          (h.remove_max lt).2)
        (g'.setNode (h.remove_max lt).1 { g'.nodes (h.remove_max lt).1 with visited := true },
          (h.remove_max lt).2)
        ⟨⟨rfl, ha1⟩, hs1⟩
      generalize (g0.nodes (h.remove_max lt).1).outgoing.foldl (relax (h.remove_max lt).1)
        (g.setNode (h.remove_max lt).1 { g.nodes (h.remove_max lt).1 with visited := true },
          (h.remove_max lt).2) = r at hfold ⊢
      generalize (g0.nodes (h.remove_max lt).1).outgoing.foldl (relax (h.remove_max lt).1)
        (g'.setNode (h.remove_max lt).1 { g'.nodes (h.remove_max lt).1 with visited := true },
          (h.remove_max lt).2) = r' at hfold ⊢
      obtain ⟨⟨hh, har⟩, hsr⟩ := hfold
      rw [hh]
      exact ih r.1 r'.1 r.2 hsr har
    · exact Option.Rel.some ha

theorem max_capacity_init_agree {g g' : Graph} (hnet : SameNet g g') (s : Nat) :
    SearchAgree false (max_capacity_init g s) (max_capacity_init g' s) := by
  have h1 := max_capacity_init_sameNet g s
  have h2 := max_capacity_init_sameNet g' s
  have hn : g'.n = g.n := hnet.n_eq
  refine ⟨⟨h2.n_eq.trans (hnet.n_eq.trans h1.n_eq.symm), h2.m_eq.trans (hnet.m_eq.trans h1.m_eq.symm),
    h2.edges_eq.trans (hnet.edges_eq.trans h1.edges_eq.symm),
    fun v => (h2.out_eq v).trans ((hnet.out_eq v).trans (h1.out_eq v).symm),
    fun v => (h2.in_eq v).trans ((hnet.in_eq v).trans (h1.in_eq v).symm)⟩, ?_, ?_, ?_, ?_⟩
  · intro x hx1 hx2
    have hx2' : x ≤ g.n := hx2
    by_cases hxs : x = s
    · subst hxs; simp [max_capacity_init, setNode_nodes, hn, hx1, hx2']
    · simp [max_capacity_init, setNode_nodes, hn, hx1, hx2', hxs]
  · intro x hx1 hx2
    have hx2' : x ≤ g.n := hx2
    by_cases hxs : x = s
    · subst hxs; simp [max_capacity_init, setNode_nodes, hn, hx1, hx2']
    · simp [max_capacity_init, setNode_nodes, hn, hx1, hx2', hxs]
  · intro x hx1 hx2
    have hx2' : x ≤ g.n := hx2
    by_cases hxs : x = s
    · subst hxs; simp [max_capacity_init, setNode_nodes, hn, hx1, hx2']
    · simp [max_capacity_init, setNode_nodes, hn, hx1, hx2', hxs]
  · intro hd; cases hd

theorem pareto_init_agree {g g' : Graph} (hnet : SameNet g g') (s : Nat) :
    SearchAgree true (pareto_init g s) (pareto_init g' s) := by
  have h1 := pareto_init_sameNet g s
  have h2 := pareto_init_sameNet g' s
  have hn : g'.n = g.n := hnet.n_eq
  refine ⟨⟨h2.n_eq.trans (hnet.n_eq.trans h1.n_eq.symm), h2.m_eq.trans (hnet.m_eq.trans h1.m_eq.symm),
    h2.edges_eq.trans (hnet.edges_eq.trans h1.edges_eq.symm),
    fun v => (h2.out_eq v).trans ((hnet.out_eq v).trans (h1.out_eq v).symm),
    fun v => (h2.in_eq v).trans ((hnet.in_eq v).trans (h1.in_eq v).symm)⟩, ?_, ?_, ?_, ?_⟩
  · intro x hx1 hx2
    have hx2' : x ≤ g.n := hx2
    by_cases hxs : x = s
    · subst hxs; simp [pareto_init, setNode_nodes, hn, hx1, hx2']
    · simp [pareto_init, setNode_nodes, hn, hx1, hx2', hxs]
  · intro x hx1 hx2
    have hx2' : x ≤ g.n := hx2
    by_cases hxs : x = s
    · subst hxs; simp [pareto_init, setNode_nodes, hn, hx1, hx2']
    · simp [pareto_init, setNode_nodes, hn, hx1, hx2', hxs]
  · intro x hx1 hx2
    have hx2' : x ≤ g.n := hx2
    by_cases hxs : x = s
    · subst hxs; simp [pareto_init, setNode_nodes, hn, hx1, hx2']
    · simp [pareto_init, setNode_nodes, hn, hx1, hx2', hxs]
  · intro _ x hx1 hx2
    have hx2' : x ≤ g.n := hx2
    by_cases hxs : x = s
    · subst hxs; simp [pareto_init, setNode_nodes, hn, hx1, hx2']
    · simp [pareto_init, setNode_nodes, hn, hx1, hx2', hxs]

theorem max_capacity_init_start (g : Graph) (s : Nat) :
    ((max_capacity_init g s).nodes s).capacity = INF := by
  simp [max_capacity_init]

theorem pareto_init_start (g : Graph) (s : Nat) :
    ((pareto_init g s).nodes s).capacity = INF ∧ ((pareto_init g s).nodes s).distance = 0 := by
  simp [pareto_init]

/-- Two runs of `max_capacity_dijkstra` on states with the same network both
run out of fuel or both return, agreeing on `visited`, `parent` and
`capacity`. -/
theorem max_capacity_dijkstra_sim {g g' : Graph} (w : g.WF) (hnet : SameNet g g') (s fuel : Nat) :
    Option.Rel (SearchAgree false) (g.max_capacity_dijkstra fuel s)
      (g'.max_capacity_dijkstra fuel s) := by
  unfold max_capacity_dijkstra
  simp only
  rw [max_capacity_loop_eq, max_capacity_loop_eq, max_capacity_init_start,
    max_capacity_init_start, hnet.n_eq]
  exact search_loop_sim w (max_capacity_relax_ok g) max_capacity_relax_sim fuel _ _ _
    (max_capacity_init_sameNet g s) (max_capacity_init_agree hnet s)

/-- Two runs of `pareto_optimal_dijkstra` on states with the same network both
run out of fuel or both return, agreeing on `visited`, `parent`, `capacity`
and `distance`. -/
theorem pareto_optimal_dijkstra_sim {g g' : Graph} (w : g.WF) (hnet : SameNet g g')
    (s fuel : Nat) (b : Bool) :
    Option.Rel (SearchAgree true) (g.pareto_optimal_dijkstra fuel s b)
      (g'.pareto_optimal_dijkstra fuel s b) := by
  unfold pareto_optimal_dijkstra
  simp only
  rw [pareto_loop_eq, pareto_loop_eq, (pareto_init_start g s).1, (pareto_init_start g s).2,
    (pareto_init_start g' s).1, (pareto_init_start g' s).2, hnet.n_eq]
  exact search_loop_sim w (pareto_relax_ok g b) (pareto_relax_sim b) fuel _ _ _
    (pareto_init_sameNet g s) (pareto_init_agree hnet s)

/-- `get_path` on two agreeing states left by a search returns the same path
and capacity, and the `distance` of `end` in each state. -/
theorem get_path_sim {V : Type} {d : Bool} {g0 g1 g1' : Graph} {s : Nat} {h : MaxHeap Nat V}
    (hinv : PathInv g0 s g1 h) (ha : SearchAgree d g1 g1') {t : Nat} (ht : 1 ≤ t ∧ t ≤ g0.n)
    {fuel : Nat} (hf : g0.n ≤ fuel + 1) (s' : Nat) :
    ∃ path C, get_path fuel g1 s' t = some (path, C,
        if (g1.nodes t).visited = true then (g1.nodes t).distance else 0) ∧
      get_path fuel g1' s' t = some (path, C,
        if (g1.nodes t).visited = true then (g1'.nodes t).distance else 0) := by
  have hn : g1.n = g0.n := hinv.same.n_eq
  have hv := ha.vis t ht.1 (by rw [hn]; exact ht.2)
  have hc := ha.cap t ht.1 (by rw [hn]; exact ht.2)
  unfold get_path
  rw [hv, hc]
  cases hvis : (g1.nodes t).visited with
  | false => exact ⟨[], 0, by simp, by simp⟩
  | true =>
    obtain ⟨p, hp, hall⟩ := hinv.chain t ht.1 ht.2 hvis
    have hlen : p.length ≤ fuel + 1 :=
      le_trans (length_le_of_range hp.nodup (fun y hy => (hall y hy).2)) hf
    have hp' : ParChain g1' s t p :=
      hp.congr (fun y hy => ha.par y (hall y hy).2.1 (by rw [hn]; exact (hall y hy).2.2))
    have hrun := get_path_loop_chain hp fuel [] hlen
    have hrun' := get_path_loop_chain hp' fuel [] hlen
    rw [List.append_nil] at hrun hrun'
    exact ⟨p.reverse, (g1.nodes t).capacity, by simp [hrun], by simp [hrun']⟩

theorem max_capacity_relax_distance (node : Nat) (st : Graph × MaxHeap Nat Nat) (e : Nat)
    (x : Nat) : ((max_capacity_relax node st e).1.nodes x).distance = (st.1.nodes x).distance := by
  unfold max_capacity_relax
  simp only
  split
  · rfl
  · split
    · simp only [setNode_nodes]
      split_ifs with hx
      · subst hx; rfl
      · rfl
    · rfl

/-- `max_capacity_dijkstra` never writes `distance`. -/
theorem max_capacity_loop_distance : ∀ (fuel : Nat) (g : Graph) (h : MaxHeap Nat Nat)
    (g1 : Graph), max_capacity_loop fuel g h = some g1 →
    ∀ x, (g1.nodes x).distance = (g.nodes x).distance := by
  intro fuel
  induction fuel with
  | zero =>
    intro g h g1 hrun
    simp only [max_capacity_loop] at hrun
    split at hrun
    · cases hrun
    · cases hrun; intro x; rfl
  | succ fuel ih =>
    intro g h g1 hrun
    simp only [max_capacity_loop] at hrun
    split at hrun
    · intro x
      have h1 := ih _ _ g1 hrun x
      rw [h1]
      have hfold := foldl_inv
        (fun st : Graph × MaxHeap Nat Nat => (st.1.nodes x).distance = (g.nodes x).distance)
        (max_capacity_relax (h.remove_max natLt).1)
        ((g.setNode (h.remove_max natLt).1
          { g.nodes (h.remove_max natLt).1 with visited := true }).nodes
            (h.remove_max natLt).1).outgoing
        (fun st e _ hJ => (max_capacity_relax_distance _ st e x).trans hJ)
        (g.setNode (h.remove_max natLt).1 { g.nodes (h.remove_max natLt).1 with visited := true },
          (h.remove_max natLt).2)
        (by
          simp only [setNode_nodes]
          split_ifs with hx
          · subst hx; rfl
          · rfl)
      exact hfold
    · cases hrun; intro x; rfl

theorem max_capacity_dijkstra_distance {g g1 : Graph} {fuel s : Nat}
    (h : g.max_capacity_dijkstra fuel s = some g1) (x : Nat) :
    (g1.nodes x).distance = (g.nodes x).distance := by
  unfold max_capacity_dijkstra at h
  simp only at h
  rw [max_capacity_loop_distance fuel _ _ g1 h x]
  simp only [max_capacity_init, setNode_nodes]
  split_ifs with h1 h2 h3
  · subst h1; rfl
  · subst h1; rfl
  · rfl
  · rfl

/-! ## Two runs of the flow augmentation from states with the same network -/

theorem BfsAgree.bfs_setNode {g g' : Graph} (h : BfsAgree g g') (i : Nat)
    (nd nd' : Node) (ho : nd.outgoing = (g.nodes i).outgoing)
    (hi : nd.incoming = (g.nodes i).incoming)
    (ho' : nd'.outgoing = (g'.nodes i).outgoing) (hi' : nd'.incoming = (g'.nodes i).incoming)
    (hin : 1 ≤ i → i ≤ g.n → nd'.visited = nd.visited ∧ nd'.parent = nd.parent ∧
      nd'.flow_increase = nd.flow_increase) :
    BfsAgree (g.setNode i nd) (g'.setNode i nd') := by
  refine ⟨⟨h.net.n_eq, h.net.m_eq, h.net.edges_eq, fun v => ?_, fun v => ?_⟩, ?_, ?_, ?_⟩
  · simp only [setNode_nodes]; split_ifs with hx
    · subst hx; rw [ho', ho]; exact h.net.out_eq _
    · exact h.net.out_eq v
  · simp only [setNode_nodes]; split_ifs with hx
    · subst hx; rw [hi', hi]; exact h.net.in_eq _
    · exact h.net.in_eq v
  · intro x h1 h2; simp only [setNode_nodes]; split_ifs with hx
    · subst hx; exact (hin h1 h2).1
    · exact h.vis x h1 h2
  · intro x h1 h2; simp only [setNode_nodes]; split_ifs with hx
    · subst hx; exact (hin h1 h2).2.1
    · exact h.par x h1 h2
  · intro x h1 h2; simp only [setNode_nodes]; split_ifs with hx
    · subst hx; exact (hin h1 h2).2.2
    · exact h.fi x h1 h2

theorem bfs_out_sameNet (curr : Nat) (st : Graph × List Nat) (e : Nat) :
    SameNet st.1 (bfs_out curr st e).1 := by
  unfold bfs_out
  simp only
  split
  · exact SameNet.net_refl _
  · split
    · exact SameNet.setNode _ _ _ rfl rfl
    · exact SameNet.net_refl _

theorem bfs_in_sameNet (curr : Nat) (st : Graph × List Nat) (e : Nat) :
    SameNet st.1 (bfs_in curr st e).1 := by
  unfold bfs_in
  simp only
  split
  · exact SameNet.net_refl _
  · split
    · exact SameNet.setNode _ _ _ rfl rfl
    · exact SameNet.net_refl _

theorem bfs_out_sim {g0 : Graph} (w : g0.WF) {curr : Nat} (hc : 1 ≤ curr ∧ curr ≤ g0.n)
    {e : Nat} (he : e < g0.m) {st st' : Graph × List Nat} (h : BfsRel g0 st st') :
    BfsRel g0 (bfs_out curr st e) (bfs_out curr st' e) := by
  obtain ⟨g, q⟩ := st
  obtain ⟨g', q'⟩ := st'
  obtain ⟨hq, ha, hs, hr⟩ := h
  simp only at hq ha hs hr
  subst hq
  have hd1 := w.dest_pos e he
  have hd2 := w.dest_le e he
  have hsn := bfs_out_sameNet curr (g, q') e
  have hge : g.edges e = g0.edges e := by rw [hs.edges_eq]
  have hg'e : g'.edges e = g0.edges e := by rw [ha.net.edges_eq e (hs.m_eq ▸ he), hge]
  have hn : g.n = g0.n := hs.n_eq
  refine ⟨?_, ?_, hs.net_trans hsn, ?_⟩
  · unfold bfs_out
    simp only
    rw [hge, hg'e, ha.vis _ hd1 (hn ▸ hd2), ha.fi _ hc.1 (hn ▸ hc.2)]
    split
    · rfl
    · split <;> rfl
  · unfold bfs_out
    simp only
    rw [hge, hg'e, ha.vis _ hd1 (hn ▸ hd2), ha.fi _ hc.1 (hn ▸ hc.2)]
    split
    · exact ha
    · split
      · exact ha.bfs_setNode _ _ _ rfl rfl rfl rfl (fun _ _ => ⟨rfl, rfl, rfl⟩)
      · exact ha
  · unfold bfs_out
    simp only
    rw [hge]
    split
    · exact hr
    · split
      · intro x hx
        rcases List.mem_append.mp hx with h' | h'
        · exact hr x h'
        · simp only [List.mem_singleton] at h'; subst h'; exact ⟨hd1, hd2⟩
      · exact hr

theorem bfs_in_sim {g0 : Graph} (w : g0.WF) {curr : Nat} (hc : 1 ≤ curr ∧ curr ≤ g0.n)
    {e : Nat} (he : e < g0.m) {st st' : Graph × List Nat} (h : BfsRel g0 st st') :
    BfsRel g0 (bfs_in curr st e) (bfs_in curr st' e) := by
  obtain ⟨g, q⟩ := st
  obtain ⟨g', q'⟩ := st'
  obtain ⟨hq, ha, hs, hr⟩ := h
  simp only at hq ha hs hr
  subst hq
  have hd1 := w.origin_pos e he
  have hd2 := w.origin_le e he
  have hsn := bfs_in_sameNet curr (g, q') e
  have hge : g.edges e = g0.edges e := by rw [hs.edges_eq]
  have hg'e : g'.edges e = g0.edges e := by rw [ha.net.edges_eq e (hs.m_eq ▸ he), hge]
  have hn : g.n = g0.n := hs.n_eq
  refine ⟨?_, ?_, hs.net_trans hsn, ?_⟩
  · unfold bfs_in
    simp only
    rw [hge, hg'e, ha.vis _ hd1 (hn ▸ hd2), ha.fi _ hc.1 (hn ▸ hc.2)]
    split
    · rfl
    · split <;> rfl
  · unfold bfs_in
    simp only
    rw [hge, hg'e, ha.vis _ hd1 (hn ▸ hd2), ha.fi _ hc.1 (hn ▸ hc.2)]
    split
    · exact ha
    · split
      · exact ha.bfs_setNode _ _ _ rfl rfl rfl rfl (fun _ _ => ⟨rfl, rfl, rfl⟩)
      · exact ha
  · unfold bfs_in
    simp only
    rw [hge]
    split
    · exact hr
    · split
      · intro x hx
        rcases List.mem_append.mp hx with h' | h'
        · exact hr x h'
        · simp only [List.mem_singleton] at h'; subst h'; exact ⟨hd1, hd2⟩
      · exact hr

theorem rel_none_left {α β : Type} {r : α → β → Prop} {y : Option β}
    (h : Option.Rel r none y) : y = none := by
  generalize hx : (none : Option α) = x at h
  cases h with
  | some _ => cases hx
  | none => rfl

theorem rel_some_left {α β : Type} {r : α → β → Prop} {a : α} {y : Option β}
    (h : Option.Rel r (some a) y) : ∃ b, y = some b ∧ r a b := by
  generalize hx : some a = x at h
  cases h with
  | some hr => cases hx; exact ⟨_, rfl, hr⟩
  | none => cases hx

theorem bfs_step_sim {g0 : Graph} (w : g0.WF) {curr : Nat} (hc : 1 ≤ curr ∧ curr ≤ g0.n)
    {g g' : Graph} {rest : List Nat} (h : BfsRel g0 (g, rest) (g', rest)) :
    BfsRel g0 (bfs_step g curr rest) (bfs_step g' curr rest) := by
  obtain ⟨-, ha, hs, hr⟩ := h
  simp only at ha hs hr
  rw [bfs_step_eq hs, bfs_step_eq (SameNet.net_refl g'), ha.net.out_eq, ha.net.in_eq,
    hs.out_eq, hs.in_eq]
  have h1 : BfsRel g0 (g.setNode curr { g.nodes curr with visited := true }, rest)
      (g'.setNode curr { g'.nodes curr with visited := true }, rest) :=
    ⟨rfl, ha.bfs_setNode _ _ _ rfl rfl rfl rfl (fun h1 h2 => ⟨rfl, ha.par _ h1 h2, ha.fi _ h1 h2⟩),
      hs.net_trans (SameNet.setNode _ _ _ rfl rfl), hr⟩
  have h2 := foldl_rel (BfsRel g0) (bfs_out curr) (g0.nodes curr).outgoing
    (fun e he st st' hR => bfs_out_sim w hc ((w.mem_out curr e).mp he).1 hR) _ _ h1
  exact foldl_rel (BfsRel g0) (bfs_in curr) (g0.nodes curr).incoming
    (fun e he st st' hR => bfs_in_sim w hc ((w.mem_in curr e).mp he).1 hR) _ _ h2

/-- Two runs of the loop of `max_flow_increase_bfs` from agreeing states with
the same queue both run out of fuel or both return, with agreeing states. -/
theorem bfs_loop_sim {g0 : Graph} (w : g0.WF) :
    ∀ (fuel : Nat) (g g' : Graph) (q : List Nat), BfsRel g0 (g, q) (g', q) →
      Option.Rel BfsAgree (bfs_loop fuel g q) (bfs_loop fuel g' q) := by
  intro fuel
  induction fuel with
  | zero =>
    intro g g' q h
    cases q with
    | nil => simp only [bfs_loop]; exact Option.Rel.some h.2.1
    | cons curr rest => simp only [bfs_loop]; exact Option.Rel.none
  | succ fuel ih =>
    intro g g' q h
    cases q with
    | nil => simp only [bfs_loop]; exact Option.Rel.some h.2.1
    | cons curr rest =>
      simp only [bfs_loop]
      have hc := h.2.2.2 curr (List.mem_cons_self _ _)
      have h1 : BfsRel g0 (g, rest) (g', rest) :=
        ⟨rfl, h.2.1, h.2.2.1, fun x hx => h.2.2.2 x (List.mem_cons_of_mem _ hx)⟩
      have h2 := bfs_step_sim w hc h1
      generalize bfs_step g curr rest = r at h2 ⊢
      generalize bfs_step g' curr rest = r' at h2 ⊢
      obtain ⟨g2, q2⟩ := r
      obtain ⟨g2', q2'⟩ := r'
      have hq : q2' = q2 := h2.1
      subst hq
      exact ih g2 g2' q2' h2

theorem bfs_init_agree {g g' : Graph} (hnet : NetAgree g g') (s : Nat) :
    BfsAgree (bfs_init g s) (bfs_init g' s) := by
  have h1 := bfs_init_sameNet g s
  have h2 := bfs_init_sameNet g' s
  have hn : g'.n = g.n := hnet.n_eq
  refine ⟨⟨hnet.n_eq, hnet.m_eq, hnet.edges_eq,
    fun v => (h2.out_eq v).trans ((hnet.out_eq v).trans (h1.out_eq v).symm),
    fun v => (h2.in_eq v).trans ((hnet.in_eq v).trans (h1.in_eq v).symm)⟩, ?_, ?_, ?_⟩
  · intro x hx1 hx2
    have hx2' : x ≤ g.n := hx2
    by_cases hxs : x = s
    · subst hxs; simp [bfs_init, setNode_nodes, hn, hx1, hx2']
    · simp [bfs_init, setNode_nodes, hn, hx1, hx2', hxs]
  · intro x hx1 hx2
    have hx2' : x ≤ g.n := hx2
    by_cases hxs : x = s
    · subst hxs; simp [bfs_init, setNode_nodes, hn, hx1, hx2']
    · simp [bfs_init, setNode_nodes, hn, hx1, hx2', hxs]
  · intro x hx1 hx2
    have hx2' : x ≤ g.n := hx2
    by_cases hxs : x = s
    · subst hxs; simp [bfs_init, setNode_nodes, hn, hx1, hx2']
    · simp [bfs_init, setNode_nodes, hn, hx1, hx2', hxs]

/-- Two runs of `max_flow_increase_bfs` on states with the same network both
run out of fuel or both return, agreeing on `visited`, `parent` and
`flow_increase`. -/
theorem max_flow_increase_bfs_sim {g g' : Graph} (w : g.WF) (hnet : NetAgree g g') {s : Nat}
    (hs : 1 ≤ s ∧ s ≤ g.n) (fuel : Nat) :
    Option.Rel BfsAgree (max_flow_increase_bfs fuel g s) (max_flow_increase_bfs fuel g' s) := by
  unfold max_flow_increase_bfs
  apply bfs_loop_sim w fuel
  refine ⟨rfl, bfs_init_agree hnet s, bfs_init_sameNet g s, ?_⟩
  intro x hx
  simp only [List.mem_singleton] at hx
  subst hx
  exact hs

theorem BfsAgree.bfs_setFlow {g g' : Graph} (h : BfsAgree g g') (i f : Nat) :
    BfsAgree (g.setFlow i f) (g'.setFlow i f) := by
  refine ⟨⟨h.net.n_eq, h.net.m_eq, ?_, h.net.out_eq, h.net.in_eq⟩, h.vis, h.par, h.fi⟩
  intro j hj
  have hj' : j < g.m := hj
  have he := h.net.edges_eq j hj'
  show (if j = i then { g'.edges j with flow := f } else g'.edges j)
    = (if j = i then { g.edges j with flow := f } else g.edges j)
  rw [he]

/-- Two runs of the augmentation along a parent chain of `g1`, from agreeing
states whose nodes are those of `g1`, both run out of fuel or both return,
with agreeing states. -/
theorem augment_sim {g1 : Graph} {s x : Nat} {p : List Nat} (hc : Chain g1 s x p)
    (hall : ∀ y ∈ p, 1 ≤ y ∧ y ≤ g1.n) :
    ∀ (ga ga' : Graph) (inc : Nat), ga.nodes = g1.nodes → SameShape g1 ga → BfsAgree ga ga' →
      ∀ fuel, Option.Rel BfsAgree (augment_loop fuel ga s x inc)
        (augment_loop fuel ga' s x inc) := by
  induction hc with
  | base =>
    intro ga ga' inc _ _ ha fuel
    have e1 : ∀ g : Graph, augment_loop fuel g s s inc = some g := by
      intro g; cases fuel <;> simp [augment_loop]
    rw [e1, e1]
    exact Option.Rel.some ha
  | @step x y p hxs hxp hl hc ih =>
    intro ga ga' inc hn hsh ha fuel
    cases fuel with
    | zero =>
      simp only [augment_loop, ne_eq, hxs, not_false_eq_true, if_true]
      exact Option.Rel.none
    | succ fuel =>
      have hyp : y ∈ p := hc.head_mem
      have hxy : x ≠ y := fun h => hxp (h ▸ hyp)
      obtain ⟨hx1, hx2⟩ := hall x (List.mem_cons_self _ _)
      obtain ⟨hem, -, -, hcase⟩ := hl
      have hpar : (ga'.nodes x).parent = (g1.nodes x).parent := by
        rw [ha.par x hx1 (by rw [hsh.n_eq]; exact hx2), hn]
      have hedge : ga'.edges (g1.nodes x).parent = ga.edges (g1.nodes x).parent :=
        ha.net.edges_eq _ (by rw [hsh.m_eq]; exact hem)
      simp only [augment_loop, ne_eq, hxs, not_false_eq_true, if_true, hpar, hedge]
      rw [hn]
      have hrest := fun f => ih (fun z hz => hall z (List.mem_cons_of_mem _ hz))
        (ga.setFlow (g1.nodes x).parent f) (ga'.setFlow (g1.nodes x).parent f) inc
        (by simp [hn]) (hsh.shape_trans (SameShape.shape_setFlow _ _ _)) (ha.bfs_setFlow _ f) fuel
      rw [hsh.dest_eq, hsh.origin_eq]
      rcases hcase with ⟨hd, ho, -⟩ | ⟨ho, hd, -⟩
      · rw [if_pos hd.symm, if_pos hd.symm, ho]
        exact hrest _
      · have hne : x ≠ (g1.edges (g1.nodes x).parent).destination := by rw [hd]; exact hxy
        rw [if_neg hne, if_neg hne, hd]
        exact hrest _

theorem BfsAgree.netAgree {g g' : Graph} (h : BfsAgree g g') : NetAgree g g' := h.net

/-- Two runs of `edmonds_karp` on states with the same network both run out of
fuel or both return, with the same network. -/
theorem edmonds_karp_sim {s t : Nat} :
    ∀ (fuel : Nat) (g g' : Graph) (k : Nat), g.WF → g.ValidFlow → 1 ≤ s ∧ s ≤ g.n →
      1 ≤ t ∧ t ≤ g.n → NetAgree g g' →
      Option.Rel NetAgree (edmonds_karp fuel g s t k) (edmonds_karp fuel g' s t k) := by
  intro fuel
  induction fuel with
  | zero =>
    intro g g' k _ _ _ _ hnet
    simp only [edmonds_karp]
    split
    · exact Option.Rel.none
    · exact Option.Rel.some hnet
  | succ fuel ih =>
    intro g g' k w vf hs ht hnet
    simp only [edmonds_karp]
    split
    · have hsim := max_flow_increase_bfs_sim w hnet hs fuel
      cases hb : max_flow_increase_bfs fuel g s with
      | none =>
        rw [hb] at hsim
        rw [rel_none_left hsim]
        exact Option.Rel.none
      | some g1 =>
        rw [hb] at hsim
        obtain ⟨g1', hb', ha⟩ := rel_some_left hsim
        rw [hb']
        simp only
        obtain ⟨hinv, -⟩ := max_flow_increase_bfs_inv w vf hs hb
        have hsame := hinv.same
        have hn1 : g1.n = g.n := hsame.n_eq
        rw [ha.vis t ht.1 (by rw [hn1]; exact ht.2), ha.fi t ht.1 (by rw [hn1]; exact ht.2)]
        split
        · exact Option.Rel.some ha.net
        · rename_i hv
          have htv : (g1.nodes t).visited = true := by simpa using hv
          obtain ⟨p, hp, hall⟩ := hinv.chain t ht.1 ht.2 htv
          have w1 : g1.WF := hsame.net_wf w
          have vf1 : g1.ValidFlow := hsame.net_validFlow vf
          have hasim := augment_sim hp (fun y hy => by rw [hn1]; exact (hall y hy).2) g1 g1'
            (g1.nodes t).flow_increase rfl (SameShape.shape_refl g1) ha fuel
          cases hau : augment_loop fuel g1 s t (g1.nodes t).flow_increase with
          | none =>
            rw [hau] at hasim
            rw [rel_none_left hasim]
            exact Option.Rel.none
          | some g2 =>
            rw [hau] at hasim
            obtain ⟨g2', hau', ha2⟩ := rel_some_left hasim
            rw [hau']
            simp only
            obtain ⟨g2x, haug, -, hsh2, vf2, -, -⟩ :=
              augment_chain w1 hp g1 (g1.nodes t).flow_increase rfl (SameShape.shape_refl g1)
                (fun _ _ _ => rfl) vf1 (le_refl _) (fuel + p.length) (by omega)
            have h2 := augment_loop_mono _ _ _ _ _ _ hau p.length
            rw [haug] at h2
            cases h2
            have hn : g2.n = g.n := hsh2.n_eq.trans hsame.n_eq
            exact ih g2 g2' _ (hsh2.shape_wf w1) vf2 (hn ▸ hs) (hn ▸ ht) ha2.net
    · exact Option.Rel.some hnet

theorem reset_flows_agree {g g' : Graph} (hsh : SameShape g g') :
    NetAgree (reset_flows g) (reset_flows g') := by
  refine ⟨hsh.n_eq, hsh.m_eq, ?_, hsh.out_eq, hsh.in_eq⟩
  intro i hi
  have hi' : i < g.m := hi
  have hi2 : i < g'.m := by rw [hsh.m_eq]; exact hi'
  show (if i < g'.m then { g'.edges i with flow := 0 } else g'.edges i)
    = (if i < g.m then { g.edges i with flow := 0 } else g.edges i)
  rw [if_pos hi', if_pos hi2]
  have h1 := hsh.origin_eq i
  have h2 := hsh.dest_eq i
  have h3 := hsh.cap_eq i
  have h4 := hsh.dur_eq i
  rw [Edge.mk.injEq]
  exact ⟨h1, h2, h3, rfl, h4⟩

theorem get_flow_path_agree {g g' : Graph} (h : NetAgree g g') :
    g'.get_flow_path = g.get_flow_path := by
  unfold get_flow_path
  rw [h.m_eq]
  apply List.filterMap_congr
  intro i hi
  rw [h.edges_eq i (List.mem_range.mp hi)]

theorem NetAgree.sameOutcome {g g' : Graph} (h : NetAgree g g') {m : Nat} (hm : m = g.m) :
    SameOutcome m (g, g.get_flow_path) (g', g'.get_flow_path) := by
  refine ⟨get_flow_path_agree h, ?_⟩
  intro i hi
  show (g'.edges i).flow = (g.edges i).flow
  rw [h.edges_eq i (hm ▸ hi)]

theorem edmonds_karp_m {s t : Nat} {g : Graph} (w : g.WF) (vf : g.ValidFlow)
    (hs : 1 ≤ s ∧ s ≤ g.n) (ht : 1 ≤ t ∧ t ≤ g.n) (hst : s ≠ t) {fuel k : Nat} {g1 : Graph}
    (h : edmonds_karp fuel g s t k = some g1) : SameShape g g1 :=
  (edmonds_karp_post hst w vf hs ht h).shape

/-- Two runs of `get_path_with_increment` on states with the same network both
run out of fuel or both return the same list and leave the same flows. -/
theorem get_path_with_increment_sim {g g' : Graph} (w : g.WF) (vf : g.ValidFlow)
    (hnet : NetAgree g g') {s t : Nat} (hs : 1 ≤ s ∧ s ≤ g.n) (ht : 1 ≤ t ∧ t ≤ g.n)
    (k fuel : Nat) :
    Option.Rel (SameOutcome g.m) (get_path_with_increment fuel g s t k)
      (get_path_with_increment fuel g' s t k) := by
  unfold get_path_with_increment
  by_cases hst : s = t
  · rw [if_neg (by simpa using hst), if_neg (by simpa using hst)]
    exact Option.Rel.some (hnet.sameOutcome rfl)
  · rw [if_pos hst, if_pos hst]
    have hsim := edmonds_karp_sim (s := s) (t := t) fuel g g' k w vf hs ht hnet
    cases he : edmonds_karp fuel g s t k with
    | none =>
      rw [he] at hsim
      rw [rel_none_left hsim]
      exact Option.Rel.none
    | some g1 =>
      rw [he] at hsim
      obtain ⟨g1', he', ha⟩ := rel_some_left hsim
      rw [he']
      exact Option.Rel.some (ha.sameOutcome (edmonds_karp_m w vf hs ht hst he).m_eq.symm)

/-- The result of `get_path_for_group_of_size` does not depend on the flows
and the node scratch fields of the state it is called in. -/
theorem group_of_size_sim {g g' : Graph} (w : g.WF) (hsh : SameShape g g') {s t : Nat}
    (hs : 1 ≤ s ∧ s ≤ g.n) (ht : 1 ≤ t ∧ t ≤ g.n) (k fuel : Nat) :
    Option.Rel (SameOutcome g.m) (get_path_for_group_of_size fuel g s t k)
      (get_path_for_group_of_size fuel g' s t k) := by
  unfold get_path_for_group_of_size
  exact get_path_with_increment_sim ((reset_flows_sameShape g).shape_wf w)
    (reset_flows_validFlow g) (reset_flows_agree hsh) hs ht k fuel

theorem group_of_size_shape {g : Graph} (w : g.WF) {s t : Nat}
    (hs : 1 ≤ s ∧ s ≤ g.n) (ht : 1 ≤ t ∧ t ≤ g.n) {k fuel : Nat}
    {r : Graph × List (Nat × Nat × Nat)}
    (h : get_path_for_group_of_size fuel g s t k = some r) : SameShape g r.1 := by
  unfold get_path_for_group_of_size get_path_with_increment at h
  by_cases hst : s = t
  · rw [if_neg (by simpa using hst)] at h
    cases h
    exact reset_flows_sameShape g
  · rw [if_pos hst] at h
    cases he : edmonds_karp fuel (reset_flows g) s t k with
    | none => rw [he] at h; cases h
    | some g1 =>
      rw [he] at h
      cases h
      exact (reset_flows_sameShape g).shape_trans
        (edmonds_karp_m ((reset_flows_sameShape g).shape_wf w) (reset_flows_validFlow g) hs ht
          hst he)

theorem group_of_size_returns {g : Graph} (w : g.WF) {s t : Nat}
    (hs : 1 ≤ s ∧ s ≤ g.n) (ht : 1 ≤ t ∧ t ≤ g.n) (k : Nat) :
    ∃ fuel0 r, ∀ fuel, fuel0 ≤ fuel → get_path_for_group_of_size fuel g s t k = some r := by
  by_cases hst : s = t
  · refine ⟨0, (reset_flows g, (reset_flows g).get_flow_path), ?_⟩
    intro fuel _
    unfold get_path_for_group_of_size get_path_with_increment
    rw [if_neg (by simpa using hst)]
  · obtain ⟨fuel0, r, hrun, -⟩ := group_of_size_spec w hs ht hst k
    exact ⟨fuel0, r, hrun⟩

end Graph

open Graph

/-! ## Evaluations on concrete graphs -/

/-- C1 (code diverges): on `widestGraph`, `get_max_capacity_path(1, 4)` returns
the path `[1, 2, 4]` with capacity 3, although the path `1→2→3→4` (edges 0, 3,
4) has minimum edge capacity 7; all capacities are below the 999999 sentinel. -/
theorem C1_widest_path_diverges :
    (widestGraph.get_max_capacity_path 10 1 4).map (fun r => r.2) = some ([1, 2, 4], 3, 0) ∧
    ((widestGraph.max_capacity_dijkstra 10 1).map fun g => (g.nodes 4).capacity) = some 3 ∧
    widestGraph.IsSimplePath 1 4 [0, 3, 4] ∧ widestGraph.pathCap [0, 3, 4] = 7 ∧
    (∀ i, i < widestGraph.m → (widestGraph.edges i).capacity < INF) := by
  refine ⟨by decide, by decide, ⟨by decide, by decide⟩, by decide, by decide⟩

/-! ## Claims on the flow augmentation -/

theorem oneEdgeGraph_built : build 2 [(1, 2, 10, 1)] = Except.ok oneEdgeGraph := rfl

theorem oneEdgeGraph_wf : oneEdgeGraph.WF :=
  (@build_wf 2 [(1, 2, 10, 1)] _ ⟨by decide, by decide⟩ oneEdgeGraph_built).1

/-- C3 (amended): on a well-formed graph all of whose `s`-`t` flows have value
at most `2^64 - 1`, for distinct `s`, `t` in `[1, n]`,
`get_path_for_group_of_max_size(s, t)` returns and leaves a maximum flow; the
total flow leaving `s` is its value, no cut has a smaller capacity, and when
the value is below `2^64 - 1` it is the capacity of a cut. -/
theorem C3_max_flow_amended (g : Graph) (s t : Nat) (w : g.WF)
    (hs : 1 ≤ s ∧ s ≤ g.n) (ht : 1 ≤ t ∧ t ≤ g.n) (hst : s ≠ t)
    (hsmall : ∀ g2 : Graph, SameShape g g2 → g2.ValidFlow → g2.Conserved s t →
      g2.flowValue s ≤ (U64 : Int) - 1) :
    ∃ fuel0 r, (∀ fuel, fuel0 ≤ fuel → g.get_path_for_group_of_max_size fuel s t = some r) ∧
      IsMaxFlow r.1 s t ∧ (r.1.outflow s : Int) = r.1.flowValue s ∧
      (∀ S : Finset Nat, s ∈ S → t ∉ S → r.1.flowValue s ≤ (g.cutCap S : Int)) ∧
      (r.1.flowValue s < (U64 : Int) - 1 →
        ∃ S : Finset Nat, s ∈ S ∧ t ∉ S ∧ r.1.flowValue s = (g.cutCap S : Int)) := by
  obtain ⟨fuel0, r, hrun, hsh, vf, hc, -, hval, hen, -, -⟩ :=
    group_of_size_spec w hs ht hst (U64 - 1)
  have hcast : ((U64 - 1 : Nat) : Int) = (U64 : Int) - 1 := by
    have : 1 ≤ U64 := by decide
    push_cast [Nat.cast_sub this]; rfl
  have hsat : Saturated r.1 s t →
      IsMaxFlow r.1 s t ∧ ∃ S : Finset Nat, s ∈ S ∧ t ∉ S ∧ r.1.flowValue s = (g.cutCap S : Int) := by
    intro h
    obtain ⟨h1, S, h2, h3, h4⟩ :=
      isMaxFlow_of_saturated (hsh.shape_wf w) (by rw [hsh.n_eq]; exact hs.2) vf hc h
    exact ⟨h1, S, h2, h3, by rw [h4, hsh.cutCap_eq]⟩
  refine ⟨fuel0, r, hrun, ?_, hval, ?_, ?_⟩
  · rcases hen with h | h
    · refine ⟨vf, hc, fun g2 hsh2 vf2 hc2 => ?_⟩
      have := hsmall g2 (hsh.shape_trans hsh2) vf2 hc2
      rw [← hval]
      rw [hcast] at h
      exact le_trans this h
    · exact (hsat h).1
  · intro S hsS htS
    rw [← hsh.cutCap_eq]
    exact flowValue_le_cutCap vf hc S hsS htS
  · intro hlt
    rcases hen with h | h
    · rw [hcast, hval] at h; omega
    · exact (hsat h).2

theorem oneEdgeGraph_small (g2 : Graph) (hsh : SameShape oneEdgeGraph g2) (vf : g2.ValidFlow) :
    g2.flowValue 1 ≤ (U64 : Int) - 1 := by
  have hm : g2.m = 1 := hsh.m_eq
  have h0 := vf 0 (by omega)
  rw [hsh.cap_eq] at h0
  have hcap : (oneEdgeGraph.edges 0).capacity = 10 := rfl
  unfold flowValue outflow inflow
  rw [hm]
  simp only [Finset.sum_range_one]
  have h1 : (if (g2.edges 0).origin = 1 then (g2.edges 0).flow else 0) ≤ 10 := by
    split <;> omega
  have : (10 : Int) ≤ (U64 : Int) - 1 := by decide
  omega

/-- C3 (witness of the amended claim): the single edge `1→2` of capacity 10. -/
theorem C3_max_flow_amended_witness :
    oneEdgeGraph.WF ∧ (1 ≤ 1 ∧ 1 ≤ oneEdgeGraph.n) ∧ (1 ≤ 2 ∧ 2 ≤ oneEdgeGraph.n) ∧
    ∃ fuel0 r, (∀ fuel, fuel0 ≤ fuel →
        oneEdgeGraph.get_path_for_group_of_max_size fuel 1 2 = some r) ∧
      IsMaxFlow r.1 1 2 ∧ (r.1.outflow 1 : Int) = r.1.flowValue 1 ∧
      (∀ S : Finset Nat, 1 ∈ S → 2 ∉ S → r.1.flowValue 1 ≤ (oneEdgeGraph.cutCap S : Int)) ∧
      (r.1.flowValue 1 < (U64 : Int) - 1 →
        ∃ S : Finset Nat, 1 ∈ S ∧ 2 ∉ S ∧ r.1.flowValue 1 = (oneEdgeGraph.cutCap S : Int)) :=
  ⟨oneEdgeGraph_wf, by decide, by decide,
    C3_max_flow_amended oneEdgeGraph 1 2 oneEdgeGraph_wf (by decide) (by decide) (by decide)
      (fun g2 hsh vf _ => oneEdgeGraph_small g2 hsh vf)⟩

theorem twoBigEdges_built :
    build 2 [(1, 2, U64 - 1, 1), (1, 2, U64 - 1, 1)] = Except.ok twoBigEdges := rfl

theorem twoBigEdges_wf : twoBigEdges.WF :=
  (@build_wf 2 [(1, 2, U64 - 1, 1), (1, 2, U64 - 1, 1)] _
    ⟨by decide, by decide⟩ twoBigEdges_built).1

/-- C3 (counterexample): on two parallel edges `1→2` of capacity `2^64 - 1`
each, `get_path_for_group_of_max_size(1, 2)` returns with at most
`2^64 + 999997` units leaving node 1, while the flow filling both edges is
valid, conserved and has value `2^65 - 2`: the flow left is not maximum. -/
theorem C3_counterexample :
    ∃ fuel0 r, (∀ fuel, fuel0 ≤ fuel →
        twoBigEdges.get_path_for_group_of_max_size fuel 1 2 = some r) ∧
      SameShape r.1 twoBigFull ∧ twoBigFull.ValidFlow ∧ twoBigFull.Conserved 1 2 ∧
      (r.1.outflow 1 : Int) < twoBigFull.flowValue 1 ∧ ¬ IsMaxFlow r.1 1 2 := by
  obtain ⟨fuel0, r, hrun, hsh, vf, hc, -, hval, -, hb, -⟩ :=
    group_of_size_spec twoBigEdges_wf (s := 1) (t := 2) (by decide) (by decide) (by decide)
      (U64 - 1)
  have hshF : SameShape twoBigEdges twoBigFull :=
    (SameShape.shape_setFlow _ _ _).shape_trans (SameShape.shape_setFlow _ _ _)
  have hvF : twoBigFull.ValidFlow := by unfold ValidFlow; decide
  have hcF : twoBigFull.Conserved 1 2 := by
    intro v h1 h2
    unfold inflow outflow
    have hm : twoBigFull.m = 2 := rfl
    have d0 : (twoBigFull.edges 0).destination = 2 := rfl
    have d1 : (twoBigFull.edges 1).destination = 2 := rfl
    have o0 : (twoBigFull.edges 0).origin = 1 := rfl
    have o1 : (twoBigFull.edges 1).origin = 1 := rfl
    rw [hm]
    simp [Finset.sum_range_succ, d0, d1, o0, o1, Ne.symm h1, Ne.symm h2]
  have hvalF : twoBigFull.flowValue 1 = 2 * ((U64 : Int) - 1) := by decide
  have hlt : (r.1.outflow 1 : Int) < twoBigFull.flowValue 1 := by
    have h1 := hb (by decide)
    have h2 : ((r.1.outflow 1 : Nat) : Int) ≤ ((U64 - 1 + INF - 1 : Nat) : Int) := by
      exact_mod_cast h1
    rw [hvalF]
    have h3 : ((U64 - 1 + INF - 1 : Nat) : Int) < 2 * ((U64 : Int) - 1) := by decide
    omega
  refine ⟨fuel0, r, hrun, hsh.symm.shape_trans hshF, hvF, hcF, hlt, ?_⟩
  intro hmax
  have := hmax.2.2 twoBigFull (hsh.symm.shape_trans hshF) hvF hcF
  rw [← hval] at this
  omega

/-- C4: in every graph state reachable from construction by `add_edge`
followed by any sequence of `get_path_for_group_of_size`,
`get_path_for_group_of_max_size` and `get_path_with_increment` calls, every
edge satisfies `0 ≤ flow ≤ capacity`, and in every `edmonds_karp` run that a
further call starts (on the flows as they are, or after the reset to 0) no
`flow + increment`, `flow - increment` or `capacity - flow` wraps. -/
theorem C4_capacity_invariant (g : Graph) (h : FlowReachable g) :
    g.ValidFlow ∧
    ∀ fuel s t k, 1 ≤ s → s ≤ g.n → 1 ≤ t → t ≤ g.n →
      edmonds_karp_exact fuel g s t k ∧ edmonds_karp_exact fuel g.reset_flows s t k := by
  obtain ⟨w, vf⟩ := h.inv
  refine ⟨vf, fun fuel s t k hs1 hsn ht1 htn => ⟨?_, ?_⟩⟩
  · exact edmonds_karp_exact_all fuel g k w vf ⟨hs1, hsn⟩ ⟨ht1, htn⟩
  · exact edmonds_karp_exact_all fuel g.reset_flows k ((reset_flows_sameShape g).shape_wf w)
      (reset_flows_validFlow g) ⟨hs1, hsn⟩ ⟨ht1, htn⟩

theorem oneEdgeAfter_run :
    oneEdgeGraph.get_path_for_group_of_size 10 1 2 3 = some (oneEdgeAfter, [(1, 2, 10)]) := rfl

/-- C4 (witness): the state left by `get_path_for_group_of_size(1, 2, 3)` on
the single edge `1→2` of capacity 10. -/
theorem C4_capacity_invariant_witness :
    FlowReachable oneEdgeAfter ∧ oneEdgeAfter.ValidFlow ∧
    ∀ fuel s t k, 1 ≤ s → s ≤ oneEdgeAfter.n → 1 ≤ t → t ≤ oneEdgeAfter.n →
      edmonds_karp_exact fuel oneEdgeAfter s t k ∧
      edmonds_karp_exact fuel oneEdgeAfter.reset_flows s t k :=
  have hr : FlowReachable oneEdgeAfter :=
    FlowReachable.group_of_size (r := (oneEdgeAfter, [(1, 2, 10)]))
      (@FlowReachable.built 2 [(1, 2, 10, 1)] _ ⟨by decide, by decide⟩
        oneEdgeGraph_built)
      (by decide) (by decide) (by decide) (by decide) (by decide) oneEdgeAfter_run
  ⟨hr, C4_capacity_invariant oneEdgeAfter hr⟩

/-- C5: on a well-formed graph whose flows satisfy `0 ≤ flow ≤ capacity` and
conservation at every node other than `start` and `end`, for distinct `start`
and `end` in `[1, n]`, `edmonds_karp(start, end, k)` returns, and afterwards
the flow entering each node other than `start` and `end` equals the flow
leaving it. -/
theorem C5_flow_conservation (g : Graph) (start end_ k : Nat) (w : g.WF) (vf : g.ValidFlow)
    (hc : g.Conserved start end_) (hs : 1 ≤ start ∧ start ≤ g.n)
    (ht : 1 ≤ end_ ∧ end_ ≤ g.n) (hne : start ≠ end_) :
    ∃ fuel0 g', (∀ fuel, fuel0 ≤ fuel → g.edmonds_karp fuel start end_ k = some g') ∧
      ∀ v, v ≠ start → v ≠ end_ → g'.inflow v = g'.outflow v := by
  obtain ⟨fuel0, g', hrun, hpost⟩ := edmonds_karp_spec hne k g w vf hs ht
  exact ⟨fuel0, g', hrun, conserved_of_netIn hc hpost.conserve⟩

/-- C5 (witness): the scenario graph with the edges `1→2` (5), `1→3` (2),
`2→4` (3), `3→4` (2), in the state that `edmonds_karp(1, 4, 2)` leaves, which
carries 2 units through node 3, with `start = 1`, `end = 4` and `k = 3`; the
run adds 3 units through node 2. -/
theorem C5_flow_conservation_witness :
    scenarioGraph.edmonds_karp 6 1 4 2 = some scenarioPartial ∧
    scenarioPartial.WF ∧ scenarioPartial.ValidFlow ∧ scenarioPartial.Conserved 1 4 ∧
    (scenarioPartial.inflow 3 = 2 ∧ scenarioPartial.outflow 3 = 2) ∧
    (1 ≤ 1 ∧ 1 ≤ scenarioPartial.n) ∧ (1 ≤ 4 ∧ 4 ≤ scenarioPartial.n) ∧ 1 ≠ 4 ∧
    (∃ fuel0 g', (∀ fuel, fuel0 ≤ fuel → scenarioPartial.edmonds_karp fuel 1 4 3 = some g') ∧
      ∀ v, v ≠ 1 → v ≠ 4 → g'.inflow v = g'.outflow v) ∧
    (scenarioPartial.edmonds_karp 6 1 4 3).map
        (fun g => (g.inflow 2, g.outflow 2, g.inflow 3, g.outflow 3)) = some (3, 3, 2, 2) :=
  have hb := @build_wf 4 [(1, 2, 5, 1), (1, 3, 2, 1), (2, 4, 3, 1), (3, 4, 2, 1)] scenarioGraph
    ⟨by decide, by decide⟩ rfl
  have hp : EKPost scenarioGraph 1 4 2 scenarioPartial :=
    edmonds_karp_post (by decide) hb.1 hb.2.1.zero_validFlow (by decide) (by decide)
      (rfl : scenarioGraph.edmonds_karp 6 1 4 2 = some scenarioPartial)
  have hw : scenarioPartial.WF := hp.shape.shape_wf hb.1
  have hc : scenarioPartial.Conserved 1 4 := conserved_of_netIn (hb.2.1.conserved 1 4) hp.conserve
  ⟨rfl, hw, hp.valid, hc, by decide, by decide, by decide, by decide,
    C5_flow_conservation scenarioPartial 1 4 3 hw hp.valid hc (by decide) (by decide) (by decide),
    by decide⟩

/-! ## Claims on the path searches -/

/-- C10: on a well-formed graph, for `start` and `end` in `[1, n]` such that
no directed path leads from `start` to `end`, `get_max_capacity_path` and
`get_pareto_optimal_path` (either flag) return, once the fuel is at least
`n + 2`, the empty path with capacity 0 and distance 0. -/
theorem C10_unreached_sentinel (g : Graph) (start end_ : Nat) (w : g.WF)
    (_hs : 1 ≤ start ∧ start ≤ g.n) (ht : 1 ≤ end_ ∧ end_ ≤ g.n)
    (hun : ¬ g.Reachable start end_) :
    ∀ fuel, g.n + 2 ≤ fuel →
      (∃ g1, g.get_max_capacity_path fuel start end_ = some (g1, ([], 0, 0))) ∧
      ∀ b, ∃ g1, g.get_pareto_optimal_path fuel start end_ b = some (g1, ([], 0, 0)) := by
  intro fuel hf
  constructor
  · obtain ⟨g1, hrun, hv⟩ := max_capacity_dijkstra_unreached w ht hun hf
    refine ⟨g1, ?_⟩
    unfold get_max_capacity_path get_path
    rw [hrun]
    simp [hv]
  · intro b
    obtain ⟨g1, hrun, hv⟩ := pareto_optimal_dijkstra_unreached w ht hun b hf
    refine ⟨g1, ?_⟩
    unfold get_pareto_optimal_path get_path
    rw [hrun]
    simp [hv]

theorem disconnectedGraph_built :
    build 5 [(1, 2, 5, 1), (1, 3, 2, 1), (2, 4, 3, 1), (3, 4, 2, 1)]
      = Except.ok disconnectedGraph := rfl

theorem disconnectedGraph_wf : disconnectedGraph.WF :=
  (@build_wf 5 [(1, 2, 5, 1), (1, 3, 2, 1), (2, 4, 3, 1), (3, 4, 2, 1)] _
    ⟨by decide, by decide⟩ disconnectedGraph_built).1

theorem disconnectedGraph_unreached : ¬ disconnectedGraph.Reachable 1 5 := by
  rintro ⟨es, hes⟩
  exact not_isPath_of_no_in_edge (g := disconnectedGraph) (t := 5) (by decide) es 1 (by decide) hes

/-- C10 (witness): the four-edge scenario graph with a fifth, disconnected
node; `start = 1`, `end = 5`. -/
theorem C10_unreached_sentinel_witness :
    disconnectedGraph.WF ∧ (1 ≤ 1 ∧ 1 ≤ disconnectedGraph.n) ∧
    (1 ≤ 5 ∧ 5 ≤ disconnectedGraph.n) ∧
    ¬ disconnectedGraph.Reachable 1 5 ∧
    ∀ fuel, disconnectedGraph.n + 2 ≤ fuel →
      (∃ g1, disconnectedGraph.get_max_capacity_path fuel 1 5 = some (g1, ([], 0, 0))) ∧
      ∀ b, ∃ g1, disconnectedGraph.get_pareto_optimal_path fuel 1 5 b = some (g1, ([], 0, 0)) :=
  ⟨disconnectedGraph_wf, by decide, by decide, disconnectedGraph_unreached,
    C10_unreached_sentinel disconnectedGraph 1 5 disconnectedGraph_wf (by decide) (by decide)
      disconnectedGraph_unreached⟩

/-- C6 (code diverges): on `detourGraph`, `get_pareto_optimal_path(1, 4,
true)` returns the path `[1, 2, 3, 4]` with capacity 5 and distance 3,
although the path `1→3→4` (edges 2 and 3) also has minimum edge capacity 5 and
only 2 edges; capacities and node count are below the 999999 sentinel. -/
theorem C6_pareto_capacity_first_diverges :
    (detourGraph.get_pareto_optimal_path 10 1 4 true).map (fun r => r.2)
      = some ([1, 2, 3, 4], 5, 3) ∧
    detourGraph.IsPath 1 4 [2, 3] ∧ detourGraph.pathCap [2, 3] = 5 ∧ [2, 3].length = 2 ∧
    (∀ i, i < detourGraph.m → (detourGraph.edges i).capacity < INF) ∧ detourGraph.n < INF := by
  refine ⟨by decide, by decide, by decide, by decide, by decide, by decide⟩

/-! ## Claims on the schedule pass -/

theorem cycleAfter_run :
    cycleGraph.get_path_for_group_of_max_size 20 1 5 = some (cycleAfter,
      [(3, 2, 2), (4, 3, 1), (2, 4, 2), (4, 5, 2), (2, 5, 1), (1, 3, 1), (1, 2, 1), (1, 4, 1)]) :=
  rfl

/-- C9 (code diverges): on `cycleGraph`, `get_path_for_group_of_max_size(1,
5)`, run from the all-zero flow, leaves positive flow on the edges `3→2`,
`2→4` and `4→3` (indices 0, 2, 1), a directed cycle; `get_earliest_meetup(1,
5)` on that state then answers 0. -/
theorem C9_active_cycle :
    (cycleGraph.get_path_for_group_of_max_size 20 1 5).map (fun r => r.2) = some
      [(3, 2, 2), (4, 3, 1), (2, 4, 2), (4, 5, 2), (2, 5, 1), (1, 3, 1), (1, 2, 1), (1, 4, 1)] ∧
    cycleAfter.IsPosPath 3 3 [0, 2, 1] ∧ ¬ cycleAfter.ActiveAcyclic ∧
    (cycleAfter.get_earliest_meetup 20 1 5).map (fun r => r.2) = some 0 := by
  have hp : cycleAfter.IsPosPath 3 3 [0, 2, 1] := by unfold Graph.IsPosPath; decide
  refine ⟨by decide, hp, fun h => ?_, by decide⟩
  exact absurd (h 3 [0, 2, 1] hp) (by decide)

theorem wrapAfter_run :
    wrapGraph.get_path_for_group_of_size 10 1 3 5 = some (wrapAfter, [(1, 2, 5), (2, 3, 5)]) :=
  rfl

theorem wrapAfter_onlySource : wrapAfter.OnlySource 1 := by
  rintro v ⟨e, ⟨he, _⟩, ho⟩ hno
  have hm : wrapAfter.m = 2 := rfl
  rw [hm] at he
  interval_cases e
  · rw [← ho]; rfl
  · exfalso
    apply hno
    refine ⟨0, ⟨by decide, by decide⟩, ?_⟩
    rw [← ho]; rfl

/-- C8 (counterexample): after `get_path_for_group_of_size(1, 3, 5)` on
`wrapGraph` the positive-flow edges `1→2` and `2→3` are acyclic with `1` as
only source, and the path through both has duration `2^63 + 2^63 = 2^64`;
`get_earliest_meetup(1, 3)` returns 0. -/
theorem C8_counterexample :
    wrapAfter.ActiveAcyclic ∧ wrapAfter.OnlySource 1 ∧ wrapAfter.IsPosPath 1 3 [0, 1] ∧
    wrapAfter.pathDuration [0, 1] = 2 ^ 64 ∧
    (wrapAfter.get_earliest_meetup 10 1 3).map (fun r => r.2) = some 0 := by
  refine ⟨activeAcyclic_of_increasing (by decide), wrapAfter_onlySource, ?_, by decide, by decide⟩
  unfold Graph.IsPosPath; decide

/-- C8 (amended): on a well-formed graph whose positive-flow edges are acyclic
with `start` (a node in `[1, n]`) the only node that has a positive-flow edge
out and none in, for every `end` reachable from `start` along positive-flow
edges such that every positive-flow path from `start` to `end` has a duration
below `2^64`, `get_earliest_meetup(start, end)` returns (with fuel at least
`n + 1`) a value `L` that is the duration of a positive-flow path from `start`
to `end` and that no such path exceeds. -/
theorem C8_longest_path_amended (g : Graph) (start end_ : Nat) (w : g.WF)
    (hs : 1 ≤ start ∧ start ≤ g.n) (hac : g.ActiveAcyclic) (hsrc : g.OnlySource start)
    (hno : ∀ es, g.IsPosPath start end_ es → g.pathDuration es < U64)
    (hreach : ∃ es, g.IsPosPath start end_ es) :
    ∀ fuel, g.n + 1 ≤ fuel →
      ∃ g' L, g.get_earliest_meetup fuel start end_ = some (g', L) ∧
        (∃ es, g.IsPosPath start end_ es ∧ g.pathDuration es = L) ∧
        ∀ es, g.IsPosPath start end_ es → g.pathDuration es ≤ L :=
  fun fuel hfuel => get_earliest_meetup_spec w hs hac hsrc hno hreach fuel hfuel

theorem oneEdgeAfter_wf : oneEdgeAfter.WF :=
  (FlowReachable.inv
    (FlowReachable.group_of_size (r := (oneEdgeAfter, [(1, 2, 10)]))
      (@FlowReachable.built 2 [(1, 2, 10, 1)] _ ⟨by decide, by decide⟩ oneEdgeGraph_built)
      (by decide) (by decide) (by decide) (by decide) (by decide) oneEdgeAfter_run)).1

theorem oneEdgeAfter_acyclic : oneEdgeAfter.ActiveAcyclic :=
  activeAcyclic_of_increasing (by decide)

theorem oneEdgeAfter_onlySource : oneEdgeAfter.OnlySource 1 := by
  rintro v ⟨e, ⟨he, _⟩, ho⟩ _
  have hm : oneEdgeAfter.m = 1 := rfl
  rw [hm] at he
  interval_cases e
  rw [← ho]; rfl

theorem oneEdgeAfter_durations (t : Nat) (es : List Nat) (h : oneEdgeAfter.IsPosPath 1 t es) :
    oneEdgeAfter.pathDuration es < U64 := by
  have h1 := pathDuration_le (g := oneEdgeAfter) (D := 1) (by decide) es 1 t h.1
  have h2 := posPath_length_le oneEdgeAfter_wf oneEdgeAfter_acyclic es 1 t h
  have h3 : oneEdgeAfter.n = 2 := rfl
  have h4 : (3 : Nat) < U64 := by decide
  omega

/-- C8 (witness): the single edge `1→2` of duration 1 carrying the flow left
by `get_path_for_group_of_size(1, 2, 3)`; `start = 1`, `end = 2`. -/
theorem C8_longest_path_amended_witness :
    oneEdgeAfter.WF ∧ (1 ≤ 1 ∧ 1 ≤ oneEdgeAfter.n) ∧ oneEdgeAfter.ActiveAcyclic ∧
    oneEdgeAfter.OnlySource 1 ∧
    (∀ es, oneEdgeAfter.IsPosPath 1 2 es → oneEdgeAfter.pathDuration es < U64) ∧
    (∃ es, oneEdgeAfter.IsPosPath 1 2 es) ∧
    ∀ fuel, oneEdgeAfter.n + 1 ≤ fuel →
      ∃ g' L, oneEdgeAfter.get_earliest_meetup fuel 1 2 = some (g', L) ∧
        (∃ es, oneEdgeAfter.IsPosPath 1 2 es ∧ oneEdgeAfter.pathDuration es = L) ∧
        ∀ es, oneEdgeAfter.IsPosPath 1 2 es → oneEdgeAfter.pathDuration es ≤ L :=
  have hr : ∃ es, oneEdgeAfter.IsPosPath 1 2 es := ⟨[0], by unfold Graph.IsPosPath; decide⟩
  ⟨oneEdgeAfter_wf, by decide, oneEdgeAfter_acyclic, oneEdgeAfter_onlySource,
    oneEdgeAfter_durations 2, hr,
    C8_longest_path_amended oneEdgeAfter 1 2 oneEdgeAfter_wf (by decide) oneEdgeAfter_acyclic
      oneEdgeAfter_onlySource (oneEdgeAfter_durations 2) hr⟩

/-! ## The hop-count-first search -/

/-- C7: on a well-formed graph with fewer than 999999 nodes and edge
capacities below 999999, for `start` in `[1, n]` and `end` reachable from
`start`, `get_pareto_optimal_path(start, end, false)` returns (with fuel at
least `n + 1`) a distance `D` and a capacity `C` such that some path `es` from
`start` to `end` has `D` edges and minimum edge capacity `C` (`pathCap`, which
is 999999 for the empty path), no path from `start` to `end` has fewer than
`D` edges, and no path with `D` edges has a greater minimum edge capacity. -/
theorem C7_pareto_hop_first (g : Graph) (start end_ : Nat) (w : g.WF) (hn : g.n < INF)
    (hcap : ∀ e, e < g.m → (g.edges e).capacity < INF) (hs : 1 ≤ start ∧ start ≤ g.n)
    (hreach : g.Reachable start end_) :
    ∀ fuel, g.n + 1 ≤ fuel →
      ∃ g1 path C D, g.get_pareto_optimal_path fuel start end_ false = some (g1, (path, C, D)) ∧
        (∃ es, g.IsPath start end_ es ∧ es.length = D ∧ g.pathCap es = C ∧
          (∀ e ∈ es, C ≤ (g.edges e).capacity) ∧
          (es ≠ [] → ∃ e ∈ es, (g.edges e).capacity = C)) ∧
        ∀ es, g.IsPath start end_ es → D ≤ es.length ∧
          (es.length = D → g.pathCap es ≤ C ∧
            (es ≠ [] → ∃ e ∈ es, (g.edges e).capacity ≤ C)) := by
  intro fuel hfuel
  obtain ⟨g1, path, C, D, hrun, ⟨es, h1, h2, h3⟩, hopt⟩ :=
    get_pareto_optimal_path_hop_spec w hn hs hreach fuel hfuel
  have hcaps : ∀ (p : List Nat), g.IsPath start end_ p → ∀ e ∈ p, (g.edges e).capacity < INF :=
    fun p hp e he => hcap e (isPath_mem_lt p start end_ hp e he)
  refine ⟨g1, path, C, D, hrun, ⟨es, h1, h2, h3, ?_, ?_⟩, ?_⟩
  · intro e he; rw [← h3]; exact pathCap_le_mem g es e he
  · intro hne; rw [← h3]; exact pathCap_attained g es hne (hcaps es h1)
  · intro p hp
    refine ⟨(hopt p hp).1, fun hlen => ⟨(hopt p hp).2 hlen, fun hne => ?_⟩⟩
    obtain ⟨e, he, heq⟩ := pathCap_attained g p hne (hcaps p hp)
    exact ⟨e, he, by rw [heq]; exact (hopt p hp).2 hlen⟩

theorem detourGraph_built :
    build 4 [(1, 2, 10, 1), (2, 3, 10, 1), (1, 3, 5, 1), (3, 4, 5, 1)]
      = Except.ok detourGraph := rfl

theorem detourGraph_wf : detourGraph.WF :=
  (@build_wf 4 [(1, 2, 10, 1), (2, 3, 10, 1), (1, 3, 5, 1), (3, 4, 5, 1)] _
    ⟨by decide, by decide⟩ detourGraph_built).1

/-- C7 (witness): `detourGraph` with `start = 1` and `end = 4`, reached by
the edges `1→3` and `3→4`. -/
theorem C7_pareto_hop_first_witness :
    detourGraph.WF ∧ detourGraph.n < INF ∧
    (∀ e, e < detourGraph.m → (detourGraph.edges e).capacity < INF) ∧
    (1 ≤ 1 ∧ 1 ≤ detourGraph.n) ∧ detourGraph.Reachable 1 4 ∧
    ∀ fuel, detourGraph.n + 1 ≤ fuel →
      ∃ g1 path C D,
        detourGraph.get_pareto_optimal_path fuel 1 4 false = some (g1, (path, C, D)) ∧
        (∃ es, detourGraph.IsPath 1 4 es ∧ es.length = D ∧ detourGraph.pathCap es = C ∧
          (∀ e ∈ es, C ≤ (detourGraph.edges e).capacity) ∧
          (es ≠ [] → ∃ e ∈ es, (detourGraph.edges e).capacity = C)) ∧
        ∀ es, detourGraph.IsPath 1 4 es → D ≤ es.length ∧
          (es.length = D → detourGraph.pathCap es ≤ C ∧
            (es ≠ [] → ∃ e ∈ es, (detourGraph.edges e).capacity ≤ C)) :=
  have hr : detourGraph.Reachable 1 4 := ⟨[2, 3], by decide⟩
  ⟨detourGraph_wf, by decide, by decide, by decide, hr,
    C7_pareto_hop_first detourGraph 1 4 detourGraph_wf (by decide) (by decide) (by decide) hr⟩

/-! ## Claims on the flow list -/

/-- C16: `get_flow_path()` returns the triples `(origin, destination, flow)` of
the edges listed by a strictly increasing list of edge indices that holds
exactly the indices below `edges.size()` whose flow is positive: one triple
per such edge, in edge-index order.  The function only reads the graph. -/
theorem C16_get_flow_path (g : Graph) :
    ∃ idx : List Nat, idx.Sorted (· < ·) ∧
      (∀ i, i ∈ idx ↔ i < g.m ∧ 0 < (g.edges i).flow) ∧
      g.get_flow_path
        = idx.map fun i => ((g.edges i).origin, (g.edges i).destination, (g.edges i).flow) := by
  refine ⟨(List.range g.m).filter fun i => decide (0 < (g.edges i).flow), ?_, ?_, ?_⟩
  · exact (List.sorted_lt_range g.m).sublist (List.filter_sublist _)
  · intro i
    simp [List.mem_filter]
  · unfold get_flow_path
    exact filterMap_ite_eq (fun i => (g.edges i).flow > 0) _ _

/-- C17: when `start == end`, `get_path_with_increment(s, s, k)` returns
`get_flow_path()` of the graph as it stands and leaves the graph as it was,
while `get_path_for_group_of_size(s, s, k)` and
`get_path_for_group_of_max_size(s, s)` return the empty list and leave every
edge with flow 0 and otherwise as it was; this holds for every fuel, as no
loop is entered. -/
theorem C17_same_endpoints (g : Graph) (s k fuel : Nat) :
    g.get_path_with_increment fuel s s k = some (g, g.get_flow_path) ∧
    (∃ g1, g.get_path_for_group_of_size fuel s s k = some (g1, []) ∧
      g1.n = g.n ∧ g1.m = g.m ∧ g1.nodes = g.nodes ∧
      ∀ i, i < g.m → g1.edges i = { g.edges i with flow := 0 }) ∧
    (∃ g1, g.get_path_for_group_of_max_size fuel s s = some (g1, []) ∧
      g1.n = g.n ∧ g1.m = g.m ∧ g1.nodes = g.nodes ∧
      ∀ i, i < g.m → g1.edges i = { g.edges i with flow := 0 }) := by
  refine ⟨?_, ⟨reset_flows g, ?_, rfl, rfl, rfl, ?_⟩, ⟨reset_flows g, ?_, rfl, rfl, rfl, ?_⟩⟩
  · simp [get_path_with_increment]
  · simp [get_path_for_group_of_size, get_path_with_increment, get_flow_path_reset]
  · intro i hi; simp [reset_flows, hi]
  · simp [get_path_for_group_of_max_size, get_path_with_increment, get_flow_path_reset]
  · intro i hi; simp [reset_flows, hi]

/-! ## Claims on the heap interface -/

/-- C19 (code diverges): from the empty heap of capacity 3, after
`insert(1, 10)`, `insert(2, 5)`, `remove_max()`, `insert(3, 4)` and
`increase_key(2, 100)` the keys present are 2 with current value 100 and 3
with current value 4, and `remove_max()` returns key 3, which does not have
the greatest current value.  On an empty heap `remove_max()` returns the
not-found key and leaves the heap as it was. -/
theorem C19_remove_max_diverges :
    raisedPair = MaxHeap.run natLt emptyPair
      [.insert 1 10, .insert 2 5, .remove_max, .insert 3 4, .increase_key 2 100] ∧
    raisedPair.2.current 2 = some 100 ∧ raisedPair.2.current 3 = some 4 ∧
    (raisedPair.1.remove_max natLt).1 = 3 ∧
    ¬ raisedPair.2.IsGreatest natLt 3 ∧
    ∀ h : MaxHeap Nat Nat, h.size = 0 → h.remove_max natLt = (h.KEY_NOT_FOUND, h) := by
  refine ⟨rfl, by decide, by decide, by decide, ?_, ?_⟩
  · rintro ⟨v, hv, hmax⟩
    have h3 : raisedPair.2.current 3 = some 4 := by decide
    have h2 : raisedPair.2.current 2 = some 100 := by decide
    have hv4 : v = 4 := by
      rw [h3] at hv
      exact (Option.some.inj hv).symm
    subst hv4
    exact absurd (hmax 2 100 h2) (by decide)
  · intro h hs
    simp [MaxHeap.remove_max, hs]

/-- C20 (code diverges): in the state reached from the empty heap of capacity
3 by `insert(1, 10)`, `insert(2, 5)`, `remove_max()` and `insert(3, 4)`, where
key 2 has value 5 and key 3 has value 4, the call `increase_key(2, 100)`
leaves key 2 with value 5 in the heap array and gives key 3 the value 100,
whereas the specified structure gives key 2 the value 100 and leaves key 3 at
4. -/
theorem C20_increase_key_diverges :
    stalePair.1.value_of 2 = some 5 ∧ stalePair.1.value_of 3 = some 4 ∧
    stalePair.2.current 2 = some 5 ∧ stalePair.2.current 3 = some 4 ∧
    (stalePair.1.increase_key natLt 2 100).value_of 2 = some 5 ∧
    (stalePair.1.increase_key natLt 2 100).value_of 3 = some 100 ∧
    (stalePair.2.increase natLt 2 100).current 2 = some 100 ∧
    (stalePair.2.increase natLt 2 100).current 3 = some 4 := by
  refine ⟨by decide, by decide, by decide, by decide, by decide, by decide, by decide, by decide⟩

/-! ## Claims on the waiting periods -/

theorem lateAfter_run :
    lateGraph.get_path_for_group_of_max_size 10 1 4
      = some (lateAfter, [(1, 4, 5), (1, 2, 5), (2, 3, 5), (3, 4, 5)]) := rfl

/-- C14 (code diverges): on `lateAfter`, where the four edges `1→4`, `1→2`,
`2→3` and `3→4` carry flow 5, `biggest_duration(1)` leaves `earliest_start` 0,
`2^31 - 1`, `2^32 - 2` and `3 * 2^31 - 3` at the nodes 1, 2, 3 and 4; the
edges into node 4 are 0 and 3 with arrivals `0 + 1` and `3 * 2^31 - 3`, so the
least arrival is 1 and the wait at node 4 is `3 * 2^31 - 4`, which is
6442450940; `get_waiting_periods(1, 4)` returns the entry `(4, 2147483644)`. -/
theorem C14_waiting_periods_diverges :
    lateAfter.get_flow_path = [(1, 4, 5), (1, 2, 5), (2, 3, 5), (3, 4, 5)] ∧
    ((lateAfter.biggest_duration 10 1).map fun g =>
      ((g.nodes 1).earliest_start, (g.nodes 2).earliest_start, (g.nodes 3).earliest_start,
        (g.nodes 4).earliest_start, (g.nodes 4).incoming, (g.edges 0).origin,
        (g.edges 0).duration, (g.edges 3).origin, (g.edges 3).duration))
      = some (0, 2 ^ 31 - 1, 2 ^ 32 - 2, 3 * 2 ^ 31 - 3, [0, 3], 1, 1, 3, 2 ^ 31 - 1) ∧
    (3 * 2 ^ 31 - 3) - min (0 + 1) (2 ^ 32 - 2 + (2 ^ 31 - 1)) = 6442450940 ∧
    (lateAfter.get_waiting_periods 10 1 4).map (fun r => r.2) = some [(4, 2147483644)] := by
  refine ⟨by decide, rfl, by decide, by decide⟩

/-! ## Claims on the returned paths -/

/-- C11: on a well-formed graph, for `start` and `end` in `[1, n]`, the
searches and the parent walk of `get_path` return once the fuel is at least
`n + 2`, and a non-empty path returned by `get_max_capacity_path` or by
`get_pareto_optimal_path` (either flag) begins with `start`, ends with `end`,
repeats no node, and joins each node to the next by an edge of the graph whose
capacity is at least the returned capacity. -/
theorem C11_returned_path_is_real (g : Graph) (start end_ : Nat) (w : g.WF)
    (hs : 1 ≤ start ∧ start ≤ g.n) (ht : 1 ≤ end_ ∧ end_ ≤ g.n) :
    ∀ fuel, g.n + 2 ≤ fuel →
      (∃ g1 path C D, g.get_max_capacity_path fuel start end_ = some (g1, (path, C, D)) ∧
        (path ≠ [] → g.IsRealPath start end_ C path)) ∧
      ∀ b, ∃ g1 path C D, g.get_pareto_optimal_path fuel start end_ b = some (g1, (path, C, D)) ∧
        (path ≠ [] → g.IsRealPath start end_ C path) := by
  intro fuel hf
  constructor
  · obtain ⟨g1, h', hrun, hinv⟩ := max_capacity_dijkstra_path w hs hf
    obtain ⟨path, hp, hreal, -⟩ := get_path_spec hinv ht (by omega : g.n ≤ fuel + 1) start
    unfold get_max_capacity_path
    rw [hrun]
    simp only [hp]
    refine ⟨g1, path,
      (if (g1.nodes end_).visited = true then ((g1.nodes end_).capacity, (g1.nodes end_).distance)
        else (0, 0)).1,
      (if (g1.nodes end_).visited = true then ((g1.nodes end_).capacity, (g1.nodes end_).distance)
        else (0, 0)).2, rfl, ?_⟩
    intro hne
    obtain ⟨hv, hr⟩ := hreal hne
    rw [if_pos hv]
    exact hr
  · intro b
    obtain ⟨g1, h', hrun, hinv⟩ := pareto_optimal_dijkstra_path w hs b hf
    obtain ⟨path, hp, hreal, -⟩ := get_path_spec hinv ht (by omega : g.n ≤ fuel + 1) start
    unfold get_pareto_optimal_path
    rw [hrun]
    simp only [hp]
    refine ⟨g1, path,
      (if (g1.nodes end_).visited = true then ((g1.nodes end_).capacity, (g1.nodes end_).distance)
        else (0, 0)).1,
      (if (g1.nodes end_).visited = true then ((g1.nodes end_).capacity, (g1.nodes end_).distance)
        else (0, 0)).2, rfl, ?_⟩
    intro hne
    obtain ⟨hv, hr⟩ := hreal hne
    rw [if_pos hv]
    exact hr

/-- C11 (witness): `detourGraph` with `start = 1` and `end = 4`. -/
theorem C11_returned_path_is_real_witness :
    detourGraph.WF ∧ (1 ≤ 1 ∧ 1 ≤ detourGraph.n) ∧ (1 ≤ 4 ∧ 4 ≤ detourGraph.n) ∧
    ∀ fuel, detourGraph.n + 2 ≤ fuel →
      (∃ g1 path C D, detourGraph.get_max_capacity_path fuel 1 4 = some (g1, (path, C, D)) ∧
        (path ≠ [] → detourGraph.IsRealPath 1 4 C path)) ∧
      ∀ b, ∃ g1 path C D, detourGraph.get_pareto_optimal_path fuel 1 4 b
          = some (g1, (path, C, D)) ∧
        (path ≠ [] → detourGraph.IsRealPath 1 4 C path) :=
  ⟨detourGraph_wf, by decide, by decide,
    C11_returned_path_is_real detourGraph 1 4 detourGraph_wf (by decide) (by decide)⟩

/-! ## Claims on the frame of the traversals -/

/-- C18: on a well-formed graph, for `start` and `end` in `[1, n]`,
`get_max_capacity_path`, `get_pareto_optimal_path` (either flag),
`get_earliest_meetup` and `get_waiting_periods` return once the fuel is at
least `n + 2`, and the graph they leave has the same `n`, the same edges
(origin, destination, capacity, duration and flow) and the same outgoing and
incoming list at every node. -/
theorem C18_traversals_keep_network (g : Graph) (start end_ : Nat) (w : g.WF)
    (hs : 1 ≤ start ∧ start ≤ g.n) (ht : 1 ≤ end_ ∧ end_ ≤ g.n) :
    ∀ fuel, g.n + 2 ≤ fuel →
      (∃ g1 r, g.get_max_capacity_path fuel start end_ = some (g1, r) ∧ SameNet g g1) ∧
      (∀ b, ∃ g1 r, g.get_pareto_optimal_path fuel start end_ b = some (g1, r) ∧
        SameNet g g1) ∧
      (∃ g1 r, g.get_earliest_meetup fuel start end_ = some (g1, r) ∧ SameNet g g1) ∧
      (∃ g1 r, g.get_waiting_periods fuel start end_ = some (g1, r) ∧ SameNet g g1) := by
  intro fuel hf
  refine ⟨?_, ?_, ?_, ?_⟩
  · obtain ⟨g1, h', hrun, hinv⟩ := max_capacity_dijkstra_path w hs hf
    obtain ⟨path, hp, -, -⟩ := get_path_spec hinv ht (by omega : g.n ≤ fuel + 1) start
    unfold get_max_capacity_path
    rw [hrun]
    simp only [hp]
    exact ⟨g1, _, rfl, hinv.same⟩
  · intro b
    obtain ⟨g1, h', hrun, hinv⟩ := pareto_optimal_dijkstra_path w hs b hf
    obtain ⟨path, hp, -, -⟩ := get_path_spec hinv ht (by omega : g.n ≤ fuel + 1) start
    unfold get_pareto_optimal_path
    rw [hrun]
    simp only [hp]
    exact ⟨g1, _, rfl, hinv.same⟩
  · obtain ⟨g1, hrun, hinv⟩ := biggest_duration_total w hs (by omega : g.n + 1 ≤ fuel)
    unfold get_earliest_meetup
    rw [hrun]
    simp only
    split
    · exact ⟨g1, _, rfl, hinv.net⟩
    · exact ⟨g1, _, rfl, hinv.net⟩
  · obtain ⟨g1, hrun, hinv⟩ := biggest_duration_total w hs (by omega : g.n + 1 ≤ fuel)
    unfold get_waiting_periods
    rw [hrun]
    exact ⟨g1, _, rfl, hinv.net⟩

/-- C18 (witness): `oneEdgeAfter`, the edge `1→2` carrying flow, with
`start = 1` and `end = 2`. -/
theorem C18_traversals_keep_network_witness :
    oneEdgeAfter.WF ∧ (1 ≤ 1 ∧ 1 ≤ oneEdgeAfter.n) ∧ (1 ≤ 2 ∧ 2 ≤ oneEdgeAfter.n) ∧
    ∀ fuel, oneEdgeAfter.n + 2 ≤ fuel →
      (∃ g1 r, oneEdgeAfter.get_max_capacity_path fuel 1 2 = some (g1, r) ∧
        SameNet oneEdgeAfter g1) ∧
      (∀ b, ∃ g1 r, oneEdgeAfter.get_pareto_optimal_path fuel 1 2 b = some (g1, r) ∧
        SameNet oneEdgeAfter g1) ∧
      (∃ g1 r, oneEdgeAfter.get_earliest_meetup fuel 1 2 = some (g1, r) ∧
        SameNet oneEdgeAfter g1) ∧
      (∃ g1 r, oneEdgeAfter.get_waiting_periods fuel 1 2 = some (g1, r) ∧
        SameNet oneEdgeAfter g1) :=
  ⟨oneEdgeAfter_wf, by decide, by decide,
    C18_traversals_keep_network oneEdgeAfter 1 2 oneEdgeAfter_wf (by decide) (by decide)⟩

/-! ## Claims on the independence from earlier traversals -/

theorem hopAfter_run :
    oneEdgeGraph.get_pareto_optimal_path 10 1 2 true = some (hopAfter, ([1, 2], 10, 1)) := rfl

theorem hopAfter_sameNet : SameNet oneEdgeGraph hopAfter := by
  obtain ⟨g1, h', hrun, hinv⟩ :=
    @pareto_optimal_dijkstra_path oneEdgeGraph oneEdgeGraph_wf 1 (by decide) true 10 (by decide)
  have h2 : oneEdgeGraph.pareto_optimal_dijkstra 10 1 true = some hopAfter := rfl
  rw [h2] at hrun
  cases hrun
  exact hinv.same

/-- C13 (counterexample): `oneEdgeGraph` and the state `hopAfter` that
`get_pareto_optimal_path(1, 2, true)` leaves on it have the same `n`, edges
and adjacency lists; `get_max_capacity_path(1, 2)` returns `([1, 2], 10, 0)`
on the first and `([1, 2], 10, 1)` on the second. -/
theorem C13_counterexample :
    oneEdgeGraph.get_pareto_optimal_path 10 1 2 true = some (hopAfter, ([1, 2], 10, 1)) ∧
    SameNet oneEdgeGraph hopAfter ∧
    (oneEdgeGraph.get_max_capacity_path 10 1 2).map (fun r => r.2) = some ([1, 2], 10, 0) ∧
    (hopAfter.get_max_capacity_path 10 1 2).map (fun r => r.2) = some ([1, 2], 10, 1) :=
  ⟨rfl, hopAfter_sameNet, by decide, by decide⟩

/-- C13 (amended): for two states `g` and `g'` of a well-formed graph with the
same `n`, edges and adjacency lists, and `start`, `end` in `[1, n]`, once the
fuel is at least `n + 2`: `get_max_capacity_path(start, end)` returns the same
path and the same capacity in both, its third component being the `distance`
that `end` had in the respective state before the call (0 for an unvisited
`end`); and `get_pareto_optimal_path(start, end, b)` returns the same triple
in both. -/
theorem C13_scratch_independence_amended (g g' : Graph) (start end_ : Nat) (w : g.WF)
    (hnet : SameNet g g') (hs : 1 ≤ start ∧ start ≤ g.n) (ht : 1 ≤ end_ ∧ end_ ≤ g.n) :
    ∀ fuel, g.n + 2 ≤ fuel →
      (∃ g1 g1' path C,
        g.get_max_capacity_path fuel start end_ = some (g1, (path, C,
          if (g1.nodes end_).visited = true then (g.nodes end_).distance else 0)) ∧
        g'.get_max_capacity_path fuel start end_ = some (g1', (path, C,
          if (g1.nodes end_).visited = true then (g'.nodes end_).distance else 0))) ∧
      ∀ b, ∃ g1 g1' r,
        g.get_pareto_optimal_path fuel start end_ b = some (g1, r) ∧
        g'.get_pareto_optimal_path fuel start end_ b = some (g1', r) := by
  intro fuel hf
  constructor
  · obtain ⟨g1, h', hrun, hinv⟩ := max_capacity_dijkstra_path w hs hf
    have hsim := max_capacity_dijkstra_sim w hnet start fuel
    rw [hrun] at hsim
    generalize hq : g'.max_capacity_dijkstra fuel start = q at hsim
    cases hsim with
    | some ha =>
      rename_i g1'
      obtain ⟨path, C, hp, hp'⟩ := get_path_sim hinv ha ht (by omega : g.n ≤ fuel + 1) start
      rw [max_capacity_dijkstra_distance hrun] at hp
      rw [max_capacity_dijkstra_distance hq] at hp'
      refine ⟨g1, g1', path, C, ?_, ?_⟩
      · unfold get_max_capacity_path
        rw [hrun]
        simp only [hp]
      · unfold get_max_capacity_path
        rw [hq]
        simp only [hp']
  · intro b
    obtain ⟨g1, h', hrun, hinv⟩ := pareto_optimal_dijkstra_path w hs b hf
    have hsim := pareto_optimal_dijkstra_sim w hnet start fuel b
    rw [hrun] at hsim
    generalize hq : g'.pareto_optimal_dijkstra fuel start b = q at hsim
    cases hsim with
    | some ha =>
      rename_i g1'
      obtain ⟨path, C, hp, hp'⟩ := get_path_sim hinv ha ht (by omega : g.n ≤ fuel + 1) start
      rw [← ha.dist rfl end_ ht.1 (by rw [hinv.same.n_eq]; exact ht.2)] at hp
      refine ⟨g1, g1', (path, C,
        if (g1.nodes end_).visited = true then (g1'.nodes end_).distance else 0), ?_, ?_⟩
      · unfold get_pareto_optimal_path
        rw [hrun]
        simp only [hp]
      · unfold get_pareto_optimal_path
        rw [hq]
        simp only [hp']

/-- C13 (witness): `oneEdgeGraph` and the state `hopAfter`, with `start = 1`
and `end = 2`. -/
theorem C13_scratch_independence_amended_witness :
    oneEdgeGraph.WF ∧ SameNet oneEdgeGraph hopAfter ∧ (1 ≤ 1 ∧ 1 ≤ oneEdgeGraph.n) ∧
    (1 ≤ 2 ∧ 2 ≤ oneEdgeGraph.n) ∧
    ∀ fuel, oneEdgeGraph.n + 2 ≤ fuel →
      (∃ g1 g1' path C,
        oneEdgeGraph.get_max_capacity_path fuel 1 2 = some (g1, (path, C,
          if (g1.nodes 2).visited = true then (oneEdgeGraph.nodes 2).distance else 0)) ∧
        hopAfter.get_max_capacity_path fuel 1 2 = some (g1', (path, C,
          if (g1.nodes 2).visited = true then (hopAfter.nodes 2).distance else 0))) ∧
      ∀ b, ∃ g1 g1' r,
        oneEdgeGraph.get_pareto_optimal_path fuel 1 2 b = some (g1, r) ∧
        hopAfter.get_pareto_optimal_path fuel 1 2 b = some (g1', r) :=
  ⟨oneEdgeGraph_wf, hopAfter_sameNet, by decide, by decide,
    C13_scratch_independence_amended oneEdgeGraph hopAfter 1 2 oneEdgeGraph_wf hopAfter_sameNet
      (by decide) (by decide)⟩

/-! ## Claims on the reset of the flows -/

/-- C12: on a well-formed graph `g`, for `s` and `t` in `[1, n]` and any size
`K`: `get_path_for_group_of_size(s, t, K)` returns for all large enough fuel;
called in a state `g'` that has the nodes, the edges and the adjacency lists
of `g` but any flows and any node scratch fields, it runs in step with the
call in `g` (for every fuel both run out or both return) and returns the same
list and leaves the same flow on every edge; in particular this holds for the
state `g'` left by an earlier `get_path_for_group_of_size(s, t, K1)`. -/
theorem C12_idempotent_reset (g : Graph) (s t : Nat) (w : g.WF)
    (hs : 1 ≤ s ∧ s ≤ g.n) (ht : 1 ≤ t ∧ t ≤ g.n) :
    (∀ K, ∃ fuel0 r, ∀ fuel, fuel0 ≤ fuel → g.get_path_for_group_of_size fuel s t K = some r) ∧
    (∀ g' : Graph, SameShape g g' → ∀ K fuel,
      Option.Rel (SameOutcome g.m) (g.get_path_for_group_of_size fuel s t K)
        (g'.get_path_for_group_of_size fuel s t K)) ∧
    (∀ K1 fuel1 r1, g.get_path_for_group_of_size fuel1 s t K1 = some r1 → ∀ K2 fuel,
      Option.Rel (SameOutcome g.m) (g.get_path_for_group_of_size fuel s t K2)
        (r1.1.get_path_for_group_of_size fuel s t K2)) := by
  refine ⟨group_of_size_returns w hs ht, ?_, ?_⟩
  · intro g' hsh K fuel
    exact group_of_size_sim w hsh hs ht K fuel
  · intro K1 fuel1 r1 h1 K2 fuel
    exact group_of_size_sim w (group_of_size_shape w hs ht h1) hs ht K2 fuel

/-- C12 (witness): `oneEdgeGraph` with `s = 1`, `t = 2`. -/
theorem C12_idempotent_reset_witness :
    oneEdgeGraph.WF ∧ (1 ≤ 1 ∧ 1 ≤ oneEdgeGraph.n) ∧ (1 ≤ 2 ∧ 2 ≤ oneEdgeGraph.n) ∧
    (∀ K, ∃ fuel0 r, ∀ fuel, fuel0 ≤ fuel →
      oneEdgeGraph.get_path_for_group_of_size fuel 1 2 K = some r) ∧
    (∀ g' : Graph, SameShape oneEdgeGraph g' → ∀ K fuel,
      Option.Rel (SameOutcome oneEdgeGraph.m) (oneEdgeGraph.get_path_for_group_of_size fuel 1 2 K)
        (g'.get_path_for_group_of_size fuel 1 2 K)) ∧
    (∀ K1 fuel1 r1, oneEdgeGraph.get_path_for_group_of_size fuel1 1 2 K1 = some r1 → ∀ K2 fuel,
      Option.Rel (SameOutcome oneEdgeGraph.m) (oneEdgeGraph.get_path_for_group_of_size fuel 1 2 K2)
        (r1.1.get_path_for_group_of_size fuel 1 2 K2)) :=
  ⟨oneEdgeGraph_wf, by decide, by decide,
    C12_idempotent_reset oneEdgeGraph 1 2 oneEdgeGraph_wf (by decide) (by decide)⟩

/-! ## Construction: `add_edge` and the copy constructors -/

theorem add_edge_zero (g : Graph) (e : Edge) (h0 : e.origin = 0 ∨ e.destination = 0) :
    g.add_edge e = Except.error ("Edge has origin or destination at 0", g) := by
  unfold add_edge
  rw [if_pos h0]

theorem add_edge_realloc_zero (g : Graph) (e : Edge) (h0 : e.origin = 0 ∨ e.destination = 0) :
    g.add_edge_realloc e = Except.error ("Edge has origin or destination at 0", g) := by
  unfold add_edge_realloc
  rw [if_pos h0]

/-- What a successful `add_edge` does, field by field. -/
theorem add_edge_post (g : Graph) (e : Edge) (ho1 : 1 ≤ e.origin) (ho2 : e.origin ≤ g.n)
    (hd1 : 1 ≤ e.destination) (hd2 : e.destination ≤ g.n) :
    ∃ g', g.add_edge e = Except.ok g' ∧ g'.n = g.n ∧ g'.m = g.m + 1 ∧
      g'.edges g.m = mkEdge e.origin e.destination e.capacity e.duration ∧
      (∀ j, j ≠ g.m → g'.edges j = g.edges j) ∧
      (g'.nodes e.origin).outgoing = (g.nodes e.origin).outgoing ++ [g.m] ∧
      (g'.nodes e.destination).incoming = (g.nodes e.destination).incoming ++ [g.m] ∧
      (∀ v, v ≠ e.origin → (g'.nodes v).outgoing = (g.nodes v).outgoing) ∧
      (∀ v, v ≠ e.destination → (g'.nodes v).incoming = (g.nodes v).incoming) ∧
      (∀ v, { g'.nodes v with outgoing := (g.nodes v).outgoing,
                              incoming := (g.nodes v).incoming } = g.nodes v) := by
  have h0 : ¬ (e.origin = 0 ∨ e.destination = 0) := by omega
  have h1 : ¬ g.n < e.origin := by omega
  have h2 : ¬ g.n < e.destination := by omega
  unfold add_edge
  rw [if_neg h0]
  simp only [if_neg h1, if_neg h2]
  refine ⟨_, rfl, ?_⟩
  · refine ⟨rfl, rfl, ?_, ?_, ?_, ?_, ?_, ?_, ?_⟩
    · simp [setNode]
    · intro j hj
      simp [setNode, hj]
    · simp only [setNode]
      split_ifs <;> first | rfl | omega
    · simp only [setNode, if_true]
      split_ifs with hx
      · rw [hx]
      · rfl
    · intro v hv
      simp only [setNode]
      split_ifs <;> first | rfl | omega | (subst_vars; rfl)
    · intro v hv
      simp only [setNode]
      split_ifs <;> first | rfl | omega | (subst_vars; rfl)
    · intro v
      simp only [setNode]
      split_ifs <;> first | rfl | omega | (subst_vars; rfl) | simp_all

/-- What a successful `add_edge` does when the vector of edges reallocates: as
`add_edge_post`, but every earlier edge is replaced by its copy. -/
theorem add_edge_realloc_post (g : Graph) (e : Edge) (ho1 : 1 ≤ e.origin)
    (ho2 : e.origin ≤ g.n) (hd1 : 1 ≤ e.destination) (hd2 : e.destination ≤ g.n) :
    ∃ g', g.add_edge_realloc e = Except.ok g' ∧ g'.n = g.n ∧ g'.m = g.m + 1 ∧
      g'.edges g.m = mkEdge e.origin e.destination e.capacity e.duration ∧
      (∀ j, j < g.m → g'.edges j = copy_edge (g.edges j)) ∧
      (g'.nodes e.origin).outgoing = (g.nodes e.origin).outgoing ++ [g.m] ∧
      (g'.nodes e.destination).incoming = (g.nodes e.destination).incoming ++ [g.m] ∧
      (∀ v, v ≠ e.origin → (g'.nodes v).outgoing = (g.nodes v).outgoing) ∧
      (∀ v, v ≠ e.destination → (g'.nodes v).incoming = (g.nodes v).incoming) ∧
      (∀ v, { g'.nodes v with outgoing := (g.nodes v).outgoing,
                              incoming := (g.nodes v).incoming } = g.nodes v) := by
  have h0 : ¬ (e.origin = 0 ∨ e.destination = 0) := by omega
  obtain ⟨g', hg, hn, hm, hnew, hold, ho, hi, hoo, hii, hrest⟩ :=
    add_edge_post (copy_edges g) e ho1 ho2 hd1 hd2
  refine ⟨g', ?_, hn, hm, hnew, ?_, ho, hi, hoo, hii, hrest⟩
  · unfold add_edge_realloc
    rw [if_neg h0]
    exact hg
  · intro j hj
    have := hold j (by show j ≠ g.m; omega)
    rw [this]
    show (if j < g.m then copy_edge (g.edges j) else g.edges j) = _
    rw [if_pos hj]

/-- An edge whose flow is 0 is its own copy. -/
theorem copy_edge_of_zero (e : Edge) (h : e.flow = 0) : copy_edge e = e := by
  cases e
  simp only [copy_edge, mkEdge] at *
  simp [h]

/-- On a graph without flow, as during construction, the reallocating
`add_edge` is `add_edge`. -/
theorem add_edge_realloc_eq (g : Graph) (e : Edge) (hz : ∀ j, j < g.m → (g.edges j).flow = 0) :
    g.add_edge_realloc e = g.add_edge e := by
  have hc : copy_edges g = g := by
    cases g with
    | mk n nodes m edges =>
      simp only [copy_edges]
      congr
      funext j
      by_cases hj : j < m
      · simp only [if_pos hj]
        exact copy_edge_of_zero _ (hz j hj)
      · simp only [if_neg hj]
  unfold add_edge_realloc
  by_cases h0 : e.origin = 0 ∨ e.destination = 0
  · rw [if_pos h0, add_edge_zero g e h0]
  · rw [if_neg h0, hc]

/-! ## C22 -/

/-- C22: `add_edge` rejects an edge with an endpoint 0 and leaves the graph as
it was (the error carries the graph the failed call leaves behind, which is the
graph given), with or without a reallocation pending; for an edge with both
endpoints in `[1, n]` it returns a graph. -/
theorem C22_add_edge_rejects_zero (g : Graph) (e : Edge) :
    ((e.origin = 0 ∨ e.destination = 0) →
      g.add_edge e = Except.error ("Edge has origin or destination at 0", g) ∧
      g.add_edge_realloc e = Except.error ("Edge has origin or destination at 0", g)) ∧
    ((1 ≤ e.origin ∧ e.origin ≤ g.n) → (1 ≤ e.destination ∧ e.destination ≤ g.n) →
      (∃ g', g.add_edge e = Except.ok g') ∧ (∃ g', g.add_edge_realloc e = Except.ok g')) := by
  refine ⟨fun h0 => ⟨add_edge_zero g e h0, add_edge_realloc_zero g e h0⟩, ?_⟩
  intro ho hd
  obtain ⟨g1, h1, _⟩ := add_edge_post g e ho.1 ho.2 hd.1 hd.2
  obtain ⟨g2, h2, _⟩ := add_edge_realloc_post g e ho.1 ho.2 hd.1 hd.2
  exact ⟨⟨g1, h1⟩, ⟨g2, h2⟩⟩

/-- C22 (witness): on `Graph(2)` the edge `0→1` is rejected and the graph is
left as it was; the edge `1→2` is accepted. -/
theorem C22_add_edge_rejects_zero_witness :
    ((mkEdge 0 1 5 1).origin = 0 ∨ (mkEdge 0 1 5 1).destination = 0) ∧
    (create 2).add_edge (mkEdge 0 1 5 1) =
      Except.error ("Edge has origin or destination at 0", create 2) ∧
    (1 ≤ (mkEdge 1 2 5 1).origin ∧ (mkEdge 1 2 5 1).origin ≤ (create 2).n) ∧
    (1 ≤ (mkEdge 1 2 5 1).destination ∧ (mkEdge 1 2 5 1).destination ≤ (create 2).n) ∧
    ∃ g', (create 2).add_edge (mkEdge 1 2 5 1) = Except.ok g' :=
  ⟨Or.inl rfl, ((C22_add_edge_rejects_zero (create 2) (mkEdge 0 1 5 1)).1 (Or.inl rfl)).1,
    by decide, by decide,
    ((C22_add_edge_rejects_zero (create 2) (mkEdge 1 2 5 1)).2 (by decide) (by decide)).1⟩

/-! ## C23 -/

/-- C24: the state left behind by a failed `add_edge` breaks the structural
invariant.  On `Graph(2)`, `add_edge(Edge(1, 3, 5, 1))` throws from
`nodes.at(3)` after the edge has been pushed and its index appended to
`outgoing[1]`: the graph left has an edge 0 with destination 3 > n = 2 that is
in `outgoing[1]` and in no `incoming` list. -/
theorem C24_failed_add_edge_breaks_invariant :
    (create 2).add_edge (mkEdge 1 3 5 1) = Except.error ("out_of_range", brokenGraph) ∧
    brokenGraph.n = 2 ∧ brokenGraph.m = 1 ∧ brokenGraph.edges 0 = mkEdge 1 3 5 1 ∧
    ¬ (brokenGraph.edges 0).destination ≤ brokenGraph.n ∧
    (brokenGraph.nodes 1).outgoing = [0] ∧
    (∀ v, v ≤ 2 → (brokenGraph.nodes v).incoming = []) ∧ ¬ brokenGraph.WF :=
  ⟨rfl, rfl, rfl, rfl, by decide, rfl, by decide,
    fun w => absurd (w.dest_le 0 (by decide)) (by decide)⟩

/-! ## C25 -/

/-- C25: the copy constructor of `Graph` does not keep the flows.  On the graph
with the single edge 1 -> 2 carrying 10 units of flow, the copy has the same
`n`, the same nodes and the same origin, destination, capacity and duration of
the edge, but flow 0: `get_flow_path()` returns `[(1, 2, 10)]` on the original
and `[]` on the copy, `get_earliest_meetup(1, 2)` returns 1 on the original and
0 on the copy. -/
theorem C25_copy_drops_flow :
    (copy oneEdgeAfter).n = oneEdgeAfter.n ∧ (copy oneEdgeAfter).m = oneEdgeAfter.m ∧
    (copy oneEdgeAfter).nodes = oneEdgeAfter.nodes ∧
    oneEdgeAfter.edges 0 = { mkEdge 1 2 10 1 with flow := 10 } ∧
    (copy oneEdgeAfter).edges 0 = mkEdge 1 2 10 1 ∧
    oneEdgeAfter.get_flow_path = [(1, 2, 10)] ∧ (copy oneEdgeAfter).get_flow_path = [] ∧
    (oneEdgeAfter.get_earliest_meetup 10 1 2).map (fun r => r.2) = some 1 ∧
    ((copy oneEdgeAfter).get_earliest_meetup 10 1 2).map (fun r => r.2) = some 0 :=
  ⟨rfl, rfl, rfl, rfl, rfl, rfl, rfl, rfl, rfl⟩

/-! ## More fuel changes nothing: path search -/

theorem max_capacity_loop_mono : ∀ (fuel : Nat) (g : Graph) (h : MaxHeap Nat Nat) (g' : Graph),
    max_capacity_loop fuel g h = some g' → ∀ k, max_capacity_loop (fuel + k) g h = some g' := by
  intro fuel
  induction fuel with
  | zero =>
    intro g h g' hr k
    simp only [max_capacity_loop] at hr
    by_cases hs : h.get_size > 0
    · rw [if_pos hs] at hr
      cases hr
    · rw [if_neg hs] at hr
      cases k with
      | zero => simp only [Nat.add_zero, max_capacity_loop, if_neg hs, hr]
      | succ k =>
        rw [Nat.zero_add]
        simp only [max_capacity_loop, if_neg hs, hr]
  | succ fuel ih =>
    intro g h g' hr k
    rw [Nat.add_right_comm]
    simp only [max_capacity_loop] at hr ⊢
    by_cases hs : h.get_size > 0
    · rw [if_pos hs] at hr ⊢
      exact ih _ _ _ hr k
    · rw [if_neg hs] at hr ⊢
      exact hr

theorem get_path_loop_mono : ∀ (fuel : Nat) (g : Graph) (c : Nat) (p p' : List Nat),
    get_path_loop fuel g c p = some p' → ∀ k, get_path_loop (fuel + k) g c p = some p' := by
  intro fuel
  induction fuel with
  | zero =>
    intro g c p p' hr k
    simp only [get_path_loop] at hr
    by_cases hs : (g.nodes c).parent ≠ 0
    · rw [if_pos hs] at hr
      cases hr
    · rw [if_neg hs] at hr
      cases k with
      | zero => simp only [Nat.add_zero, get_path_loop, if_neg hs, hr]
      | succ k =>
        rw [Nat.zero_add]
        simp only [get_path_loop, if_neg hs, hr]
  | succ fuel ih =>
    intro g c p p' hr k
    rw [Nat.add_right_comm]
    simp only [get_path_loop] at hr ⊢
    by_cases hs : (g.nodes c).parent ≠ 0
    · rw [if_pos hs] at hr ⊢
      exact ih _ _ _ _ hr k
    · rw [if_neg hs] at hr ⊢
      exact hr

theorem get_max_capacity_path_mono {fuel : Nat} {g : Graph} {s t : Nat}
    {r : Graph × (List Nat × Nat × Nat)} (h : g.get_max_capacity_path fuel s t = some r)
    (k : Nat) : g.get_max_capacity_path (fuel + k) s t = some r := by
  unfold get_max_capacity_path at h ⊢
  cases hd : max_capacity_dijkstra fuel g s with
  | none => rw [hd] at h; cases h
  | some g1 =>
    rw [hd] at h
    have hd' : max_capacity_dijkstra (fuel + k) g s = some g1 :=
      max_capacity_loop_mono _ _ _ _ hd k
    rw [hd']
    simp only at h ⊢
    unfold get_path at h ⊢
    by_cases hv : (!(g1.nodes t).visited) = true
    · rw [if_pos hv] at h ⊢
      exact h
    · rw [if_neg hv] at h ⊢
      cases hp : get_path_loop fuel g1 t [] with
      | none => rw [hp] at h; cases h
      | some p =>
        rw [hp] at h
        rw [get_path_loop_mono _ _ _ _ _ hp k]
        exact h

theorem get_path_for_group_of_max_size_mono {fuel : Nat} {g : Graph} {s t : Nat}
    {r : Graph × List (Nat × Nat × Nat)} (h : g.get_path_for_group_of_max_size fuel s t = some r)
    (k : Nat) : g.get_path_for_group_of_max_size (fuel + k) s t = some r := by
  unfold get_path_for_group_of_max_size get_path_with_increment at h ⊢
  by_cases hst : s ≠ t
  · rw [if_pos hst] at h ⊢
    cases he : edmonds_karp fuel g.reset_flows s t (U64 - 1) with
    | none => rw [he] at h; cases h
    | some g1 =>
      rw [he] at h
      rw [edmonds_karp_mono _ _ _ _ _ _ he k]
      exact h
  · rw [if_neg hst] at h ⊢
    exact h

/-! ## The scenario graph -/

theorem scenarioGraph_built :
    build 4 [(1, 2, 5, 1), (1, 3, 2, 1), (2, 4, 3, 1), (3, 4, 2, 1)] = Except.ok scenarioGraph :=
  rfl

/-- The state that `get_max_capacity_path(1, 4)` leaves on `scenarioGraph`. -/
theorem scenarioGraph_widest :
    (scenarioGraph.get_max_capacity_path 4 1 4).map (fun r => r.2) = some ([1, 2, 4], 3, 0) := by
  decide

theorem scenarioAfter_run :
    scenarioGraph.get_path_for_group_of_max_size 6 1 4 =
      some (scenarioAfter, [(1, 2, 3), (1, 3, 2), (2, 4, 3), (3, 4, 2)]) := rfl

theorem shortcutGraph_built :
    build 3 [(1, 2, 3, 1), (1, 3, 5, 1), (2, 3, 9, 1)] = Except.ok shortcutGraph := rfl

theorem shortcutAfter_run : shortcutGraph.max_flow_increase_bfs 4 1 = some shortcutAfter := rfl

/-! ## C26 -/

/-- C26: on the graph with 4 nodes and the edges `1→2` (capacity 5), `1→3`
(2), `2→4` (3), `3→4` (2), added in this order with duration 1 each,
`get_max_capacity_path(1, 4)` returns (for every fuel of at least 4) the path
`[1, 2, 4]` with capacity 3; the third component, the distance, is 0. -/
theorem C26_widest_path_scenario :
    build 4 [(1, 2, 5, 1), (1, 3, 2, 1), (2, 4, 3, 1), (3, 4, 2, 1)] = Except.ok scenarioGraph ∧
    ∀ k, (scenarioGraph.get_max_capacity_path (4 + k) 1 4).map (fun r => r.2) =
      some ([1, 2, 4], 3, 0) := by
  refine ⟨rfl, fun k => ?_⟩
  have h0 := scenarioGraph_widest
  cases hr : scenarioGraph.get_max_capacity_path 4 1 4 with
  | none => rw [hr] at h0; cases h0
  | some r =>
    rw [get_max_capacity_path_mono hr k]
    rw [hr] at h0
    exact h0

/-! ## C27 -/

/-- C27: on the same graph `get_path_for_group_of_max_size(1, 4)` returns (for
every fuel of at least 6) the list `(1,2,3), (1,3,2), (2,4,3), (3,4,2)`: flow 3
on the edge `1→2`, flow 2 on the edge `1→3`, and 5 in total over the edges
leaving node 1. -/
theorem C27_max_flow_scenario :
    build 4 [(1, 2, 5, 1), (1, 3, 2, 1), (2, 4, 3, 1), (3, 4, 2, 1)] = Except.ok scenarioGraph ∧
    (∀ k, scenarioGraph.get_path_for_group_of_max_size (6 + k) 1 4 =
      some (scenarioAfter, [(1, 2, 3), (1, 3, 2), (2, 4, 3), (3, 4, 2)])) ∧
    (scenarioAfter.nodes 1).outgoing = [0, 1] ∧
    (scenarioAfter.edges 0).flow = 3 ∧ (scenarioAfter.edges 1).flow = 2 ∧
    scenarioAfter.outflow 1 = 5 ∧
    (([(1, 2, 3), (1, 3, 2), (2, 4, 3), (3, 4, 2)].filter
        fun x : Nat × Nat × Nat => x.1 = 1).map fun x => x.2.2).sum = 5 :=
  ⟨rfl, fun k => get_path_for_group_of_max_size_mono scenarioAfter_run k, rfl, rfl, rfl,
    by decide, by decide⟩

/-! ## C28 -/

/-- C28: the residual search does not finalize a node on its first discovery.
On the graph with 3 nodes and the edges `1→2` (capacity 3), `1→3` (5), `2→3`
(9), all flows 0, `max_flow_increase_bfs(1)` discovers node 3 from node 1
through edge 1 with `flow_increase` 5 and enqueues it; node 3 is marked
visited only when dequeued, so the iteration for node 2 discovers it again
through edge 2, overwrites its parent with edge 2 and its `flow_increase` with
3 and enqueues it a second time.  After the call the parent of node 3 is edge
2, not the edge of its first discovery. -/
theorem C28_rediscovery :
    build 3 [(1, 2, 3, 1), (1, 3, 5, 1), (2, 3, 9, 1)] = Except.ok shortcutGraph ∧
    shortcutGraph.ValidFlow ∧
    (∃ g1, bfs_step (bfs_init shortcutGraph 1) 1 [] = (g1, [2, 3]) ∧
      (g1.nodes 3).visited = false ∧ (g1.nodes 3).parent = 1 ∧
      (g1.nodes 3).flow_increase = 5 ∧
      ∃ g2, bfs_step g1 2 [3] = (g2, [3, 3]) ∧
        (g2.nodes 3).parent = 2 ∧ (g2.nodes 3).flow_increase = 3) ∧
    (∀ k, shortcutGraph.max_flow_increase_bfs (4 + k) 1 = some shortcutAfter) ∧
    (shortcutAfter.nodes 3).visited = true ∧ (shortcutAfter.nodes 3).parent = 2 ∧
    (shortcutAfter.nodes 3).flow_increase = 3 :=
  ⟨rfl, fun i _ => by
      have hz : shortcutGraph.ZeroFlow :=
        (@build_wf 3 [(1, 2, 3, 1), (1, 3, 5, 1), (2, 3, 9, 1)] _ ⟨by decide, by decide⟩
          shortcutGraph_built).2.1
      rw [hz i]
      exact Nat.zero_le _,
    ⟨_, rfl, rfl, rfl, rfl, _, rfl, rfl, rfl⟩,
    fun k => max_flow_increase_bfs_mono shortcutAfter_run k, rfl, rfl, rfl⟩

/-! ## C29 -/

/-- C29: the parent chain left by the residual search is not a shortest
residual path.  On the graph of C28 with all flows 0, after
`max_flow_increase_bfs(1)` node 3 is visited and its parent chain is
`3 ← 2 ← 1` (edge 2 from node 2, then edge 0 from node 1), two edges, although
the edge `1→3` with `capacity - flow = 5` is a residual path of one edge;
`get_path_for_group_of_size(1, 3, 1)` accordingly routes the group over
`1→2→3`. -/
theorem C29_chain_not_shortest :
    build 3 [(1, 2, 3, 1), (1, 3, 5, 1), (2, 3, 9, 1)] = Except.ok shortcutGraph ∧
    (∀ k, shortcutGraph.max_flow_increase_bfs (4 + k) 1 = some shortcutAfter) ∧
    (shortcutAfter.nodes 3).visited = true ∧
    (shortcutAfter.nodes 3).parent = 2 ∧ (shortcutAfter.edges 2).origin = 2 ∧
    (shortcutAfter.edges 2).destination = 3 ∧
    (shortcutAfter.nodes 2).parent = 0 ∧ (shortcutAfter.edges 0).origin = 1 ∧
    (shortcutAfter.edges 0).destination = 2 ∧
    Chain shortcutAfter 1 3 [3, 2, 1] ∧
    shortcutAfter.ResWalk 1 3 1 ∧ shortcutGraph.ResWalk 1 3 1 ∧
    (shortcutGraph.get_path_for_group_of_size 5 1 3 1).map (fun r => r.2) =
      some [(1, 2, 3), (2, 3, 3)] :=
  ⟨rfl, fun k => max_flow_increase_bfs_mono shortcutAfter_run k, rfl, rfl, rfl, rfl, rfl, rfl,
    rfl,
    Chain.step (by decide) (by decide) (by unfold Link; decide)
      (Chain.step (by decide) (by decide) (by unfold Link; decide) Chain.base),
    ResWalk.snoc ResWalk.nil ⟨1, by decide, Or.inl (by decide)⟩,
    ResWalk.snoc ResWalk.nil ⟨1, by decide, Or.inl (by decide)⟩, rfl⟩

/-! ## Residual reachability -/

/-- A saturated cut blocks every residual path. -/
theorem saturated_not_resReachable {g : Graph} {s t : Nat} (h : Saturated g s t) :
    ¬ g.ResReachable s t := by
  obtain ⟨S, hs, ht, hcut⟩ := h
  have key : ∀ v k, g.ResWalk s v k → S v := by
    intro v k hw
    induction hw with
    | nil => exact hs
    | @snoc x y k _ hstep ih =>
      obtain ⟨e, he, hcase⟩ := hstep
      by_contra hy
      rcases hcase with ⟨ho, hd, hlt⟩ | ⟨hd, ho, hpos⟩
      · have := (hcut e he).1 (by rw [ho]; exact ih) (by rw [hd]; exact hy)
        omega
      · have := (hcut e he).2 (by rw [hd]; exact ih) (by rw [ho]; exact hy)
        omega
  rintro ⟨k, hw⟩
  exact ht (key t k hw)

theorem flowValue_eq_neg_netIn (g : Graph) (s : Nat) : g.flowValue s = - g.netIn s := by
  unfold flowValue netIn
  omega

/-! ## C30 -/

/-- C30: on a well-formed graph with `0 ≤ flow ≤ capacity`, for distinct
`start` and `end` in `[1, n]` and every request `k`, `edmonds_karp(start, end,
k)` returns, and whenever it returns either the net flow out of `start`
(outflow minus inflow) has grown by at least `k`, or `end` cannot be reached
from `start` in the residual graph of the final flows. -/
theorem C30_satisfied_or_saturated (g : Graph) (start end_ k : Nat) (w : g.WF)
    (vf : g.ValidFlow) (hs : 1 ≤ start ∧ start ≤ g.n) (ht : 1 ≤ end_ ∧ end_ ≤ g.n)
    (hne : start ≠ end_) :
    (∃ fuel0 g', ∀ fuel, fuel0 ≤ fuel → g.edmonds_karp fuel start end_ k = some g') ∧
    ∀ fuel g', g.edmonds_karp fuel start end_ k = some g' →
      (k : Int) ≤ g'.flowValue start - g.flowValue start ∨ ¬ g'.ResReachable start end_ := by
  refine ⟨?_, ?_⟩
  · obtain ⟨fuel0, g', hrun, _⟩ := edmonds_karp_spec hne k g w vf hs ht
    exact ⟨fuel0, g', hrun⟩
  · intro fuel g' hr
    have hp := edmonds_karp_post hne w vf hs ht hr
    rcases hp.enough with h | h
    · left
      rw [flowValue_eq_neg_netIn, flowValue_eq_neg_netIn]
      omega
    · exact Or.inr (saturated_not_resReachable h)

/-- C30 (witness): the all-zero flow on the single edge `1→2` of capacity 10,
with `k = 3`. -/
theorem C30_satisfied_or_saturated_witness :
    oneEdgeGraph.WF ∧ oneEdgeGraph.ValidFlow ∧ (1 ≤ 1 ∧ 1 ≤ oneEdgeGraph.n) ∧
    (1 ≤ 2 ∧ 2 ≤ oneEdgeGraph.n) ∧ 1 ≠ 2 ∧
    (∃ fuel0 g', ∀ fuel, fuel0 ≤ fuel → oneEdgeGraph.edmonds_karp fuel 1 2 3 = some g') ∧
    ∀ fuel g', oneEdgeGraph.edmonds_karp fuel 1 2 3 = some g' →
      ((3 : Nat) : Int) ≤ g'.flowValue 1 - oneEdgeGraph.flowValue 1 ∨ ¬ g'.ResReachable 1 2 :=
  have hz : oneEdgeGraph.ZeroFlow :=
    (@build_wf 2 [(1, 2, 10, 1)] _ ⟨by decide, by decide⟩ oneEdgeGraph_built).2.1
  ⟨oneEdgeGraph_wf, hz.zero_validFlow, by decide, by decide, by decide,
    C30_satisfied_or_saturated oneEdgeGraph 1 2 3 oneEdgeGraph_wf hz.zero_validFlow
      (by decide) (by decide) (by decide)⟩

/-! ## Heaps reached through the public interface -/

theorem MaxHeap.create_inv {K V : Type} (lt : V → V → Bool) (n : Nat) (notFound k0 : K) (v0 : V) :
    MaxHeap.HeapInv lt (MaxHeap.create n notFound k0 v0 : MaxHeap K V) := by
  refine ⟨⟨?_, ?_, ?_, ?_⟩, ?_, ?_⟩
  · intro j j' _ h2; simp [MaxHeap.create] at h2; omega
  · intro j h1 h2; simp [MaxHeap.create] at h2; omega
  · intro h1; simp [MaxHeap.create] at h1
  · intro k _; rfl
  · intro h1; simp [MaxHeap.create] at h1
  · intro j h1 h2; simp [MaxHeap.create] at h2; omega

theorem MaxHeap.reached_inv {K V : Type} [DecidableEq K] (lt : V → V → Bool)
    (o : MaxHeap.StrictOrd lt) (n : Nat) (notFound k0 : K) (v0 : V)
    (cs : List (MaxHeap.Call K V)) :
    MaxHeap.HeapInv lt (MaxHeap.reached lt n notFound k0 v0 cs) ∧
    (MaxHeap.reached lt n notFound k0 v0 cs).size ≤ (MaxHeap.reached lt n notFound k0 v0 cs).max_size ∧
    (MaxHeap.reached lt n notFound k0 v0 cs).max_size = n :=
  MaxHeap.run_inv lt o cs (MaxHeap.create n notFound k0 v0, MaxHeap.SpecQueue.empty n)
    (MaxHeap.create_inv lt n notFound k0 v0)
    (Nat.zero_le _)

theorem natLt_strictOrd : MaxHeap.StrictOrd natLt := by
  constructor
  · intro x; simp [natLt]
  · intro x y z h1 h2
    simp only [natLt, decide_eq_true_eq] at *
    omega
  · intro x y z h1 h2
    simp only [natLt, decide_eq_false_iff_not] at *
    omega

/-! ## C21 -/

/-- C21: for a strict order `lt` and every heap `h` reached from
`MaxHeap(n, notFound)` by calls of `insert`, `increase_key` and `remove_max`:
`get_size()` is at most `max_size = n`, the keys in the slots `1..size` are
distinct, so `get_size()` is the number of distinct keys present, and
`has_key` tells exactly whether a key is present; `insert(key, value)` returns
the heap unchanged when the heap is full or `key` is present, and otherwise
`get_size()` grows by exactly 1, a slot holds `(key, value)` and the slots
`1..size + 1` hold the earlier elements and the new one, nothing else. -/
theorem C21_insert_bounded_first_wins {K V : Type} [DecidableEq K] (lt : V → V → Bool)
    (o : MaxHeap.StrictOrd lt) (n : Nat) (notFound k0 : K) (v0 : V)
    (cs : List (MaxHeap.Call K V)) (key : K) (value : V) (h : MaxHeap K V)
    (hr : h = MaxHeap.reached lt n notFound k0 v0 cs) :
    h.get_size ≤ h.max_size ∧ h.max_size = n ∧
    (∀ j j', 1 ≤ j → j ≤ h.size → 1 ≤ j' → j' ≤ h.size → (h.a j).key = (h.a j').key → j = j') ∧
    ((Finset.Icc 1 h.size).image fun j => (h.a j).key).card = h.get_size ∧
    (h.has_key key = true ↔ h.Present key) ∧
    ((h.get_size = h.max_size ∨ h.Present key) → h.insert lt key value = h) ∧
    (h.get_size ≠ h.max_size → ¬ h.Present key →
      (h.insert lt key value).get_size = h.get_size + 1 ∧
      (h.insert lt key value).max_size = h.max_size ∧
      (h.insert lt key value).Present key ∧
      (∃ j, 1 ≤ j ∧ j ≤ h.size + 1 ∧ (h.insert lt key value).a j = ⟨key, value⟩) ∧
      (∀ j', 1 ≤ j' → j' ≤ h.size →
        ∃ j, 1 ≤ j ∧ j ≤ h.size + 1 ∧ (h.insert lt key value).a j = h.a j') ∧
      (∀ j, 1 ≤ j → j ≤ h.size + 1 → (h.insert lt key value).a j = ⟨key, value⟩ ∨
        ∃ j', 1 ≤ j' ∧ j' ≤ h.size ∧ (h.insert lt key value).a j = h.a j')) := by
  obtain ⟨hi, hb, hm⟩ := MaxHeap.reached_inv lt o n notFound k0 v0 cs
  rw [← hr] at hi hb hm
  refine ⟨hb, hm, hi.keys.nodup, hi.keys.card_keys, hi.keys.has_key_iff key, ?_, ?_⟩
  · rintro (hfull | hp)
    · have hfull' : h.size = h.max_size := hfull
      unfold MaxHeap.insert
      rw [if_pos hfull']
    · obtain ⟨j, h1, h2, h3⟩ := hp
      obtain ⟨i, hpi⟩ := hi.keys.pos_isSome h1 h2
      rw [h3] at hpi
      exact MaxHeap.insert_noop lt h key value hpi
  · intro hfull hnp
    have hfull' : h.size ≠ h.max_size := hfull
    have hp : h.pos key = none := by
      cases hp : h.pos key with
      | none => rfl
      | some i =>
        exfalso
        obtain ⟨j, h1, h2, h3, _⟩ := hi.keys.mem_of_pos hp
        exact hnp ⟨j, h1, h2, h3⟩
    obtain ⟨_, h2, h3, h4, h5, h6⟩ := MaxHeap.insert_inv lt o h hi key value (by omega) hp
    refine ⟨h2, h3, ?_, h5, h6, h4⟩
    obtain ⟨j, hj1, hj2, hj3⟩ := h5
    exact ⟨j, hj1, by rw [h2]; exact hj2, by rw [hj3]⟩

/-- C21 (witness): the heap of capacity 2 after `insert(1, 5)` and
`insert(2, 7)`, and the call `insert(1, 9)`. -/
theorem C21_insert_bounded_first_wins_witness :
    MaxHeap.StrictOrd natLt ∧
    (MaxHeap.reached natLt 2 (2 ^ 32 - 1) 0 0
        [MaxHeap.Call.insert 1 5, MaxHeap.Call.insert 2 7]).get_size = 2 ∧
    (MaxHeap.reached natLt 2 (2 ^ 32 - 1) 0 0
        [MaxHeap.Call.insert 1 5, MaxHeap.Call.insert 2 7]).Present 1 ∧
    ((MaxHeap.reached natLt 2 (2 ^ 32 - 1) 0 0
        [MaxHeap.Call.insert 1 5, MaxHeap.Call.insert 2 7]).insert natLt 1 9 =
      MaxHeap.reached natLt 2 (2 ^ 32 - 1) 0 0
        [MaxHeap.Call.insert 1 5, MaxHeap.Call.insert 2 7]) :=
  ⟨natLt_strictOrd, rfl, ⟨2, by decide, by decide, rfl⟩,
    (C21_insert_bounded_first_wins natLt natLt_strictOrd 2 (2 ^ 32 - 1) 0 0
      [MaxHeap.Call.insert 1 5, MaxHeap.Call.insert 2 7] 1 9 _ rfl).2.2.2.2.2.1
      (Or.inl rfl)⟩

/-! ## C34 -/

/-- C34: the position map is not consistent in every reachable heap.  After
`insert(1, 10)`, `insert(2, 5)` and `remove_max()` on a heap of capacity 3 the
heap holds the single key 2 in slot 1, and `pos` is defined on key 2 only, but
`pos[2]` is still 2: `remove_max` moves the last element to slot 1 by a plain
assignment and `down_heap(1)` finds no child to swap with, so nothing records
the new position. -/
theorem C34_position_map_stale :
    movedHeap.size = 1 ∧ (movedHeap.a 1).key = 2 ∧ movedHeap.has_key 2 = true ∧
    movedHeap.has_key 1 = false ∧ movedHeap.pos (movedHeap.a 1).key = some 2 ∧
    movedHeap.pos (movedHeap.a 1).key ≠ some 1 :=
  ⟨rfl, rfl, rfl, rfl, rfl, by decide⟩

/-! ## The labels of the searches -/

theorem relaxLab_par {V : Type} {d : Bool} {g0 : Graph} {lt : V → V → Bool}
    {relax : Nat → Graph × MaxHeap Nat V → Nat → Graph × MaxHeap Nat V}
    (hr : RelaxLab d g0 lt relax) : RelaxPar g0 lt relax := by
  intro node st e hs
  rcases hr node st e hs with h0 | ⟨nd, v, v', h1, h2, h3, h4, h5, h6, _, h8⟩
  · exact Or.inl h0
  · exact Or.inr ⟨nd, v, v', h1, h2, h3, h4, h5, h6, h8⟩

theorem max_capacity_relax_lab (g0 : Graph) : RelaxLab false g0 natLt max_capacity_relax := by
  intro node st e hs
  unfold max_capacity_relax
  simp only
  rw [hs.edges_eq]
  split
  · exact Or.inl rfl
  · rename_i hv
    split
    · right
      refine ⟨_, _, _, ?_, ?_, ?_, ?_, ?_, ?_, ?_, rfl⟩
      · simpa using hv
      · simpa using hv
      · rfl
      · rfl
      · rfl
      · rfl
      · intro h; cases h
    · exact Or.inl rfl

theorem pareto_relax_lab (g0 : Graph) (b : Bool) : RelaxLab true g0 pairLt (pareto_relax b) := by
  intro node st e hs
  unfold pareto_relax
  simp only
  rw [hs.edges_eq]
  split
  · exact Or.inl rfl
  · rename_i hv
    split
    · right
      refine ⟨_, _, _, ?_, ?_, ?_, ?_, ?_, ?_, ?_, rfl⟩
      · simpa using hv
      · simpa using hv
      · rfl
      · rfl
      · rfl
      · rfl
      · intro _; rfl
    · exact Or.inl rfl

theorem lab_relax_inv {V : Type} {d : Bool} {g0 : Graph} (w : g0.WF) {s : Nat}
    {lt : V → V → Bool}
    {relax : Nat → Graph × MaxHeap Nat V → Nat → Graph × MaxHeap Nat V}
    (hr : RelaxLab d g0 lt relax) {node : Nat}
    {st : Graph × MaxHeap Nat V} {e : Nat} (he : e ∈ (g0.nodes node).outgoing)
    (h : (PathInv g0 s st.1 st.2 ∧ (st.1.nodes node).visited = true) ∧ LabInv d g0 s st.1) :
    (PathInv g0 s (relax node st e).1 (relax node st e).2 ∧
      ((relax node st e).1.nodes node).visited = true) ∧ LabInv d g0 s (relax node st e).1 := by
  refine ⟨path_relax_inv w (relaxLab_par hr) he h.1, ?_⟩
  obtain ⟨⟨hinv, hnv⟩, hlab⟩ := h
  rcases hr node st e hinv.same with h0 | ⟨nd, v, v', hdv, hndv, hno, hni, hpar, hcap, hdist, h1⟩
  · rw [h0]; exact hlab
  · rw [h1]
    show LabInv d g0 s (st.1.setNode (g0.edges e).destination nd)
    have hdn : node ≠ (g0.edges e).destination := by
      intro hh; rw [← hh] at hdv; rw [hdv] at hnv; cases hnv
    have hds : s ≠ (g0.edges e).destination := by
      intro hh; rw [← hh] at hdv; have := hinv.s_vis; rw [hdv] at this; cases this
    refine ⟨?_, ?_, ?_⟩
    · rw [setNode_nodes_ne _ _ hds]; exact hlab.s_cap
    · intro hd; rw [setNode_nodes_ne _ _ hds]; exact hlab.s_dist hd
    · intro hd x hx1 hx2 hxp
      by_cases hx : x = (g0.edges e).destination
      · subst hx
        rw [setNode_nodes_same] at hxp ⊢
        rw [hpar, setNode_nodes_ne _ _ hdn]
        exact hdist hd
      · rw [setNode_nodes_ne _ _ hx] at hxp ⊢
        have hpv := (hinv.par x hx1 hx2 hxp).2.2.1
        have hpd : (st.1.nodes x).parent ≠ (g0.edges e).destination := by
          intro hh; rw [hh, hdv] at hpv; cases hpv
        rw [setNode_nodes_ne _ _ hpd]
        exact hlab.dist hd x hx1 hx2 hxp

theorem lab_scan_fold {V : Type} {d : Bool} {g0 : Graph} (w : g0.WF) {s : Nat}
    {lt : V → V → Bool}
    {relax : Nat → Graph × MaxHeap Nat V → Nat → Graph × MaxHeap Nat V}
    (hr : RelaxLab d g0 lt relax) (node : Nat) (st : Graph × MaxHeap Nat V)
    (h : (PathInv g0 s st.1 st.2 ∧ (st.1.nodes node).visited = true) ∧ LabInv d g0 s st.1) :
    PathInv g0 s ((g0.nodes node).outgoing.foldl (relax node) st).1
      ((g0.nodes node).outgoing.foldl (relax node) st).2 ∧
    LabInv d g0 s ((g0.nodes node).outgoing.foldl (relax node) st).1 :=
  have h1 := foldl_inv (fun st' : Graph × MaxHeap Nat V =>
      (PathInv g0 s st'.1 st'.2 ∧ (st'.1.nodes node).visited = true) ∧ LabInv d g0 s st'.1)
    (relax node) (g0.nodes node).outgoing (fun _ _ he hJ => lab_relax_inv w hr he hJ) st h
  ⟨h1.1.1, h1.2⟩

theorem lab_extract_inv {d : Bool} {g0 : Graph} {s : Nat} {g : Graph} (hlab : LabInv d g0 s g)
    (node : Nat) : LabInv d g0 s (g.setNode node { g.nodes node with visited := true }) := by
  have hpar : ∀ x, ((g.setNode node { g.nodes node with visited := true }).nodes x).parent
      = (g.nodes x).parent := by
    intro x; simp only [setNode_nodes]; split_ifs with hx
    · subst hx; rfl
    · rfl
  have hcap : ∀ x, ((g.setNode node { g.nodes node with visited := true }).nodes x).capacity
      = (g.nodes x).capacity := by
    intro x; simp only [setNode_nodes]; split_ifs with hx
    · subst hx; rfl
    · rfl
  have hdis : ∀ x, ((g.setNode node { g.nodes node with visited := true }).nodes x).distance
      = (g.nodes x).distance := by
    intro x; simp only [setNode_nodes]; split_ifs with hx
    · subst hx; rfl
    · rfl
  refine ⟨by rw [hcap]; exact hlab.s_cap, fun hd => by rw [hdis]; exact hlab.s_dist hd, ?_⟩
  intro hd x hx1 hx2 hxp
  rw [hpar] at hxp
  rw [hdis, hpar, hdis]
  exact hlab.dist hd x hx1 hx2 hxp

theorem lab_loop_inv {V : Type} {d : Bool} {g0 : Graph} (w : g0.WF) {s : Nat}
    {lt : V → V → Bool}
    {relax : Nat → Graph × MaxHeap Nat V → Nat → Graph × MaxHeap Nat V}
    (hr : RelaxLab d g0 lt relax) :
    ∀ (fuel : Nat) (g : Graph) (h : MaxHeap Nat V) (g' : Graph), PathInv g0 s g h →
      LabInv d g0 s g → search_loop lt relax fuel g h = some g' →
      (∃ h' : MaxHeap Nat V, PathInv g0 s g' h') ∧ LabInv d g0 s g' := by
  intro fuel
  induction fuel with
  | zero =>
    intro g h g' hinv hlab hrun
    simp only [search_loop] at hrun
    split at hrun
    · cases hrun
    · cases hrun; exact ⟨⟨h, hinv⟩, hlab⟩
  | succ fuel ih =>
    intro g h g' hinv hlab hrun
    simp only [search_loop] at hrun
    split at hrun
    · rename_i hsz
      have hsz' : 0 < h.size := hsz
      have h1 := path_extract_inv lt hinv hsz'
      have hout : ((g.setNode (h.remove_max lt).1
          { g.nodes (h.remove_max lt).1 with visited := true }).nodes
            (h.remove_max lt).1).outgoing = (g0.nodes (h.remove_max lt).1).outgoing := by
        rw [h1.same.out_eq]
      rw [hout] at hrun
      have h2 := lab_scan_fold w hr (h.remove_max lt).1
        (g.setNode (h.remove_max lt).1 { g.nodes (h.remove_max lt).1 with visited := true },
          (h.remove_max lt).2) ⟨⟨h1, by rw [setNode_nodes_same]⟩, lab_extract_inv hlab _⟩
      exact ih _ _ g' h2.1 h2.2 hrun
    · cases hrun; exact ⟨⟨h, hinv⟩, hlab⟩

/-- The searches, started as the code starts them, leave a state satisfying
`PathInv` and `LabInv` whenever they return. -/
theorem lab_search_spec {V : Type} {d : Bool} {g0 : Graph} (w : g0.WF) {s : Nat}
    (hs : 1 ≤ s ∧ s ≤ g0.n) {lt : V → V → Bool}
    {relax : Nat → Graph × MaxHeap Nat V → Nat → Graph × MaxHeap Nat V}
    (hr : RelaxLab d g0 lt relax) (g2 : Graph) (hsame : SameNet g0 g2)
    (hinit : ∀ x, 1 ≤ x → x ≤ g0.n → (g2.nodes x).visited = false ∧ (g2.nodes x).parent = 0)
    (hcap : (g2.nodes s).capacity = INF) (hdist : d = true → (g2.nodes s).distance = 0)
    (v0 v : V) :
    ∀ (fuel : Nat) (g' : Graph),
      search_loop lt relax fuel g2
        ((MaxHeap.create g0.n (2 ^ 32 - 1) 0 v0 : MaxHeap Nat V).insert lt s v) = some g' →
      (∃ h' : MaxHeap Nat V, PathInv g0 s g' h') ∧ LabInv d g0 s g' := by
  intro fuel g' hrun
  obtain ⟨hsize, hroot⟩ := create_insert_root lt g0.n s v0 v (by omega)
  have hkeys1 := create_insert_keys lt g0.n s v0 v
  generalize (MaxHeap.create g0.n (2 ^ 32 - 1) 0 v0 : MaxHeap Nat V).insert lt s v = h1
    at hrun hsize hroot hkeys1
  cases fuel with
  | zero => simp [search_loop, MaxHeap.get_size, hsize] at hrun
  | succ fuel =>
    simp only [search_loop, MaxHeap.get_size, hsize, gt_iff_lt, Nat.lt_one_iff, Nat.zero_lt_one,
      if_true] at hrun
    obtain ⟨hmax, -, -, hkeys, -⟩ := MaxHeap.remove_max_effect lt h1 (by omega)
    have hnode : (h1.remove_max lt).1 = s := by rw [hmax, hroot]
    rw [hnode] at hrun
    have hpar : ∀ x, ((g2.setNode s { g2.nodes s with visited := true }).nodes x).parent
        = (g2.nodes x).parent := by
      intro x; simp only [setNode_nodes]; split_ifs with hx
      · subst hx; rfl
      · rfl
    have hvis : ∀ x, ((g2.setNode s { g2.nodes s with visited := true }).nodes x).visited
        = if x = s then true else (g2.nodes x).visited := by
      intro x; simp only [setNode_nodes]; split_ifs <;> rfl
    have hsame1 : SameNet g0 (g2.setNode s { g2.nodes s with visited := true }) :=
      hsame.net_trans (SameNet.setNode _ _ _ rfl rfl)
    have hJ : PathInv g0 s (g2.setNode s { g2.nodes s with visited := true })
        (h1.remove_max lt).2 := by
      refine ⟨hsame1, by rw [hvis, if_pos rfl], by rw [hpar]; exact (hinit s hs.1 hs.2).2,
        ?_, ?_, ?_⟩
      · intro i
        obtain ⟨j, hj⟩ := hkeys i
        rw [hj]
        rcases hkeys1 j with h3 | h3
        · exact Or.inl h3
        · rw [h3]; exact Or.inr ⟨hs.1, hs.2, Or.inl (by rw [hvis, if_pos rfl])⟩
      · intro x hx1 hx2 hxp
        rw [hpar] at hxp
        exact absurd (hinit x hx1 hx2).2 hxp
      · intro x hx1 hx2 hxv
        rw [hvis] at hxv
        by_cases hx : x = s
        · subst hx
          refine ⟨[x], ParChain.base (by rw [hpar]; exact (hinit x hx1 hx2).2), ?_⟩
          intro y hy
          simp only [List.mem_singleton] at hy
          subst hy
          exact ⟨by rw [hvis, if_pos rfl], hx1, hx2⟩
        · rw [if_neg hx, (hinit x hx1 hx2).1] at hxv; cases hxv
    have hL0 : LabInv d g0 s g2 :=
      ⟨hcap, hdist, fun _ x hx1 hx2 hxp => absurd (hinit x hx1 hx2).2 hxp⟩
    have hL : LabInv d g0 s (g2.setNode s { g2.nodes s with visited := true }) :=
      lab_extract_inv hL0 s
    have hout : ((g2.setNode s { g2.nodes s with visited := true }).nodes s).outgoing
        = (g0.nodes s).outgoing := by rw [hsame1.out_eq]
    rw [hout] at hrun
    have h2 := lab_scan_fold w hr s (g2.setNode s { g2.nodes s with visited := true },
        (h1.remove_max lt).2) ⟨⟨hJ, by rw [setNode_nodes_same]⟩, hL⟩
    exact lab_loop_inv w hr fuel _ _ g' h2.1 h2.2 hrun

theorem max_capacity_init_capacity (g : Graph) (s : Nat) :
    ((max_capacity_init g s).nodes s).capacity = INF := by
  unfold max_capacity_init
  simp only [setNode_nodes_same]

theorem pareto_init_capacity (g : Graph) (s : Nat) :
    ((pareto_init g s).nodes s).capacity = INF := by
  unfold pareto_init
  simp only [setNode_nodes_same]

theorem pareto_init_distance (g : Graph) (s : Nat) :
    ((pareto_init g s).nodes s).distance = 0 := by
  unfold pareto_init
  simp only [setNode_nodes_same]

/-- `max_capacity_dijkstra` returns within `n + 2` iterations and leaves a
state satisfying `PathInv` and `LabInv`. -/
theorem max_capacity_dijkstra_lab {g : Graph} (w : g.WF) {s : Nat} (hs : 1 ≤ s ∧ s ≤ g.n)
    {fuel : Nat} (hf : g.n + 2 ≤ fuel) :
    ∃ (g1 : Graph) (h' : MaxHeap Nat Nat),
      g.max_capacity_dijkstra fuel s = some g1 ∧ PathInv g s g1 h' ∧ LabInv false g s g1 := by
  obtain ⟨g1, _, hrun, _⟩ := max_capacity_dijkstra_path w hs hf
  have hrun' := hrun
  unfold max_capacity_dijkstra at hrun'
  simp only at hrun'
  rw [max_capacity_loop_eq] at hrun'
  obtain ⟨⟨h', hinv⟩, hlab⟩ := lab_search_spec w hs (max_capacity_relax_lab g)
    (max_capacity_init g s) (max_capacity_init_sameNet g s)
    (fun x h1 hn => ⟨max_capacity_init_visited g s x h1 hn, max_capacity_init_parent g s x h1 hn⟩)
    (max_capacity_init_capacity g s) (fun h => by cases h) 0 _ fuel g1 hrun'
  exact ⟨g1, h', hrun, hinv, hlab⟩

/-- `pareto_optimal_dijkstra` returns within `n + 2` iterations and leaves a
state satisfying `PathInv` and `LabInv`. -/
theorem pareto_optimal_dijkstra_lab {g : Graph} (w : g.WF) {s : Nat} (hs : 1 ≤ s ∧ s ≤ g.n)
    (b : Bool) {fuel : Nat} (hf : g.n + 2 ≤ fuel) :
    ∃ (g1 : Graph) (h' : MaxHeap Nat (Int × Int)),
      g.pareto_optimal_dijkstra fuel s b = some g1 ∧ PathInv g s g1 h' ∧ LabInv true g s g1 := by
  obtain ⟨g1, _, hrun, _⟩ := pareto_optimal_dijkstra_path w hs b hf
  have hrun' := hrun
  unfold pareto_optimal_dijkstra at hrun'
  simp only at hrun'
  rw [pareto_loop_eq] at hrun'
  obtain ⟨⟨h', hinv⟩, hlab⟩ := lab_search_spec w hs (pareto_relax_lab g b)
    (pareto_init g s) (pareto_init_sameNet g s)
    (fun x h1 hn => ⟨pareto_init_visited g s x h1 hn, pareto_init_parent g s x h1 hn⟩)
    (pareto_init_capacity g s) (fun _ => pareto_init_distance g s) (0, 0) _ fuel g1 hrun'
  exact ⟨g1, h', hrun, hinv, hlab⟩

/-- Along a parent chain the capacities do not exceed the capacity of the
start. -/
theorem chain_capacity_le {V : Type} {g0 g : Graph} {s : Nat} {h : MaxHeap Nat V}
    (hinv : PathInv g0 s g h) : ∀ {x : Nat} {p : List Nat}, ParChain g s x p →
    (∀ y ∈ p, 1 ≤ y ∧ y ≤ g0.n) → (g.nodes x).capacity ≤ (g.nodes s).capacity := by
  intro x p hc
  induction hc with
  | base _ => intro _; exact le_refl _
  | @step x p hx hnot _ ih =>
    intro hall
    have hxr := hall x (List.mem_cons_self _ _)
    have hp := hinv.par x hxr.1 hxr.2 hx
    exact le_trans hp.2.2.2.1 (ih (fun y hy => hall y (List.mem_cons_of_mem _ hy)))

/-- Along a parent chain the distance counts the edges. -/
theorem chain_distance {g0 g : Graph} {s : Nat} (hlab : LabInv true g0 s g) (hn : g0.n < U64) :
    ∀ {x : Nat} {p : List Nat}, ParChain g s x p →
    (∀ y ∈ p, 1 ≤ y ∧ y ≤ g0.n) → (g.nodes x).distance + 1 = p.length := by
  intro x p hc
  induction hc with
  | base _ => intro _; rw [hlab.s_dist rfl]; rfl
  | @step x p hx hnot hc ih =>
    intro hall
    have hxr := hall x (List.mem_cons_self _ _)
    have hd := hlab.dist rfl x hxr.1 hxr.2 hx
    have ih' := ih (fun y hy => hall y (List.mem_cons_of_mem _ hy))
    have hlen : (x :: p).length ≤ g0.n :=
      length_le_of_range (List.nodup_cons.mpr ⟨hnot, hc.nodup⟩) hall
    simp only [List.length_cons] at hlen ⊢
    rw [hd]
    unfold uadd
    rw [Nat.mod_eq_of_lt (by omega)]
    omega

/-! ## The tuple returned after a search -/

theorem parChain_start {g : Graph} {s : Nat} {p : List Nat} (hc : ParChain g s s p)
    (h0 : (g.nodes s).parent = 0) : p = [s] := by
  cases hc with
  | base _ => rfl
  | step hx _ _ => exact absurd h0 hx

theorem parChain_length_pos {g : Graph} {s x : Nat} {p : List Nat} (hc : ParChain g s x p) :
    1 ≤ p.length := by
  cases hc with
  | base _ => simp
  | step _ _ _ => simp

theorem parChain_single {g : Graph} {s x : Nat} {p : List Nat} (hc : ParChain g s x p)
    (hl : p.length = 1) : x = s := by
  cases hc with
  | base _ => rfl
  | step _ _ hc' =>
    have := parChain_length_pos hc'
    simp only [List.length_cons] at hl
    omega

/-- After a search `get_path` returns, within `n` iterations of its loop, the
sentinel for an unvisited `end` and otherwise the reversed parent chain of
`end` with its `capacity` and `distance`. -/
theorem get_path_chain {V : Type} {g0 g1 : Graph} {s : Nat} {h : MaxHeap Nat V}
    (hinv : PathInv g0 s g1 h) {t : Nat} (ht : 1 ≤ t ∧ t ≤ g0.n) {fuel : Nat}
    (hf : g0.n ≤ fuel + 1) (s' : Nat) :
    ((g1.nodes t).visited = false ∧ get_path fuel g1 s' t = some ([], 0, 0)) ∨
    ((g1.nodes t).visited = true ∧ ∃ p, ParChain g1 s t p ∧ (∀ y ∈ p, 1 ≤ y ∧ y ≤ g0.n) ∧
      get_path fuel g1 s' t = some (p.reverse, (g1.nodes t).capacity, (g1.nodes t).distance)) := by
  unfold get_path
  cases hv : (g1.nodes t).visited with
  | false => exact Or.inl ⟨rfl, by simp⟩
  | true =>
    obtain ⟨p, hp, hall⟩ := hinv.chain t ht.1 ht.2 hv
    have hlen : p.length ≤ fuel + 1 :=
      le_trans (length_le_of_range hp.nodup (fun y hy => (hall y hy).2)) hf
    have hrun := get_path_loop_chain hp fuel [] hlen
    rw [List.append_nil] at hrun
    exact Or.inr ⟨rfl, p, hp, fun y hy => (hall y hy).2, by simp [hrun]⟩

/-- The capacity reported after a search is at most the sentinel, and for
`end = start` the report is the path `[start]` with the sentinel. -/
theorem report_capacity {V : Type} {d : Bool} {g0 g1 : Graph} {s : Nat} {h : MaxHeap Nat V}
    (hinv : PathInv g0 s g1 h) (hlab : LabInv d g0 s g1) {t : Nat} (ht : 1 ≤ t ∧ t ≤ g0.n)
    {fuel : Nat} (hf : g0.n ≤ fuel + 1) (s' : Nat) :
    ∃ path c D, get_path fuel g1 s' t = some (path, c, D) ∧ c ≤ INF ∧
      (t = s → path = [s] ∧ c = INF) := by
  rcases get_path_chain hinv ht hf s' with ⟨hv, hrun⟩ | ⟨_, p, hp, hall, hrun⟩
  · refine ⟨[], 0, 0, hrun, Nat.zero_le _, ?_⟩
    intro hts
    rw [hts, hinv.s_vis] at hv
    cases hv
  · refine ⟨p.reverse, _, _, hrun, ?_, ?_⟩
    · exact hlab.s_cap ▸ chain_capacity_le hinv hp hall
    · intro hts
      subst hts
      rw [parChain_start hp hinv.s_par]
      exact ⟨rfl, hlab.s_cap⟩

/-! ## C33 -/

/-- C33: on a well-formed graph, for `start` and `end` in `[1, n]` and every
fuel of at least `n + 2`, the capacity returned by `get_max_capacity_path` and
by `get_pareto_optimal_path` (either flag) is at most 999999, whatever the
capacities of the edges, and for `end = start` the path returned is `[start]`
and the capacity is exactly 999999. -/
theorem C33_sentinel_bounds_capacity (g : Graph) (start end_ : Nat) (w : g.WF)
    (hs : 1 ≤ start ∧ start ≤ g.n) (ht : 1 ≤ end_ ∧ end_ ≤ g.n) :
    ∀ fuel, g.n + 2 ≤ fuel →
      (∃ g1 path c D, g.get_max_capacity_path fuel start end_ = some (g1, (path, c, D)) ∧
        c ≤ 999999 ∧ (end_ = start → path = [start] ∧ c = 999999)) ∧
      ∀ b, ∃ g1 path c D, g.get_pareto_optimal_path fuel start end_ b = some (g1, (path, c, D)) ∧
        c ≤ 999999 ∧ (end_ = start → path = [start] ∧ c = 999999) := by
  intro fuel hf
  constructor
  · obtain ⟨g1, h', hrun, hinv, hlab⟩ := max_capacity_dijkstra_lab w hs hf
    obtain ⟨path, c, D, hp, hc, hst⟩ :=
      report_capacity hinv hlab ht (by omega : g.n ≤ fuel + 1) start
    refine ⟨g1, path, c, D, ?_, hc, hst⟩
    unfold get_max_capacity_path
    rw [hrun]
    simp only [hp]
  · intro b
    obtain ⟨g1, h', hrun, hinv, hlab⟩ := pareto_optimal_dijkstra_lab w hs b hf
    obtain ⟨path, c, D, hp, hc, hst⟩ :=
      report_capacity hinv hlab ht (by omega : g.n ≤ fuel + 1) start
    refine ⟨g1, path, c, D, ?_, hc, hst⟩
    unfold get_pareto_optimal_path
    rw [hrun]
    simp only [hp]

/-- C33 (witness): two parallel edges `1→2` of capacity `2^64 - 1`, with
`start = 1` and `end = 2`. -/
theorem C33_sentinel_bounds_capacity_witness :
    twoBigEdges.WF ∧ (1 ≤ 1 ∧ 1 ≤ twoBigEdges.n) ∧ (1 ≤ 2 ∧ 2 ≤ twoBigEdges.n) ∧
    ∀ fuel, twoBigEdges.n + 2 ≤ fuel →
      (∃ g1 path c D, twoBigEdges.get_max_capacity_path fuel 1 2 = some (g1, (path, c, D)) ∧
        c ≤ 999999 ∧ (2 = 1 → path = [1] ∧ c = 999999)) ∧
      ∀ b, ∃ g1 path c D, twoBigEdges.get_pareto_optimal_path fuel 1 2 b
          = some (g1, (path, c, D)) ∧
        c ≤ 999999 ∧ (2 = 1 → path = [1] ∧ c = 999999) :=
  ⟨twoBigEdges_wf, by decide, by decide,
    C33_sentinel_bounds_capacity twoBigEdges 1 2 twoBigEdges_wf (by decide) (by decide)⟩

/-! ## C32 -/

/-- C32: on a well-formed graph with fewer than `2^64` nodes, for `start` and
`end` in `[1, n]`, either flag and every fuel of at least `n + 2`,
`get_pareto_optimal_path` returns, and when the path returned is not empty the
distance returned is the number of its edges (its length minus 1) and is 0
exactly when `end = start`. -/
theorem C32_distance_is_hop_count (g : Graph) (start end_ : Nat) (b : Bool) (w : g.WF)
    (hn : g.n < U64) (hs : 1 ≤ start ∧ start ≤ g.n) (ht : 1 ≤ end_ ∧ end_ ≤ g.n) :
    ∀ fuel, g.n + 2 ≤ fuel →
      ∃ g1 path c D, g.get_pareto_optimal_path fuel start end_ b = some (g1, (path, c, D)) ∧
        (path ≠ [] → D = path.length - 1 ∧ D + 1 = path.length ∧ (D = 0 ↔ end_ = start)) := by
  intro fuel hf
  obtain ⟨g1, h', hrun, hinv, hlab⟩ := pareto_optimal_dijkstra_lab w hs b hf
  have hget : ∀ path c D, get_path fuel g1 start end_ = some (path, c, D) →
      g.get_pareto_optimal_path fuel start end_ b = some (g1, (path, c, D)) := by
    intro path c D hp
    unfold get_pareto_optimal_path
    rw [hrun]
    simp only [hp]
  rcases get_path_chain hinv ht (by omega : g.n ≤ fuel + 1) start with
    ⟨_, hp⟩ | ⟨_, p, hc, hall, hp⟩
  · exact ⟨g1, [], 0, 0, hget _ _ _ hp, fun h => absurd rfl h⟩
  · refine ⟨g1, p.reverse, _, _, hget _ _ _ hp, fun _ => ?_⟩
    have hd := chain_distance hlab hn hc hall
    rw [List.length_reverse]
    refine ⟨by omega, hd, ?_, ?_⟩
    · intro h0
      exact parChain_single hc (by omega)
    · intro hts
      subst hts
      rw [parChain_start hc hinv.s_par] at hd
      simp only [List.length_singleton] at hd
      omega

/-- C32 (witness): `detourGraph` with `start = 1`, `end = 4` and the flag
set. -/
theorem C32_distance_is_hop_count_witness :
    detourGraph.WF ∧ detourGraph.n < U64 ∧ (1 ≤ 1 ∧ 1 ≤ detourGraph.n) ∧
    (1 ≤ 4 ∧ 4 ≤ detourGraph.n) ∧
    ∀ fuel, detourGraph.n + 2 ≤ fuel →
      ∃ g1 path c D, detourGraph.get_pareto_optimal_path fuel 1 4 true
          = some (g1, (path, c, D)) ∧
        (path ≠ [] → D = path.length - 1 ∧ D + 1 = path.length ∧ (D = 0 ↔ 4 = 1)) :=
  ⟨detourGraph_wf, by decide, by decide, by decide,
    C32_distance_is_hop_count detourGraph 1 4 true detourGraph_wf (by decide) (by decide)
      (by decide)⟩

/-! ## Termination of `edmonds_karp` -/

/-- One iteration of the loop of `edmonds_karp`: the search returns; when it
has visited `t`, the bottleneck recorded at `t` is at least 1, the walk along
the parents from `t` returns, and it leaves a well-formed graph with a valid
flow whose net flow out of `s` has grown by the bottleneck when `s ≠ t`. -/
theorem edmonds_karp_iteration {g : Graph} (w : g.WF) (vf : g.ValidFlow) {s t : Nat}
    (hs : 1 ≤ s ∧ s ≤ g.n) (ht : 1 ≤ t ∧ t ≤ g.n) :
    ∃ fb g1, (∀ fuel, fb ≤ fuel → max_flow_increase_bfs fuel g s = some g1) ∧
      g1.WF ∧ g1.ValidFlow ∧ g1.n = g.n ∧ (g1.nodes s).visited = true ∧
      (g1.nodes s).flow_increase = INF ∧
      ((g1.nodes t).visited = true →
        1 ≤ (g1.nodes t).flow_increase ∧
        ∃ fa g2, (∀ fuel, fa ≤ fuel →
            augment_loop fuel g1 s t (g1.nodes t).flow_increase = some g2) ∧
          g2.WF ∧ g2.ValidFlow ∧ g2.n = g.n ∧
          (s ≠ t → g2.flowValue s = g.flowValue s + ((g1.nodes t).flow_increase : Int))) := by
  obtain ⟨fb, g1, hbfs⟩ := max_flow_increase_bfs_terminates w vf hs
  obtain ⟨hinv, -⟩ := max_flow_increase_bfs_inv w vf hs (hbfs fb (le_refl _))
  have hsame := hinv.same
  have w1 : g1.WF := hsame.net_wf w
  have vf1 : g1.ValidFlow := hsame.net_validFlow vf
  refine ⟨fb, g1, hbfs, w1, vf1, hsame.n_eq, hinv.s_vis, hinv.s_fi, ?_⟩
  intro htv
  obtain ⟨p, hp, -⟩ := hinv.chain t ht.1 ht.2 htv
  have hipos := hinv.bfs_fi_pos ht.1 ht.2 htv
  obtain ⟨g2, haug, -, hsh2, vf2, hnet2, -⟩ :=
    augment_chain w1 hp g1 (g1.nodes t).flow_increase rfl (SameShape.shape_refl g1)
      (fun _ _ _ => rfl) vf1 (le_refl _) p.length (le_refl _)
  refine ⟨hipos, p.length, g2, ?_, hsh2.shape_wf w1, vf2, hsh2.n_eq.trans hsame.n_eq, ?_⟩
  · intro fuel hf
    obtain ⟨j, rfl⟩ := Nat.exists_eq_add_of_le hf
    exact augment_loop_mono _ _ _ _ _ _ haug j
  · intro hst
    have h2 : g2.netIn s = g.netIn s - ((g1.nodes t).flow_increase : Int) := by
      rw [hnet2 s, hsame.netIn_eq]
      unfold ind
      simp [hst]
      ring
    have e1 : g2.flowValue s = - g2.netIn s := by unfold flowValue netIn; omega
    have e2 : g.flowValue s = - g.netIn s := by unfold flowValue netIn; omega
    rw [e1, e2, h2]
    ring

/-- `edmonds_karp(s, t, k)` returns for every request, also when `s = t`. -/
theorem edmonds_karp_terminates {s t : Nat} :
    ∀ (k : Nat) (g : Graph), g.WF → g.ValidFlow → 1 ≤ s ∧ s ≤ g.n → 1 ≤ t ∧ t ≤ g.n →
      ∃ fuel0 g', ∀ fuel, fuel0 ≤ fuel → edmonds_karp fuel g s t k = some g' := by
  intro k
  induction k using Nat.strong_induction_on with
  | _ k ih =>
    intro g w vf hs ht
    by_cases hk : k = 0
    · subst hk
      exact ⟨0, g, fun fuel _ => by cases fuel <;> simp [edmonds_karp]⟩
    · have hkpos : 0 < k := Nat.pos_of_ne_zero hk
      obtain ⟨fb, g1, hbfs, w1, vf1, hn1, -, -, hstep⟩ := edmonds_karp_iteration w vf hs ht
      by_cases htv : (g1.nodes t).visited = true
      · obtain ⟨hipos, fa, g2, haug, w2, vf2, hn2, -⟩ := hstep htv
        obtain ⟨fr, g3, hrec⟩ := ih (k - min k (g1.nodes t).flow_increase)
          (by have := Nat.min_le_left k (g1.nodes t).flow_increase
              have : 0 < min k (g1.nodes t).flow_increase := lt_min hkpos hipos
              omega) g2 w2 vf2 (hn2 ▸ hs) (hn2 ▸ ht)
        refine ⟨max (max fb fa) fr + 1, g3, ?_⟩
        intro fuel hf
        obtain ⟨fuel, rfl⟩ : ∃ f, fuel = f + 1 := ⟨fuel - 1, by omega⟩
        simp only [edmonds_karp, if_pos hkpos]
        rw [hbfs fuel (by omega)]
        simp only [htv, Bool.not_true, Bool.false_eq_true, if_false]
        rw [haug fuel (by omega)]
        exact hrec fuel (by omega)
      · have htv' : (g1.nodes t).visited = false := by simpa using htv
        refine ⟨fb + 1, g1, ?_⟩
        intro fuel hf
        obtain ⟨fuel, rfl⟩ : ∃ f, fuel = f + 1 := ⟨fuel - 1, by omega⟩
        simp only [edmonds_karp, if_pos hkpos]
        rw [hbfs fuel (by omega)]
        simp [htv']

/-! ## C31 -/

/-- C31: on a well-formed graph with `0 ≤ flow ≤ capacity`, for `start` and
`end` in `[1, n]` (equal or not) and every request `k`, `edmonds_karp(start,
end, k)` returns.  In an iteration of its loop the residual search returns;
when the search has visited `end`, the bottleneck it recorded is at least 1,
the walk along the parents from `end` reaches `start`, and the graph it leaves
is again well-formed with `0 ≤ flow ≤ capacity`, so that the same holds of the
next iteration, and for `start ≠ end` its net flow out of `start` is larger by
the bottleneck; when the search has not visited `end` the loop is left. -/
theorem C31_edmonds_karp_terminates (g : Graph) (start end_ k : Nat) (w : g.WF)
    (vf : g.ValidFlow) (hs : 1 ≤ start ∧ start ≤ g.n) (ht : 1 ≤ end_ ∧ end_ ≤ g.n) :
    (∃ fuel0 g', ∀ fuel, fuel0 ≤ fuel → g.edmonds_karp fuel start end_ k = some g') ∧
    ∃ fb g1, (∀ fuel, fb ≤ fuel → g.max_flow_increase_bfs fuel start = some g1) ∧
      ((g1.nodes end_).visited = true →
        1 ≤ (g1.nodes end_).flow_increase ∧
        ∃ fa g2, (∀ fuel, fa ≤ fuel →
            augment_loop fuel g1 start end_ (g1.nodes end_).flow_increase = some g2) ∧
          g2.WF ∧ g2.ValidFlow ∧ g2.n = g.n ∧
          (start ≠ end_ →
            g2.flowValue start = g.flowValue start + ((g1.nodes end_).flow_increase : Int) ∧
            g.flowValue start + 1 ≤ g2.flowValue start)) := by
  refine ⟨edmonds_karp_terminates k g w vf hs ht, ?_⟩
  obtain ⟨fb, g1, hbfs, -, -, -, -, -, hstep⟩ := edmonds_karp_iteration w vf hs ht
  refine ⟨fb, g1, hbfs, fun htv => ?_⟩
  obtain ⟨hipos, fa, g2, haug, w2, vf2, hn2, hflow⟩ := hstep htv
  refine ⟨hipos, fa, g2, haug, w2, vf2, hn2, fun hst => ⟨hflow hst, ?_⟩⟩
  rw [hflow hst]
  have : (1 : Int) ≤ ((g1.nodes end_).flow_increase : Int) := by exact_mod_cast hipos
  omega

/-- C31 (witness): the all-zero flow on the single edge `1→2` of capacity 10,
with the request `2^64 - 1`. -/
theorem C31_edmonds_karp_terminates_witness :
    oneEdgeGraph.WF ∧ oneEdgeGraph.ValidFlow ∧ (1 ≤ 1 ∧ 1 ≤ oneEdgeGraph.n) ∧
    (1 ≤ 2 ∧ 2 ≤ oneEdgeGraph.n) ∧
    ∃ fuel0 g', ∀ fuel, fuel0 ≤ fuel → oneEdgeGraph.edmonds_karp fuel 1 2 (U64 - 1) = some g' :=
  have hz : oneEdgeGraph.ZeroFlow :=
    (@build_wf 2 [(1, 2, 10, 1)] _ ⟨by decide, by decide⟩ oneEdgeGraph_built).2.1
  ⟨oneEdgeGraph_wf, hz.zero_validFlow, by decide, by decide,
    (C31_edmonds_karp_terminates oneEdgeGraph 1 2 (U64 - 1) oneEdgeGraph_wf hz.zero_validFlow
      (by decide) (by decide)).1⟩

end TravelAgency
